import Mathlib

/-!
# DocsPlusPlus: the storage-server write pipeline

A shallow embedding of the text model (`src/file_ops.c`) and of the
storage server's lock table, write sessions and commit queue (`src/ss.c`),
followed by the properties established about them.

Conventions of the embedding:

* a C string is a `List Char` without the terminating NUL; a file on disk is
  the `List Char` of its bytes (a byte read by `fgetc` may be NUL);
* the growable arrays (`words`, `sentences`) are lists, their capacities and
  the calls to `malloc`/`realloc`/`free` are not represented, except where the
  behaviour depends on them: the byte that the allocator leaves at
  `locked_by[MAX_USERNAME - 1]` of a lock slot (`lock_junk`) and the size of
  the array that the merge allocates (`merge_in_bounds`);
* `FileContent.sentences` lists the initialised slots of the `sentences`
  array, `sentence_count` is the separate counter of the C struct, so a slot
  may exist beyond the count exactly as it does in memory;
* C `int` values that can be negative are `Int`, array positions are `Nat`.
-/

namespace DocsPP

/-! ## Constants (`src/common.h`) -/

def MAX_WORD : Nat := 128
def MAX_USERNAME : Nat := 64
def MAX_CLIENTS : Nat := 100
def MAX_FILE_QUEUES : Nat := 100

def SUCCESS : Int := 200
def ERR_INVALID_INDEX : Int := 400
def ERR_ACCESS_DENIED : Int := 403
def ERR_INVALID_OPERATION : Int := 405
def ERR_SENTENCE_LOCKED : Int := 423
def ERR_SERVER_ERROR : Int := 500

/-! ## Text model (`src/file_ops.h`, `src/file_ops.c`) -/

/-- One entry of `Sentence.words`: a C string. -/
abbrev Token := List Char

/-- The words of one `Sentence` (`words[0 .. word_count)`). -/
abbrev Sentence := List Token

/-- The struct `FileContent`: the initialised slots of `sentences` and the
counter `sentence_count`. -/
structure FileContent where
  sentences : List Sentence
  sentence_count : Nat
deriving DecidableEq, Repr

/-- The NUL byte that ends a C string. -/
def NUL : Char := Char.ofNat 0

/-- The blanks test written inline all over `file_ops.c`:
`c == ' ' || c == '\t' || c == '\r'`. -/
def is_blank (c : Char) : Bool := c == ' ' || c == '\t' || c == '\r'

/-- The function `is_space_token`: a non-empty string of blanks. -/
def is_space_token (token : Token) : Bool :=
  match token with
  | [] => false
  | _ :: _ => token.all is_blank

/-- The function `is_newline_token`: the string is exactly one newline. -/
def is_newline_token (token : Token) : Bool := token == ['\n']

/-- The function `should_skip_for_indexing`. -/
def should_skip_for_indexing (token : Token) : Bool :=
  is_space_token token || is_newline_token token

/-- The function `is_delimiter`. -/
def is_delimiter (c : Char) : Bool := c == '.' || c == '!' || c == '?'

/-- The expression `is_delimiter(tok[0])`; `tok[0]` of the empty string is
NUL, which is no delimiter. -/
def first_is_delimiter (tok : Token) : Bool :=
  match tok with
  | [] => false
  | c :: _ => is_delimiter c

/-- The library call `strdup` applied to a buffer that was filled byte by byte
and then NUL-terminated: the copy stops at the first NUL inside. -/
def strdup (buf : List Char) : Token := buf.takeWhile (fun c => c != NUL)

/-- Appends one whitespace byte to `space_buf` while
`space_idx < MAX_WORD - 1`, and drops it otherwise. -/
def space_push (sb : List Char) (c : Char) : List Char :=
  if sb.length < MAX_WORD - 1 then sb ++ [c] else sb

/-! ### `split_by_delimiters` -/

/-- Loop state of `split_by_delimiters`: the parts emitted so far, the bytes of
`buffer[0 .. buf_idx)`, and `space_buf` while the inner look-ahead loop is
collecting a run of blanks. -/
structure SplitState where
  parts : List Token
  buffer : List Char
  space_buf : Option (List Char)
deriving DecidableEq, Repr

/-- The step `if (buf_idx > 0) (save buffer as a part)`. -/
def split_flush (parts : List Token) (buffer : List Char) : List Token :=
  if buffer.length > 0 then parts ++ [buffer] else parts

/-- One byte of the main loop of `split_by_delimiters`, outside a run of
blanks. -/
def split_char (st : SplitState) (c : Char) : SplitState :=
  if is_blank c then
    { parts := split_flush st.parts st.buffer, buffer := [], space_buf := some [c] }
  else if c == '\n' then
    { parts := split_flush st.parts st.buffer ++ [['\n']], buffer := [], space_buf := none }
  else if is_delimiter c then
    { parts := split_flush st.parts st.buffer ++ [[c]], buffer := [], space_buf := none }
  else
    { st with buffer := st.buffer ++ [c] }

/-- One byte of the loop of `split_by_delimiters`. The inner `while` that looks
ahead for more blanks is the state `space_buf = some _`: a blank extends the
run, any other byte first saves the run as a part. -/
def split_step (st : SplitState) (c : Char) : SplitState :=
  match st.space_buf with
  | some sb =>
    if is_blank c then { st with space_buf := some (space_push sb c) }
    else split_char { st with parts := st.parts ++ [sb], space_buf := none } c
  | none => split_char st c

/-- The loop `for (i = 0; word[i] != NUL; i++)` of `split_by_delimiters`. -/
def split_loop : List Char → SplitState → SplitState
  | [], st => st
  | c :: rest, st => if c == NUL then st else split_loop rest (split_step st c)

/-- The function `split_by_delimiters`. `buffer` is a C array of `MAX_WORD`
bytes that the source fills without a bound check; the embedding is the
function the source computes when every run of word characters of `word` has at
most `MAX_WORD - 1` bytes (see `fits_buffer`). -/
def split_by_delimiters (word : List Char) : List Token :=
  let st := split_loop word { parts := [], buffer := [], space_buf := none }
  let parts := match st.space_buf with
    | some sb => st.parts ++ [sb]
    | none => st.parts
  split_flush parts st.buffer

/-- Longest-run check: no run of consecutive bytes satisfying `p` reaches
`bound` bytes; `k` is the length of the run that ends just before the list. -/
def runs_below (p : Char → Bool) (bound : Nat) : Nat → List Char → Bool
  | _, [] => true
  | k, c :: cs =>
    if p c then decide (k + 1 < bound) && runs_below p bound (k + 1) cs
    else runs_below p bound 0 cs

/-- A byte that `parse_file` and `split_by_delimiters` collect into a regular
word. -/
def is_word_char (c : Char) : Bool := !is_blank c && !(c == '\n') && !is_delimiter c

/-- The domain of `split_by_delimiters`: every run of word characters fits
`buffer` together with its terminating NUL. -/
def fits_buffer (word : List Char) : Bool := runs_below is_word_char MAX_WORD 0 word

/-! ### `parse_file` -/

/-- Loop state of `parse_file`: the finished sentences
`sentences[0 .. current_sent)`, the words of `sentences[current_sent]`, the
bytes `word[0 .. word_idx)`, `space_buf` while the inner loop is reading a run
of blanks, and the field `fc->sentence_count`. -/
structure ParseState where
  done : List Sentence
  cur : Sentence
  word : List Char
  space_buf : Option (List Char)
  sentence_count : Nat
deriving DecidableEq, Repr

/-- The step `if (word_idx > 0) (add strdup(word) to the current sentence)`. -/
def parse_flush (cur : Sentence) (word : List Char) : Sentence :=
  if word.length > 0 then cur ++ [strdup word] else cur

/-- One byte of the main loop of `parse_file`, outside a run of blanks. -/
def parse_char (st : ParseState) (c : Char) : ParseState :=
  if is_blank c then
    { st with cur := parse_flush st.cur st.word, word := [], space_buf := some [c] }
  else if c == '\n' then
    { st with cur := parse_flush st.cur st.word ++ [['\n']], word := [] }
  else if is_delimiter c then
    { done := st.done ++ [parse_flush st.cur st.word ++ [[c]]],
      cur := [],
      word := [],
      space_buf := none,
      sentence_count := st.done.length + 1 + 1 }
  else
    let w := st.word ++ [c]
    if w.length ≥ MAX_WORD - 1 then { st with cur := st.cur ++ [strdup w], word := [] }
    else { st with word := w }

/-- One byte of the `while ((c = fgetc(file)) != EOF)` loop of `parse_file`.
The inner `while` that reads ahead over blanks (and pushes back the first other
byte) is the state `space_buf = some _`. A run of blanks holds no NUL, so its
`strdup` is the run itself. -/
def parse_step (st : ParseState) (c : Char) : ParseState :=
  match st.space_buf with
  | some sb =>
    if is_blank c then { st with space_buf := some (space_push sb c) }
    else parse_char { st with cur := st.cur ++ [sb], space_buf := none } c
  | none => parse_char st c

/-- The `while ((c = fgetc(file)) != EOF)` loop of `parse_file`. -/
def parse_loop : List Char → ParseState → ParseState
  | [], st => st
  | c :: rest, st => parse_loop rest (parse_step st c)

/-- The state of `parse_file` before the first byte: `sentence_count = 0`, an
empty `sentences[0]`. -/
def parse_init : ParseState :=
  { done := [], cur := [], word := [], space_buf := none, sentence_count := 0 }

/-- The end of `parse_file`, after EOF: the pending run of blanks and the
pending word are saved, an empty last counted sentence is removed from the
count, and a non-empty `sentences[current_sent]` is counted. -/
def parse_finish (st : ParseState) : FileContent :=
  let cur0 := match st.space_buf with
    | some sb => st.cur ++ [sb]
    | none => st.cur
  let cur1 := parse_flush cur0 st.word
  let slots := st.done ++ [cur1]
  let current_sent := st.done.length
  let count0 := st.sentence_count
  let count1 := if count0 > 0 && (slots.getD (count0 - 1) []).length == 0 then count0 - 1 else count0
  let count2 := if (slots.getD current_sent []).length > 0 then current_sent + 1 else count1
  { sentences := slots, sentence_count := count2 }

/-- The function `parse_file` on the bytes of a file that could be opened. -/
def parse_file (bytes : List Char) : FileContent :=
  parse_finish (parse_loop bytes parse_init)

/-! ### `write_file_content` -/

/-- What `write_file_content` prints between `words[j]` and `words[j + 1]` of
one sentence. -/
def word_separator (cur next : Token) : List Char :=
  if is_space_token cur || is_space_token next || is_newline_token cur || is_newline_token next then []
  else if first_is_delimiter cur || first_is_delimiter next then []
  else [' ']

/-- The inner loop of `write_file_content` over the words of one sentence. -/
def write_words : Sentence → List Char
  | [] => []
  | [w] => w
  | cur :: next :: rest => cur ++ word_separator cur next ++ write_words (next :: rest)

/-- What `write_file_content` prints between sentence `i` and sentence
`i + 1`. -/
def sentence_separator (s next : Sentence) : List Char :=
  match s.getLast? with
  | none => []
  | some last =>
    if !is_newline_token last && !is_space_token last then
      match next with
      | [] => [' ']
      | first_next :: _ =>
        if !is_space_token first_next && !is_newline_token first_next then [' '] else []
    else []

/-- The outer loop of `write_file_content`. -/
def write_sentences : List Sentence → List Char
  | [] => []
  | [s] => write_words s
  | s :: next :: rest => write_words s ++ sentence_separator s next ++ write_sentences (next :: rest)

/-- The function `write_file_content`: the bytes written to the file. -/
def write_file_content (fc : FileContent) : List Char :=
  write_sentences (fc.sentences.take fc.sentence_count)

/-! ### `insert_word_in_sentence` -/

/-- Reads `sentences[i]`; a slot that was never initialised reads as an empty
sentence. -/
def getSlot (ss : List Sentence) (i : Nat) : Sentence := ss.getD i []

/-- Writes `sentences[i]`, slots between the end of the list and `i` being
empty. -/
def setSlot (ss : List Sentence) (i : Nat) (s : Sentence) : List Sentence :=
  if i < ss.length then ss.set i s else ss ++ List.replicate (i - ss.length) [] ++ [s]

/-- The count `real_word_count` of `insert_word_in_sentence`. -/
def real_word_count (sent : Sentence) : Nat :=
  (sent.filter (fun t => !should_skip_for_indexing t)).length

/-- The loop "find position after (word_idx - 1) real words": returns
`actual_idx` (0 when the loop never breaks) and `real_words_seen`. -/
def find_position : List Token → Nat → Nat → Int → Nat × Nat
  | [], _, seen, _ => (0, seen)
  | t :: ts, i, seen, target =>
    if !should_skip_for_indexing t then
      if ((seen + 1 : Nat) : Int) == target then (i + 1, seen + 1)
      else find_position ts (i + 1) (seen + 1) target
    else find_position ts (i + 1) seen target

/-- The value of `actual_idx` after the position search of
`insert_word_in_sentence`. -/
def actual_index (sent : Sentence) (word_idx : Int) : Nat :=
  if word_idx == 1 then 0
  else
    let r := find_position sent 0 0 (word_idx - 1)
    if r.2 == real_word_count sent && word_idx == (real_word_count sent : Int) + 1 then sent.length
    else r.1

/-- The loop computing `last_delimiter_idx` (-1 when no part starts with a
delimiter). -/
def last_delimiter_idx (parts : List Token) : Int :=
  (List.range parts.length).foldl
    (fun acc i => if first_is_delimiter (parts.getD i []) then (i : Int) else acc) (-1)

/-- The value of `new_sentences`: one for a last delimiter that is not the last
part, plus one for every part that starts with a delimiter. -/
def count_new_sentences (parts : List Token) : Nat :=
  (if last_delimiter_idx parts ≥ 0 && last_delimiter_idx parts < (parts.length : Int) - 1 then 1 else 0)
    + (parts.filter first_is_delimiter).length

/-- The two loops "shift existing sentences down" and "initialize new sentence
slots". -/
def make_room (ss : List Sentence) (sentence_count sent_idx new_sentences : Nat) : List Sentence :=
  let shifted := (List.range sentence_count).reverse.foldl
    (fun acc i => if i > sent_idx then setSlot acc (i + new_sentences) (getSlot acc i) else acc) ss
  (List.range new_sentences).foldl (fun acc k => setSlot acc (sent_idx + (k + 1)) []) shifted

/-- Shifts `words[actual_idx ..]` one place up and stores the part at
`actual_idx`. -/
def insert_at (s : Sentence) (actual_idx : Nat) (part : Token) : Sentence :=
  s.take actual_idx ++ [part] ++ s.drop actual_idx

/-- The loop "insert parts" of `insert_word_in_sentence`; `i` is the index of
the first part of the list. -/
def insert_parts : List Token → Nat → Int → Nat → List Sentence → Nat → Nat → Bool → List Sentence
  | [], _, _, _, ss, _, _, _ => ss
  | p :: ps, i, last_delim, part_count, ss, cur_sent_idx, actual_idx, in_new_sentence =>
    let should_split := (i : Int) == last_delim && last_delim < (part_count : Int) - 1
    if !in_new_sentence then
      let cur1 := insert_at (getSlot ss cur_sent_idx) actual_idx p
      if should_split then
        let next_sent := getSlot ss (cur_sent_idx + 1)
        let ss1 := setSlot ss cur_sent_idx (cur1.take (actual_idx + 1))
        let ss2 := setSlot ss1 (cur_sent_idx + 1) (next_sent ++ cur1.drop (actual_idx + 1))
        insert_parts ps (i + 1) last_delim part_count ss2 (cur_sent_idx + 1) 0 true
      else
        insert_parts ps (i + 1) last_delim part_count (setSlot ss cur_sent_idx cur1)
          cur_sent_idx (actual_idx + 1) false
    else
      let cur1 := insert_at (getSlot ss cur_sent_idx) actual_idx p
      insert_parts ps (i + 1) last_delim part_count (setSlot ss cur_sent_idx cur1)
        cur_sent_idx (actual_idx + 1) true

/-- The first block of `insert_word_in_sentence`, run when
`sent_idx == fc->sentence_count`: the slot is initialised empty and counted,
unless the file is one empty sentence. -/
def append_slot (fc : FileContent) (sent_idx : Nat) : FileContent :=
  if sent_idx == fc.sentence_count then
    let ss := setSlot fc.sentences fc.sentence_count []
    if !(fc.sentence_count == 1 && (getSlot ss 0).length == 0) then
      { sentences := ss, sentence_count := fc.sentence_count + 1 }
    else { sentences := ss, sentence_count := fc.sentence_count }
  else fc

/-- The function `insert_word_in_sentence`: the returned `int` and the
`FileContent` it leaves behind. The out-of-memory returns are not
represented. -/
def insert_word_in_sentence (fc : FileContent) (sent_idx word_idx : Int) (word : List Char) :
    Int × FileContent :=
  if sent_idx < 0 || sent_idx > (fc.sentence_count : Int) then (-1, fc)
  else
    let s := sent_idx.toNat
    let fc1 := append_slot fc s
    let sent := getSlot fc1.sentences s
    if word_idx < 1 || word_idx > (real_word_count sent : Int) + 1 then (-1, fc1)
    else
      let actual_idx := actual_index sent word_idx
      let parts := split_by_delimiters word
      if parts.length == 0 then (0, fc1)
      else
        let new_sentences := count_new_sentences parts
        let ss1 := if new_sentences > 0 then make_room fc1.sentences fc1.sentence_count s new_sentences
          else fc1.sentences
        let ss2 := insert_parts parts 0 (last_delimiter_idx parts) parts.length ss1 s actual_idx false
        ((new_sentences : Int), { sentences := ss2, sentence_count := fc1.sentence_count + new_sentences })

/-! ## Storage server state (`src/ss.c`, `src/common.h`) -/

/-- The files of the storage directory: the bytes stored under each path. -/
abbrev Files := String → Option (List Char)

/-- A successful `fopen(path, "w")` followed by writing `bytes` and `fclose`. -/
def fs_write (files : Files) (path : String) (bytes : List Char) : Files :=
  fun q => if q = path then some bytes else files q

/-- The call `unlink(path)`. -/
def fs_unlink (files : Files) (path : String) : Files :=
  fun q => if q = path then none else files q

/-- The struct `SentenceLock` (without its mutex). -/
structure SentenceLock where
  locked : Bool
  locked_by : String
  lock_time : Int
deriving DecidableEq, Repr

/-- One entry of `ss.file_locks`: `lock_count` is the length of `locks`. -/
structure FileLocks where
  filename : String
  locks : List SentenceLock
deriving DecidableEq, Repr

/-- The struct `WriteSession`. -/
structure WriteSession where
  filename : String
  username : String
  sentence_idx : Int
  temp_filepath : String
  active : Bool
  original_sentence_count : Nat
  lock_time : Int
deriving DecidableEq, Repr

/-- The struct `CommitQueueEntry` (the `next` pointer is the list order). -/
structure CommitQueueEntry where
  filename : String
  username : String
  sentence_idx : Int
  original_sentence_count : Nat
  temp_filepath : String
  lock_time : Int
deriving DecidableEq, Repr

/-- The struct `FileCommitQueue`: the linked list from `head` to `tail`. -/
structure FileCommitQueue where
  filename : String
  entries : List CommitQueueEntry
deriving DecidableEq, Repr

/-- The state of one storage server: the global `ss` (storage path and lock
table), the arrays `write_sessions` and `commit_queues`, and the storage
directory. `writable path` tells whether `fopen(path, "w")` succeeds.
`lock_junk filename i` is the byte `locked_by[MAX_USERNAME - 1]` of the lock
slot `i` of `filename`: `init_file_locks` takes the slots from `malloc` and
`realloc` and sets only `locked_by[0]`, and no statement of the server writes
that byte, so it keeps the value the allocator left there. -/
structure StorageServer where
  storage_path : String
  files : Files
  writable : String → Bool
  file_locks : List FileLocks
  write_sessions : List WriteSession
  commit_queues : List FileCommitQueue
  lock_junk : String → Int → Char

/-- The path `"%s/%s"` of a file in the storage directory. -/
def file_path (storage_path filename : String) : String :=
  storage_path ++ "/" ++ filename

/-- The path `"%s/%s.temp_%s_%d"` of a session's staging file. -/
def temp_path (storage_path filename username : String) (sent_idx : Int) : String :=
  storage_path ++ "/" ++ filename ++ ".temp_" ++ username ++ "_" ++ toString sent_idx

/-- The path `"%s.undo"` of the undo backup. -/
def undo_path (filepath : String) : String := filepath ++ ".undo"

/-- The function `parse_file` on a path: `none` when `fopen` fails. -/
def parse_path (files : Files) (path : String) : Option FileContent :=
  (files path).map parse_file

/-! ### Sentence locks -/

/-- A lock slot as `init_file_locks` initialises it. -/
def fresh_lock : SentenceLock := { locked := false, locked_by := "", lock_time := 0 }

/-- The first statement of `init_file_locks`:
`if (sentence_count == 0) sentence_count = 1`. -/
def lock_vector_size (sentence_count : Nat) : Nat :=
  if sentence_count == 0 then 1 else sentence_count

/-- The function `init_file_locks`: grows the lock vector of a known file to
`sentence_count` slots, or appends an entry for an unknown file. The count is
`sent_idx + 1` of a validated index, so it is a natural number here. -/
def init_file_locks : List FileLocks → String → Nat → List FileLocks
  | [], filename, sentence_count =>
    [{ filename := filename, locks := List.replicate (lock_vector_size sentence_count) fresh_lock }]
  | fl :: rest, filename, sentence_count =>
    if fl.filename = filename then
      if fl.locks.length < lock_vector_size sentence_count then
        { fl with locks := fl.locks ++
            List.replicate (lock_vector_size sentence_count - fl.locks.length) fresh_lock } :: rest
      else fl :: rest
    else fl :: init_file_locks rest filename sentence_count

/-- The function `get_sentence_lock`: the slot of the first entry named
`filename`, when the index is inside its vector. -/
def get_sentence_lock : List FileLocks → String → Int → Option SentenceLock
  | [], _, _ => none
  | fl :: rest, filename, sentence_idx =>
    if fl.filename = filename then
      if sentence_idx ≥ 0 && sentence_idx < (fl.locks.length : Int) then fl.locks.get? sentence_idx.toNat
      else none
    else get_sentence_lock rest filename sentence_idx

/-- Stores a lock through the pointer `get_sentence_lock` returned. -/
def put_sentence_lock : List FileLocks → String → Nat → SentenceLock → List FileLocks
  | [], _, _, _ => []
  | fl :: rest, filename, i, l =>
    if fl.filename = filename then { fl with locks := fl.locks.set i l } :: rest
    else fl :: put_sentence_lock rest filename i l

/-- The bytes that `strncpy(lock->locked_by, username, MAX_USERNAME - 1)`
copies from `username`. -/
def copy_username (username : String) : String := ⟨username.data.take (MAX_USERNAME - 1)⟩

/-- The C string that `strcmp` reads from `lock->locked_by` after
`strncpy(lock->locked_by, username, MAX_USERNAME - 1)`. A name shorter than
`MAX_USERNAME - 1` bytes is padded with NUL bytes. For a longer name `strncpy`
writes no NUL, and the string ends at `locked_by[MAX_USERNAME - 1]` only if
that byte, `last_byte`, is NUL; otherwise the read runs on past the array, and
the string starts with the bytes copied and `last_byte` (a sender has at most
`MAX_USERNAME - 1` bytes, so it differs from every sender). -/
def stored_name (last_byte : Char) (username : String) : String :=
  if username.length < MAX_USERNAME - 1 || last_byte == NUL then copy_username username
  else ⟨(copy_username username).data ++ [last_byte]⟩

/-- The function `lock_sentence_ss`: the new lock table and the status.
`last_byte` is the byte `locked_by[MAX_USERNAME - 1]` of the slot. -/
def lock_sentence_ss (locks : List FileLocks) (filename : String) (sent_idx : Int)
    (username : String) (now : Int) (last_byte : Char) : List FileLocks × Int :=
  let locks1 := init_file_locks locks filename (sent_idx + 1).toNat
  match get_sentence_lock locks1 filename sent_idx with
  | none => (locks1, ERR_INVALID_INDEX)
  | some lock =>
    if lock.locked && lock.locked_by != username then (locks1, ERR_SENTENCE_LOCKED)
    else
      (put_sentence_lock locks1 filename sent_idx.toNat
        { locked := true, locked_by := stored_name last_byte username, lock_time := now }, SUCCESS)

/-- The function `unlock_sentence_ss`. -/
def unlock_sentence_ss (locks : List FileLocks) (filename : String) (sent_idx : Int)
    (username : String) : List FileLocks × Int :=
  match get_sentence_lock locks filename sent_idx with
  | none => (locks, ERR_INVALID_INDEX)
  | some lock =>
    if !lock.locked || lock.locked_by != username then (locks, ERR_ACCESS_DENIED)
    else (put_sentence_lock locks filename sent_idx.toNat { lock with locked := false, locked_by := "" }, SUCCESS)

/-- The user who holds sentence `idx` of `filename`, if any. -/
def holder (locks : List FileLocks) (filename : String) (idx : Int) : Option String :=
  match get_sentence_lock locks filename idx with
  | some lock => if lock.locked then some lock.locked_by else none
  | none => none

/-! ### Write sessions -/

/-- The test of the search loops over `write_sessions`. -/
def session_matches (s : WriteSession) (filename username : String) (sent_idx : Int) : Bool :=
  s.active && decide (s.filename = filename) && decide (s.username = username)
    && decide (s.sentence_idx = sent_idx)

/-- The search loop of `get_write_session`: the first matching session. -/
def find_session (sessions : List WriteSession) (filename username : String) (sent_idx : Int) :
    Option WriteSession :=
  sessions.find? (fun s => session_matches s filename username sent_idx)

/-- Removes the first matching session and compacts the array. -/
def drop_session : List WriteSession → String → String → Int → List WriteSession
  | [], _, _, _ => []
  | s :: rest, filename, username, sent_idx =>
    if session_matches s filename username sent_idx then rest
    else s :: drop_session rest filename username sent_idx

/-- The function `remove_write_session`: unlinks the staging file of the first
matching session and removes the session. -/
def remove_write_session (ss : StorageServer) (filename username : String) (sent_idx : Int) :
    StorageServer :=
  match find_session ss.write_sessions filename username sent_idx with
  | some s =>
    { ss with files := fs_unlink ss.files s.temp_filepath,
              write_sessions := drop_session ss.write_sessions filename username sent_idx }
  | none => ss

/-- Overwrites `original_sentence_count` and `lock_time` of the first matching
session (the stores through the pointer `get_write_session` returned). -/
def stamp_session : List WriteSession → String → String → Int → Nat → Int → List WriteSession
  | [], _, _, _, _, _ => []
  | s :: rest, filename, username, sent_idx, count, now =>
    if session_matches s filename username sent_idx then
      { s with original_sentence_count := count, lock_time := now } :: rest
    else s :: stamp_session rest filename username sent_idx count now

/-- The function `start_write_session_ss`. -/
def start_write_session_ss (ss : StorageServer) (filename username : String) (sent_idx : Int)
    (now : Int) : StorageServer × Int :=
  let filepath := file_path ss.storage_path filename
  let original_sentence_count : Nat := match parse_path ss.files filepath with
    | some fc => fc.sentence_count
    | none => 0
  -- get_write_session(filename, username, sent_idx, 1)
  let found := find_session ss.write_sessions filename username sent_idx
  if found.isNone && !(ss.write_sessions.length < MAX_CLIENTS * 10) then (ss, ERR_SERVER_ERROR)
  else
    let sessions1 := match found with
      | some _ => ss.write_sessions
      | none => ss.write_sessions ++
          [{ filename := filename, username := username, sentence_idx := sent_idx,
             temp_filepath := temp_path ss.storage_path filename username sent_idx,
             active := true, original_sentence_count := 0, lock_time := 0 }]
    let temp := match found with
      | some s => s.temp_filepath
      | none => temp_path ss.storage_path filename username sent_idx
    let sessions2 := stamp_session sessions1 filename username sent_idx original_sentence_count now
    let ss1 := { ss with write_sessions := sessions2 }
    if !ss1.writable temp then (remove_write_session ss1 filename username sent_idx, ERR_SERVER_ERROR)
    else
      match ss1.files filepath with
      | none => ({ ss1 with files := fs_write ss1.files temp [] }, SUCCESS)
      | some bytes => ({ ss1 with files := fs_write ss1.files temp bytes }, SUCCESS)

/-- The function `cancel_write_session_ss` (it always returns SUCCESS). -/
def cancel_write_session_ss (ss : StorageServer) (filename username : String) (sent_idx : Int) :
    StorageServer :=
  remove_write_session ss filename username sent_idx

/-- The start of `write_file_ss`: the parsed temp file, where a temp file that
cannot be parsed, or that parses into no sentence, is replaced by one empty
sentence. -/
def open_temp_file (files : Files) (temp_filepath : String) : FileContent :=
  let fc0 : FileContent := match parse_path files temp_filepath with
    | some fc => fc
    | none => { sentences := [[]], sentence_count := 1 }
  if fc0.sentence_count == 0 then
    { sentences := setSlot fc0.sentences 0 [], sentence_count := 1 }
  else fc0

/-- The function `write_file_ss`. -/
def write_file_ss (ss : StorageServer) (filename username : String) (sent_idx word_idx : Int)
    (content : List Char) : StorageServer × Int :=
  match find_session ss.write_sessions filename username sent_idx with
  | none => (ss, ERR_INVALID_OPERATION)
  | some session =>
    let fc := open_temp_file ss.files session.temp_filepath
    if sent_idx < 0 || sent_idx > (fc.sentence_count : Int) then (ss, ERR_INVALID_INDEX)
    else
      let r := insert_word_in_sentence fc sent_idx word_idx content
      if r.1 < 0 then (ss, ERR_INVALID_INDEX)
      else if !ss.writable session.temp_filepath then (ss, ERR_SERVER_ERROR)
      else ({ ss with files := fs_write ss.files session.temp_filepath (write_file_content r.2) }, SUCCESS)

/-! ### Commit queue -/

/-- The function `get_commit_queue`: the queue array after the call, or `none`
when the file has no queue and `MAX_FILE_QUEUES` queues exist. -/
def get_commit_queue (queues : List FileCommitQueue) (filename : String) :
    Option (List FileCommitQueue) :=
  if queues.any (fun q => decide (q.filename = filename)) then some queues
  else if queues.length ≥ MAX_FILE_QUEUES then none
  else some (queues ++ [{ filename := filename, entries := [] }])

/-- The linked list of the first queue named `filename`. -/
def queue_entries : List FileCommitQueue → String → List CommitQueueEntry
  | [], _ => []
  | q :: rest, filename => if q.filename = filename then q.entries else queue_entries rest filename

/-- Replaces the linked list of the first queue named `filename`. -/
def set_queue_entries : List FileCommitQueue → String → List CommitQueueEntry → List FileCommitQueue
  | [], _, _ => []
  | q :: rest, filename, es =>
    if q.filename = filename then { q with entries := es } :: rest
    else q :: set_queue_entries rest filename es

/-- The function `enqueue_commit`: the new entry is linked behind `tail`.
The result is `none` when the function returns -1. -/
def enqueue_commit (queues : List FileCommitQueue) (filename username : String) (sent_idx : Int)
    (original_count : Nat) (temp_path : String) (lock_time : Int) : Option (List FileCommitQueue) :=
  match get_commit_queue queues filename with
  | none => none
  | some queues1 =>
    some (set_queue_entries queues1 filename
      (queue_entries queues1 filename ++
        [{ filename := filename, username := username, sentence_idx := sent_idx,
           original_sentence_count := original_count, temp_filepath := temp_path,
           lock_time := lock_time }]))

/-- The function `create_undo_backup`. -/
def create_undo_backup (files : Files) (writable : String → Bool) (filepath : String) : Files :=
  match files filepath with
  | none => files
  | some bytes => if writable (undo_path filepath) then fs_write files (undo_path filepath) bytes else files

/-- The slots `ss[lo], ss[lo + 1], .., ss[hi - 1]`. -/
def slots_range (ss : List Sentence) (lo hi : Nat) : List Sentence :=
  (List.range' lo (hi - lo)).map (getSlot ss)

/-- The test "validate adjusted index" of `process_commit_queue`: true when
the entry is merged, false when it is skipped. -/
def adjusted_idx_ok (current_sentence_count original_sentence_count : Nat) (adjusted_idx : Int) : Bool :=
  if current_sentence_count == 0 && original_sentence_count == 0 && adjusted_idx == 0 then true
  else if adjusted_idx < 0 || adjusted_idx ≥ (current_sentence_count : Int) then false
  else true

/-- The body "build merged content" of `process_commit_queue` for an entry
whose adjusted index was accepted. The source stores the sentences into an
array of `new_total` sentences (at least one) taken from `malloc`, and reads
`temp_fc->sentences[sentence_idx + i]`; the embedding is the function the
source computes when every such read and store stays inside its array (see
`merge_in_bounds`), which is so whenever `sentence_idx >= 0` and the temp file
has at least `original_sentence_count - 1` sentences. -/
def build_merged (main_fc temp_fc : FileContent) (current_sentence_count : Nat)
    (sentence_idx : Int) (original_sentence_count : Nat) (adjusted_idx : Int) : FileContent :=
  let sentence_expansion : Int := (temp_fc.sentence_count : Int) - (original_sentence_count : Int)
  let modified_sentence_count : Int := 1 + sentence_expansion
  if current_sentence_count == 0 then
    { sentences := slots_range temp_fc.sentences 0 temp_fc.sentence_count,
      sentence_count := temp_fc.sentence_count }
  else
    let before := slots_range main_fc.sentences 0 (min adjusted_idx.toNat current_sentence_count)
    let modified := ((List.range modified_sentence_count.toNat).takeWhile
        (fun i => decide (sentence_idx + (i : Int) < (temp_fc.sentence_count : Int)))).map
        (fun i => getSlot temp_fc.sentences (sentence_idx + (i : Int)).toNat)
    let after := slots_range main_fc.sentences (adjusted_idx.toNat + 1) current_sentence_count
    let new_sentences := before ++ modified ++ after
    { sentences := new_sentences, sentence_count := new_sentences.length }

/-- The value of `new_total` in the normal merge: the number of sentences for
which `new_sentences` is allocated (one sentence is allocated when it is not
positive). -/
def new_total (current_sentence_count temp_sentence_count original_sentence_count : Nat) : Int :=
  (current_sentence_count : Int) + ((temp_sentence_count : Int) - (original_sentence_count : Int))

/-- The domain of `build_merged`: the index into the sentences of the temp
file is not negative, and the sentences stored by steps 1 to 3 fit the
allocated array. -/
def merge_in_bounds (main_fc temp_fc : FileContent) (current_sentence_count : Nat)
    (sentence_idx : Int) (original_sentence_count : Nat) (adjusted_idx : Int) : Bool :=
  decide (0 ≤ sentence_idx) &&
  (current_sentence_count == 0 ||
    decide (((build_merged main_fc temp_fc current_sentence_count sentence_idx
        original_sentence_count adjusted_idx).sentences.length : Int) ≤
      max (new_total current_sentence_count temp_fc.sentence_count original_sentence_count) 1))

/-- One iteration of the `while (queue->head != NULL)` loop up to the write:
`none` when the entry is skipped (unparsable temp file or rejected adjusted
index), the merged content otherwise. -/
def merge_entry (files : Files) (filepath : String) (entry : CommitQueueEntry) : Option FileContent :=
  let main_parsed := parse_path files filepath
  let main_fc : FileContent := main_parsed.getD { sentences := [], sentence_count := 0 }
  let current_sentence_count : Nat := match main_parsed with
    | some fc => fc.sentence_count
    | none => 0
  match parse_path files entry.temp_filepath with
  | none => none
  | some temp_fc =>
    let sentence_shift : Int := (current_sentence_count : Int) - (entry.original_sentence_count : Int)
    let adjusted_idx := entry.sentence_idx + sentence_shift
    if adjusted_idx_ok current_sentence_count entry.original_sentence_count adjusted_idx then
      some (build_merged main_fc temp_fc current_sentence_count entry.sentence_idx
        entry.original_sentence_count adjusted_idx)
    else none

/-- The `while (queue->head != NULL)` loop of `process_commit_queue`: the
files, the entries left in the queue and the value returned (`processed`, or -1
when the merged content cannot be written, in which case the entry stays at the
head). -/
def process_entries : List CommitQueueEntry → Files → (String → Bool) → String → Int →
    Files × List CommitQueueEntry × Int
  | [], files, _, _, processed => (files, [], processed)
  | entry :: rest, files, writable, filepath, processed =>
    match merge_entry files filepath entry with
    | none => process_entries rest (fs_unlink files entry.temp_filepath) writable filepath processed
    | some merged =>
      if !writable filepath then (files, entry :: rest, -1)
      else
        process_entries rest
          (fs_unlink (fs_write files filepath (write_file_content merged)) entry.temp_filepath)
          writable filepath (processed + 1)

/-- The function `process_commit_queue`. -/
def process_commit_queue (ss : StorageServer) (filename : String) : StorageServer × Int :=
  match get_commit_queue ss.commit_queues filename with
  | none => (ss, 0)
  | some queues1 =>
    let entries := queue_entries queues1 filename
    let filepath := file_path ss.storage_path filename
    let files1 := if entries.length > 0 then create_undo_backup ss.files ss.writable filepath else ss.files
    let r := process_entries entries files1 ss.writable filepath 0
    ({ ss with files := r.1, commit_queues := set_queue_entries queues1 filename r.2.1 }, r.2.2)

/-- The function `commit_write_session_ss`. -/
def commit_write_session_ss (ss : StorageServer) (filename username : String) (sent_idx : Int) :
    StorageServer × Int :=
  match find_session ss.write_sessions filename username sent_idx with
  | none => (ss, SUCCESS)
  | some session =>
    match enqueue_commit ss.commit_queues filename username sent_idx
        session.original_sentence_count session.temp_filepath session.lock_time with
    | none => (remove_write_session ss filename username sent_idx, ERR_SERVER_ERROR)
    | some queues1 =>
      let ss1 := { ss with commit_queues := queues1,
                           write_sessions := drop_session ss.write_sessions filename username sent_idx }
      ((process_commit_queue ss1 filename).1, SUCCESS)

/-! ### The client request handler -/

/-- The fields of `Message` that the write pipeline reads. -/
structure Message where
  sender : String
  filename : String
  sentence_index : Int
  word_index : Int
  data : List Char
deriving DecidableEq, Repr

/-- The validity check of `case MSG_LOCK_SENTENCE`: the value of `invalid`. -/
def lock_index_invalid (files : Files) (filepath : String) (sentence_index : Int) : Bool :=
  let parsed := parse_path files filepath
  let fc : FileContent := parsed.getD { sentences := [], sentence_count := 0 }
  let scount : Nat := match parsed with
    | some fc => fc.sentence_count
    | none => 0
  if scount == 0 then sentence_index != 0
  else if sentence_index < 0 || sentence_index > (scount : Int) then true
  else if sentence_index == (scount : Int) then
    let last_sent := getSlot fc.sentences (scount - 1)
    match last_sent.getLast? with
    | none => true
    | some last_word => !(first_is_delimiter last_word || is_newline_token last_word)
  else false

/-- The branch `case MSG_LOCK_SENTENCE` of `handle_client_request`: the new
state and `response.status`. -/
def handle_lock_sentence (ss : StorageServer) (msg : Message) (now : Int) : StorageServer × Int :=
  if lock_index_invalid ss.files (file_path ss.storage_path msg.filename) msg.sentence_index then
    (ss, ERR_INVALID_INDEX)
  else
    let r := lock_sentence_ss ss.file_locks msg.filename msg.sentence_index msg.sender now
      (ss.lock_junk msg.filename msg.sentence_index)
    let ss1 := { ss with file_locks := r.1 }
    if r.2 == SUCCESS then
      let r2 := start_write_session_ss ss1 msg.filename msg.sender msg.sentence_index now
      if r2.2 != SUCCESS then
        ({ r2.1 with file_locks :=
            (unlock_sentence_ss r2.1.file_locks msg.filename msg.sentence_index msg.sender).1 }, r2.2)
      else (r2.1, r.2)
    else (ss1, r.2)

/-- The branch `case MSG_WRITE`. -/
def handle_write (ss : StorageServer) (msg : Message) : StorageServer × Int :=
  write_file_ss ss msg.filename msg.sender msg.sentence_index msg.word_index msg.data

/-- The branch `case MSG_UNLOCK_SENTENCE`: commit, then unlock. -/
def handle_unlock_sentence (ss : StorageServer) (msg : Message) : StorageServer × Int :=
  let r := commit_write_session_ss ss msg.filename msg.sender msg.sentence_index
  let u := unlock_sentence_ss r.1.file_locks msg.filename msg.sentence_index msg.sender
  ({ r.1 with file_locks := u.1 }, if r.2 == SUCCESS then u.2 else r.2)

/-- The branch `case MSG_CANCEL_WRITE`. -/
def handle_cancel_write (ss : StorageServer) (msg : Message) : StorageServer × Int :=
  let ss1 := cancel_write_session_ss ss msg.filename msg.sender msg.sentence_index
  let u := unlock_sentence_ss ss1.file_locks msg.filename msg.sentence_index msg.sender
  ({ ss1 with file_locks := u.1 }, u.2)

/-- The message types of the write pipeline. -/
inductive MessageType where
  | MSG_LOCK_SENTENCE
  | MSG_WRITE
  | MSG_UNLOCK_SENTENCE
  | MSG_CANCEL_WRITE
deriving DecidableEq, Repr

/-- The `switch (msg.type)` of `handle_client_request` on the four requests of
the write pipeline; `now` is the value of `time(NULL)` during the request. -/
def handle_client_request (ss : StorageServer) (type : MessageType) (msg : Message) (now : Int) :
    StorageServer × Int :=
  match type with
  | MessageType.MSG_LOCK_SENTENCE => handle_lock_sentence ss msg now
  | MessageType.MSG_WRITE => handle_write ss msg
  | MessageType.MSG_UNLOCK_SENTENCE => handle_unlock_sentence ss msg
  | MessageType.MSG_CANCEL_WRITE => handle_cancel_write ss msg

/-! ## Notions used to state the properties -/

/-- The sentences `sentences[0 .. sentence_count)` that `write_file_content`
and the merge read. -/
def counted (fc : FileContent) : List Sentence := fc.sentences.take fc.sentence_count

/-- A delimiter token: exactly one character out of `.`, `!`, `?`. -/
def is_delimiter_token (tok : Token) : Bool :=
  match tok with
  | [c] => is_delimiter c
  | _ => false

/-- Every delimiter of the text is its last byte or is followed by a blank or
a newline. -/
def delimiters_spaced : List Char → Bool
  | [] => true
  | [_] => true
  | c :: d :: rest =>
    (if is_delimiter c then is_blank d || d == '\n' else true) && delimiters_spaced (d :: rest)

/-- The sentence count that the handlers read off a path: the count of the
parsed file, 0 when the file cannot be opened. -/
def sentence_count_at (files : Files) (path : String) : Nat :=
  match parse_path files path with
  | some fc => fc.sentence_count
  | none => 0

/-- The last token of the last counted sentence of the file at `path`. -/
def last_token_at (files : Files) (path : String) : Option Token :=
  match parse_path files path with
  | some fc => (counted fc).getLast?.bind (fun s => s.getLast?)
  | none => none

/-- User `u` holds slot `idx` of some entry of the lock table named
`filename`. -/
def Holds (locks : List FileLocks) (filename : String) (idx : Nat) (u : String) : Prop :=
  ∃ fl ∈ locks, fl.filename = filename ∧
    ∃ l, fl.locks.get? idx = some l ∧ l.locked = true ∧ l.locked_by = u

/-- The lock tables that `lock_sentence_ss` and `unlock_sentence_ss` produce
from the empty table of a starting server. -/
inductive LocksReachable : List FileLocks → Prop where
  | init : LocksReachable []
  | lock (locks : List FileLocks) (filename : String) (idx : Int) (username : String) (now : Int) :
      LocksReachable locks → 0 ≤ idx → (last_byte : Char) →
      LocksReachable (lock_sentence_ss locks filename idx username now last_byte).1
  | unlock (locks : List FileLocks) (filename : String) (idx : Int) (username : String) :
      LocksReachable locks →
      LocksReachable (unlock_sentence_ss locks filename idx username).1

/-- An active write session for `(filename, username, idx)` exists. -/
def has_session (sessions : List WriteSession) (filename username : String) (idx : Int) : Bool :=
  sessions.any (fun s => session_matches s filename username idx)

/-- The states of a storage server that starts with an empty lock table and no
write session and then serves lock, write, unlock and cancel requests whose
sender has fewer than `MAX_USERNAME - 1` bytes, the names that `strncpy`
terminates in `locked_by`. -/
inductive SSReachable : StorageServer → Prop where
  | init (ss : StorageServer) : ss.file_locks = [] → ss.write_sessions = [] → SSReachable ss
  | step (ss : StorageServer) (type : MessageType) (msg : Message) (now : Int) :
      SSReachable ss → msg.sender.length < MAX_USERNAME - 1 →
      SSReachable (handle_client_request ss type msg now).1

/-- A storage directory that holds the single file `f` with the given bytes,
on a server with no lock, no session and no queue, whose allocator hands out
zeroed memory. -/
def single_file_server (bytes : List Char) : StorageServer :=
  { storage_path := "./ss_storage_1",
    files := fun q => if q = "./ss_storage_1/f" then some bytes else none,
    writable := fun _ => true,
    file_locks := [],
    write_sessions := [],
    commit_queues := [],
    lock_junk := fun _ _ => NUL }

/-- A user name of `MAX_USERNAME - 1` bytes, the longest that the field
`sender` of a message holds. -/
def long_user : String := ⟨List.replicate (MAX_USERNAME - 1) 'a'⟩

/-- The server `single_file_server` with an allocator that leaves the byte
`'x'` at `locked_by[MAX_USERNAME - 1]` of every lock slot. -/
def junk_server (bytes : List Char) : StorageServer :=
  { single_file_server bytes with lock_junk := fun _ _ => 'x' }

/-- A lock, write or commit request of `user` on file `f`. -/
def request (user : String) (sentence_index word_index : Int) (content : String) : Message :=
  { sender := user, filename := "f", sentence_index := sentence_index,
    word_index := word_index, data := content.toList }

/-- Serves a list of requests in order, all at time `now = 7`, and collects the
statuses. -/
def serve (ss : StorageServer) (reqs : List (MessageType × Message)) : StorageServer × List Int :=
  reqs.foldl (fun acc r => ((handle_client_request acc.1 r.1 r.2 7).1,
    acc.2 ++ [(handle_client_request acc.1 r.1 r.2 7).2])) (ss, [])

/-- One writer locks sentence `s` of the file `f`, writes `content` at word `w`
and commits. -/
def lock_write_commit (bytes : List Char) (s w : Int) (content : String) : StorageServer × List Int :=
  serve (single_file_server bytes)
    [(MessageType.MSG_LOCK_SENTENCE, request "u" s w content),
     (MessageType.MSG_WRITE, request "u" s w content),
     (MessageType.MSG_UNLOCK_SENTENCE, request "u" s w content)]

/-- Two writers lock sentences `sa` and `sb` of the same file state, each writes
once, and they commit in the order given by `a_first`. -/
def two_writers (bytes : List Char) (sa wa : Int) (ca : String) (sb wb : Int) (cb : String)
    (a_first : Bool) : StorageServer × List Int :=
  let ma := request "u1" sa wa ca
  let mb := request "u2" sb wb cb
  serve (single_file_server bytes)
    ([(MessageType.MSG_LOCK_SENTENCE, ma), (MessageType.MSG_LOCK_SENTENCE, mb),
      (MessageType.MSG_WRITE, ma), (MessageType.MSG_WRITE, mb)] ++
     (if a_first then [(MessageType.MSG_UNLOCK_SENTENCE, ma), (MessageType.MSG_UNLOCK_SENTENCE, mb)]
      else [(MessageType.MSG_UNLOCK_SENTENCE, mb), (MessageType.MSG_UNLOCK_SENTENCE, ma)]))

/-- A token that is no delimiter: a newline token, a run of blanks, or a word
made of word characters only. -/
def is_plain_token (t : Token) : Bool :=
  is_newline_token t || is_space_token t || t.all is_word_char

/-- The value of `sentences[current_sent]` when `parse_file` reaches EOF: the
pending run of blanks and the pending word are saved. -/
def final_cur (st : ParseState) : Sentence :=
  parse_flush (match st.space_buf with | some sb => st.cur ++ [sb] | none => st.cur) st.word

/-- Facts that hold of the loop state of `parse_file` after any input. -/
structure ParseInv (st : ParseState) : Prop where
  count : st.sentence_count = if st.done = [] then 0 else st.done.length + 1
  word_chars : ∀ c ∈ st.word, is_word_char c = true
  space_chars : ∀ sb, st.space_buf = some sb →
    sb ≠ [] ∧ (∀ c ∈ sb, is_blank c = true) ∧ st.word = []
  done_shape : ∀ s ∈ st.done, ∃ body d, s = body ++ [[d]] ∧ is_delimiter d = true ∧
    ∀ t ∈ body, is_plain_token t = true
  cur_shape : ∀ t ∈ st.cur, is_plain_token t = true

/-- The number of active write sessions for `(filename, username, idx)`. -/
def session_count (sessions : List WriteSession) (filename username : String) (idx : Int) : Nat :=
  sessions.countP (fun s => session_matches s filename username idx)

/-- Write sessions and sentence locks agree: at most one session per key, and a
session for `(f, u, i)` exists exactly when `u` holds the lock of `(f, i)`. -/
def SessionsMatchLocks (ss : StorageServer) : Prop :=
  (∀ f u i, session_count ss.write_sessions f u i ≤ 1) ∧
  (∀ f u i, has_session ss.write_sessions f u i = true ↔ holder ss.file_locks f i = some u)

/-- The text is empty or starts with a blank or a newline. -/
def starts_spaced : List Char → Bool
  | [] => true
  | c :: _ => is_blank c || c == '\n'

/-- The bytes that the loop state of `parse_file` stands for: the tokens saved
so far, then the pending run of blanks, then the pending word. -/
def pending_text (st : ParseState) : List Char :=
  st.done.flatten.flatten ++ st.cur.flatten ++ st.space_buf.getD [] ++ st.word

/-- Nothing is printed between adjacent words of the sentence. -/
def WordsTight (s : Sentence) : Prop :=
  List.Chain' (fun a b => word_separator a b = []) s

/-- Facts about the scan of a text `x` without NUL whose words and runs of
blanks are shorter than `MAX_WORD - 1`, when `rest` is still to be read: the
state stands for the bytes read so far, and the pending word and the pending
run of blanks are short. -/
structure FlatInv (x : List Char) (st : ParseState) (rest : List Char) : Prop where
  flat : pending_text st ++ rest = x
  word_no_nul : ∀ c ∈ st.word, c ≠ NUL
  rest_no_nul : ∀ c ∈ rest, c ≠ NUL
  word_run : runs_below is_word_char (MAX_WORD - 1) st.word.length rest = true
  blank_run : runs_below is_blank (MAX_WORD - 1) (st.space_buf.getD []).length rest = true

/-- Facts about the scan of a text in which every delimiter is followed by a
blank, a newline or the end: `write_file_content` prints nothing between the
tokens and between the sentences saved so far. -/
structure TightInv (st : ParseState) (rest : List Char) : Prop where
  spaced : delimiters_spaced rest = true
  after_delim : st.done ≠ [] → st.cur = [] → st.space_buf = none →
    st.word = [] ∧ starts_spaced rest = true
  done_tight : ∀ s ∈ st.done, WordsTight s
  cur_tight : WordsTight st.cur
  done_chain : List.Chain' (fun s t => sentence_separator s t = []) st.done
  cur_head : st.done ≠ [] → ∀ t, st.cur.head? = some t →
    is_space_token t = true ∨ is_newline_token t = true
  cur_last : st.space_buf = none → ∀ t, st.cur.getLast? = some t →
    is_space_token t = true ∨ is_newline_token t = true

/-- The text that a write request stages in the temp file of a session opened
on the main file `bytes`: the file is parsed, the content is inserted, and the
result is written back. -/
def staged_text (bytes : List Char) (sent_idx word_idx : Int) (content : List Char) : List Char :=
  write_file_content (insert_word_in_sentence (parse_file bytes) sent_idx word_idx content).2

/-- A write session of `u` on sentence `s` of file `f` is open and nothing else
is pending on the file: the main file holds `main`, the temp file of the
session holds `temp`, the session recorded `n` sentences, the commit queue of
the file is empty and the main file can be written. -/
structure Staged (ss : StorageServer) (f u : String) (s : Int) (n : Nat)
    (main temp : List Char) : Prop where
  main_file : ss.files (file_path ss.storage_path f) = some main
  temp_file : ss.files (temp_path ss.storage_path f u s) = some temp
  session : ∃ sess, find_session ss.write_sessions f u s = some sess ∧
    sess.temp_filepath = temp_path ss.storage_path f u s ∧ sess.original_sentence_count = n
  queue : queue_entries ss.commit_queues f = []
  main_writable : ss.writable (file_path ss.storage_path f) = true


/-! ## File metadata (`src/common.h`) -/

/-- The constant `MAX_FILENAME`. -/
def MAX_FILENAME : Nat := 256

/-- The constant `MAX_ACL_ENTRIES`. -/
def MAX_ACL_ENTRIES : Nat := 100

/-- The enum `AccessType` as the `int` it is stored as: a message can carry any
integer in its `access` field. -/
abbrev AccessType := Int

/-- The enumerator `ACCESS_NONE`. -/
def ACCESS_NONE : AccessType := 0

/-- The enumerator `ACCESS_READ`. -/
def ACCESS_READ : AccessType := 1

/-- The enumerator `ACCESS_WRITE`. -/
def ACCESS_WRITE : AccessType := 2

/-- The enumerator `ACCESS_READWRITE`. -/
def ACCESS_READWRITE : AccessType := 3

/-- The struct `ACLEntry`. -/
structure ACLEntry where
  username : String
  access : AccessType
deriving DecidableEq, Repr

/-- The struct `FileMetadata`; `acl` holds `acl[0 .. acl_count)`, so
`acl_count` is its length. -/
structure FileMetadata where
  filename : String
  folder_path : String
  owner : String
  ss_id : Int
  size : Nat
  word_count : Int
  char_count : Int
  created : Int
  modified : Int
  accessed : Int
  last_accessed_by : String
  acl : List ACLEntry
deriving DecidableEq, Repr

/-! ## The LRU cache (`src/cache.c`, `src/cache.h`)

A `CacheNode` lives in exactly one slot of `hash_table` from `cache_put` until
it is freed, so a node pointer is represented by the index of that slot. The
doubly linked list between the sentinels `head` and `tail` is the list `lru` of
slots, most recently used first. Every loop of the source that has no bound in
its condition takes a `fuel` argument and yields `none` when it runs out. -/

/-- The fields `key` and `value` of a `CacheNode`. -/
structure CacheNode where
  key : String
  value : FileMetadata
deriving DecidableEq, Repr

/-- The struct `LRUCache`. -/
structure LRUCache where
  capacity : Nat
  size : Int
  hash_table : List (Option CacheNode)
  lru : List Nat
deriving DecidableEq, Repr

/-- The value of `c` in `hash = ((hash << 5) + hash) + c` as an `unsigned int`:
`c` is read from a signed `char`, so a byte above 127 is sign-extended. -/
def hash_byte (ch : Char) : Nat :=
  if ch.toNat ≥ 128 then 2 ^ 32 - 256 + ch.toNat % 256 else ch.toNat

/-- The function `hash_string` (djb2 on `unsigned int`, reduced modulo
`capacity`). -/
def hash_string (str : String) (capacity : Nat) : Nat :=
  (str.data.foldl (fun hash ch => (hash * 33 + hash_byte ch) % 2 ^ 32) 5381) % capacity

/-- The function `create_cache_node`: the key is copied with
`strncpy(node->key, key, MAX_FILENAME - 1)`. -/
def create_cache_node (key : String) (value : FileMetadata) : CacheNode :=
  { key := ⟨key.data.take (MAX_FILENAME - 1)⟩, value := value }

/-- The function `init_cache`. -/
def init_cache (capacity : Nat) : LRUCache :=
  { capacity := capacity, size := 0, hash_table := List.replicate capacity none, lru := [] }

/-- The function `remove_node` on the linked list. -/
def remove_node (lru : List Nat) (node : Nat) : List Nat := lru.erase node

/-- The function `add_to_head`. -/
def add_to_head (lru : List Nat) (node : Nat) : List Nat := node :: lru

/-- The function `move_to_head`. -/
def move_to_head (lru : List Nat) (node : Nat) : List Nat := add_to_head (remove_node lru node) node

/-- The probe loop of `cache_get` and `cache_remove`:
`while (node != NULL) { if (strcmp(node->key, key) == 0) ..; hash = (hash + 1) % capacity; .. }`.
The result is `some (some slot)` when the key is found in `slot`, `some none`
when an empty slot ends the loop. -/
def probe (table : List (Option CacheNode)) (capacity : Nat) (key : String) :
    Nat → Nat → Option (Option Nat)
  | 0, _ => none
  | fuel + 1, hash =>
    match table.getD hash none with
    | none => some none
    | some node =>
      if node.key = key then some (some hash)
      else probe table capacity key fuel ((hash + 1) % capacity)

/-- The probe loop of `cache_put`, which also stops after a full circle:
`if (hash == original_hash) break;`. -/
def probe_once (table : List (Option CacheNode)) (capacity : Nat) (key : String)
    (original_hash : Nat) : Nat → Nat → Option (Option Nat)
  | 0, _ => none
  | fuel + 1, hash =>
    match table.getD hash none with
    | none => some none
    | some node =>
      if node.key = key then some (some hash)
      else if (hash + 1) % capacity = original_hash then some none
      else probe_once table capacity key original_hash fuel ((hash + 1) % capacity)

/-- The loop "find empty slot" of `cache_put`:
`while (cache->hash_table[hash] != NULL) hash = (hash + 1) % capacity;`. -/
def find_empty_slot (table : List (Option CacheNode)) (capacity : Nat) : Nat → Nat → Option Nat
  | 0, _ => none
  | fuel + 1, hash =>
    match table.getD hash none with
    | none => some hash
    | some _ => find_empty_slot table capacity fuel ((hash + 1) % capacity)

/-- The loop `while (cache->hash_table[tail_hash] != tail) tail_hash = ..` of
the eviction: it walks to the slot that points to the evicted node. -/
def find_node_slot (capacity : Nat) (tail : Nat) : Nat → Nat → Option Nat
  | 0, _ => none
  | fuel + 1, tail_hash =>
    if tail_hash = tail then some tail_hash
    else find_node_slot capacity tail fuel ((tail_hash + 1) % capacity)

/-- The function `cache_get`: the cache after the call and the copy returned
(`none` for `NULL`). -/
def cache_get (fuel : Nat) (cache : LRUCache) (key : String) :
    Option (LRUCache × Option FileMetadata) :=
  match probe cache.hash_table cache.capacity key fuel (hash_string key cache.capacity) with
  | none => none
  | some none => some (cache, none)
  | some (some slot) =>
    match cache.hash_table.getD slot none with
    | none => some (cache, none)
    | some node => some ({ cache with lru := move_to_head cache.lru slot }, some node.value)

/-- The block "evict if over capacity" of `cache_put`. The evicted node is
`tail->prev`, the last node of the list; with an empty list that pointer is the
sentinel `head` and the block is undefined (`none`). -/
def evict (fuel : Nat) (cache : LRUCache) : Option LRUCache :=
  if cache.size > (cache.capacity : Int) then
    match cache.lru.getLast? with
    | none => none
    | some tail =>
      match cache.hash_table.getD tail none with
      | none => none
      | some node =>
        match find_node_slot cache.capacity tail fuel (hash_string node.key cache.capacity) with
        | none => none
        | some tail_hash =>
          some { cache with lru := cache.lru.dropLast,
                            hash_table := cache.hash_table.set tail_hash none,
                            size := cache.size - 1 }
  else some cache

/-- The function `cache_put`. -/
def cache_put (fuel : Nat) (cache : LRUCache) (key : String) (value : FileMetadata) :
    Option LRUCache :=
  let hash := hash_string key cache.capacity
  match probe_once cache.hash_table cache.capacity key hash fuel hash with
  | none => none
  | some (some slot) =>
    match cache.hash_table.getD slot none with
    | none => none
    | some node =>
      some { cache with hash_table := cache.hash_table.set slot (some { node with value := value }),
                        lru := move_to_head cache.lru slot }
  | some none =>
    match find_empty_slot cache.hash_table cache.capacity fuel hash with
    | none => none
    | some slot =>
      evict fuel { cache with hash_table := cache.hash_table.set slot (some (create_cache_node key value)),
                              lru := add_to_head cache.lru slot,
                              size := cache.size + 1 }

/-- The function `cache_remove`. -/
def cache_remove (fuel : Nat) (cache : LRUCache) (key : String) : Option LRUCache :=
  match probe cache.hash_table cache.capacity key fuel (hash_string key cache.capacity) with
  | none => none
  | some none => some cache
  | some (some slot) =>
    some { cache with hash_table := cache.hash_table.set slot none,
                      lru := remove_node cache.lru slot,
                      size := cache.size - 1 }

/-- The function `cache_clear`. -/
def cache_clear (cache : LRUCache) : LRUCache :=
  { cache with hash_table := List.replicate cache.capacity none, lru := [], size := 0 }

/-! ### Notions used to state the cache properties -/

/-- The slot `slot` of the hash table points to `node`. -/
def slot_holds (c : LRUCache) (slot : Nat) (node : CacheNode) : Prop :=
  c.hash_table.getD slot none = some node

/-- Some node of the cache carries the key `k`. -/
def key_present (c : LRUCache) (k : String) : Prop :=
  ∃ slot node, slot_holds c slot node ∧ node.key = k

/-- The slot visited by the `t`-th probe for a key. -/
def probe_slot (c : LRUCache) (key : String) (t : Nat) : Nat :=
  (hash_string key c.capacity + t) % c.capacity

/-- Consistency of a cache state: the table has `capacity > 0` slots, `size`
counts the occupied slots, the list holds exactly the occupied slots, each
once, and every node is the first node with its key on the probe sequence of
that key, with no empty slot before it. -/
structure CacheInv (c : LRUCache) : Prop where
  cap_pos : 0 < c.capacity
  table_len : c.hash_table.length = c.capacity
  size_eq : c.size = ((c.hash_table.countP (fun x => x.isSome) : Nat) : Int)
  lru_nodup : c.lru.Nodup
  lru_mem : ∀ slot, slot ∈ c.lru ↔ ∃ node, slot_holds c slot node
  probe_path : ∀ slot node, slot_holds c slot node →
    ∃ t, t < c.capacity ∧ probe_slot c node.key t = slot ∧
      ∀ u, u < t → ∃ n, slot_holds c (probe_slot c node.key u) n ∧ n.key ≠ node.key

/-- The cache states reached from `init_cache` by `cache_put`, `cache_get` and
`cache_clear` on keys that fit the key buffer of a node. -/
inductive CacheReachable : LRUCache → Prop where
  | init (capacity : Nat) : 0 < capacity → CacheReachable (init_cache capacity)
  | put (c c1 : LRUCache) (fuel : Nat) (key : String) (value : FileMetadata) :
      CacheReachable c → key.length < MAX_FILENAME → cache_put fuel c key value = some c1 →
      CacheReachable c1
  | get (c c1 : LRUCache) (fuel : Nat) (key : String) (r : Option FileMetadata) :
      CacheReachable c → cache_get fuel c key = some (c1, r) → CacheReachable c1
  | clear (c : LRUCache) : CacheReachable c → CacheReachable (cache_clear c)

/-- A cache of capacity 1 that holds the key `"a"`. -/
def full_cache : LRUCache :=
  { capacity := 1, size := 1,
    hash_table := [some { key := "a", value :=
      { filename := "a", folder_path := "", owner := "u", ss_id := 1, size := 0,
        word_count := 0, char_count := 0, created := 0, modified := 0, accessed := 0,
        last_accessed_by := "u", acl := [] } }],
    lru := [0] }

/-- A metadata record with the given file name and owner and no ACL entry. -/
def sample_meta (filename owner : String) : FileMetadata :=
  { filename := filename, folder_path := "", owner := owner, ss_id := 1, size := 0,
    word_count := 0, char_count := 0, created := 0, modified := 0, accessed := 0,
    last_accessed_by := owner, acl := [] }


/-! ## The file index (`src/trie.c`, `src/trie.h`)

A `TrieNode *` is `null` or points to a node with the array `children`, the
flag `is_end_of_word` and the pointer `file_meta` (`none` for `NULL`). The trie
is a tree, so updating a node in place is returning the updated tree. A key is
a C string: the loops stop at its first NUL byte. -/

/-- The constant `ALPHABET_SIZE`. -/
def ALPHABET_SIZE : Nat := 128

/-- A value of type `TrieNode *`. -/
inductive TrieNode where
  | null : TrieNode
  | node (children : Nat → TrieNode) (is_end_of_word : Bool) (file_meta : Option FileMetadata) :
      TrieNode

/-- The test `!node` on a pointer. -/
def TrieNode.is_null : TrieNode → Bool
  | TrieNode.null => true
  | TrieNode.node _ _ _ => false

/-- The function `create_trie_node`. -/
def create_trie_node : TrieNode := TrieNode.node (fun _ => TrieNode.null) false none

/-- The function `init_trie`: the root of the new trie. -/
def init_trie : TrieNode := create_trie_node

/-- The assignment `children[index] = child` on an array of child pointers. -/
def set_child (children : Nat → TrieNode) (index : Nat) (child : TrieNode) : Nat → TrieNode :=
  fun i => if i = index then child else children i

/-- The loop `for (i = 0; i < ALPHABET_SIZE; i++) if (node->children[i]) ..`:
true when some child pointer is not `NULL`. -/
def has_child (children : Nat → TrieNode) : Bool :=
  (List.range ALPHABET_SIZE).any (fun i => !(children i).is_null)

/-- The body of `trie_insert` from the node `current` on: the node after the
call and the value returned. `current` is the root or a child that the loop
has just made non-null; on `null` nothing is done. -/
def trie_insert_from : TrieNode → List Char → FileMetadata → TrieNode × Int
  | TrieNode.null, _, _ => (TrieNode.null, -1)
  | TrieNode.node children _ _, [], file_meta => (TrieNode.node children true (some file_meta), 0)
  | TrieNode.node children is_end meta, c :: rest, file_meta =>
    if c = NUL then (TrieNode.node children true (some file_meta), 0)
    else if c.toNat ≥ ALPHABET_SIZE then (TrieNode.node children is_end meta, -1)
    else
      let child := if (children c.toNat).is_null then create_trie_node else children c.toNat
      let r := trie_insert_from child rest file_meta
      (TrieNode.node (set_child children c.toNat r.1) is_end meta, r.2)

/-- The function `trie_insert` on the root of the trie. -/
def trie_insert (root : TrieNode) (filename : List Char) (file_meta : FileMetadata) :
    TrieNode × Int :=
  trie_insert_from root filename file_meta

/-- The function `trie_search`: the copy returned, `none` for `NULL`. -/
def trie_search : TrieNode → List Char → Option FileMetadata
  | TrieNode.null, _ => none
  | TrieNode.node _ is_end meta, [] => if is_end then meta else none
  | TrieNode.node children is_end meta, c :: rest =>
    if c = NUL then (if is_end then meta else none)
    else if c.toNat ≥ ALPHABET_SIZE || (children c.toNat).is_null then none
    else trie_search (children c.toNat) rest

/-- The end-of-key case of `trie_delete_helper`: the flag and the metadata are
cleared, and the node can be deleted when it has no child. -/
def trie_delete_end (children : Nat → TrieNode) (is_end : Bool) (meta : Option FileMetadata) :
    TrieNode × Bool :=
  let node1 := if is_end then TrieNode.node children false none else TrieNode.node children is_end meta
  (node1, !has_child children)

/-- The function `trie_delete_helper` on the rest of the key from `depth` on:
the node after the call and the value returned (`true` for 1). Freeing a child
leaves `NULL` in its slot. -/
def trie_delete_helper : TrieNode → List Char → TrieNode × Bool
  | TrieNode.null, _ => (TrieNode.null, false)
  | TrieNode.node children is_end meta, [] => trie_delete_end children is_end meta
  | TrieNode.node children is_end meta, c :: rest =>
    if c = NUL then trie_delete_end children is_end meta
    else if c.toNat ≥ ALPHABET_SIZE then (TrieNode.node children is_end meta, false)
    else
      let r := trie_delete_helper (children c.toNat) rest
      if r.2 then
        let children1 := set_child children c.toNat TrieNode.null
        if !is_end then (TrieNode.node children1 is_end meta, !has_child children1)
        else (TrieNode.node children1 is_end meta, false)
      else (TrieNode.node (set_child children c.toNat r.1) is_end meta, false)

/-- The function `trie_delete` on the root of the trie (it always returns 0). -/
def trie_delete (root : TrieNode) (filename : List Char) : TrieNode :=
  (trie_delete_helper root filename).1

/-- The function `trie_update`: the root after the call and the value
returned. -/
def trie_update : TrieNode → List Char → FileMetadata → TrieNode × Int
  | TrieNode.null, _, _ => (TrieNode.null, -1)
  | TrieNode.node children is_end meta, [], file_meta =>
    if is_end && meta.isSome then (TrieNode.node children is_end (some file_meta), 0)
    else (TrieNode.node children is_end meta, -1)
  | TrieNode.node children is_end meta, c :: rest, file_meta =>
    if c = NUL then
      (if is_end && meta.isSome then (TrieNode.node children is_end (some file_meta), 0)
       else (TrieNode.node children is_end meta, -1))
    else if c.toNat ≥ ALPHABET_SIZE || (children c.toNat).is_null then
      (TrieNode.node children is_end meta, -1)
    else
      let r := trie_update (children c.toNat) rest file_meta
      (TrieNode.node (set_child children c.toNat r.1) is_end meta, r.2)

/-- An ASCII key: every byte is above 0 and below `ALPHABET_SIZE`. -/
def ascii_key (k : List Char) : Prop := ∀ c ∈ k, c ≠ NUL ∧ c.toNat < ALPHABET_SIZE


/-! ## Messages and the wire codec (`src/common.h`, `src/common.c`)

The declarations of this section live in the namespace `Common`, because the
storage-server section above already has a `Message` with the fields that the
write pipeline reads. -/

namespace Common

/-- The constant `MAX_BUFFER`. -/
def MAX_BUFFER : Nat := 8192

/-- The constant `MAX_PATH`. -/
def MAX_PATH : Nat := 512

/-- The enumerator `MSG_REG_CLIENT` of `MessageType`. -/
def MSG_REG_CLIENT : Int := 1

/-- The enumerator `MSG_ADDACCESS`. -/
def MSG_ADDACCESS : Int := 9

/-- The enumerator `MSG_REMACCESS`. -/
def MSG_REMACCESS : Int := 10

/-- The enumerator `MSG_ACK`. -/
def MSG_ACK : Int := 16

/-- The struct `Message`; the enums `type` and `access` are the `int`s that
`atoi` stores into them. -/
structure Message where
  type : Int
  status : Int
  sender : String
  filename : String
  foldername : String
  checkpoint_tag : String
  target_path : String
  data : String
  sentence_index : Int
  word_index : Int
  ss_id : Int
  client_port : Int
  nm_port : Int
  access : Int
  target_user : String
deriving DecidableEq, Repr

/-- The function `init_message`. -/
def init_message : Message :=
  { type := MSG_ACK, status := SUCCESS, sender := "", filename := "", foldername := "",
    checkpoint_tag := "", target_path := "", data := "", sentence_index := -1,
    word_index := -1, ss_id := -1, client_port := 0, nm_port := 0, access := ACCESS_NONE,
    target_user := "" }

/-- The conversion `%d` of `sprintf`. -/
def print_int (n : Int) : List Char :=
  if n < 0 then '-' :: Nat.toDigits 10 n.natAbs else Nat.toDigits 10 n.toNat

/-- The digit loop of `atoi`: it stops at the first byte that is no digit. -/
def atoi_digits : List Char → Nat → Nat
  | [], acc => acc
  | c :: cs, acc => if c.isDigit then atoi_digits cs (acc * 10 + (c.toNat - 48)) else acc

/-- The library function `atoi` on values that fit an `int`: leading white
space, an optional sign, then digits. -/
def atoi (s : List Char) : Int :=
  match s.dropWhile (fun c => c == ' ' || c == '\t' || c == '\n' || c == '\r' ||
      c == Char.ofNat 11 || c == Char.ofNat 12) with
  | '-' :: rest => -((atoi_digits rest 0 : Nat) : Int)
  | '+' :: rest => ((atoi_digits rest 0 : Nat) : Int)
  | rest => ((atoi_digits rest 0 : Nat) : Int)

/-- The function `serialize_message`: the fields in the order of the format
string, separated by `|`. -/
def serialize_message (msg : Message) : List Char :=
  print_int msg.type ++ '|' :: print_int msg.status ++ '|' :: msg.sender.data ++
  '|' :: msg.filename.data ++ '|' :: msg.foldername.data ++ '|' :: msg.target_path.data ++
  '|' :: print_int msg.sentence_index ++ '|' :: print_int msg.word_index ++
  '|' :: print_int msg.ss_id ++ '|' :: print_int msg.client_port ++
  '|' :: print_int msg.nm_port ++ '|' :: print_int msg.access ++
  '|' :: msg.target_user.data ++ '|' :: msg.checkpoint_tag.data ++ '|' :: msg.data.data

/-- The first statements of the loop body of `deserialize_message`: the bytes
of the token (`len` bytes from `p`), and `sep + 1` when a separator was found.
The last field takes everything that remains. -/
def next_token (p : List Char) (field : Nat) : List Char × Option (List Char) :=
  if field = 14 then (p, none)
  else
    match p.dropWhile (fun c => c != '|') with
    | [] => (p.takeWhile (fun c => c != '|'), none)
    | _ :: rest => (p.takeWhile (fun c => c != '|'), some rest)

/-- The call `strncpy(dst, token_buf, n)` into a zeroed buffer. -/
def strncpy (token : List Char) (n : Nat) : String := ⟨token.take n⟩

/-- The statement `dst[n] = 0` on a string field. -/
def terminate_at (s : String) (n : Nat) : String := ⟨s.data.take n⟩

/-- The `switch (field)` of `deserialize_message` for a non-empty token. -/
def store_field (msg : Message) (field : Nat) (token : List Char) : Message :=
  match field with
  | 0 => { msg with type := atoi token }
  | 1 => { msg with status := atoi token }
  | 2 => { msg with sender := strncpy token (MAX_USERNAME - 1) }
  | 3 => { msg with filename := strncpy token (MAX_FILENAME - 1) }
  | 4 => { msg with foldername := strncpy token (MAX_FILENAME - 1),
                    filename := terminate_at msg.filename (MAX_FILENAME - 1) }
  | 5 => { msg with target_path := strncpy token (MAX_FILENAME - 1),
                    filename := terminate_at msg.filename (MAX_FILENAME - 1) }
  | 6 => { msg with sentence_index := atoi token }
  | 7 => { msg with word_index := atoi token }
  | 8 => { msg with ss_id := atoi token }
  | 9 => { msg with client_port := atoi token }
  | 10 => { msg with nm_port := atoi token }
  | 11 => { msg with access := atoi token }
  | 12 => { msg with target_user := strncpy token (MAX_USERNAME - 1) }
  | 13 => { msg with checkpoint_tag := strncpy token (MAX_USERNAME - 1),
                     sender := terminate_at msg.sender (MAX_USERNAME - 1) }
  | 14 => { msg with data := strncpy token (MAX_BUFFER - 1) }
  | _ => msg

/-- The `else` branch for an empty token. -/
def store_empty (msg : Message) (field : Nat) : Message :=
  let m1 := if field = 2 then { msg with sender := "" } else msg
  let m2 := if field = 3 then { m1 with filename := "" } else m1
  let m3 := if field = 10 then { m2 with target_user := "" } else m2
  if field = 11 then { m3 with data := "" } else m3

/-- The loop `while (field < 15 && p)` of `deserialize_message`; the first
argument counts the iterations that are left. -/
def deserialize_fields : Nat → Nat → List Char → Message → Message
  | 0, _, _, msg => msg
  | n + 1, field, p, msg =>
    let token_buf := (next_token p field).1.take (MAX_BUFFER - 1)
    let msg1 := if token_buf.length > 0 then store_field msg field token_buf
      else store_empty msg field
    match (next_token p field).2 with
    | none => msg1
    | some p1 => deserialize_fields n (field + 1) p1 msg1

/-- The function `deserialize_message`. -/
def deserialize_message (buffer : List Char) : Message :=
  deserialize_fields 15 0 buffer init_message

/-- A message whose `target_path` has 256 bytes, inside its buffer of
`MAX_PATH` bytes. -/
def long_path_message : Message :=
  { init_message with target_path := ⟨List.replicate 256 'p'⟩ }

end Common


/-! ## The name server (`src/nm.c`)

The global `nm` is the state `NameServer`. A handler is given the request, the
value of `time(NULL)` and the statuses of the replies that the storage server
sends during the call, and yields the state it leaves and the status of its
response. Handlers that call `cache_put`, `cache_get` or `cache_remove` pass
their `fuel` on and yield `none` when such a call does not return. -/

/-- The constant `MAX_SS`. -/
def MAX_SS : Nat := 50

/-- The constant `MAX_FILES`. -/
def MAX_FILES : Nat := 10000

/-- The constant `HEARTBEAT_TIMEOUT`. -/
def HEARTBEAT_TIMEOUT : Int := 15

/-- The constant `ERR_NOT_OWNER`. -/
def ERR_NOT_OWNER : Int := 401

/-- The constant `ERR_FILE_NOT_FOUND`. -/
def ERR_FILE_NOT_FOUND : Int := 404

/-- The constant `ERR_USER_NOT_FOUND`. -/
def ERR_USER_NOT_FOUND : Int := 406

/-- The constant `ERR_FILE_EXISTS`. -/
def ERR_FILE_EXISTS : Int := 409

/-- The constant `ERR_FILE_LOCKED`. -/
def ERR_FILE_LOCKED : Int := 424

/-- The constant `ERR_SS_UNAVAILABLE`. -/
def ERR_SS_UNAVAILABLE : Int := 503

/-- The fields of `StorageServerInfo` that the embedded functions use. -/
structure StorageServerInfo where
  id : Int
  ip : String
  client_port : Int
  active : Bool
  last_heartbeat : Int
  files : List String
deriving DecidableEq, Repr

/-- The struct `RegisteredUser`. -/
structure RegisteredUser where
  username : String
  first_registered : Int
  last_seen : Int
  active_session : Bool
  client_sock : Int
deriving DecidableEq, Repr

/-- The struct `ClientInfo`. -/
structure ClientInfo where
  username : String
  ip : String
  sock : Int
  connected : Int
deriving DecidableEq, Repr

/-- The struct `AccessRequest`. -/
structure AccessRequest where
  username : String
  filename : String
  requested_access : AccessType
  request_time : Int
deriving DecidableEq, Repr

/-- The struct `NameServer` (the global `nm`). `registered_users`, `ss_list`
and `access_requests` hold the slots below their counters; `client_list` holds
every slot of the array written so far, also the stale ones at and above
`client_count`. -/
structure NameServer where
  file_trie : TrieNode
  cache : LRUCache
  ss_list : List StorageServerInfo
  next_ss_id : Int
  registered_users : List RegisteredUser
  client_list : List ClientInfo
  client_count : Nat
  access_requests : List AccessRequest

/-- The function `init_name_server`, with the cache capacity `CACHE_SIZE` as
an argument. -/
def init_name_server (cache_size : Nat) : NameServer :=
  { file_trie := init_trie, cache := init_cache cache_size, ss_list := [], next_ss_id := 0,
    registered_users := [], client_list := [], client_count := 0, access_requests := [] }

/-! ### Client sessions -/

/-- The function `register_user_persistent`: the registry after the call and
the value of `*is_duplicate`. -/
def register_user_persistent : List RegisteredUser → String → Int → Int → Nat →
    List RegisteredUser × Bool
  | [], username, client_sock, now, count =>
    if count < MAX_CLIENTS * 10 then
      ([{ username := username, first_registered := now, last_seen := now,
          active_session := true, client_sock := client_sock }], false)
    else ([], true)
  | u :: rest, username, client_sock, now, count =>
    if u.username = username then
      if u.active_session then (u :: rest, true)
      else ({ u with last_seen := now, active_session := true, client_sock := client_sock } :: rest,
            false)
    else
      let r := register_user_persistent rest username client_sock now count
      (u :: r.1, r.2)

/-- The function `deregister_active_session`. -/
def deregister_active_session : List RegisteredUser → String → Int → Int → List RegisteredUser
  | [], _, _, _ => []
  | u :: rest, username, client_sock, now =>
    if u.username = username then
      if u.client_sock = client_sock then
        { u with active_session := false, client_sock := -1, last_seen := now } :: rest
      else u :: rest
    else u :: deregister_active_session rest username client_sock now

/-- A slot of `client_list` that was never written (the global is zeroed). -/
def empty_client : ClientInfo := { username := "", ip := "", sock := 0, connected := 0 }

/-- Writes `client_list[idx]`. -/
def set_client (clients : List ClientInfo) (idx : Nat) (c : ClientInfo) : List ClientInfo :=
  if idx < clients.length then clients.set idx c
  else clients ++ List.replicate (idx - clients.length) empty_client ++ [c]

/-- The loop `for (j = i; j < client_count - 1; j++) client_list[j] = client_list[j + 1]`:
the slot `client_count - 1` keeps its old content. -/
def shift_clients (clients : List ClientInfo) (i count : Nat) : List ClientInfo :=
  (List.range' i (count - 1 - i)).foldl
    (fun acc j => set_client acc j (acc.getD (j + 1) empty_client)) clients

/-- The index of the first slot below `count` whose `sock` is `client_sock`. -/
def find_client (clients : List ClientInfo) (count : Nat) (client_sock : Int) : Option Nat :=
  (List.range count).find? (fun i => decide ((clients.getD i empty_client).sock = client_sock))

/-- The start of `handle_client_connection` for a `MSG_REG_CLIENT` message,
up to the request loop: the state, the status of the response (`none` when the
socket is closed without one) and the local variable `idx`. -/
def client_connect (nm : NameServer) (msg : Common.Message) (client_sock : Int) (now : Int) :
    NameServer × Option Int × Option Nat :=
  let r := register_user_persistent nm.registered_users msg.sender client_sock now
    nm.registered_users.length
  if r.2 then (nm, some ERR_INVALID_OPERATION, none)
  else if nm.client_count ≥ MAX_CLIENTS then
    ({ nm with registered_users := deregister_active_session r.1 msg.sender client_sock now },
     none, none)
  else
    let idx := nm.client_count
    ({ nm with registered_users := r.1,
               client_list := set_client nm.client_list idx
                 { username := msg.sender, ip := msg.data, sock := client_sock, connected := now },
               client_count := nm.client_count + 1 },
     some SUCCESS, some idx)

/-- The end of `handle_client_connection`, after the request loop of the
connection with socket `client_sock` and local variable `idx`. -/
def client_disconnect (nm : NameServer) (client_sock : Int) (idx : Nat) (now : Int) : NameServer :=
  let username := (nm.client_list.getD idx empty_client).username
  let nm1 := match find_client nm.client_list nm.client_count client_sock with
    | some i => { nm with client_list := shift_clients nm.client_list i nm.client_count,
                          client_count := nm.client_count - 1 }
    | none => nm
  { nm1 with registered_users := deregister_active_session nm1.registered_users username client_sock now }

/-- A registration message of user `u`. -/
def reg_message (u : String) : Common.Message :=
  { Common.init_message with type := Common.MSG_REG_CLIENT, sender := u, data := "127.0.0.1" }

/-- The run in which `a` and `b` connect, `a` disconnects, `c` connects, `b`
disconnects, and `b` registers again; each connection uses the `idx` that its
own `client_connect` returned. The result is the state before the last
registration and the status of that registration. -/
def reconnect_run : NameServer × Option Int :=
  let s0 := init_name_server 100
  let ra := client_connect s0 (reg_message "a") 4 10
  let rb := client_connect ra.1 (reg_message "b") 5 11
  let s3 := client_disconnect rb.1 4 (ra.2.2.getD 0) 12
  let rc := client_connect s3 (reg_message "c") 6 13
  let s5 := client_disconnect rc.1 5 (rb.2.2.getD 0) 14
  (s5, (client_connect s5 (reg_message "b") 7 15).2.1)


/-! ### Access control and the request handlers of the name server -/

/-- The loop "check ACL" of `check_access`: the first entry of the user
decides. -/
def acl_grants : List ACLEntry → String → AccessType → Bool
  | [], _, _ => false
  | e :: rest, username, required =>
    if e.username = username then
      if required = ACCESS_READ && (e.access = ACCESS_READ || e.access = ACCESS_READWRITE) then true
      else if required = ACCESS_WRITE && e.access = ACCESS_READWRITE then true
      else false
    else acl_grants rest username required

/-- The function `check_access`. -/
def check_access (nm : NameServer) (filename username : String) (required : AccessType) : Bool :=
  match trie_search nm.file_trie filename.data with
  | none => false
  | some file_meta =>
    if file_meta.owner = username then true
    else acl_grants file_meta.acl username required

/-- The function `user_exists`. -/
def user_exists (nm : NameServer) (username : String) : Bool :=
  nm.registered_users.any (fun u => decide (u.username = username))

/-- The loop that overwrites the access of the first ACL entry of `username`;
the result is the ACL and the flag `found`. -/
def acl_set : List ACLEntry → String → AccessType → List ACLEntry × Bool
  | [], _, _ => ([], false)
  | e :: rest, username, access =>
    if e.username = username then ({ e with access := access } :: rest, true)
    else
      let r := acl_set rest username access
      (e :: r.1, r.2)

/-- The block "grant access" of `handle_approverequest` and of the
`MSG_ADDACCESS` branch of `handle_access`: the entry of the user is
overwritten, or a new entry is appended while `acl_count < MAX_ACL_ENTRIES`. -/
def grant_access (file_meta : FileMetadata) (username : String) (access : AccessType) :
    FileMetadata :=
  let r := acl_set file_meta.acl username access
  if r.2 then { file_meta with acl := r.1 }
  else if file_meta.acl.length < MAX_ACL_ENTRIES then
    { file_meta with acl := file_meta.acl ++ [{ username := username, access := access }] }
  else file_meta

/-- The loop "remove access" of `handle_access`: the first entry of the user
is removed. -/
def acl_remove : List ACLEntry → String → List ACLEntry
  | [], _ => []
  | e :: rest, username => if e.username = username then rest else e :: acl_remove rest username

/-- The function `get_next_ss_round_robin`: the state and the id returned. -/
def get_next_ss_round_robin (nm : NameServer) : NameServer × Int :=
  if nm.ss_list.length = 0 then (nm, -1)
  else
    let ss_id := (nm.next_ss_id % (nm.ss_list.length : Int)).toNat
    ({ nm with next_ss_id := nm.next_ss_id + 1 },
     match nm.ss_list.get? ss_id with
     | some ss => ss.id
     | none => 0)

/-- The loop that looks for the index of the storage server with the given
id. -/
def find_ss_idx (ss_list : List StorageServerInfo) (ss_id : Int) : Option Nat :=
  (List.range ss_list.length).find? (fun i =>
    match ss_list.get? i with
    | some ss => decide (ss.id = ss_id)
    | none => false)

/-- The function `find_ss_for_file`. -/
def find_ss_for_file (fuel : Nat) (nm : NameServer) (filename : String) :
    Option (NameServer × Int) :=
  match cache_get fuel nm.cache filename with
  | none => none
  | some (cache1, some file_meta) => some ({ nm with cache := cache1 }, file_meta.ss_id)
  | some (cache1, none) =>
    match trie_search nm.file_trie filename.data with
    | none => some ({ nm with cache := cache1 }, -1)
    | some file_meta =>
      match cache_put fuel cache1 filename file_meta with
      | none => none
      | some cache2 => some ({ nm with cache := cache2 }, file_meta.ss_id)

/-- The function `handle_create`; `ss_status` is the status of the reply of
the storage server to the forwarded request. -/
def handle_create (fuel : Nat) (nm : NameServer) (msg : Common.Message) (ss_status : Int)
    (now : Int) : Option (NameServer × Int) :=
  match trie_search nm.file_trie msg.filename.data with
  | some _ => some (nm, ERR_FILE_EXISTS)
  | none =>
    let r := get_next_ss_round_robin nm
    if r.2 < 0 then some (r.1, ERR_SS_UNAVAILABLE)
    else
      match find_ss_idx r.1.ss_list r.2 with
      | none => some (r.1, ERR_SS_UNAVAILABLE)
      | some _ =>
        if ss_status = SUCCESS then
          let file_meta : FileMetadata :=
            { filename := msg.filename, folder_path := "", owner := msg.sender, ss_id := r.2,
              size := 0, word_count := 0, char_count := 0, created := now, modified := now,
              accessed := now, last_accessed_by := msg.sender, acl := [] }
          match cache_put fuel r.1.cache msg.filename file_meta with
          | none => none
          | some cache1 =>
            some ({ r.1 with file_trie := (trie_insert r.1.file_trie msg.filename.data file_meta).1,
                             cache := cache1 }, SUCCESS)
        else some (r.1, ss_status)

/-- The function `handle_delete`; `lock_status` and `ss_status` are the
statuses of the replies of the storage server to `MSG_CHECK_LOCKS` and to
`MSG_DELETE`. -/
def handle_delete (fuel : Nat) (nm : NameServer) (msg : Common.Message)
    (lock_status ss_status : Int) : Option (NameServer × Int) :=
  match trie_search nm.file_trie msg.filename.data with
  | none => some (nm, ERR_FILE_NOT_FOUND)
  | some file_meta =>
    if file_meta.owner ≠ msg.sender then some (nm, ERR_NOT_OWNER)
    else
      match find_ss_idx nm.ss_list file_meta.ss_id with
      | none => some (nm, ERR_SS_UNAVAILABLE)
      | some _ =>
        if lock_status = ERR_FILE_LOCKED then some (nm, ERR_FILE_LOCKED)
        else if ss_status = SUCCESS then
          match cache_remove fuel nm.cache msg.filename with
          | none => none
          | some cache1 =>
            some ({ nm with file_trie := trie_delete nm.file_trie msg.filename.data,
                            cache := cache1 }, SUCCESS)
        else some (nm, ss_status)

/-- The function `handle_access` for `MSG_ADDACCESS` and `MSG_REMACCESS`; for
another message type nothing is done and the response carries the status of
`init_message`. -/
def handle_access (fuel : Nat) (nm : NameServer) (msg : Common.Message) :
    Option (NameServer × Int) :=
  match trie_search nm.file_trie msg.filename.data with
  | none => some (nm, ERR_FILE_NOT_FOUND)
  | some file_meta =>
    if file_meta.owner ≠ msg.sender then some (nm, ERR_NOT_OWNER)
    else if msg.type = Common.MSG_ADDACCESS then
      if !user_exists nm msg.target_user then some (nm, ERR_USER_NOT_FOUND)
      else if msg.target_user = msg.sender then some (nm, ERR_INVALID_OPERATION)
      else
        let meta1 := grant_access file_meta msg.target_user msg.access
        match cache_put fuel nm.cache msg.filename meta1 with
        | none => none
        | some cache1 =>
          some ({ nm with file_trie := (trie_update nm.file_trie msg.filename.data meta1).1,
                          cache := cache1 }, SUCCESS)
    else if msg.type = Common.MSG_REMACCESS then
      let meta1 := { file_meta with acl := acl_remove file_meta.acl msg.target_user }
      match cache_put fuel nm.cache msg.filename meta1 with
      | none => none
      | some cache1 =>
        some ({ nm with file_trie := (trie_update nm.file_trie msg.filename.data meta1).1,
                        cache := cache1 }, SUCCESS)
    else some (nm, SUCCESS)

/-- The function `handle_requestaccess`. -/
def handle_requestaccess (nm : NameServer) (msg : Common.Message) (now : Int) : NameServer × Int :=
  match trie_search nm.file_trie msg.filename.data with
  | none => (nm, ERR_FILE_NOT_FOUND)
  | some _ =>
    if check_access nm msg.filename msg.sender msg.access then (nm, SUCCESS)
    else if nm.access_requests.any (fun r => decide (r.username = msg.sender) &&
        decide (r.filename = msg.filename) && decide (r.requested_access = msg.access)) then
      (nm, SUCCESS)
    else if nm.access_requests.length < MAX_FILES * 10 then
      ({ nm with access_requests := nm.access_requests ++
          [{ username := msg.sender, filename := msg.filename, requested_access := msg.access,
             request_time := now }] }, SUCCESS)
    else (nm, ERR_SERVER_ERROR)

/-- The function `handle_approverequest`; the request id travels in
`sentence_index`. -/
def handle_approverequest (fuel : Nat) (nm : NameServer) (msg : Common.Message) :
    Option (NameServer × Int) :=
  let request_id := msg.sentence_index
  if request_id < 0 || request_id ≥ (nm.access_requests.length : Int) then
    some (nm, ERR_INVALID_INDEX)
  else
    match nm.access_requests.get? request_id.toNat with
    | none => some (nm, ERR_INVALID_INDEX)
    | some req =>
      match trie_search nm.file_trie req.filename.data with
      | none => some (nm, ERR_NOT_OWNER)
      | some file_meta =>
        if file_meta.owner ≠ msg.sender then some (nm, ERR_NOT_OWNER)
        else
          let meta1 := grant_access file_meta req.username req.requested_access
          match cache_put fuel nm.cache req.filename meta1 with
          | none => none
          | some cache1 =>
            some ({ nm with file_trie := (trie_update nm.file_trie req.filename.data meta1).1,
                            cache := cache1,
                            access_requests := nm.access_requests.eraseIdx request_id.toNat },
                  SUCCESS)

/-- The function `handle_denyrequest`. -/
def handle_denyrequest (nm : NameServer) (msg : Common.Message) : NameServer × Int :=
  let request_id := msg.sentence_index
  if request_id < 0 || request_id ≥ (nm.access_requests.length : Int) then (nm, ERR_INVALID_INDEX)
  else
    match nm.access_requests.get? request_id.toNat with
    | none => (nm, ERR_INVALID_INDEX)
    | some req =>
      match trie_search nm.file_trie req.filename.data with
      | none => (nm, ERR_NOT_OWNER)
      | some file_meta =>
        if file_meta.owner ≠ msg.sender then (nm, ERR_NOT_OWNER)
        else ({ nm with access_requests := nm.access_requests.eraseIdx request_id.toNat }, SUCCESS)


/-! ### Storage-server registration, data requests and the heartbeat monitor -/

/-- The calls `strtok(file_list, ",")`, `strtok(NULL, ",")`, ..: the non-empty
pieces between commas; `cur` is the piece being read. -/
def strtok_commas : List Char → List Char → List (List Char)
  | [], cur => if cur.length > 0 then [cur] else []
  | c :: rest, cur =>
    if c = ',' then (if cur.length > 0 then cur :: strtok_commas rest [] else strtok_commas rest [])
    else strtok_commas rest (cur ++ [c])

/-- The body of the loop "parse file list" of `handle_ss_connection` for one
token: the metadata of a known file gets the id of the registering server, an
unknown file is inserted with the owner `"system"`. -/
def register_file (trie : TrieNode) (token : List Char) (ss_id : Int) (now : Int) : TrieNode :=
  match trie_search trie token with
  | some existing => (trie_update trie token { existing with ss_id := ss_id }).1
  | none =>
    (trie_insert trie token
      { filename := ⟨token⟩, folder_path := "", owner := "system", ss_id := ss_id, size := 0,
        word_count := 0, char_count := 0, created := now, modified := now, accessed := now,
        last_accessed_by := "", acl := [] }).1

/-- The registration part of `handle_ss_connection` for a `MSG_REG_SS`
message (everything before the loop that waits for the server to go
inactive). -/
def handle_ss_connection (nm : NameServer) (msg : Common.Message) (now : Int) : NameServer :=
  let existing_idx := find_ss_idx nm.ss_list msg.ss_id
  if existing_idx.isNone && nm.ss_list.length ≥ MAX_SS then nm
  else
    let tokens := (strtok_commas msg.data.data []).take MAX_FILES
    let info : StorageServerInfo :=
      { id := msg.ss_id, ip := msg.sender, client_port := msg.client_port, active := true,
        last_heartbeat := now, files := tokens.map (fun t => ⟨t⟩) }
    let ss_list1 := match existing_idx with
      | some idx => nm.ss_list.set idx info
      | none => nm.ss_list ++ [info]
    { nm with ss_list := ss_list1,
              file_trie := tokens.foldl (fun trie t => register_file trie t msg.ss_id now)
                nm.file_trie }

/-- The loop of the data-request branch that writes `"%s:%d"` and `SUCCESS`
into the response for the first server with the id; the response is left as it
is when no server has the id. -/
def endpoint_of (ss_list : List StorageServerInfo) (ss_id : Int) (response : Int × List Char) :
    Int × List Char :=
  match ss_list.find? (fun ss => decide (ss.id = ss_id)) with
  | some ss => (SUCCESS, ss.ip.data ++ ':' :: Common.print_int ss.client_port)
  | none => response

/-- The branch `case MSG_READ: case MSG_WRITE: case MSG_STREAM: case MSG_UNDO:`
of the request loop of `handle_client_connection`. `response` is the status
and the data that the variable `response` holds when the branch is entered; the
result is the state and the status and data sent. `is_write` tells whether the
type is `MSG_WRITE` or `MSG_UNDO`. -/
def handle_data_request (fuel : Nat) (nm : NameServer) (msg : Common.Message) (is_write : Bool)
    (response : Int × List Char) (now : Int) : Option (NameServer × Int × List Char) :=
  let required := if is_write then ACCESS_WRITE else ACCESS_READ
  if !check_access nm msg.filename msg.sender required then
    some (nm, ERR_ACCESS_DENIED, response.2)
  else
    match find_ss_for_file fuel nm msg.filename with
    | none => none
    | some (nm1, ss_id) =>
      if ss_id < 0 then some (nm1, ERR_FILE_NOT_FOUND, response.2)
      else
        let response1 := endpoint_of nm1.ss_list ss_id response
        match trie_search nm1.file_trie msg.filename.data with
        | none => some (nm1, response1)
        | some file_meta =>
          let meta1 := { file_meta with accessed := now, last_accessed_by := msg.sender }
          match cache_put fuel nm1.cache msg.filename meta1 with
          | none => none
          | some cache1 =>
            some ({ nm1 with file_trie := (trie_update nm1.file_trie msg.filename.data meta1).1,
                             cache := cache1 }, response1)

/-- One storage server in one pass of the loop of `heartbeat_monitor`. -/
def heartbeat_check (ss : StorageServerInfo) (now : Int) : StorageServerInfo :=
  if ss.active then
    let idle := now - ss.last_heartbeat
    let timeout : Int := if idle < 60 then 60 else HEARTBEAT_TIMEOUT
    if idle > timeout then { ss with active := false } else ss
  else ss

/-- One pass of the `while (nm.running)` loop of `heartbeat_monitor`, with
`now` the value of `time(NULL)`. -/
def heartbeat_monitor (nm : NameServer) (now : Int) : NameServer :=
  { nm with ss_list := nm.ss_list.map (fun ss => heartbeat_check ss now) }


/-! ### Runs of the name server used in the statements -/

/-- A request of `sender` about `filename`. -/
def nm_request (sender filename : String) : Common.Message :=
  { Common.init_message with sender := sender, filename := filename }

/-- The registration message of the storage server `ss_id` at `10.0.0.1:9001`
with the comma-separated file list `files`. -/
def ss_registration (ss_id : Int) (files : String) : Common.Message :=
  { Common.init_message with ss_id := ss_id, sender := "10.0.0.1", client_port := 9001,
                             data := files }

/-- A name server with a cache of 100 entries on which storage server 1 has
registered with no file and `alice` has created the file `f`. -/
def nm_with_file : Option NameServer :=
  (handle_create 200 (handle_ss_connection (init_name_server 100) (ss_registration 1 "") 0)
    (nm_request "alice" "f") SUCCESS 1).map (fun r => r.1)

/-- The run: `bob` requests read access to `f` of `alice`, `alice` deletes
`f`, `bob` creates `f`, and `bob` approves the pending request 0. -/
def owner_in_acl_run : Option NameServer :=
  (((nm_with_file.map
      (fun s => (handle_requestaccess s
        { nm_request "bob" "f" with access := ACCESS_READ } 2).1)).bind
      (fun s => handle_delete 200 s (nm_request "alice" "f") SUCCESS SUCCESS)).bind
      (fun r => handle_create 200 r.1 (nm_request "bob" "f") SUCCESS 3)).bind
      (fun r => (handle_approverequest 200 r.1
        { nm_request "bob" "" with sentence_index := 0 }).map (fun q => q.1))

/-- The run: `bob` connects and requests read access to `f` of `alice`,
`alice` adds read-write access for `bob`, and then approves the pending
request 0. The result is the state before the approval and the one after. -/
def downgrade_run : Option (NameServer × NameServer) :=
  ((nm_with_file.map
      (fun s => (handle_requestaccess (client_connect s (reg_message "bob") 4 2).1
        { nm_request "bob" "f" with access := ACCESS_READ } 3).1)).bind
      (fun s => handle_access 200 s
        { nm_request "alice" "f" with type := Common.MSG_ADDACCESS, target_user := "bob",
                                      access := ACCESS_READWRITE })).bind
      (fun r => (handle_approverequest 200 r.1
        { nm_request "alice" "" with sentence_index := 0 }).map (fun q => (r.1, q.1)))

/-- The run: the heartbeat monitor runs at time 1000 and marks storage server 1
inactive, then the owner `alice` sends a read request for `f`. The result is
the state before the request and the status and data of the response. -/
def inactive_read_run : Option (NameServer × Int × List Char) :=
  nm_with_file.bind (fun s =>
    (handle_data_request 200 (heartbeat_monitor s 1000) (nm_request "alice" "f") false
      (SUCCESS, []) 1001).map (fun r => (heartbeat_monitor s 1000, r.2)))

/-- The run: storage server 2 registers with the file list `"f"` after `alice`
created `f` on storage server 1, then `find_ss_for_file` is called for `f`. The
result is the state after the registration and the id returned. -/
def stale_cache_run : Option (NameServer × Int) :=
  nm_with_file.bind (fun s =>
    (find_ss_for_file 200 (handle_ss_connection s (ss_registration 2 "f") 5) "f").map
      (fun r => (handle_ss_connection s (ss_registration 2 "f") 5, r.2)))


/-! ### Reachable states of the name server -/

/-- The events that change the state of the name server: the start and the end
of a client connection, the handlers of the request loop, the registration of
a storage server, and one pass of the heartbeat monitor. -/
inductive NMEvent where
  | connect (msg : Common.Message) (client_sock : Int) (now : Int)
  | disconnect (client_sock : Int) (idx : Nat) (now : Int)
  | create (msg : Common.Message) (ss_status : Int) (now : Int)
  | delete (msg : Common.Message) (lock_status ss_status : Int)
  | access (msg : Common.Message)
  | requestaccess (msg : Common.Message) (now : Int)
  | approverequest (msg : Common.Message)
  | denyrequest (msg : Common.Message)
  | ss_connection (msg : Common.Message) (now : Int)
  | data_request (msg : Common.Message) (is_write : Bool) (response : Int × List Char) (now : Int)
  | heartbeat (now : Int)

/-- The state after an event, `none` when a cache call of the handler does not
return. -/
def nm_step (fuel : Nat) (nm : NameServer) : NMEvent → Option NameServer
  | NMEvent.connect msg client_sock now => some (client_connect nm msg client_sock now).1
  | NMEvent.disconnect client_sock idx now => some (client_disconnect nm client_sock idx now)
  | NMEvent.create msg ss_status now => (handle_create fuel nm msg ss_status now).map (fun r => r.1)
  | NMEvent.delete msg lock_status ss_status =>
    (handle_delete fuel nm msg lock_status ss_status).map (fun r => r.1)
  | NMEvent.access msg => (handle_access fuel nm msg).map (fun r => r.1)
  | NMEvent.requestaccess msg now => some (handle_requestaccess nm msg now).1
  | NMEvent.approverequest msg => (handle_approverequest fuel nm msg).map (fun r => r.1)
  | NMEvent.denyrequest msg => some (handle_denyrequest nm msg).1
  | NMEvent.ss_connection msg now => some (handle_ss_connection nm msg now)
  | NMEvent.data_request msg is_write response now =>
    (handle_data_request fuel nm msg is_write response now).map (fun r => r.1)
  | NMEvent.heartbeat now => some (heartbeat_monitor nm now)

/-- The states that the name server reaches from `init_name_server`. -/
inductive NMReachable : NameServer → Prop where
  | init (cache_size : Nat) : NMReachable (init_name_server cache_size)
  | step (nm nm1 : NameServer) (fuel : Nat) (ev : NMEvent) :
      NMReachable nm → nm_step fuel nm ev = some nm1 → NMReachable nm1

/-- The triple (requester, filename, requested access) of a pending request. -/
def request_key (r : AccessRequest) : String × String × AccessType :=
  (r.username, r.filename, r.requested_access)

/-- The ACL entry that `check_access` reads for a user: the first one with the
user name. -/
def acl_entry (acl : List ACLEntry) (username : String) : Option ACLEntry :=
  acl.find? (fun e => decide (e.username = username))

/-- A name server whose index holds the file `f` of `alice` with the ACL entry
(`bob`, read-write), and in which the request of `bob` for read access to `f`
is pending. -/
def approve_state : NameServer :=
  { init_name_server 4 with
    file_trie := (trie_insert init_trie "f".data
      { sample_meta "f" "alice" with acl := [{ username := "bob", access := ACCESS_READWRITE }] }).1,
    access_requests := [{ username := "bob", filename := "f", requested_access := ACCESS_READ,
                          request_time := 3 }] }

/-- The loop states of `split_by_delimiters` and of `parse_file` after the same
bytes, with `rest` still to be read: both hold the same run of blanks; the
tokens saved are the same, where a word of `MAX_WORD - 1` bytes that
`parse_file` has already saved is still in the buffer of
`split_by_delimiters`. -/
structure SplitSim (sst : SplitState) (pst : ParseState) (rest : List Char) : Prop where
  space : sst.space_buf = pst.space_buf
  rest_no_nul : ∀ c ∈ rest, c ≠ NUL
  word_no_nul : ∀ c ∈ pst.word, c ≠ NUL
  run : runs_below is_word_char MAX_WORD sst.buffer.length rest = true
  in_blanks : pst.space_buf ≠ none → pst.word = [] ∧ sst.buffer = []
  pending : (sst.buffer = pst.word ∧ pst.word.length < MAX_WORD - 1 ∧
      sst.parts = pst.done.flatten ++ pst.cur) ∨
    (pst.word = [] ∧ sst.buffer.length = MAX_WORD - 1 ∧
      sst.parts ++ [sst.buffer] = pst.done.flatten ++ pst.cur)

/-! ### Storage server: lock check and file scan (`src/ss.c`) -/

/-- The function `check_file_locks`: true for the return value 1. -/
def check_file_locks : List FileLocks → String → Bool
  | [], _ => false
  | fl :: rest, filename =>
    if fl.filename = filename then fl.locks.any (fun l => l.locked)
    else check_file_locks rest filename

/-- The library function `strstr(haystack, needle) != NULL`. -/
def strstr : List Char → List Char → Bool
  | [], needle => needle.isEmpty
  | c :: rest, needle => needle.isPrefixOf (c :: rest) || strstr rest needle

/-- What `readdir` and `stat` tell about one directory entry: its name and
whether `stat` succeeds with a regular file. -/
structure DirEntry where
  d_name : String
  is_regular : Bool
deriving DecidableEq, Repr

/-- The test of the `readdir` loop of `scan_and_register_files` that decides
whether an entry is appended to `file_list`. -/
def scan_keeps (e : DirEntry) : Bool :=
  !(e.d_name = "." || e.d_name = "..") && !strstr e.d_name.data ".undo".data && e.is_regular

/-- The `readdir` loop of `scan_and_register_files`: `file_list` and
`file_count` after the entries. -/
def scan_loop : List DirEntry → List Char → Nat → List Char × Nat
  | [], file_list, file_count => (file_list, file_count)
  | e :: rest, file_list, file_count =>
    if e.d_name = "." || e.d_name = ".." then scan_loop rest file_list file_count
    else if strstr e.d_name.data ".undo".data then scan_loop rest file_list file_count
    else if e.is_regular then
      let list1 := if file_count > 0 then file_list ++ [','] else file_list
      scan_loop rest (list1 ++ e.d_name.data) (file_count + 1)
    else scan_loop rest file_list file_count

/-- The function `scan_and_register_files` on a directory that can be opened
and whose listing fits `file_list`: the field `data` of the registration
message. -/
def scan_and_register_files (entries : List DirEntry) : List Char :=
  (scan_loop entries [] 0).1

/-- A storage directory with a file, its temp file, a checkpoint, an undo
backup, and a file whose name only contains `.undo`. -/
def sample_directory : List DirEntry :=
  [{ d_name := ".", is_regular := false }, { d_name := "..", is_regular := false },
   { d_name := "f", is_regular := true }, { d_name := "f.temp_u_0", is_regular := true },
   { d_name := "f.checkpoint_v1", is_regular := true }, { d_name := "f.undo", is_regular := true },
   { d_name := "notes.undone", is_regular := true }]


/-! ## Notions used for the commit of a single write -/

/-- The loop state of `parse_file` right after a delimiter: nothing is pending
for `sentences[current_sent]`. -/
def after_delimiter (st : ParseState) : Prop :=
  st.cur = [] ∧ st.word = [] ∧ st.space_buf = none

/-- What `write_file_content` prints between the last sentence of `before` and
the sentence `s` that follows it. -/
def sep_before (before : List Sentence) (s : Sentence) : List Char :=
  match before.getLast? with
  | none => []
  | some a => sentence_separator a s

/-- What `write_file_content` prints after the words of sentence `s` when the
sentences `after` follow it. -/
def tail_after (s : Sentence) (after : List Sentence) : List Char :=
  match after with
  | [] => []
  | b :: _ => sentence_separator s b ++ write_sentences after

/-- The words of a sentence without its delimiter tokens. -/
def sentence_body (s : Sentence) : Sentence := s.filter (fun t => !first_is_delimiter t)

/-- The cache of `CACHE_SIZE = 100` slots after `cache_put("a")`,
`cache_put("la")` and `cache_remove("a")`: both keys hash to slot 70, so `"la"`
sits in slot 71 behind the slot that the removal emptied. -/
def hole_cache : Option LRUCache :=
  ((cache_put 200 (init_cache 100) "a" (sample_meta "a" "u")).bind
    (fun c => cache_put 200 c "la" (sample_meta "la" "u"))).bind
    (fun c => cache_remove 200 c "a")

/-- The part of the consistency of a cache state that every call preserves,
also `cache_remove`: the table has `capacity > 0` slots and `size` counts the
occupied ones. -/
structure CacheShape (c : LRUCache) : Prop where
  cap_pos : 0 < c.capacity
  table_len : c.hash_table.length = c.capacity
  size_eq : c.size = ((c.hash_table.countP (fun x => x.isSome) : Nat) : Int)

/-- A call leaves the capacity of the cache alone and keeps its shape. -/
def shape_kept (c c1 : LRUCache) : Prop :=
  c1.capacity = c.capacity ∧ (CacheShape c → CacheShape c1)

/-- The state of a name server with 100 cache slots after storage server 1
registered with the file `f` and `bob` asked for read access to `f`: the
request of `bob` is pending. -/
def pending_state : NameServer :=
  (handle_requestaccess (handle_ss_connection (init_name_server 100) (ss_registration 1 "f") 0)
    { nm_request "bob" "f" with access := ACCESS_READ } 1).1

/-- The metadata of `f` in `pending_state`, as the registration of storage
server 1 at time 0 wrote it. -/
def pending_meta : FileMetadata :=
  { filename := "f", folder_path := "", owner := "system", ss_id := 1, size := 0,
    word_count := 0, char_count := 0, created := 0, modified := 0, accessed := 0,
    last_accessed_by := "", acl := [] }


/-! ## Slots of the sentence array -/

theorem getSlot_setSlot_same (ss : List Sentence) (i : Nat) (s : Sentence) :
    getSlot (setSlot ss i s) i = s := by
  unfold getSlot setSlot
  by_cases h : i < ss.length
  · simp [h, List.getD_eq_getElem?_getD]
  · have hlen : (ss ++ List.replicate (i - ss.length) ([] : Sentence)).length = i := by
      simp; omega
    simp only [h, if_false, List.getD_eq_getElem?_getD]
    rw [List.getElem?_append_right (by omega)]
    simp [hlen]

theorem merge_entry_isSome_imp (files : Files) (filepath : String) (entry : CommitQueueEntry)
    (h : (merge_entry files filepath entry).isSome = true) :
    adjusted_idx_ok (sentence_count_at files filepath) entry.original_sentence_count
      (entry.sentence_idx + ((sentence_count_at files filepath : Int)
        - (entry.original_sentence_count : Int))) = true := by
  unfold merge_entry at h
  unfold sentence_count_at
  cases hp : parse_path files entry.temp_filepath with
  | none => simp [hp] at h
  | some temp_fc =>
    simp only [hp] at h
    by_contra hne
    simp only [Bool.not_eq_true] at hne
    rw [hne] at h
    simp at h

theorem adjusted_idx_ok_iff (cur orig : Nat) (adj : Int) :
    adjusted_idx_ok cur orig adj = true ↔
      ((0 ≤ adj ∧ adj < (cur : Int)) ∨ (cur = 0 ∧ orig = 0 ∧ adj = 0)) := by
  unfold adjusted_idx_ok
  by_cases h1 : cur = 0 ∧ orig = 0 ∧ adj = 0
  · obtain ⟨a, b, c⟩ := h1
    subst a b c
    simp
  · by_cases h2 : adj < 0 ∨ adj ≥ (cur : Int)
    · have : ¬ (0 ≤ adj ∧ adj < (cur : Int)) := by omega
      have h1' : ((cur == 0 && orig == 0 && adj == 0) = true) ↔ False := by
        simp only [Bool.and_eq_true, beq_iff_eq, iff_false]
        tauto
      have h2' : (decide (adj < 0) || decide (adj ≥ (cur : Int))) = true := by simpa using h2
      simp only [h1', if_false, h2', if_true]
      simp only [Bool.false_eq_true, false_iff]
      tauto
    · have : (0 ≤ adj ∧ adj < (cur : Int)) := by omega
      have h1' : ((cur == 0 && orig == 0 && adj == 0) = true) ↔ False := by
        simp only [Bool.and_eq_true, beq_iff_eq, iff_false]
        tauto
      have h2' : (decide (adj < 0) || decide (adj ≥ (cur : Int))) = false := by simpa using h2
      simp only [h1', if_false, h2', Bool.false_eq_true, true_iff]
      tauto

/-- C4. With `adjusted_idx = sentence_idx + (current_sentence_count -
original_sentence_count)`, an entry is merged only if
`0 <= adjusted_idx < current_sentence_count` or all of the current count, the
original count and the adjusted index are 0. In every other case the loop of
`process_commit_queue` drops the entry (it goes on with the rest of the queue
and the same `processed` count, having only unlinked the temp file) and the
main file holds the bytes it held before. -/
theorem rejected_entry_is_discarded (files : Files) (writable : String → Bool) (filepath : String)
    (entry : CommitQueueEntry) (rest : List CommitQueueEntry) (processed : Int)
    (htemp : entry.temp_filepath ≠ filepath) :
    ((merge_entry files filepath entry).isSome = true →
      ((0 ≤ entry.sentence_idx + ((sentence_count_at files filepath : Int)
            - (entry.original_sentence_count : Int)) ∧
        entry.sentence_idx + ((sentence_count_at files filepath : Int)
            - (entry.original_sentence_count : Int)) < (sentence_count_at files filepath : Int)) ∨
       (sentence_count_at files filepath = 0 ∧ entry.original_sentence_count = 0 ∧
        entry.sentence_idx + ((sentence_count_at files filepath : Int)
            - (entry.original_sentence_count : Int)) = 0))) ∧
    (¬ ((0 ≤ entry.sentence_idx + ((sentence_count_at files filepath : Int)
            - (entry.original_sentence_count : Int)) ∧
        entry.sentence_idx + ((sentence_count_at files filepath : Int)
            - (entry.original_sentence_count : Int)) < (sentence_count_at files filepath : Int)) ∨
       (sentence_count_at files filepath = 0 ∧ entry.original_sentence_count = 0 ∧
        entry.sentence_idx + ((sentence_count_at files filepath : Int)
            - (entry.original_sentence_count : Int)) = 0)) →
      process_entries (entry :: rest) files writable filepath processed
          = process_entries rest (fs_unlink files entry.temp_filepath) writable filepath processed ∧
      (fs_unlink files entry.temp_filepath) filepath = files filepath) := by
  constructor
  · intro h
    exact (adjusted_idx_ok_iff _ _ _).1 (merge_entry_isSome_imp files filepath entry h)
  · intro hbad
    have hnone : merge_entry files filepath entry = none := by
      cases hm : merge_entry files filepath entry with
      | none => rfl
      | some m =>
        exfalso
        apply hbad
        exact (adjusted_idx_ok_iff _ _ _).1 (merge_entry_isSome_imp files filepath entry (by simp [hm]))
    constructor
    · simp [process_entries, hnone]
    · unfold fs_unlink
      simp [Ne.symm htemp]

/-- Witness of C4: an entry that appends to the one-sentence file "A." (adjusted
index 1, current count 1) is dropped. -/
theorem rejected_entry_is_discarded_witness :
    ("t" : String) ≠ "m" ∧
    process_entries
        [{ filename := "f", username := "u", sentence_idx := 1, original_sentence_count := 1,
           temp_filepath := "t", lock_time := 0 }]
        (fun q => if q = "m" then some "A.".toList else if q = "t" then some "A. B.".toList else none)
        (fun _ => true) "m" 0
      = process_entries []
        (fs_unlink (fun q => if q = "m" then some "A.".toList
          else if q = "t" then some "A. B.".toList else none) "t")
        (fun _ => true) "m" 0 := by
  refine ⟨by decide, ?_⟩
  exact ((rejected_entry_is_discarded
    (fun q => if q = "m" then some "A.".toList else if q = "t" then some "A. B.".toList else none)
    (fun _ => true) "m"
    { filename := "f", username := "u", sentence_idx := 1, original_sentence_count := 1,
      temp_filepath := "t", lock_time := 0 } [] 0 (by decide)).2 (by decide)).1

/-! ## C5: order of the commit queue -/

/-- C5 (evaluation at the failing input). Two calls of `enqueue_commit` on the
same file, the first with lock time 20 and the second with lock time 10, leave
the queue in arrival order: lock time 20 is ahead of lock time 10. -/
theorem enqueue_commit_keeps_arrival_order :
    ((enqueue_commit [] "f" "u1" 1 2 "t1" 20).bind
        (fun q => enqueue_commit q "f" "u2" 0 2 "t2" 10)).map
      (fun q => (queue_entries q "f").map (fun e => e.lock_time)) = some [20, 10] := by
  decide

/-! ## C3: appending a sentence -/

/-- C3 (evaluation at the failing input). On the file "A." a writer locks
sentence 1 (accepted: the last sentence ends with a delimiter), writes "B." at
word 1 (accepted) and commits (answered 200): the main file is still "A.". More
generally the merge skips every entry whose sentence index equals both the
original and the current sentence count of a non-empty file. -/
theorem append_commit_is_discarded :
    (lock_write_commit "A.".toList 1 1 "B.").2 = [200, 200, 200] ∧
    (lock_write_commit "A.".toList 1 1 "B.").1.files "./ss_storage_1/f" = some "A.".toList ∧
    (∀ (files : Files) (filepath : String) (entry : CommitQueueEntry),
      0 < sentence_count_at files filepath →
      entry.original_sentence_count = sentence_count_at files filepath →
      entry.sentence_idx = (sentence_count_at files filepath : Int) →
      merge_entry files filepath entry = none) := by
  refine ⟨by decide, by decide, ?_⟩
  intro files filepath entry hpos horig hidx
  cases hm : merge_entry files filepath entry with
  | none => rfl
  | some m =>
    exfalso
    have h := (adjusted_idx_ok_iff _ _ _).1 (merge_entry_isSome_imp files filepath entry (by simp [hm]))
    rw [horig, hidx] at h
    omega

/-! ## C2: two writers on different sentences -/

/-- C2 (evaluation at the failing input). On the file "A. B." writer u1 locks
sentence 1 and writes " one. two" at word 2, writer u2 locks sentence 0 and
writes " Z" at word 2; every request is answered 200. When u1 commits first the
main file ends as "A. B one. A Z. ", when u2 commits first it ends as
"A Z. B one. two. ". -/
theorem commit_order_changes_result :
    (two_writers "A. B.".toList 1 2 " one. two" 0 2 " Z" true).2 = [200, 200, 200, 200, 200, 200] ∧
    (two_writers "A. B.".toList 1 2 " one. two" 0 2 " Z" true).1.files "./ss_storage_1/f"
      = some "A. B one. A Z. ".toList ∧
    (two_writers "A. B.".toList 1 2 " one. two" 0 2 " Z" false).2 = [200, 200, 200, 200, 200, 200] ∧
    (two_writers "A. B.".toList 1 2 " one. two" 0 2 " Z" false).1.files "./ss_storage_1/f"
      = some "A Z. B one. two. ".toList := by
  refine ⟨by decide, by decide, by decide, by decide⟩


/-! ## The lock table -/

theorem stored_name_eq (lb : Char) (u : String) (hu : u.length < MAX_USERNAME - 1) :
    stored_name lb u = u := by
  unfold stored_name copy_username
  have h : u.data.length ≤ MAX_USERNAME - 1 := by
    have : u.length = u.data.length := rfl
    omega
  simp only [decide_eq_true hu, Bool.true_or, if_true]
  rw [List.take_of_length_le h]

theorem copy_username_eq (u : String) (hu : u.length < MAX_USERNAME - 1) : copy_username u = u := by
  unfold copy_username
  have h : u.data.length ≤ MAX_USERNAME - 1 := by
    have : u.length = u.data.length := rfl
    omega
  rw [List.take_of_length_le h]

/-- The filenames of the lock table. -/
theorem init_file_locks_filenames (locks : List FileLocks) (f : String) (n : Nat) :
    (init_file_locks locks f n).map (fun fl => fl.filename) =
      if f ∈ locks.map (fun fl => fl.filename) then locks.map (fun fl => fl.filename)
      else locks.map (fun fl => fl.filename) ++ [f] := by
  induction locks with
  | nil => simp [init_file_locks]
  | cons fl rest ih =>
    unfold init_file_locks
    by_cases h : fl.filename = f
    · have hmem : f ∈ (fl :: rest).map (fun fl => fl.filename) := by simp [h]
      rw [if_pos hmem]
      simp only [h, if_true]
      split_ifs <;> simp [h]
    · have h' : ¬ f = fl.filename := fun e => h e.symm
      simp only [h, if_false, List.map_cons, ih, List.mem_cons, h', false_or]
      split <;> simp

theorem put_sentence_lock_filenames (locks : List FileLocks) (f : String) (i : Nat) (l : SentenceLock) :
    (put_sentence_lock locks f i l).map (fun fl => fl.filename) = locks.map (fun fl => fl.filename) := by
  induction locks with
  | nil => simp [put_sentence_lock]
  | cons fl rest ih =>
    unfold put_sentence_lock
    split <;> simp [ih]

theorem lock_sentence_ss_nodup (locks : List FileLocks) (f : String) (i : Int) (u : String) (now : Int)
    (lb : Char) (h : (locks.map (fun fl => fl.filename)).Nodup) :
    ((lock_sentence_ss locks f i u now lb).1.map (fun fl => fl.filename)).Nodup := by
  have hinit : ((init_file_locks locks f (i + 1).toNat).map (fun fl => fl.filename)).Nodup := by
    rw [init_file_locks_filenames]
    split
    · exact h
    · rename_i hnot
      exact List.Nodup.append h (List.nodup_singleton f) (by
        intro a ha hb
        simp at hb
        subst hb
        exact hnot ha)
  unfold lock_sentence_ss
  simp only
  split
  · exact hinit
  · split
    · exact hinit
    · simp only [put_sentence_lock_filenames]
      exact hinit

theorem unlock_sentence_ss_nodup (locks : List FileLocks) (f : String) (i : Int) (u : String)
    (h : (locks.map (fun fl => fl.filename)).Nodup) :
    ((unlock_sentence_ss locks f i u).1.map (fun fl => fl.filename)).Nodup := by
  unfold unlock_sentence_ss
  split
  · exact h
  · split
    · exact h
    · simp only [put_sentence_lock_filenames]
      exact h

theorem reachable_nodup (locks : List FileLocks) (h : LocksReachable locks) :
    (locks.map (fun fl => fl.filename)).Nodup := by
  induction h with
  | init => simp
  | lock locks f i u now _ _ lb ih => exact lock_sentence_ss_nodup locks f i u now lb ih
  | unlock locks f i u _ ih => exact unlock_sentence_ss_nodup locks f i u ih

/-- With distinct filenames, the relation `Holds` is the function `holder`. -/
theorem holds_iff_holder (locks : List FileLocks) (h : (locks.map (fun fl => fl.filename)).Nodup)
    (f : String) (i : Nat) (u : String) :
    Holds locks f i u ↔ holder locks f (i : Int) = some u := by
  induction locks with
  | nil => simp [Holds, holder, get_sentence_lock]
  | cons fl rest ih =>
    have h0 : (fl.filename :: rest.map (fun fl => fl.filename)).Nodup := h
    have hnd := List.nodup_cons.1 h0
    have ih' := ih hnd.2
    unfold holder get_sentence_lock
    by_cases hf : fl.filename = f
    · simp only [hf, if_true]
      have hrest : ¬ Holds rest f i u := by
        rintro ⟨fl', hm, hn, _⟩
        apply hnd.1
        rw [hf, ← hn]
        exact List.mem_map_of_mem _ hm
      have hiff : Holds (fl :: rest) f i u ↔
          ∃ l, fl.locks.get? i = some l ∧ l.locked = true ∧ l.locked_by = u := by
        constructor
        · rintro ⟨fl', hm, hn, hl⟩
          rcases List.mem_cons.1 hm with e | e
          · subst e; exact hl
          · exact absurd ⟨fl', e, hn, hl⟩ hrest
        · intro hl
          exact ⟨fl, List.mem_cons_self _ _, hf, hl⟩
      rw [hiff]
      by_cases hlt : i < fl.locks.length
      · have hc : (decide ((i : Int) ≥ 0) && decide ((i : Int) < (fl.locks.length : Int))) = true := by
          simp; omega
        simp only [hc, if_true, Int.toNat_ofNat]
        cases hg : fl.locks.get? i with
        | none => simp
        | some l =>
          simp only [Option.some.injEq, exists_eq_left']
          by_cases hl : l.locked = true
          · simp [hl]
          · simp [hl]
      · have hc : (decide ((i : Int) ≥ 0) && decide ((i : Int) < (fl.locks.length : Int))) = false := by
          simp; omega
        have hg : fl.locks[i]? = none := List.getElem?_eq_none (by omega)
        simp [hlt, hg]
    · simp only [hf, if_false]
      have hiff : Holds (fl :: rest) f i u ↔ Holds rest f i u := by
        constructor
        · rintro ⟨fl', hm, hn, hl⟩
          rcases List.mem_cons.1 hm with e | e
          · subst e; exact absurd hn hf
          · exact ⟨fl', e, hn, hl⟩
        · rintro ⟨fl', hm, hn, hl⟩
          exact ⟨fl', List.mem_cons_of_mem _ hm, hn, hl⟩
      rw [hiff, ih']
      rfl

theorem get_sentence_lock_cons (fl : FileLocks) (rest : List FileLocks) (f : String) (i : Int) :
    get_sentence_lock (fl :: rest) f i =
      if fl.filename = f then
        (if 0 ≤ i ∧ i < (fl.locks.length : Int) then fl.locks[i.toNat]? else none)
      else get_sentence_lock rest f i := by
  simp only [get_sentence_lock]
  by_cases h : fl.filename = f
  · simp only [h, if_true]
    by_cases hc : 0 ≤ i ∧ i < (fl.locks.length : Int)
    · have : (decide (i ≥ 0) && decide (i < (fl.locks.length : Int))) = true := by simpa using hc
      simp [this, hc]
    · have : (decide (i ≥ 0) && decide (i < (fl.locks.length : Int))) = false := by simpa using hc
      simp [this, hc]
  · simp [h]

theorem get_sentence_lock_neg (locks : List FileLocks) (f : String) (i : Int) (hi : i < 0) :
    get_sentence_lock locks f i = none := by
  induction locks with
  | nil => rfl
  | cons fl rest ih =>
    rw [get_sentence_lock_cons]
    split
    · rw [if_neg (by omega)]
    · exact ih

theorem get_sentence_lock_nil (f : String) (i : Int) : get_sentence_lock [] f i = none := rfl

/-- The slot that `get_sentence_lock` finds after `init_file_locks`: the old
slot, or a fresh lock in the grown part of the vector of `f`. -/
theorem get_init_file_locks (locks : List FileLocks) (f : String) (n : Nat) (f' : String) (i : Int) :
    get_sentence_lock (init_file_locks locks f n) f' i =
      match get_sentence_lock locks f' i with
      | some l => some l
      | none => if f' = f ∧ 0 ≤ i ∧ i < (lock_vector_size n : Int) then some fresh_lock else none := by
  generalize hm : lock_vector_size n = m
  induction locks with
  | nil =>
    simp only [init_file_locks, hm, get_sentence_lock_cons, get_sentence_lock_nil,
      List.length_replicate]
    by_cases hf : f = f'
    · subst hf
      simp only [if_true, true_and]
      by_cases hc : 0 ≤ i ∧ i < (m : Int)
      · rw [if_pos hc, if_pos hc]
        have : i.toNat < m := by omega
        simp [List.getElem?_replicate, this]
      · rw [if_neg hc, if_neg hc]
    · have hf' : ¬ f' = f := fun e => hf e.symm
      simp [hf, hf']
  | cons fl rest ih =>
    unfold init_file_locks
    rw [hm]
    by_cases h : fl.filename = f
    · simp only [h, if_true]
      by_cases hf : f = f'
      · subst hf
        by_cases hlt : fl.locks.length < m
        · rw [if_pos hlt]
          simp only [get_sentence_lock_cons, h, if_true, List.length_append, List.length_replicate,
            true_and]
          by_cases hc : 0 ≤ i ∧ i < (fl.locks.length : Int)
          · have hc2 : 0 ≤ i ∧ i < ((fl.locks.length + (m - fl.locks.length) : Nat) : Int) := by
              omega
            rw [if_pos hc, if_pos hc2]
            have hlt2 : i.toNat < fl.locks.length := by omega
            rw [List.getElem?_append_left hlt2]
            rw [List.getElem?_eq_getElem hlt2]
          · rw [if_neg hc]
            by_cases hc3 : 0 ≤ i ∧ i < (m : Int)
            · have hc2 : 0 ≤ i ∧ i < ((fl.locks.length + (m - fl.locks.length) : Nat) : Int) := by
                omega
              rw [if_pos hc2]
              simp only [hc3, and_self, if_true]
              have hge : fl.locks.length ≤ i.toNat := by omega
              rw [List.getElem?_append_right hge]
              have : i.toNat - fl.locks.length < m - fl.locks.length := by omega
              simp [List.getElem?_replicate, this]
            · have hc2 : ¬ (0 ≤ i ∧ i < ((fl.locks.length + (m - fl.locks.length) : Nat) : Int)) := by
                omega
              rw [if_neg hc2]
              simp only
              rw [if_neg hc3]
        · rw [if_neg hlt]
          simp only [get_sentence_lock_cons, h, if_true, true_and]
          by_cases hc : 0 ≤ i ∧ i < (fl.locks.length : Int)
          · rw [if_pos hc]
            have hlt2 : i.toNat < fl.locks.length := by omega
            rw [List.getElem?_eq_getElem hlt2]
          · rw [if_neg hc]
            have : ¬ (0 ≤ i ∧ i < (m : Int)) := by omega
            simp only
            rw [if_neg this]
      · have hf' : ¬ f' = f := fun e => hf e.symm
        have hff : ¬ (f' = f ∧ 0 ≤ i ∧ i < (m : Int)) := fun e => hf' e.1
        split_ifs <;> simp only [get_sentence_lock_cons, h, hf, if_false] <;>
          cases get_sentence_lock rest f' i <;> simp only [hff, if_false]
    · simp only [h, if_false, get_sentence_lock_cons]
      by_cases hf : fl.filename = f'
      · have hf' : ¬ f' = f := fun e => h (hf.trans e)
        have hff : ¬ (f' = f ∧ 0 ≤ i ∧ i < (m : Int)) := fun e => hf' e.1
        simp only [hf, if_true]
        split_ifs with hc
        · have hlt2 : i.toNat < fl.locks.length := by omega
          rw [List.getElem?_eq_getElem hlt2]
        · simp only [hff, if_false]
      · simp only [hf, if_false]
        exact ih

theorem holder_init_file_locks (locks : List FileLocks) (f : String) (n : Nat) (f' : String) (i : Int) :
    holder (init_file_locks locks f n) f' i = holder locks f' i := by
  unfold holder
  rw [get_init_file_locks]
  cases get_sentence_lock locks f' i with
  | some l => rfl
  | none =>
    simp only
    split_ifs <;> simp [fresh_lock]

/-- The slot found after a store through the pointer of an existing slot. -/
theorem get_put_sentence_lock (locks : List FileLocks) (f : String) (i : Nat) (l : SentenceLock)
    (f' : String) (j : Int) :
    get_sentence_lock (put_sentence_lock locks f i l) f' j =
      if f' = f ∧ j = (i : Int) ∧ (get_sentence_lock locks f (i : Int)).isSome = true then some l
      else get_sentence_lock locks f' j := by
  induction locks with
  | nil => simp [put_sentence_lock, get_sentence_lock]
  | cons fl rest ih =>
    unfold put_sentence_lock
    by_cases h : fl.filename = f
    · simp only [h, if_true, get_sentence_lock_cons, List.length_set]
      by_cases hf : f = f'
      · subst hf
        simp only [if_true, true_and, Int.toNat_ofNat]
        by_cases hj : j = (i : Int)
        · subst hj
          simp only [Int.toNat_ofNat, true_and]
          by_cases hc : 0 ≤ (i : Int) ∧ (i : Int) < (fl.locks.length : Int)
          · have hlt : i < fl.locks.length := by omega
            simp [hc, hlt, List.getElem?_eq_getElem, List.getElem_set]
          · have hge : ¬ i < fl.locks.length := by omega
            simp [hc, hge]
        · simp only [hj, false_and, if_false]
          by_cases hc : 0 ≤ j ∧ j < (fl.locks.length : Int)
          · simp only [hc, and_self, if_true]
            have hne : i ≠ j.toNat := by omega
            rw [List.getElem?_set_ne hne]
          · simp [hc]
      · have hf' : ¬ f' = f := fun e => hf e.symm
        simp [hf, hf']
    · simp only [h, if_false, get_sentence_lock_cons]
      by_cases hf : fl.filename = f'
      · have hf' : ¬ f' = f := fun e => h (hf.trans e)
        simp [hf, hf']
      · simp only [hf, if_false]
        exact ih

theorem init_file_locks_of_slot (locks : List FileLocks) (f : String) (i : Int) (hi : 0 ≤ i)
    (h : (get_sentence_lock locks f i).isSome = true) :
    init_file_locks locks f (i + 1).toNat = locks := by
  induction locks with
  | nil => simp [get_sentence_lock] at h
  | cons fl rest ih =>
    rw [get_sentence_lock_cons] at h
    unfold init_file_locks
    by_cases hf : fl.filename = f
    · simp only [hf, if_true] at h ⊢
      by_cases hc : 0 ≤ i ∧ i < (fl.locks.length : Int)
      · have : ¬ fl.locks.length < lock_vector_size (i + 1).toNat := by
          unfold lock_vector_size
          by_cases h0 : (i + 1).toNat = 0
          · omega
          · simp only [beq_iff_eq, h0, if_false]
            omega
        rw [if_neg this]
      · rw [if_neg hc] at h
        simp at h
    · simp only [hf, if_false] at h ⊢
      rw [ih h]

theorem holder_put_sentence_lock (locks : List FileLocks) (f : String) (i : Nat) (l : SentenceLock)
    (f' : String) (j : Int) :
    holder (put_sentence_lock locks f i l) f' j =
      if f' = f ∧ j = (i : Int) ∧ (get_sentence_lock locks f (i : Int)).isSome = true then
        (if l.locked then some l.locked_by else none)
      else holder locks f' j := by
  unfold holder
  rw [get_put_sentence_lock]
  by_cases hc : f' = f ∧ j = (i : Int) ∧ (get_sentence_lock locks f (i : Int)).isSome = true
  · rw [if_pos hc, if_pos hc]
  · rw [if_neg hc, if_neg hc]

theorem holder_none_of_neg (locks : List FileLocks) (f : String) (i : Int) (hi : i < 0) :
    holder locks f i = none := by
  unfold holder
  rw [get_sentence_lock_neg locks f i hi]


/-- The status and the new holder after `lock_sentence_ss` on a slot that is
free or already held by the caller. -/
theorem lock_sentence_ss_success (locks : List FileLocks) (f : String) (i : Int) (hi : 0 ≤ i)
    (u : String) (hu : u.length < MAX_USERNAME - 1) (now : Int) (lb : Char)
    (h : holder locks f i = none ∨ holder locks f i = some u) :
    (lock_sentence_ss locks f i u now lb).2 = SUCCESS ∧
    holder (lock_sentence_ss locks f i u now lb).1 f i = some u ∧
    (∀ f' j, ¬ (f' = f ∧ j = i) →
      holder (lock_sentence_ss locks f i u now lb).1 f' j = holder locks f' j) := by
  have hget := get_init_file_locks locks f (i + 1).toNat f i
  have hsz : i < (lock_vector_size (i + 1).toNat : Int) := by
    unfold lock_vector_size
    by_cases h0 : (i + 1).toNat = 0
    · omega
    · simp only [beq_iff_eq, h0, if_false]
      omega
  have hsome : ∃ l, get_sentence_lock (init_file_locks locks f (i + 1).toNat) f i = some l := by
    rw [hget]
    cases get_sentence_lock locks f i with
    | some l => exact ⟨l, rfl⟩
    | none => exact ⟨fresh_lock, by simp only [hi, hsz, and_self, if_true]⟩
  obtain ⟨l, hl⟩ := hsome
  have hh : holder (init_file_locks locks f (i + 1).toNat) f i = holder locks f i :=
    holder_init_file_locks _ _ _ _ _
  have hcond : (l.locked && l.locked_by != u) = false := by
    have hh2 : (if l.locked = true then some l.locked_by else none) = holder locks f i := by
      rw [← hh]
      unfold holder
      rw [hl]
    by_cases hlk : l.locked = true
    · simp only [hlk, if_true] at hh2
      rcases h with h | h
      · rw [h] at hh2; simp at hh2
      · rw [h] at hh2
        simp only [Option.some.injEq] at hh2
        simp [hlk, hh2]
    · simp [hlk]
  have hnat : ((i.toNat : Nat) : Int) = i := Int.toNat_of_nonneg hi
  unfold lock_sentence_ss
  simp only [hl, hcond, Bool.false_eq_true, if_false]
  refine ⟨?_, ?_, ?_⟩
  · first | rfl | trivial
  · rw [holder_put_sentence_lock]
    simp [hnat, hl, stored_name_eq lb u hu]
  · intro f' j hne
    rw [holder_put_sentence_lock]
    rw [hnat]
    have : ¬ (f' = f ∧ j = i ∧ (get_sentence_lock (init_file_locks locks f (i + 1).toNat) f i).isSome = true) :=
      fun e => hne ⟨e.1, e.2.1⟩
    rw [if_neg this]
    exact holder_init_file_locks _ _ _ _ _

/-- A slot held by another user: `lock_sentence_ss` answers 423 and the table is
the one it was. -/
theorem lock_sentence_ss_locked (locks : List FileLocks) (f : String) (i : Int)
    (u v : String) (now : Int) (lb : Char) (h : holder locks f i = some v) (hv : v ≠ u) :
    lock_sentence_ss locks f i u now lb = (locks, ERR_SENTENCE_LOCKED) := by
  have hi : 0 ≤ i := by
    by_contra hneg
    rw [holder_none_of_neg locks f i (by omega)] at h
    simp at h
  unfold holder at h
  cases hg : get_sentence_lock locks f i with
  | none => simp [hg] at h
  | some l =>
    simp only [hg] at h
    have hinit := init_file_locks_of_slot locks f i hi (by simp [hg])
    unfold lock_sentence_ss
    simp only [hinit, hg]
    by_cases hlk : l.locked = true
    · simp only [hlk, if_true, Option.some.injEq] at h
      have : (l.locked && l.locked_by != u) = true := by
        simp [hlk, h, hv]
      simp [this]
    · simp [hlk] at h

/-- The function `unlock_sentence_ss` on a slot held by the caller. -/
theorem unlock_sentence_ss_success (locks : List FileLocks) (f : String) (i : Int) (u : String)
    (h : holder locks f i = some u) :
    (unlock_sentence_ss locks f i u).2 = SUCCESS ∧
    holder (unlock_sentence_ss locks f i u).1 f i = none ∧
    (∀ f' j, ¬ (f' = f ∧ j = i) →
      holder (unlock_sentence_ss locks f i u).1 f' j = holder locks f' j) := by
  have hi : 0 ≤ i := by
    by_contra hneg
    rw [holder_none_of_neg locks f i (by omega)] at h
    simp at h
  have hnat : ((i.toNat : Nat) : Int) = i := Int.toNat_of_nonneg hi
  unfold holder at h
  cases hg : get_sentence_lock locks f i with
  | none => simp [hg] at h
  | some l =>
    simp only [hg] at h
    by_cases hlk : l.locked = true
    · simp only [hlk, if_true, Option.some.injEq] at h
      have : (!l.locked || l.locked_by != u) = false := by simp [hlk, h]
      unfold unlock_sentence_ss
      simp only [hg, this, Bool.false_eq_true, if_false]
      refine ⟨?_, ?_, ?_⟩
      · first | rfl | trivial
      · rw [holder_put_sentence_lock]
        simp [hnat, hg]
      · intro f' j hne
        rw [holder_put_sentence_lock, hnat]
        have : ¬ (f' = f ∧ j = i ∧ (get_sentence_lock locks f i).isSome = true) :=
          fun e => hne ⟨e.1, e.2.1⟩
        rw [if_neg this]
    · simp [hlk] at h

/-- The function `unlock_sentence_ss` on a slot the caller does not hold. -/
theorem unlock_sentence_ss_refused (locks : List FileLocks) (f : String) (i : Int) (u : String)
    (h : holder locks f i ≠ some u) :
    (unlock_sentence_ss locks f i u).1 = locks ∧
    ((unlock_sentence_ss locks f i u).2 = ERR_INVALID_INDEX ∨
      (unlock_sentence_ss locks f i u).2 = ERR_ACCESS_DENIED) := by
  unfold holder at h
  unfold unlock_sentence_ss
  cases hg : get_sentence_lock locks f i with
  | none => simp
  | some l =>
    simp only [hg] at h ⊢
    have : (!l.locked || l.locked_by != u) = true := by
      by_cases hlk : l.locked = true
      · simp only [hlk, if_true, ne_eq, Option.some.injEq] at h
        simp [hlk, h]
      · simp [hlk]
    simp [this]

/-! ## Sentence locks are mutually exclusive for short names -/

/-- In every lock table reachable through `lock_sentence_ss` and
`unlock_sentence_ss` a slot `(f, i)` has at most one holder (the table has one
entry per file, so the holders of the slot are given by `holder`). For a user
`u` whose name has fewer than `MAX_USERNAME - 1` bytes, so that `strncpy`
terminates the copy in `locked_by`: `lock_sentence_ss` answers 423 and returns the
table unchanged when the slot is held by another user; it answers 200 and makes
`u` the holder when the slot is free or already held by `u`, leaving every
other slot as it was; `unlock_sentence_ss` answers 200 and frees the slot when
`u` holds it, and otherwise answers an error (400 or 403) and returns the table
unchanged. -/
theorem sentence_locks_exclusive (locks : List FileLocks) (hreach : LocksReachable locks)
    (f : String) (i : Int) (hi : 0 ≤ i) (u : String) (hu : u.length < MAX_USERNAME - 1) (now : Int)
    (lb : Char) :
    (∀ v w, Holds locks f i.toNat v → Holds locks f i.toNat w → v = w) ∧
    (∀ v, Holds locks f i.toNat v ↔ holder locks f i = some v) ∧
    (∀ v, holder locks f i = some v → v ≠ u →
      lock_sentence_ss locks f i u now lb = (locks, ERR_SENTENCE_LOCKED)) ∧
    ((holder locks f i = none ∨ holder locks f i = some u) →
      (lock_sentence_ss locks f i u now lb).2 = SUCCESS ∧
      holder (lock_sentence_ss locks f i u now lb).1 f i = some u ∧
      (∀ f' j, ¬ (f' = f ∧ j = i) →
        holder (lock_sentence_ss locks f i u now lb).1 f' j = holder locks f' j)) ∧
    (holder locks f i = some u →
      (unlock_sentence_ss locks f i u).2 = SUCCESS ∧
      holder (unlock_sentence_ss locks f i u).1 f i = none ∧
      (∀ f' j, ¬ (f' = f ∧ j = i) →
        holder (unlock_sentence_ss locks f i u).1 f' j = holder locks f' j)) ∧
    (holder locks f i ≠ some u →
      (unlock_sentence_ss locks f i u).1 = locks ∧
      ((unlock_sentence_ss locks f i u).2 = ERR_INVALID_INDEX ∨
        (unlock_sentence_ss locks f i u).2 = ERR_ACCESS_DENIED)) := by
  have hnd := reachable_nodup locks hreach
  have hnat : ((i.toNat : Nat) : Int) = i := Int.toNat_of_nonneg hi
  have hiff : ∀ v, Holds locks f i.toNat v ↔ holder locks f i = some v := by
    intro v
    have := holds_iff_holder locks hnd f i.toNat v
    rw [hnat] at this
    exact this
  refine ⟨?_, hiff, ?_, ?_, ?_, ?_⟩
  · intro v w hv hw
    have h1 := (hiff v).1 hv
    have h2 := (hiff w).1 hw
    rw [h1] at h2
    exact Option.some.inj h2
  · intro v hv hne
    exact lock_sentence_ss_locked locks f i u v now lb hv hne
  · intro h
    exact lock_sentence_ss_success locks f i hi u hu now lb h
  · intro h
    exact unlock_sentence_ss_success locks f i u h
  · intro h
    exact unlock_sentence_ss_refused locks f i u h

/-- An instance: in the table reached when `v` locks sentence 0 of `f`, the
request of `u` for the same slot is answered 423. -/
theorem sentence_locks_exclusive_witness :
    LocksReachable (lock_sentence_ss [] "f" 0 "v" 1 NUL).1 ∧ (0 : Int) ≤ 0 ∧
    ("u" : String).length < MAX_USERNAME - 1 ∧
    lock_sentence_ss (lock_sentence_ss [] "f" 0 "v" 1 NUL).1 "f" 0 "u" 2 NUL
      = ((lock_sentence_ss [] "f" 0 "v" 1 NUL).1, ERR_SENTENCE_LOCKED) :=
  ⟨LocksReachable.lock [] "f" 0 "v" 1 LocksReachable.init (le_refl _) NUL, le_refl _, by decide,
    (sentence_locks_exclusive (lock_sentence_ss [] "f" 0 "v" 1 NUL).1
      (LocksReachable.lock [] "f" 0 "v" 1 LocksReachable.init (le_refl _) NUL) "f" 0 (le_refl _) "u"
      (by decide) 2 NUL).2.2.1 "v" (by decide) (by decide)⟩


/-! ## The scan of `parse_file` -/

theorem is_plain_of_blanks (sb : List Char) (hne : sb ≠ []) (h : ∀ c ∈ sb, is_blank c = true) :
    is_plain_token sb = true := by
  unfold is_plain_token is_space_token
  cases sb with
  | nil => exact absurd rfl hne
  | cons a t =>
    have : (a :: t).all is_blank = true := List.all_eq_true.2 h
    simp [this]

theorem is_plain_newline : is_plain_token ['\n'] = true := by decide

theorem is_plain_strdup (w : List Char) (h : ∀ c ∈ w, is_word_char c = true) :
    is_plain_token (strdup w) = true := by
  unfold is_plain_token
  have : (strdup w).all is_word_char = true := by
    apply List.all_eq_true.2
    intro c hc
    exact h c (List.takeWhile_subset _ hc)
  simp [this]

theorem flush_plain (cur : Sentence) (w : List Char) (hc : ∀ t ∈ cur, is_plain_token t = true)
    (hw : ∀ c ∈ w, is_word_char c = true) :
    ∀ t ∈ parse_flush cur w, is_plain_token t = true := by
  unfold parse_flush
  split
  · intro t ht
    rcases List.mem_append.1 ht with h | h
    · exact hc t h
    · simp at h; subst h; exact is_plain_strdup w hw
  · exact hc

theorem parse_init_inv : ParseInv parse_init := by
  constructor <;> simp [parse_init]

theorem word_char_of_not (c : Char) (h1 : is_blank c = false) (h2 : (c == '\n') = false)
    (h3 : is_delimiter c = false) : is_word_char c = true := by
  simp [is_word_char, h1, h2, h3]

theorem parse_char_inv (st : ParseState) (c : Char) (h : ParseInv st) (hs : st.space_buf = none) :
    ParseInv (parse_char st c) := by
  unfold parse_char
  by_cases hb : is_blank c = true
  · simp only [hb, if_true]
    exact
      { count := h.count
        word_chars := by simp
        space_chars := by
          intro sb hsb
          simp only [Option.some.injEq] at hsb
          subst hsb
          exact ⟨by simp, by simpa using hb, rfl⟩
        done_shape := h.done_shape
        cur_shape := flush_plain _ _ h.cur_shape h.word_chars }
  · simp only [hb, Bool.false_eq_true, if_false]
    by_cases hn : (c == '\n') = true
    · simp only [hn, if_true]
      exact
        { count := h.count
          word_chars := by simp
          space_chars := by
            intro sb hsb
            simp only [hs] at hsb
            exact absurd hsb (by simp)
          done_shape := h.done_shape
          cur_shape := by
            intro t ht
            rcases List.mem_append.1 ht with h1 | h1
            · exact flush_plain _ _ h.cur_shape h.word_chars t h1
            · simp at h1; subst h1; exact is_plain_newline }
    · simp only [hn, Bool.false_eq_true, if_false]
      by_cases hd : is_delimiter c = true
      · simp only [hd, if_true]
        exact
          { count := by simp
            word_chars := by simp
            space_chars := by simp
            done_shape := by
              intro s hm
              rcases List.mem_append.1 hm with h1 | h1
              · exact h.done_shape s h1
              · simp at h1
                exact ⟨parse_flush st.cur st.word, c, h1, hd,
                  flush_plain _ _ h.cur_shape h.word_chars⟩
            cur_shape := by simp }
      · simp only [hd, Bool.false_eq_true, if_false]
        have hwc : is_word_char c = true :=
          word_char_of_not c (by simpa using hb) (by simpa using hn) (by simpa using hd)
        have hall : ∀ x ∈ st.word ++ [c], is_word_char x = true := by
          intro x hx
          rcases List.mem_append.1 hx with h1 | h1
          · exact h.word_chars x h1
          · simp at h1; subst h1; exact hwc
        split
        · exact
            { count := h.count
              word_chars := by simp
              space_chars := by
                intro sb hsb
                simp only [hs] at hsb
                exact absurd hsb (by simp)
              done_shape := h.done_shape
              cur_shape := by
                intro t ht
                rcases List.mem_append.1 ht with h1 | h1
                · exact h.cur_shape t h1
                · simp at h1; subst h1; exact is_plain_strdup _ hall }
        · exact
            { count := h.count
              word_chars := hall
              space_chars := by
                intro sb hsb
                simp only [hs] at hsb
                exact absurd hsb (by simp)
              done_shape := h.done_shape
              cur_shape := h.cur_shape }

theorem parse_step_inv (st : ParseState) (c : Char) (h : ParseInv st) : ParseInv (parse_step st c) := by
  unfold parse_step
  cases hs : st.space_buf with
  | none => exact parse_char_inv st c h hs
  | some sb =>
    simp only
    obtain ⟨hne, hbl, hw⟩ := h.space_chars sb hs
    by_cases hb : is_blank c = true
    · simp only [hb, if_true]
      exact
        { count := h.count
          word_chars := h.word_chars
          space_chars := by
            intro sb' hsb
            simp only [Option.some.injEq] at hsb
            subst hsb
            refine ⟨?_, ?_, hw⟩
            · unfold space_push
              split
              · simp
              · exact hne
            · unfold space_push
              split
              · intro x hx
                rcases List.mem_append.1 hx with h1 | h1
                · exact hbl x h1
                · simp at h1; subst h1; exact hb
              · exact hbl
          done_shape := h.done_shape
          cur_shape := h.cur_shape }
    · simp only [hb, Bool.false_eq_true, if_false]
      apply parse_char_inv
      · exact
          { count := h.count
            word_chars := h.word_chars
            space_chars := by simp
            done_shape := h.done_shape
            cur_shape := by
              intro t ht
              rcases List.mem_append.1 ht with h1 | h1
              · exact h.cur_shape t h1
              · simp at h1; rw [h1]; exact is_plain_of_blanks sb hne hbl }
      · rfl

theorem parse_loop_inv (bytes : List Char) (st : ParseState) (h : ParseInv st) :
    ParseInv (parse_loop bytes st) := by
  induction bytes generalizing st with
  | nil => exact h
  | cons c rest ih => exact ih _ (parse_step_inv st c h)

theorem final_cur_plain (st : ParseState) (h : ParseInv st) :
    ∀ t ∈ final_cur st, is_plain_token t = true := by
  unfold final_cur
  apply flush_plain _ _ _ h.word_chars
  cases hs : st.space_buf with
  | none => exact h.cur_shape
  | some sb =>
    obtain ⟨hne, hbl, _⟩ := h.space_chars sb hs
    intro t ht
    rcases List.mem_append.1 ht with h1 | h1
    · exact h.cur_shape t h1
    · simp at h1; rw [h1]; exact is_plain_of_blanks sb hne hbl

/-- The counted sentences of the result of `parse_file`: the finished sentences,
followed by the last one when it is not empty. -/
theorem counted_parse_finish (st : ParseState) (h : ParseInv st) :
    (parse_finish st).sentences = st.done ++ [final_cur st] ∧
    (parse_finish st).sentence_count = st.done.length + (if final_cur st = [] then 0 else 1) ∧
    counted (parse_finish st) = st.done ++ (if final_cur st = [] then [] else [final_cur st]) := by
  have hsl : (parse_finish st).sentences = st.done ++ [final_cur st] := rfl
  have hget : (st.done ++ [final_cur st]).getD st.done.length [] = final_cur st := by
    simp [List.getD_eq_getElem?_getD]
  have hcount : (parse_finish st).sentence_count
      = st.done.length + (if final_cur st = [] then 0 else 1) := by
    show (if ((st.done ++ [final_cur st]).getD st.done.length []).length > 0 then st.done.length + 1
      else if (decide (st.sentence_count > 0) &&
          ((st.done ++ [final_cur st]).getD (st.sentence_count - 1) []).length == 0) = true
        then st.sentence_count - 1 else st.sentence_count) = _
    rw [hget]
    by_cases he : final_cur st = []
    · rw [he]
      simp only [List.length_nil, gt_iff_lt, lt_self_iff_false, if_false, if_true, add_zero]
      rw [h.count]
      by_cases hd : st.done = []
      · simp [hd]
      · simp only [hd, if_false]
        have : (st.done ++ [([] : Sentence)]).getD (st.done.length + 1 - 1) [] = [] := by
          simp [List.getD_eq_getElem?_getD]
        simp [this]
    · have : (final_cur st).length > 0 := List.length_pos.2 he
      simp [this, he]
  refine ⟨hsl, hcount, ?_⟩
  unfold counted
  rw [hsl, hcount]
  by_cases he : final_cur st = []
  · simp [he]
  · simp [he]

/-! ### Tokens of a parsed file -/

theorem not_delimiter_of_blank (c : Char) (h : is_blank c = true) : is_delimiter c = false := by
  simp only [is_blank, Bool.or_eq_true, beq_iff_eq] at h
  rcases h with (rfl | rfl) | rfl <;> decide

theorem not_delimiter_of_word_char (c : Char) (h : is_word_char c = true) : is_delimiter c = false := by
  simp only [is_word_char, Bool.and_eq_true, Bool.not_eq_true'] at h
  exact h.2

theorem plain_first_not_delimiter (t : Token) (h : is_plain_token t = true) :
    first_is_delimiter t = false := by
  cases t with
  | nil => rfl
  | cons c rest =>
    simp only [is_plain_token, Bool.or_eq_true] at h
    show is_delimiter c = false
    rcases h with (h | h) | h
    · simp only [is_newline_token, beq_iff_eq, List.cons.injEq] at h
      rw [h.1]; decide
    · simp only [is_space_token, List.all_cons, Bool.and_eq_true] at h
      exact not_delimiter_of_blank c h.1
    · simp only [List.all_cons, Bool.and_eq_true] at h
      exact not_delimiter_of_word_char c h.1

theorem delimiter_token_first (t : Token) (h : is_delimiter_token t = true) :
    first_is_delimiter t = true := by
  match t, h with
  | [c], h => exact h

theorem plain_not_delimiter_token (t : Token) (h : is_plain_token t = true) :
    is_delimiter_token t = false := by
  by_contra hd
  simp only [Bool.not_eq_false] at hd
  have := delimiter_token_first t hd
  rw [plain_first_not_delimiter t h] at this
  exact absurd this (by simp)

/-- The sentences that `parse_file` counts: none is empty, and a token starts
with a delimiter exactly when it is a delimiter token. -/
theorem parse_file_counted (bytes : List Char) :
    ∀ s ∈ counted (parse_file bytes), s ≠ [] ∧
      ∀ t ∈ s, first_is_delimiter t = is_delimiter_token t := by
  have hinv : ParseInv (parse_loop bytes parse_init) := parse_loop_inv bytes _ parse_init_inv
  have hc := (counted_parse_finish _ hinv).2.2
  intro s hs
  unfold parse_file at hs
  rw [hc] at hs
  have hplain : ∀ t, is_plain_token t = true → first_is_delimiter t = is_delimiter_token t := by
    intro t ht
    rw [plain_first_not_delimiter t ht, plain_not_delimiter_token t ht]
  rcases List.mem_append.1 hs with h | h
  · obtain ⟨body, d, hsd, hd, hb⟩ := hinv.done_shape s h
    subst hsd
    refine ⟨by simp, ?_⟩
    intro t ht
    rcases List.mem_append.1 ht with h1 | h1
    · exact hplain t (hb t h1)
    · simp at h1
      rw [h1]
      show is_delimiter d = is_delimiter d
      rfl
  · by_cases he : final_cur (parse_loop bytes parse_init) = []
    · simp [he] at h
    · simp only [he, if_false, List.mem_singleton] at h
      subst h
      exact ⟨he, fun t ht => hplain t (final_cur_plain _ hinv t ht)⟩

/-- The slot below the count is the last counted sentence. -/
theorem parse_file_last_slot (bytes : List Char) (h : 0 < (parse_file bytes).sentence_count) :
    (counted (parse_file bytes)).getLast?
      = some (getSlot (parse_file bytes).sentences ((parse_file bytes).sentence_count - 1)) := by
  have hinv : ParseInv (parse_loop bytes parse_init) := parse_loop_inv bytes _ parse_init_inv
  obtain ⟨hs, hn, hc⟩ := counted_parse_finish _ hinv
  unfold parse_file at h ⊢
  rw [hc, hs, hn]
  rw [hn] at h
  unfold getSlot
  by_cases he : final_cur (parse_loop bytes parse_init) = []
  · simp only [he, if_true, add_zero, List.append_nil] at h ⊢
    have hlt : (parse_loop bytes parse_init).done.length - 1 < (parse_loop bytes parse_init).done.length := by
      omega
    rw [List.getD_eq_getElem?_getD, List.getElem?_append_left hlt, List.getLast?_eq_getElem?]
    simp [List.getElem?_eq_getElem hlt]
  · simp only [he, if_false]
    simp [List.getD_eq_getElem?_getD]


/-! ## C8: validity of a lock request -/

theorem lock_sentence_ss_status (locks : List FileLocks) (f : String) (i : Int) (hi : 0 ≤ i)
    (u : String) (now : Int) (lb : Char) :
    (lock_sentence_ss locks f i u now lb).2 = SUCCESS ∨
    (lock_sentence_ss locks f i u now lb).2 = ERR_SENTENCE_LOCKED := by
  have hget := get_init_file_locks locks f (i + 1).toNat f i
  have hsz : i < (lock_vector_size (i + 1).toNat : Int) := by
    unfold lock_vector_size
    by_cases h0 : (i + 1).toNat = 0
    · omega
    · simp only [beq_iff_eq, h0, if_false]
      omega
  have hsome : ∃ l, get_sentence_lock (init_file_locks locks f (i + 1).toNat) f i = some l := by
    rw [hget]
    cases get_sentence_lock locks f i with
    | some l => exact ⟨l, rfl⟩
    | none => exact ⟨fresh_lock, by simp only [hi, hsz, and_self, if_true]⟩
  obtain ⟨l, hl⟩ := hsome
  unfold lock_sentence_ss
  simp only [hl]
  split
  · right; rfl
  · left; rfl

theorem start_write_session_ss_status (ss : StorageServer) (f u : String) (i : Int) (now : Int) :
    (start_write_session_ss ss f u i now).2 = SUCCESS ∨
    (start_write_session_ss ss f u i now).2 = ERR_SERVER_ERROR := by
  unfold start_write_session_ss
  simp only
  split
  · right; rfl
  · split
    · right; rfl
    · split <;> (left; rfl)

/-- The check of `case MSG_LOCK_SENTENCE` in terms of the parsed file. -/
theorem lock_index_invalid_iff (files : Files) (path : String) (idx : Int) :
    lock_index_invalid files path idx = true ↔
      ((sentence_count_at files path = 0 ∧ idx ≠ 0) ∨ idx < 0 ∨
        idx > (sentence_count_at files path : Int) ∨
        (idx = (sentence_count_at files path : Int) ∧ 1 ≤ sentence_count_at files path ∧
          ∃ t, last_token_at files path = some t ∧
            is_delimiter_token t = false ∧ is_newline_token t = false)) := by
  unfold lock_index_invalid sentence_count_at last_token_at
  cases hp : parse_path files path with
  | none => simp
  | some fc =>
    obtain ⟨bytes, hb, hfc⟩ : ∃ bytes, files path = some bytes ∧ fc = parse_file bytes := by
      unfold parse_path at hp
      cases hfp : files path with
      | none => simp [hfp] at hp
      | some b =>
        simp only [hfp, Option.map_some', Option.some.injEq] at hp
        exact ⟨b, rfl, hp.symm⟩
    simp only [Option.getD_some]
    by_cases h0 : fc.sentence_count = 0
    · simp [h0]
    · have hpos : 0 < fc.sentence_count := Nat.pos_of_ne_zero h0
      have h0' : (fc.sentence_count == 0) = false := by simpa using h0
      simp only [h0', Bool.false_eq_true, if_false, h0, false_and, false_or]
      by_cases hr : idx < 0 ∨ idx > (fc.sentence_count : Int)
      · have : (decide (idx < 0) || decide (idx > (fc.sentence_count : Int))) = true := by simpa using hr
        simp only [this, if_true, true_iff]
        rcases hr with h | h
        · exact Or.inl h
        · exact Or.inr (Or.inl h)
      · have : (decide (idx < 0) || decide (idx > (fc.sentence_count : Int))) = false := by simpa using hr
        simp only [this, Bool.false_eq_true, if_false]
        by_cases he : idx = (fc.sentence_count : Int)
        · have he' : (idx == (fc.sentence_count : Int)) = true := by simpa using he
          simp only [he', if_true]
          have hlast := parse_file_last_slot bytes (by rw [← hfc]; exact hpos)
          rw [← hfc] at hlast
          have hmem : getSlot fc.sentences (fc.sentence_count - 1) ∈ counted fc :=
            List.mem_of_getLast?_eq_some hlast
          have hprop := parse_file_counted bytes _ (by rw [← hfc]; exact hmem)
          rw [hlast]
          simp only [Option.some_bind]
          cases hg : (getSlot fc.sentences (fc.sentence_count - 1)).getLast? with
          | none =>
            exact absurd (List.getLast?_eq_none_iff.1 hg) hprop.1
          | some w =>
            have hw := hprop.2 w (List.mem_of_getLast?_eq_some hg)
            simp only [hw]
            constructor
            · intro h
              right; right
              refine ⟨he, hpos, w, rfl, ?_⟩
              simpa using h
            · intro h
              rcases h with h | h | h
              · omega
              · omega
              · obtain ⟨_, _, t, ht, h1, h2⟩ := h
                simp only [Option.some.injEq] at ht
                subst ht
                simp [h1, h2]
        · have he' : (idx == (fc.sentence_count : Int)) = false := by simpa using he
          simp only [he', Bool.false_eq_true, if_false, false_iff]
          intro h
          rcases h with h | h | h
          · exact hr (Or.inl h)
          · exact hr (Or.inr h)
          · exact he h.1

/-- C8. A LOCK_SENTENCE request for index `idx` on a file that parses into `n`
sentences (`n = 0` when the file cannot be opened) is answered 400 if and only
if `n = 0` and `idx` is not 0, or `idx < 0`, or `idx > n`, or `idx = n >= 1` and
the last token of the last sentence is neither a delimiter token nor the
newline token; when it is answered 400 the server state is unchanged: no lock
slot and no write session is created. -/
theorem lock_request_invalid_iff (ss : StorageServer) (msg : Message) (now : Int) :
    ((handle_lock_sentence ss msg now).2 = ERR_INVALID_INDEX ↔
      ((sentence_count_at ss.files (file_path ss.storage_path msg.filename) = 0 ∧
          msg.sentence_index ≠ 0) ∨
        msg.sentence_index < 0 ∨
        msg.sentence_index > (sentence_count_at ss.files (file_path ss.storage_path msg.filename) : Int) ∨
        (msg.sentence_index = (sentence_count_at ss.files (file_path ss.storage_path msg.filename) : Int) ∧
          1 ≤ sentence_count_at ss.files (file_path ss.storage_path msg.filename) ∧
          ∃ t, last_token_at ss.files (file_path ss.storage_path msg.filename) = some t ∧
            is_delimiter_token t = false ∧ is_newline_token t = false))) ∧
    ((handle_lock_sentence ss msg now).2 = ERR_INVALID_INDEX →
      (handle_lock_sentence ss msg now).1 = ss) := by
  have hiff := lock_index_invalid_iff ss.files (file_path ss.storage_path msg.filename) msg.sentence_index
  by_cases hinv : lock_index_invalid ss.files (file_path ss.storage_path msg.filename) msg.sentence_index = true
  · have hr : handle_lock_sentence ss msg now = (ss, ERR_INVALID_INDEX) := by
      unfold handle_lock_sentence
      simp [hinv]
    rw [hr]
    exact ⟨⟨fun _ => hiff.1 hinv, fun _ => rfl⟩, fun _ => rfl⟩
  · have hcond := fun h => hinv (hiff.2 h)
    have hi : 0 ≤ msg.sentence_index := by
      by_contra hneg
      exact hcond (Or.inr (Or.inl (by omega)))
    have hne : (handle_lock_sentence ss msg now).2 ≠ ERR_INVALID_INDEX := by
      unfold handle_lock_sentence
      simp only [hinv, Bool.false_eq_true, if_false]
      have h1 := lock_sentence_ss_status ss.file_locks msg.filename msg.sentence_index hi msg.sender now
        (ss.lock_junk msg.filename msg.sentence_index)
      split
      · rename_i hs
        have h2 := start_write_session_ss_status
          { ss with file_locks := (lock_sentence_ss ss.file_locks msg.filename msg.sentence_index msg.sender now
            (ss.lock_junk msg.filename msg.sentence_index)).1 }
          msg.filename msg.sender msg.sentence_index now
        split
        · rcases h2 with h2 | h2 <;> rw [h2] <;> decide
        · rcases h1 with h1 | h1 <;> rw [h1] <;> decide
      · rcases h1 with h1 | h1 <;> rw [h1] <;> decide
    exact ⟨⟨fun h => absurd h hne, fun h => absurd h hcond⟩, fun h => absurd h hne⟩

/-- The example of C8: the file "hello" has one sentence without a final
delimiter, and a lock request for index 1 is answered 400. -/
theorem lock_hello_rejected :
    (handle_lock_sentence (single_file_server "hello".toList) (request "u" 1 1 "x") 7).2
      = ERR_INVALID_INDEX := by
  decide


/-! ## Write sessions -/

theorem has_session_iff_count (l : List WriteSession) (f u : String) (i : Int) :
    has_session l f u i = true ↔ 0 < session_count l f u i := by
  unfold has_session session_count
  rw [List.countP_pos_iff, List.any_eq_true]

theorem find_session_none_iff (l : List WriteSession) (f u : String) (i : Int) :
    find_session l f u i = none ↔ has_session l f u i = false := by
  unfold find_session has_session
  rw [List.find?_eq_none]
  simp

theorem session_matches_key (s : WriteSession) (f u : String) (i : Int) (f' u' : String) (i' : Int)
    (h : session_matches s f u i = true) (h' : session_matches s f' u' i' = true) :
    f' = f ∧ u' = u ∧ i' = i := by
  simp only [session_matches, Bool.and_eq_true, decide_eq_true_eq] at h h'
  obtain ⟨⟨⟨_, a⟩, b⟩, c⟩ := h
  obtain ⟨⟨⟨_, a'⟩, b'⟩, c'⟩ := h'
  exact ⟨a'.symm.trans a ▸ rfl, b'.symm.trans b ▸ rfl, c'.symm.trans c ▸ rfl⟩

theorem count_stamp_session (l : List WriteSession) (f u : String) (i : Int) (c : Nat) (t : Int)
    (f' u' : String) (i' : Int) :
    session_count (stamp_session l f u i c t) f' u' i' = session_count l f' u' i' := by
  unfold session_count
  induction l with
  | nil => rfl
  | cons s rest ih =>
    unfold stamp_session
    split
    · simp only [List.countP_cons]
      rfl
    · simp only [List.countP_cons, ih]

theorem count_drop_session (l : List WriteSession) (f u : String) (i : Int)
    (f' u' : String) (i' : Int) :
    session_count (drop_session l f u i) f' u' i' =
      if f' = f ∧ u' = u ∧ i' = i then session_count l f u i - 1 else session_count l f' u' i' := by
  unfold session_count
  induction l with
  | nil => simp [drop_session]
  | cons s rest ih =>
    unfold drop_session
    by_cases hm : session_matches s f u i = true
    · simp only [hm, if_true, List.countP_cons]
      by_cases hk : f' = f ∧ u' = u ∧ i' = i
      · obtain ⟨a, b, c⟩ := hk
        subst a b c
        simp [hm]
      · rw [if_neg hk]
        have : session_matches s f' u' i' = false := by
          by_contra hc
          simp only [Bool.not_eq_false] at hc
          exact hk (session_matches_key s f u i f' u' i' hm hc)
        simp [this]
    · simp only [hm, Bool.false_eq_true, if_false, List.countP_cons, ih]
      by_cases hk : f' = f ∧ u' = u ∧ i' = i
      · obtain ⟨a, b, c⟩ := hk
        subst a b c
        simp [hm]
      · simp [hk]

theorem count_append_session (l : List WriteSession) (s : WriteSession) (f' u' : String) (i' : Int) :
    session_count (l ++ [s]) f' u' i' =
      session_count l f' u' i' + (if session_matches s f' u' i' = true then 1 else 0) := by
  unfold session_count
  simp [List.countP_append, List.countP_cons]

theorem has_session_false_iff (l : List WriteSession) (f u : String) (i : Int) :
    has_session l f u i = false ↔ session_count l f u i = 0 := by
  have := has_session_iff_count l f u i
  constructor
  · intro h
    by_contra hne
    have : has_session l f u i = true := this.2 (Nat.pos_of_ne_zero hne)
    rw [h] at this
    exact absurd this (by simp)
  · intro h
    by_contra hne
    simp only [Bool.not_eq_false] at hne
    have := this.1 hne
    omega

/-! ### Frames of the handlers: what each function leaves alone -/

theorem drop_session_of_count_zero (l : List WriteSession) (f u : String) (i : Int)
    (h : session_count l f u i = 0) : drop_session l f u i = l := by
  induction l with
  | nil => rfl
  | cons s rest ih =>
    unfold session_count at h ih
    rw [List.countP_cons] at h
    have hm : session_matches s f u i = false := by
      by_contra hc
      simp only [Bool.not_eq_false] at hc
      simp [hc] at h
    unfold drop_session
    simp only [hm, Bool.false_eq_true, if_false]
    have h2 : List.countP (fun s => session_matches s f u i) rest = 0 := by
      rw [hm] at h
      simpa using h
    rw [ih h2]

theorem remove_write_session_frame (ss : StorageServer) (f u : String) (i : Int) :
    (remove_write_session ss f u i).file_locks = ss.file_locks ∧
    (remove_write_session ss f u i).write_sessions = drop_session ss.write_sessions f u i := by
  unfold remove_write_session
  cases hfs : find_session ss.write_sessions f u i with
  | some s => exact ⟨rfl, rfl⟩
  | none =>
    refine ⟨rfl, ?_⟩
    have hcount := (has_session_false_iff _ _ _ _).1 ((find_session_none_iff _ _ _ _).1 hfs)
    exact (drop_session_of_count_zero _ _ _ _ hcount).symm

theorem write_file_ss_frame (ss : StorageServer) (f u : String) (i w : Int) (c : List Char) :
    (write_file_ss ss f u i w c).1.file_locks = ss.file_locks ∧
    (write_file_ss ss f u i w c).1.write_sessions = ss.write_sessions := by
  unfold write_file_ss
  cases find_session ss.write_sessions f u i with
  | none => exact ⟨rfl, rfl⟩
  | some session =>
    simp only
    split_ifs <;> exact ⟨rfl, rfl⟩

theorem process_commit_queue_frame (ss : StorageServer) (f : String) :
    (process_commit_queue ss f).1.file_locks = ss.file_locks ∧
    (process_commit_queue ss f).1.write_sessions = ss.write_sessions := by
  unfold process_commit_queue
  split <;> exact ⟨rfl, rfl⟩

theorem commit_write_session_ss_frame (ss : StorageServer) (f u : String) (i : Int) :
    (commit_write_session_ss ss f u i).1.file_locks = ss.file_locks ∧
    (commit_write_session_ss ss f u i).1.write_sessions = drop_session ss.write_sessions f u i := by
  unfold commit_write_session_ss
  cases hfs : find_session ss.write_sessions f u i with
  | none =>
    have h := remove_write_session_frame ss f u i
    unfold remove_write_session at h
    simp only [hfs] at h
    exact ⟨rfl, h.2⟩
  | some s =>
    simp only
    split
    · exact remove_write_session_frame ss f u i
    · rename_i queues1 _
      have h := process_commit_queue_frame
        { ss with commit_queues := queues1,
                  write_sessions := drop_session ss.write_sessions f u i } f
      exact h


/-! ## Write sessions and sentence locks, for short sender names -/

/-- The agreement of sessions and locks in terms of session counts. -/
theorem sessions_match_locks_iff (sessions : List WriteSession) (locks : List FileLocks) :
    ((∀ f u i, session_count sessions f u i ≤ 1) ∧
      (∀ f u i, has_session sessions f u i = true ↔ holder locks f i = some u)) ↔
    (∀ f u i, session_count sessions f u i ≤ 1 ∧
      (0 < session_count sessions f u i ↔ holder locks f i = some u)) := by
  constructor
  · rintro ⟨h1, h2⟩ f u i
    exact ⟨h1 f u i, by rw [← has_session_iff_count]; exact h2 f u i⟩
  · intro h
    exact ⟨fun f u i => (h f u i).1, fun f u i => by rw [has_session_iff_count]; exact (h f u i).2⟩

/-- Dropping the session of `(f, u, i)` and unlocking `(f, i)` for `u` keeps
sessions and locks in agreement. -/
theorem drop_unlock_preserves (sessions : List WriteSession) (locks : List FileLocks)
    (f u : String) (i : Int)
    (h : ∀ f u i, session_count sessions f u i ≤ 1 ∧
      (0 < session_count sessions f u i ↔ holder locks f i = some u)) :
    ∀ f' u' i', session_count (drop_session sessions f u i) f' u' i' ≤ 1 ∧
      (0 < session_count (drop_session sessions f u i) f' u' i' ↔
        holder (unlock_sentence_ss locks f i u).1 f' i' = some u') := by
  intro f' u' i'
  rw [count_drop_session]
  by_cases hh : holder locks f i = some u
  · obtain ⟨_, hnone, hframe⟩ := unlock_sentence_ss_success locks f i u hh
    have hc := h f u i
    by_cases hk : f' = f ∧ u' = u ∧ i' = i
    · obtain ⟨a, b, c⟩ := hk
      subst a b c
      simp only [and_self, if_true]
      rw [hnone]
      constructor
      · omega
      · constructor
        · intro hpos; omega
        · intro hx; exact absurd hx (by simp)
    · rw [if_neg hk]
      by_cases hfi : f' = f ∧ i' = i
      · obtain ⟨a, c⟩ := hfi
        subst a c
        have hu : u' ≠ u := fun e => hk ⟨rfl, e, rfl⟩
        rw [hnone]
        have hc' := h f' u' i'
        refine ⟨hc'.1, ?_⟩
        constructor
        · intro hpos
          have := hc'.2.1 hpos
          rw [hh] at this
          exact absurd (Option.some.inj this).symm hu
        · intro hx; exact absurd hx (by simp)
      · rw [hframe f' i' hfi]
        exact h f' u' i'
  · obtain ⟨hsame, _⟩ := unlock_sentence_ss_refused locks f i u hh
    rw [hsame]
    have hc := h f u i
    have hzero : session_count sessions f u i = 0 := by
      by_contra hne
      exact hh (hc.2.1 (Nat.pos_of_ne_zero hne))
    by_cases hk : f' = f ∧ u' = u ∧ i' = i
    · obtain ⟨a, b, c⟩ := hk
      subst a b c
      simp only [and_self, if_true]
      rw [hzero]
      have := h f' u' i'
      rw [hzero] at this
      exact this
    · rw [if_neg hk]
      exact h f' u' i'

theorem handle_unlock_sentence_frame (ss : StorageServer) (msg : Message) :
    (handle_unlock_sentence ss msg).1.write_sessions
      = drop_session ss.write_sessions msg.filename msg.sender msg.sentence_index ∧
    (handle_unlock_sentence ss msg).1.file_locks
      = (unlock_sentence_ss ss.file_locks msg.filename msg.sentence_index msg.sender).1 := by
  have h := commit_write_session_ss_frame ss msg.filename msg.sender msg.sentence_index
  unfold handle_unlock_sentence
  simp only
  exact ⟨h.2, by rw [h.1]⟩

theorem handle_cancel_write_frame (ss : StorageServer) (msg : Message) :
    (handle_cancel_write ss msg).1.write_sessions
      = drop_session ss.write_sessions msg.filename msg.sender msg.sentence_index ∧
    (handle_cancel_write ss msg).1.file_locks
      = (unlock_sentence_ss ss.file_locks msg.filename msg.sentence_index msg.sender).1 := by
  have h := remove_write_session_frame ss msg.filename msg.sender msg.sentence_index
  unfold handle_cancel_write cancel_write_session_ss
  simp only
  exact ⟨h.2, by rw [h.1]⟩

theorem count_pos_of_find (l : List WriteSession) (f u : String) (i : Int) (s : WriteSession)
    (h : find_session l f u i = some s) : 0 < session_count l f u i := by
  rw [← has_session_iff_count]
  by_contra hc
  simp only [Bool.not_eq_true] at hc
  rw [← find_session_none_iff] at hc
  rw [hc] at h
  exact absurd h (by simp)

theorem new_session_matches (sp f u : String) (i : Int) (f' u' : String) (i' : Int) :
    session_matches
      { filename := f, username := u, sentence_idx := i, temp_filepath := sp,
        active := true, original_sentence_count := 0, lock_time := 0 } f' u' i' = true ↔
      (f' = f ∧ u' = u ∧ i' = i) := by
  simp only [session_matches, Bool.true_and, Bool.and_eq_true, decide_eq_true_eq]
  constructor
  · rintro ⟨⟨a, b⟩, c⟩; exact ⟨a.symm, b.symm, c.symm⟩
  · rintro ⟨a, b, c⟩; exact ⟨⟨a.symm, b.symm⟩, c.symm⟩

theorem count_stamp_append_new (l : List WriteSession) (tp f u : String) (i : Int) (c : Nat) (t : Int)
    (f' u' : String) (i' : Int) :
    session_count (stamp_session
      (l ++ [{ filename := f, username := u, sentence_idx := i, temp_filepath := tp,
               active := true, original_sentence_count := 0, lock_time := 0 }]) f u i c t) f' u' i'
      = session_count l f' u' i' + (if f' = f ∧ u' = u ∧ i' = i then 1 else 0) := by
  rw [count_stamp_session, count_append_session]
  by_cases hk : f' = f ∧ u' = u ∧ i' = i
  · rw [if_pos hk, if_pos ((new_session_matches tp f u i f' u' i').2 hk)]
  · rw [if_neg hk, if_neg (fun e => hk ((new_session_matches tp f u i f' u' i').1 e))]

/-- What `start_write_session_ss` does to the sessions: on success the caller
has exactly one session, on failure none; the sessions of other keys and the
lock table are left alone. -/
theorem start_write_session_ss_sessions (ss : StorageServer) (f u : String) (i : Int) (now : Int)
    (hle : session_count ss.write_sessions f u i ≤ 1) :
    (start_write_session_ss ss f u i now).1.file_locks = ss.file_locks ∧
    (((start_write_session_ss ss f u i now).2 = SUCCESS ∧
        ∀ f' u' i', session_count (start_write_session_ss ss f u i now).1.write_sessions f' u' i' =
          if f' = f ∧ u' = u ∧ i' = i then 1 else session_count ss.write_sessions f' u' i') ∨
     ((start_write_session_ss ss f u i now).2 = ERR_SERVER_ERROR ∧
        ∀ f' u' i', session_count (start_write_session_ss ss f u i now).1.write_sessions f' u' i' =
          if f' = f ∧ u' = u ∧ i' = i then 0 else session_count ss.write_sessions f' u' i')) := by
  unfold start_write_session_ss
  simp only
  cases hfs : find_session ss.write_sessions f u i with
  | none =>
    have hzero : session_count ss.write_sessions f u i = 0 :=
      (has_session_false_iff _ _ _ _).1 ((find_session_none_iff _ _ _ _).1 hfs)
    simp only [Option.isNone_none, Bool.true_and]
    split
    · refine ⟨rfl, Or.inr ⟨rfl, ?_⟩⟩
      intro f' u' i'
      split
      · rename_i hk
        obtain ⟨a, b, c⟩ := hk
        subst a b c
        exact hzero
      · rfl
    · split
      · refine ⟨(remove_write_session_frame _ _ _ _).1, Or.inr ⟨rfl, ?_⟩⟩
        intro f' u' i'
        simp only
        rw [(remove_write_session_frame _ _ _ _).2]
        simp only
        rw [count_drop_session, count_stamp_append_new, count_stamp_append_new]
        by_cases hk : f' = f ∧ u' = u ∧ i' = i
        · rw [if_pos hk, if_pos hk, hzero]
          simp
        · simp only [hk, if_false, add_zero]
      · split <;> refine ⟨rfl, Or.inl ⟨rfl, ?_⟩⟩ <;> intro f' u' i' <;> simp only <;>
          rw [count_stamp_append_new] <;>
          by_cases hk : f' = f ∧ u' = u ∧ i' = i
        · rw [if_pos hk, if_pos hk]
          obtain ⟨a, b, c⟩ := hk
          subst a b c
          rw [hzero]
        · rw [if_neg hk, if_neg hk]
          simp
        · rw [if_pos hk, if_pos hk]
          obtain ⟨a, b, c⟩ := hk
          subst a b c
          rw [hzero]
        · rw [if_neg hk, if_neg hk]
          simp
  | some s =>
    have hone : session_count ss.write_sessions f u i = 1 := by
      have := count_pos_of_find _ _ _ _ _ hfs
      omega
    simp only [Option.isNone_some, Bool.false_and, Bool.false_eq_true, if_false]
    split
    · refine ⟨(remove_write_session_frame _ _ _ _).1, Or.inr ⟨rfl, ?_⟩⟩
      intro f' u' i'
      simp only
      rw [(remove_write_session_frame _ _ _ _).2]
      simp only
      rw [count_drop_session, count_stamp_session, count_stamp_session]
      by_cases hk : f' = f ∧ u' = u ∧ i' = i
      · rw [if_pos hk, if_pos hk, hone]
      · rw [if_neg hk, if_neg hk]
    · split <;> refine ⟨rfl, Or.inl ⟨rfl, ?_⟩⟩ <;> intro f' u' i' <;> simp only <;>
        rw [count_stamp_session] <;>
        by_cases hk : f' = f ∧ u' = u ∧ i' = i
      · rw [if_pos hk]
        obtain ⟨a, b, c⟩ := hk
        subst a b c
        exact hone
      · rw [if_neg hk]
      · rw [if_pos hk]
        obtain ⟨a, b, c⟩ := hk
        subst a b c
        exact hone
      · rw [if_neg hk]

/-- The branch `case MSG_LOCK_SENTENCE` keeps sessions and locks in agreement. -/
theorem handle_lock_sentence_preserves (ss : StorageServer) (msg : Message) (now : Int)
    (hu : msg.sender.length < MAX_USERNAME - 1)
    (h : ∀ f u i, session_count ss.write_sessions f u i ≤ 1 ∧
      (0 < session_count ss.write_sessions f u i ↔ holder ss.file_locks f i = some u)) :
    ∀ f' u' i', session_count (handle_lock_sentence ss msg now).1.write_sessions f' u' i' ≤ 1 ∧
      (0 < session_count (handle_lock_sentence ss msg now).1.write_sessions f' u' i' ↔
        holder (handle_lock_sentence ss msg now).1.file_locks f' i' = some u') := by
  unfold handle_lock_sentence
  by_cases hinv : lock_index_invalid ss.files (file_path ss.storage_path msg.filename)
      msg.sentence_index = true
  · simp only [hinv, if_true]
    exact h
  · simp only [hinv, Bool.false_eq_true, if_false]
    have hi : 0 ≤ msg.sentence_index := by
      by_contra hneg
      exact hinv ((lock_index_invalid_iff _ _ _).2 (Or.inr (Or.inl (by omega))))
    by_cases hfree : holder ss.file_locks msg.filename msg.sentence_index = none ∨
        holder ss.file_locks msg.filename msg.sentence_index = some msg.sender
    · obtain ⟨hst, hnew, hframe⟩ := lock_sentence_ss_success ss.file_locks msg.filename
        msg.sentence_index hi msg.sender hu now
        (ss.lock_junk msg.filename msg.sentence_index) hfree
      have hst' : ((lock_sentence_ss ss.file_locks msg.filename msg.sentence_index msg.sender now
            (ss.lock_junk msg.filename msg.sentence_index)).2
          == SUCCESS) = true := by simp [hst]
      simp only [hst', if_true]
      obtain ⟨hlocks, hcases⟩ := start_write_session_ss_sessions
        { ss with file_locks :=
            (lock_sentence_ss ss.file_locks msg.filename msg.sentence_index msg.sender now
            (ss.lock_junk msg.filename msg.sentence_index)).1 }
        msg.filename msg.sender msg.sentence_index now (h _ _ _).1
      have hother : ∀ u', u' ≠ msg.sender →
          session_count ss.write_sessions msg.filename u' msg.sentence_index = 0 := by
        intro u' hne
        by_contra hc
        have := (h msg.filename u' msg.sentence_index).2.1 (Nat.pos_of_ne_zero hc)
        rcases hfree with hf | hf
        · rw [hf] at this; exact absurd this (by simp)
        · rw [hf] at this; exact hne (Option.some.inj this).symm
      rcases hcases with ⟨hs, hcount⟩ | ⟨hs, hcount⟩
      · have hs' : ((start_write_session_ss
            { ss with file_locks :=
                (lock_sentence_ss ss.file_locks msg.filename msg.sentence_index msg.sender now
            (ss.lock_junk msg.filename msg.sentence_index)).1 }
            msg.filename msg.sender msg.sentence_index now).2 != SUCCESS) = false := by
          simp [hs]
        simp only [hs', Bool.false_eq_true, if_false]
        intro f' u' i'
        rw [hcount, hlocks]
        simp only
        by_cases hk : f' = msg.filename ∧ u' = msg.sender ∧ i' = msg.sentence_index
        · rw [if_pos hk]
          obtain ⟨a, b, c⟩ := hk
          subst a b c
          exact ⟨le_refl _, ⟨fun _ => hnew, fun _ => Nat.one_pos⟩⟩
        · rw [if_neg hk]
          by_cases hfi : f' = msg.filename ∧ i' = msg.sentence_index
          · obtain ⟨a, c⟩ := hfi
            subst a c
            have hne : u' ≠ msg.sender := fun e => hk ⟨rfl, e, rfl⟩
            rw [hother u' hne, hnew]
            refine ⟨Nat.zero_le _, ⟨fun hp => absurd hp (by omega), fun hx => ?_⟩⟩
            exact absurd (Option.some.inj hx).symm hne
          · rw [hframe f' i' hfi]
            exact h f' u' i'
      · have hs' : ((start_write_session_ss
            { ss with file_locks :=
                (lock_sentence_ss ss.file_locks msg.filename msg.sentence_index msg.sender now
            (ss.lock_junk msg.filename msg.sentence_index)).1 }
            msg.filename msg.sender msg.sentence_index now).2 != SUCCESS) = true := by
          rw [hs]; decide
        simp only [hs', if_true]
        intro f' u' i'
        rw [hcount, hlocks]
        simp only
        obtain ⟨_, hnone, hframe2⟩ := unlock_sentence_ss_success
          (lock_sentence_ss ss.file_locks msg.filename msg.sentence_index msg.sender now
            (ss.lock_junk msg.filename msg.sentence_index)).1
          msg.filename msg.sentence_index msg.sender hnew
        by_cases hk : f' = msg.filename ∧ u' = msg.sender ∧ i' = msg.sentence_index
        · rw [if_pos hk]
          obtain ⟨a, b, c⟩ := hk
          subst a b c
          rw [hnone]
          exact ⟨Nat.zero_le _, ⟨fun hp => absurd hp (by omega), fun hx => absurd hx (by simp)⟩⟩
        · rw [if_neg hk]
          by_cases hfi : f' = msg.filename ∧ i' = msg.sentence_index
          · obtain ⟨a, c⟩ := hfi
            subst a c
            have hne : u' ≠ msg.sender := fun e => hk ⟨rfl, e, rfl⟩
            rw [hother u' hne, hnone]
            exact ⟨Nat.zero_le _, ⟨fun hp => absurd hp (by omega), fun hx => absurd hx (by simp)⟩⟩
          · rw [hframe2 f' i' hfi, hframe f' i' hfi]
            exact h f' u' i'
    · obtain ⟨v, hv, hne⟩ : ∃ v, holder ss.file_locks msg.filename msg.sentence_index = some v ∧
          v ≠ msg.sender := by
        cases hh : holder ss.file_locks msg.filename msg.sentence_index with
        | none => exact absurd (Or.inl hh) hfree
        | some v => exact ⟨v, rfl, fun e => hfree (Or.inr (by rw [hh, e]))⟩
      have hl := lock_sentence_ss_locked ss.file_locks msg.filename msg.sentence_index
        msg.sender v now (ss.lock_junk msg.filename msg.sentence_index) hv hne
      rw [hl]
      have : (ERR_SENTENCE_LOCKED == SUCCESS) = false := by decide
      simp only [this, Bool.false_eq_true, if_false]
      exact h

/-- Every request of the write pipeline keeps sessions and locks in agreement. -/
theorem handle_client_request_preserves (ss : StorageServer) (type : MessageType) (msg : Message)
    (now : Int) (hu : msg.sender.length < MAX_USERNAME - 1) (h : SessionsMatchLocks ss) :
    SessionsMatchLocks (handle_client_request ss type msg now).1 := by
  unfold SessionsMatchLocks at h ⊢
  rw [sessions_match_locks_iff] at h ⊢
  cases type with
  | MSG_LOCK_SENTENCE => exact handle_lock_sentence_preserves ss msg now hu h
  | MSG_WRITE =>
    have e : handle_client_request ss MessageType.MSG_WRITE msg now
        = write_file_ss ss msg.filename msg.sender msg.sentence_index msg.word_index msg.data := rfl
    rw [e, (write_file_ss_frame _ _ _ _ _ _).1, (write_file_ss_frame _ _ _ _ _ _).2]
    exact h
  | MSG_UNLOCK_SENTENCE =>
    have e : handle_client_request ss MessageType.MSG_UNLOCK_SENTENCE msg now
        = handle_unlock_sentence ss msg := rfl
    rw [e, (handle_unlock_sentence_frame ss msg).1, (handle_unlock_sentence_frame ss msg).2]
    exact drop_unlock_preserves _ _ _ _ _ h
  | MSG_CANCEL_WRITE =>
    have e : handle_client_request ss MessageType.MSG_CANCEL_WRITE msg now
        = handle_cancel_write ss msg := rfl
    rw [e, (handle_cancel_write_frame ss msg).1, (handle_cancel_write_frame ss msg).2]
    exact drop_unlock_preserves _ _ _ _ _ h

theorem reachable_sessions_match_locks (ss : StorageServer) (h : SSReachable ss) :
    SessionsMatchLocks ss := by
  induction h with
  | init ss hl hs =>
    unfold SessionsMatchLocks
    rw [hl, hs]
    constructor
    · intro f u i; simp [session_count]
    · intro f u i; simp [has_session, holder, get_sentence_lock]
  | step ss type msg now _ hu ih => exact handle_client_request_preserves ss type msg now hu ih

/-- In every state that a storage server reaches from an empty lock table
and an empty session table by serving LOCK_SENTENCE, WRITE, UNLOCK_SENTENCE and
CANCEL_WRITE requests of senders with fewer than `MAX_USERNAME - 1` bytes, an
active write session for `(f, u, i)` exists if and
only if the sentence lock `(f, i)` is held by `u`. -/
theorem session_iff_lock_held (ss : StorageServer) (h : SSReachable ss) (f u : String) (i : Int) :
    has_session ss.write_sessions f u i = true ↔ holder ss.file_locks f i = some u :=
  (reachable_sessions_match_locks ss h).2 f u i

/-- An instance: after `u` locked sentence 0 of the file "A.", the session and
the lock of `u` both exist. -/
theorem session_iff_lock_held_witness :
    SSReachable (handle_client_request (single_file_server "A.".toList)
      MessageType.MSG_LOCK_SENTENCE (request "u" 0 1 "x") 7).1 ∧
    (has_session (handle_client_request (single_file_server "A.".toList)
        MessageType.MSG_LOCK_SENTENCE (request "u" 0 1 "x") 7).1.write_sessions "f" "u" 0 = true ↔
      holder (handle_client_request (single_file_server "A.".toList)
        MessageType.MSG_LOCK_SENTENCE (request "u" 0 1 "x") 7).1.file_locks "f" 0 = some "u") :=
  ⟨SSReachable.step _ _ _ _ (SSReachable.init _ rfl rfl) (by decide),
   session_iff_lock_held _
     (SSReachable.step _ _ _ _ (SSReachable.init _ rfl rfl) (by decide)) "f" "u" 0⟩


/-! ## Writing back a parsed file -/

theorem write_words_of_tight (s : Sentence) (h : WordsTight s) : write_words s = s.flatten := by
  induction s with
  | nil => rfl
  | cons a rest ih =>
    cases rest with
    | nil => simp [write_words]
    | cons b rest' =>
      have h2 := List.chain'_cons.1 h
      rw [write_words, h2.1, ih h2.2]
      simp

theorem write_sentences_of_tight (ss : List Sentence) (h1 : ∀ s ∈ ss, WordsTight s)
    (h2 : List.Chain' (fun s t => sentence_separator s t = []) ss) :
    write_sentences ss = ss.flatten.flatten := by
  induction ss with
  | nil => rfl
  | cons a rest ih =>
    cases rest with
    | nil => simp [write_sentences, write_words_of_tight a (h1 a (List.mem_cons_self _ _))]
    | cons b rest' =>
      have hc := List.chain'_cons.1 h2
      rw [write_sentences, hc.1, write_words_of_tight a (h1 a (List.mem_cons_self _ _)),
        ih (fun s hs => h1 s (List.mem_cons_of_mem _ hs)) hc.2]
      simp

theorem word_separator_space_right (a b : Token) (h : is_space_token b = true) :
    word_separator a b = [] := by
  simp [word_separator, h]

theorem word_separator_newline_right (a b : Token) (h : is_newline_token b = true) :
    word_separator a b = [] := by
  simp [word_separator, h]

theorem word_separator_left (a b : Token) (h : is_space_token a = true ∨ is_newline_token a = true) :
    word_separator a b = [] := by
  rcases h with h | h <;> simp [word_separator, h]

theorem word_separator_delimiter_right (a : Token) (c : Char) (h : is_delimiter c = true) :
    word_separator a [c] = [] := by
  unfold word_separator
  split
  · rfl
  · simp [first_is_delimiter, h]

theorem is_space_token_of_blanks (sb : List Char) (hne : sb ≠ []) (h : ∀ c ∈ sb, is_blank c = true) :
    is_space_token sb = true := by
  cases sb with
  | nil => exact absurd rfl hne
  | cons a t => exact List.all_eq_true.2 h

theorem tight_append_one (s : Sentence) (t : Token) (hs : WordsTight s)
    (h : ∀ a, s.getLast? = some a → word_separator a t = []) : WordsTight (s ++ [t]) := by
  unfold WordsTight at *
  rw [List.chain'_append]
  refine ⟨hs, List.chain'_singleton _, ?_⟩
  intro a ha b hb
  simp only [List.head?_cons, Option.mem_def, Option.some.injEq] at hb
  subst hb
  exact h a ha

theorem sentence_separator_closed (body : Sentence) (d : Char) (next : Sentence) (t : Token)
    (hn : next.head? = some t) (ht : is_space_token t = true ∨ is_newline_token t = true) :
    sentence_separator (body ++ [[d]]) next = [] := by
  unfold sentence_separator
  rw [List.getLast?_concat]
  simp only
  split
  · cases next with
    | nil => simp at hn
    | cons f r =>
      simp only [List.head?_cons, Option.some.injEq] at hn
      subst hn
      rcases ht with h | h <;> simp [h]
  · rfl

theorem strdup_of_no_nul (w : List Char) (h : ∀ c ∈ w, c ≠ NUL) : strdup w = w := by
  unfold strdup
  rw [List.takeWhile_eq_self_iff]
  intro c hc
  simpa using h c hc

theorem flatten_parse_flush (cur : Sentence) (w : List Char) (h : ∀ c ∈ w, c ≠ NUL) :
    (parse_flush cur w).flatten = cur.flatten ++ w := by
  unfold parse_flush
  split
  · simp [strdup_of_no_nul w h]
  · have : w = [] := by
      cases w with
      | nil => rfl
      | cons a t => simp at *
    simp [this]

theorem runs_below_cons (p : Char → Bool) (b k : Nat) (c : Char) (rest : List Char) :
    runs_below p b k (c :: rest) =
      if p c then decide (k + 1 < b) && runs_below p b (k + 1) rest else runs_below p b 0 rest := rfl

theorem not_word_char_of_blank (c : Char) (h : is_blank c = true) : is_word_char c = false := by
  simp [is_word_char, h]

theorem not_blank_of_word_char (c : Char) (h : is_word_char c = true) : is_blank c = false := by
  simp only [is_word_char, Bool.and_eq_true, Bool.not_eq_true'] at h
  exact h.1.1

theorem delimiters_spaced_tail (c : Char) (rest : List Char) (h : delimiters_spaced (c :: rest) = true) :
    delimiters_spaced rest = true := by
  cases rest with
  | nil => rfl
  | cons d r =>
    simp only [delimiters_spaced, Bool.and_eq_true] at h
    exact h.2

theorem starts_spaced_after_delimiter (c : Char) (rest : List Char) (hc : is_delimiter c = true)
    (h : delimiters_spaced (c :: rest) = true) : starts_spaced rest = true := by
  cases rest with
  | nil => rfl
  | cons d r =>
    simp only [delimiters_spaced, hc, if_true, Bool.and_eq_true] at h
    exact h.1

/-! ### The scan stands for the bytes read -/

theorem parse_char_flat (x : List Char) (st : ParseState) (c : Char) (rest : List Char)
    (h : FlatInv x st (c :: rest)) (hs : st.space_buf = none) : FlatInv x (parse_char st c) rest := by
  have hx := h.flat
  have hrest : ∀ a ∈ rest, a ≠ NUL := fun a ha => h.rest_no_nul a (List.mem_cons_of_mem _ ha)
  have hwr := h.word_run
  have hbr := h.blank_run
  simp only [hs, Option.getD_none, List.length_nil] at hbr
  rw [runs_below_cons] at hwr hbr
  unfold parse_char
  by_cases hb : is_blank c = true
  · simp only [hb, if_true]
    simp only [hb, if_true, Bool.and_eq_true, decide_eq_true_eq] at hbr
    simp only [not_word_char_of_blank c hb, Bool.false_eq_true, if_false] at hwr
    exact
      { flat := by
          rw [← hx]
          simp [pending_text, hs, flatten_parse_flush _ _ h.word_no_nul]
        word_no_nul := by simp
        rest_no_nul := hrest
        word_run := hwr
        blank_run := hbr.2 }
  · have hb' : is_blank c = false := by simpa using hb
    simp only [hb', Bool.false_eq_true, if_false] at hbr ⊢
    by_cases hn : (c == '\n') = true
    · have hc : c = '\n' := by simpa using hn
      have hnw : is_word_char c = false := by simp [is_word_char, hn]
      simp only [hnw, Bool.false_eq_true, if_false] at hwr
      simp only [hn, if_true]
      exact
        { flat := by
            rw [← hx]
            simp [pending_text, hs, flatten_parse_flush _ _ h.word_no_nul, hc]
          word_no_nul := by simp
          rest_no_nul := hrest
          word_run := hwr
          blank_run := by simpa [hs] using hbr }
    · have hn' : (c == '\n') = false := by simpa using hn
      simp only [hn', Bool.false_eq_true, if_false]
      by_cases hd : is_delimiter c = true
      · have hnw : is_word_char c = false := by simp [is_word_char, hd]
        simp only [hnw, Bool.false_eq_true, if_false] at hwr
        simp only [hd, if_true]
        exact
          { flat := by
              rw [← hx]
              simp [pending_text, hs, flatten_parse_flush _ _ h.word_no_nul]
            word_no_nul := by simp
            rest_no_nul := hrest
            word_run := hwr
            blank_run := hbr }
      · have hd' : is_delimiter c = false := by simpa using hd
        have hwc : is_word_char c = true := word_char_of_not c hb' hn' hd'
        simp only [hwc, if_true, Bool.and_eq_true, decide_eq_true_eq] at hwr
        simp only [hd', Bool.false_eq_true, if_false]
        have hlen : ¬ (st.word ++ [c]).length ≥ MAX_WORD - 1 := by
          simp only [List.length_append, List.length_singleton]
          omega
        simp only [hlen, if_false]
        exact
          { flat := by
              rw [← hx]
              simp [pending_text, hs]
            word_no_nul := by
              intro a ha
              rcases List.mem_append.1 ha with h1 | h1
              · exact h.word_no_nul a h1
              · simp at h1
                rw [h1]
                exact h.rest_no_nul c (List.mem_cons_self _ _)
            rest_no_nul := hrest
            word_run := by simpa using hwr.2
            blank_run := by simpa [hs] using hbr }

theorem parse_step_flat (x : List Char) (st : ParseState) (c : Char) (rest : List Char)
    (h : FlatInv x st (c :: rest)) (hp : ParseInv st) : FlatInv x (parse_step st c) rest := by
  unfold parse_step
  cases hs : st.space_buf with
  | none => exact parse_char_flat x st c rest h hs
  | some sb =>
    obtain ⟨hne, hbl, hw⟩ := hp.space_chars sb hs
    have hx := h.flat
    have hbr := h.blank_run
    simp only [hs, Option.getD_some] at hbr
    rw [runs_below_cons] at hbr
    simp only
    by_cases hb : is_blank c = true
    · simp only [hb, if_true, Bool.and_eq_true, decide_eq_true_eq] at hbr ⊢
      have hpush : space_push sb c = sb ++ [c] := by
        unfold space_push
        rw [if_pos (by omega)]
      have hwr := h.word_run
      rw [runs_below_cons] at hwr
      simp only [not_word_char_of_blank c hb, Bool.false_eq_true, if_false] at hwr
      exact
        { flat := by
            rw [← hx]
            simp [pending_text, hs, hpush, hw]
          word_no_nul := h.word_no_nul
          rest_no_nul := fun a ha => h.rest_no_nul a (List.mem_cons_of_mem _ ha)
          word_run := by simpa [hw] using hwr
          blank_run := by simpa [hpush] using hbr.2 }
    · have hb' : is_blank c = false := by simpa using hb
      simp only [hb', Bool.false_eq_true, if_false] at hbr ⊢
      apply parse_char_flat
      · exact
          { flat := by
              rw [← hx]
              simp [pending_text, hs]
            word_no_nul := h.word_no_nul
            rest_no_nul := h.rest_no_nul
            word_run := h.word_run
            blank_run := by
              simp only [Option.getD_none, List.length_nil]
              rw [runs_below_cons]
              simp only [hb', Bool.false_eq_true, if_false]
              exact hbr }
      · rfl


/-! ### Nothing is printed between the tokens of a spaced text -/

theorem commit_blanks_inv (st : ParseState) (sb : List Char) (hs : st.space_buf = some sb)
    (hp : ParseInv st) : ParseInv { st with cur := st.cur ++ [sb], space_buf := none } := by
  obtain ⟨hne, hbl, _⟩ := hp.space_chars sb hs
  exact
    { count := hp.count
      word_chars := hp.word_chars
      space_chars := by simp
      done_shape := hp.done_shape
      cur_shape := by
        intro t ht
        rcases List.mem_append.1 ht with h1 | h1
        · exact hp.cur_shape t h1
        · simp at h1; rw [h1]; exact is_plain_of_blanks sb hne hbl }

theorem commit_blanks_flat (x : List Char) (st : ParseState) (sb : List Char) (c : Char)
    (rest : List Char) (hs : st.space_buf = some sb) (hb : is_blank c = false)
    (h : FlatInv x st (c :: rest)) :
    FlatInv x { st with cur := st.cur ++ [sb], space_buf := none } (c :: rest) := by
  have hx := h.flat
  have hbr := h.blank_run
  simp only [hs, Option.getD_some] at hbr
  rw [runs_below_cons] at hbr
  simp only [hb, Bool.false_eq_true, if_false] at hbr
  exact
    { flat := by
        rw [← hx]
        simp [pending_text, hs]
      word_no_nul := h.word_no_nul
      rest_no_nul := h.rest_no_nul
      word_run := h.word_run
      blank_run := by
        simp only [Option.getD_none, List.length_nil]
        rw [runs_below_cons]
        simp only [hb, Bool.false_eq_true, if_false]
        exact hbr }

theorem flush_tight (cur : Sentence) (w : List Char) (hc : WordsTight cur)
    (hl : ∀ t, cur.getLast? = some t → is_space_token t = true ∨ is_newline_token t = true) :
    WordsTight (parse_flush cur w) := by
  unfold parse_flush
  split
  · exact tight_append_one cur _ hc (fun a ha => word_separator_left a _ (hl a ha))
  · exact hc

theorem flush_head_of_ne (cur : Sentence) (w : List Char) (h : cur ≠ []) :
    (parse_flush cur w).head? = cur.head? := by
  unfold parse_flush
  split
  · cases cur with
    | nil => exact absurd rfl h
    | cons a t => rfl
  · rfl

theorem flush_nil (cur : Sentence) : parse_flush cur [] = cur := by
  simp [parse_flush]

theorem not_spaced_of_delimiter (c : Char) (rest : List Char) (h : is_delimiter c = true) :
    starts_spaced (c :: rest) = false := by
  simp only [is_delimiter, Bool.or_eq_true, beq_iff_eq] at h
  rcases h with (rfl | rfl) | rfl <;> rfl

theorem not_spaced_of_word_char (c : Char) (rest : List Char) (h : is_word_char c = true) :
    starts_spaced (c :: rest) = false := by
  simp only [is_word_char, Bool.and_eq_true, Bool.not_eq_true'] at h
  simp [starts_spaced, h.1.1, h.1.2]

/-- The first token of the sentence under construction, once the pending word
is saved, is a run of blanks or a newline whenever a sentence precedes it. -/
theorem flush_head_spaced (st : ParseState) (c : Char) (rest : List Char)
    (h : TightInv st (c :: rest)) (hs : st.space_buf = none) (hd : st.done ≠ [])
    (hc : starts_spaced (c :: rest) = false) :
    ∃ t, (parse_flush st.cur st.word).head? = some t ∧
      (is_space_token t = true ∨ is_newline_token t = true) := by
  by_cases hcur : st.cur = []
  · have := (h.after_delim hd hcur hs).2
    rw [hc] at this
    exact absurd this (by simp)
  · rw [flush_head_of_ne _ _ hcur]
    cases hh : st.cur.head? with
    | none => exact absurd (List.head?_eq_none_iff.1 hh) hcur
    | some t => exact ⟨t, rfl, h.cur_head hd t hh⟩

theorem flush_head_spaced' (st : ParseState) (rest : List Char)
    (h : TightInv st rest) (hs : st.space_buf = none) (hd : st.done ≠ []) :
    ∀ t, (parse_flush st.cur st.word).head? = some t →
      (is_space_token t = true ∨ is_newline_token t = true) := by
  intro t ht
  by_cases hcur : st.cur = []
  · have := (h.after_delim hd hcur hs).1
    rw [this, hcur, flush_nil] at ht
    simp at ht
  · rw [flush_head_of_ne _ _ hcur] at ht
    exact h.cur_head hd t ht

theorem parse_char_tight (x : List Char) (st : ParseState) (c : Char) (rest : List Char)
    (h : TightInv st (c :: rest)) (hf : FlatInv x st (c :: rest)) (hp : ParseInv st)
    (hs : st.space_buf = none) : TightInv (parse_char st c) rest := by
  have hsp := delimiters_spaced_tail c rest h.spaced
  have hft := flush_tight st.cur st.word h.cur_tight (h.cur_last hs)
  unfold parse_char
  by_cases hb : is_blank c = true
  · simp only [hb, if_true]
    exact
      { spaced := hsp
        after_delim := by
          intro _ _ hn
          exact absurd hn (by simp)
        done_tight := h.done_tight
        cur_tight := hft
        done_chain := h.done_chain
        cur_head := fun hd => flush_head_spaced' st (c :: rest) h hs hd
        cur_last := by
          intro hn
          exact absurd hn (by simp) }
  · have hb' : is_blank c = false := by simpa using hb
    simp only [hb', Bool.false_eq_true, if_false]
    by_cases hn : (c == '\n') = true
    · simp only [hn, if_true]
      exact
        { spaced := hsp
          after_delim := by
            intro _ hc _
            exact absurd hc (by simp)
          done_tight := h.done_tight
          cur_tight := tight_append_one _ _ hft
            (fun a _ => word_separator_newline_right a _ (by decide))
          done_chain := h.done_chain
          cur_head := by
            intro hd t ht
            by_cases he : parse_flush st.cur st.word = []
            · rw [he] at ht
              simp only [List.nil_append, List.head?_cons, Option.some.injEq] at ht
              rw [← ht]
              right; decide
            · have : (parse_flush st.cur st.word ++ [['\n']]).head?
                  = (parse_flush st.cur st.word).head? := by
                cases hq : parse_flush st.cur st.word with
                | nil => exact absurd hq he
                | cons a r => rfl
              rw [this] at ht
              exact flush_head_spaced' st (c :: rest) h hs hd t ht
          cur_last := by
            intro _ t ht
            rw [List.getLast?_concat] at ht
            simp only [Option.some.injEq] at ht
            rw [← ht]
            right; decide }
    · have hn' : (c == '\n') = false := by simpa using hn
      simp only [hn', Bool.false_eq_true, if_false]
      by_cases hd : is_delimiter c = true
      · simp only [hd, if_true]
        have hnew : WordsTight (parse_flush st.cur st.word ++ [[c]]) :=
          tight_append_one _ _ hft (fun a _ => word_separator_delimiter_right a c hd)
        exact
          { spaced := hsp
            after_delim := fun _ _ _ => ⟨rfl, starts_spaced_after_delimiter c rest hd h.spaced⟩
            done_tight := by
              intro s hm
              rcases List.mem_append.1 hm with h1 | h1
              · exact h.done_tight s h1
              · simp at h1; rw [h1]; exact hnew
            cur_tight := List.chain'_nil
            done_chain := by
              rw [List.chain'_append]
              refine ⟨h.done_chain, List.chain'_singleton _, ?_⟩
              intro a ha b hb2
              simp only [List.head?_cons, Option.mem_def, Option.some.injEq] at hb2
              subst hb2
              have hmem : a ∈ st.done := List.mem_of_getLast?_eq_some ha
              have hdne : st.done ≠ [] := List.ne_nil_of_mem hmem
              obtain ⟨body, d, hbd, _, _⟩ := hp.done_shape a hmem
              obtain ⟨t, ht, hts⟩ := flush_head_spaced st c rest h hs hdne
                (not_spaced_of_delimiter c rest hd)
              rw [hbd]
              apply sentence_separator_closed body d _ t _ hts
              cases hq : parse_flush st.cur st.word with
              | nil => rw [hq] at ht; simp at ht
              | cons a' r => rw [hq] at ht; simpa using ht
            cur_head := by
              intro _ t ht
              simp at ht
            cur_last := by
              intro _ t ht
              simp at ht }
      · have hd' : is_delimiter c = false := by simpa using hd
        have hwc : is_word_char c = true := word_char_of_not c hb' hn' hd'
        simp only [hd', Bool.false_eq_true, if_false]
        have hwr := hf.word_run
        rw [runs_below_cons] at hwr
        simp only [hwc, if_true, Bool.and_eq_true, decide_eq_true_eq] at hwr
        have hlen : ¬ (st.word ++ [c]).length ≥ MAX_WORD - 1 := by
          simp only [List.length_append, List.length_singleton]
          omega
        simp only [hlen, if_false]
        exact
          { spaced := hsp
            after_delim := by
              intro hdn hc hn2
              have := (h.after_delim hdn hc hn2).2
              rw [not_spaced_of_word_char c rest hwc] at this
              exact absurd this (by simp)
            done_tight := h.done_tight
            cur_tight := h.cur_tight
            done_chain := h.done_chain
            cur_head := h.cur_head
            cur_last := h.cur_last }

theorem parse_step_tight (x : List Char) (st : ParseState) (c : Char) (rest : List Char)
    (h : TightInv st (c :: rest)) (hf : FlatInv x st (c :: rest)) (hp : ParseInv st) :
    TightInv (parse_step st c) rest := by
  unfold parse_step
  cases hs : st.space_buf with
  | none => exact parse_char_tight x st c rest h hf hp hs
  | some sb =>
    obtain ⟨hne, hbl, hw⟩ := hp.space_chars sb hs
    have hsbt : is_space_token sb = true := is_space_token_of_blanks sb hne hbl
    simp only
    by_cases hb : is_blank c = true
    · simp only [hb, if_true]
      exact
        { spaced := delimiters_spaced_tail c rest h.spaced
          after_delim := by
            intro _ _ hn
            exact absurd hn (by simp)
          done_tight := h.done_tight
          cur_tight := h.cur_tight
          done_chain := h.done_chain
          cur_head := h.cur_head
          cur_last := by
            intro hn
            exact absurd hn (by simp) }
    · have hb' : is_blank c = false := by simpa using hb
      simp only [hb', Bool.false_eq_true, if_false]
      apply parse_char_tight x _ c rest _ (commit_blanks_flat x st sb c rest hs hb' hf)
        (commit_blanks_inv st sb hs hp) rfl
      exact
        { spaced := h.spaced
          after_delim := by
            intro _ hc _
            exact absurd hc (by simp)
          done_tight := h.done_tight
          cur_tight := tight_append_one _ _ h.cur_tight
            (fun a _ => word_separator_space_right a sb hsbt)
          done_chain := h.done_chain
          cur_head := by
            intro hd t ht
            by_cases he : st.cur = []
            · rw [he] at ht
              simp only [List.nil_append, List.head?_cons, Option.some.injEq] at ht
              rw [← ht]
              exact Or.inl hsbt
            · have : (st.cur ++ [sb]).head? = st.cur.head? := by
                cases hq : st.cur with
                | nil => exact absurd hq he
                | cons a r => rfl
              rw [this] at ht
              exact h.cur_head hd t ht
          cur_last := by
            intro _ t ht
            rw [List.getLast?_concat] at ht
            simp only [Option.some.injEq] at ht
            rw [← ht]
            exact Or.inl hsbt }


/-! ## C9: parse/write round trip -/

theorem parse_loop_round_trip_inv (x : List Char) (rest : List Char) (st : ParseState)
    (hf : FlatInv x st rest) (ht : TightInv st rest) (hp : ParseInv st) :
    FlatInv x (parse_loop rest st) [] ∧ TightInv (parse_loop rest st) [] ∧
      ParseInv (parse_loop rest st) := by
  induction rest generalizing st with
  | nil => exact ⟨hf, ht, hp⟩
  | cons c rest ih =>
    exact ih (parse_step st c) (parse_step_flat x st c rest hf hp)
      (parse_step_tight x st c rest ht hf hp) (parse_step_inv st c hp)

theorem final_cur_facts (x : List Char) (st : ParseState) (hf : FlatInv x st [])
    (ht : TightInv st []) (hp : ParseInv st) :
    WordsTight (final_cur st) ∧
    (final_cur st).flatten = st.cur.flatten ++ st.space_buf.getD [] ++ st.word ∧
    (st.done ≠ [] → ∀ t, (final_cur st).head? = some t →
      is_space_token t = true ∨ is_newline_token t = true) := by
  unfold final_cur
  cases hs : st.space_buf with
  | none =>
    simp only [Option.getD_none, List.append_nil]
    exact ⟨flush_tight _ _ ht.cur_tight (ht.cur_last hs),
      flatten_parse_flush _ _ hf.word_no_nul,
      fun hd => flush_head_spaced' st [] ht hs hd⟩
  | some sb =>
    obtain ⟨hne, hbl, hw⟩ := hp.space_chars sb hs
    have hsbt : is_space_token sb = true := is_space_token_of_blanks sb hne hbl
    simp only [hw, flush_nil, Option.getD_some, List.append_nil]
    refine ⟨tight_append_one _ _ ht.cur_tight (fun a _ => word_separator_space_right a sb hsbt),
      by simp, ?_⟩
    intro hd t hth
    by_cases he : st.cur = []
    · rw [he] at hth
      simp only [List.nil_append, List.head?_cons, Option.some.injEq] at hth
      rw [← hth]
      exact Or.inl hsbt
    · have : (st.cur ++ [sb]).head? = st.cur.head? := by
        cases hq : st.cur with
        | nil => exact absurd hq he
        | cons a r => rfl
      rw [this] at hth
      exact ht.cur_head hd t hth

theorem write_parse_finish (x : List Char) (st : ParseState) (hf : FlatInv x st [])
    (ht : TightInv st []) (hp : ParseInv st) : write_file_content (parse_finish st) = x := by
  obtain ⟨hfc_tight, hfc_flat, hfc_head⟩ := final_cur_facts x st hf ht hp
  have hcounted := (counted_parse_finish st hp).2.2
  have hx := hf.flat
  simp only [pending_text, List.append_nil] at hx
  show write_sentences (counted (parse_finish st)) = x
  rw [hcounted]
  by_cases he : final_cur st = []
  · simp only [he, if_true, List.append_nil]
    rw [write_sentences_of_tight _ ht.done_tight ht.done_chain]
    rw [he] at hfc_flat
    simp only [List.flatten_nil] at hfc_flat
    rw [← hx, List.append_assoc, List.append_assoc,
      ← List.append_assoc (List.flatten st.cur) _ _, ← hfc_flat]
    simp
  · simp only [he, if_false]
    rw [write_sentences_of_tight]
    · rw [← hx]
      simp [hfc_flat]
    · intro s hs
      rcases List.mem_append.1 hs with h1 | h1
      · exact ht.done_tight s h1
      · simp at h1; rw [h1]; exact hfc_tight
    · rw [List.chain'_append]
      refine ⟨ht.done_chain, List.chain'_singleton _, ?_⟩
      intro a ha b hb
      simp only [List.head?_cons, Option.mem_def, Option.some.injEq] at hb
      subst hb
      have hmem : a ∈ st.done := List.mem_of_getLast?_eq_some ha
      obtain ⟨body, d, hbd, _, _⟩ := hp.done_shape a hmem
      rw [hbd]
      cases hq : (final_cur st).head? with
      | none => exact absurd (List.head?_eq_none_iff.1 hq) he
      | some t =>
        exact sentence_separator_closed body d _ t hq (hfc_head (List.ne_nil_of_mem hmem) t hq)

/-- C9 (amended). For every text without a NUL byte in which every word and
every run of blanks is shorter than 127 bytes and every delimiter is the last
byte or is followed by a blank or a newline, writing the parsed file back
reproduces the text byte for byte. -/
theorem parse_write_round_trip (x : List Char) (hnul : ∀ c ∈ x, c ≠ NUL)
    (hword : runs_below is_word_char (MAX_WORD - 1) 0 x = true)
    (hblank : runs_below is_blank (MAX_WORD - 1) 0 x = true)
    (hdelim : delimiters_spaced x = true) :
    write_file_content (parse_file x) = x := by
  have hf0 : FlatInv x parse_init x :=
    { flat := by simp [pending_text, parse_init]
      word_no_nul := by simp [parse_init]
      rest_no_nul := hnul
      word_run := hword
      blank_run := hblank }
  have ht0 : TightInv parse_init x :=
    { spaced := hdelim
      after_delim := by
        intro h
        exact absurd rfl h
      done_tight := by simp [parse_init]
      cur_tight := List.chain'_nil
      done_chain := List.chain'_nil
      cur_head := by
        intro h
        exact absurd rfl h
      cur_last := by
        intro _ t ht
        simp [parse_init] at ht }
  obtain ⟨hf, ht, hp⟩ := parse_loop_round_trip_inv x x parse_init hf0 ht0 parse_init_inv
  exact write_parse_finish x _ hf ht hp

/-- Witness of C9 (amended): the text "A. B.\n" is reproduced. -/
theorem parse_write_round_trip_witness :
    (∀ c ∈ "A. B.\n".toList, c ≠ NUL) ∧
    runs_below is_word_char (MAX_WORD - 1) 0 "A. B.\n".toList = true ∧
    runs_below is_blank (MAX_WORD - 1) 0 "A. B.\n".toList = true ∧
    delimiters_spaced "A. B.\n".toList = true ∧
    write_file_content (parse_file "A. B.\n".toList) = "A. B.\n".toList :=
  ⟨by decide, by decide, by decide, by decide,
    parse_write_round_trip "A. B.\n".toList (by decide) (by decide) (by decide) (by decide)⟩

/-- C9 (counterexample). The text "A.B" has no NUL byte and only short words and
runs of blanks, yet writing its parsed form back gives "A. B": a byte is
inserted in the middle, which is no difference in a final newline. -/
theorem parse_write_round_trip_fails :
    (∀ c ∈ "A.B".toList, c ≠ NUL) ∧
    runs_below is_word_char (MAX_WORD - 1) 0 "A.B".toList = true ∧
    runs_below is_blank (MAX_WORD - 1) 0 "A.B".toList = true ∧
    write_file_content (parse_file "A.B".toList) = "A. B".toList ∧
    write_file_content (parse_file "A.B".toList) ≠ "A.B".toList ∧
    write_file_content (parse_file "A.B".toList) ++ ['\n'] ≠ "A.B".toList ∧
    write_file_content (parse_file "A.B".toList) ≠ "A.B".toList ++ ['\n'] := by
  decide


/-! ## The write pipeline of a single writer -/

theorem temp_ne_main (sp f u : String) (s : Int) : temp_path sp f u s ≠ file_path sp f := by
  intro h
  have h2 := congrArg String.length h
  simp only [temp_path, file_path, String.length_append] at h2
  have : ".temp_".length = 6 := by decide
  omega

theorem undo_ne_main (p : String) : undo_path p ≠ p := by
  intro h
  have h2 := congrArg String.length h
  simp only [undo_path, String.length_append] at h2
  have : ".undo".length = 5 := by decide
  omega

theorem undo_ne_temp (sp f u : String) (s : Int) :
    undo_path (file_path sp f) ≠ temp_path sp f u s := by
  intro h
  have h2 := congrArg String.data h
  simp only [undo_path, temp_path, file_path, String.data_append, List.append_assoc] at h2
  have h3 := List.append_cancel_left (List.append_cancel_left (List.append_cancel_left h2))
  simp at h3

theorem fs_write_same (files : Files) (p : String) (b : List Char) : fs_write files p b p = some b := by
  simp [fs_write]

theorem fs_write_other (files : Files) (p q : String) (b : List Char) (h : q ≠ p) :
    fs_write files p b q = files q := by
  simp [fs_write, h]

theorem fs_unlink_other (files : Files) (p q : String) (h : q ≠ p) : fs_unlink files p q = files q := by
  simp [fs_unlink, h]

theorem find_session_stamp_new (l : List WriteSession) (tp f u : String) (i : Int) (c : Nat) (t : Int)
    (h : find_session l f u i = none) :
    find_session (stamp_session
      (l ++ [{ filename := f, username := u, sentence_idx := i, temp_filepath := tp,
               active := true, original_sentence_count := 0, lock_time := 0 }]) f u i c t) f u i
      = some { filename := f, username := u, sentence_idx := i, temp_filepath := tp,
               active := true, original_sentence_count := c, lock_time := t } := by
  induction l with
  | nil =>
    have hm := (new_session_matches tp f u i f u i).2 ⟨rfl, rfl, rfl⟩
    simp only [List.nil_append, stamp_session, hm, if_true, find_session, List.find?_cons]
    have hm2 : session_matches ⟨f, u, i, tp, true, c, t⟩ f u i = true := by
      simp [session_matches]
    simp [hm2]
  | cons a rest ih =>
    have ha : session_matches a f u i = false := by
      unfold find_session at h
      rw [List.find?_cons] at h
      by_contra hc
      simp only [Bool.not_eq_false] at hc
      simp [hc] at h
    have hr : find_session rest f u i = none := by
      unfold find_session at h ⊢
      rw [List.find?_cons] at h
      simpa [ha] using h
    simp only [List.cons_append, stamp_session, ha, Bool.false_eq_true, if_false]
    unfold find_session
    rw [List.find?_cons]
    simp only [ha]
    exact ih hr

theorem handle_lock_sentence_stages (ss : StorageServer) (msg : Message) (now : Int) (M0 : List Char)
    (hfile : ss.files (file_path ss.storage_path msg.filename) = some M0)
    (hnone : find_session ss.write_sessions msg.filename msg.sender msg.sentence_index = none)
    (hqueue : queue_entries ss.commit_queues msg.filename = [])
    (hw : ss.writable (file_path ss.storage_path msg.filename) = true)
    (hlock : (handle_lock_sentence ss msg now).2 = SUCCESS) :
    lock_index_invalid ss.files (file_path ss.storage_path msg.filename) msg.sentence_index = false ∧
    (handle_lock_sentence ss msg now).1.storage_path = ss.storage_path ∧
    Staged (handle_lock_sentence ss msg now).1 msg.filename msg.sender msg.sentence_index
      (parse_file M0).sentence_count M0 M0 := by
  unfold handle_lock_sentence at hlock ⊢
  by_cases hinv : lock_index_invalid ss.files (file_path ss.storage_path msg.filename)
      msg.sentence_index = true
  · simp only [hinv, if_true] at hlock
    exact absurd hlock (by decide)
  · simp only [hinv, Bool.false_eq_true, if_false] at hlock ⊢
    refine ⟨by simp, ?_⟩
    by_cases hr : ((lock_sentence_ss ss.file_locks msg.filename msg.sentence_index msg.sender now
            (ss.lock_junk msg.filename msg.sentence_index)).2
        == SUCCESS) = true
    · simp only [hr, if_true] at hlock ⊢
      by_cases hr2 : ((start_write_session_ss
          { ss with file_locks :=
              (lock_sentence_ss ss.file_locks msg.filename msg.sentence_index msg.sender now
            (ss.lock_junk msg.filename msg.sentence_index)).1 }
          msg.filename msg.sender msg.sentence_index now).2 != SUCCESS) = true
      · simp only [hr2, if_true] at hlock
        rw [hlock] at hr2
        exact absurd hr2 (by decide)
      · simp only [hr2, Bool.false_eq_true, if_false] at hlock ⊢
        have hs2 : (start_write_session_ss
            { ss with file_locks :=
                (lock_sentence_ss ss.file_locks msg.filename msg.sentence_index msg.sender now
            (ss.lock_junk msg.filename msg.sentence_index)).1 }
            msg.filename msg.sender msg.sentence_index now).2 = SUCCESS := by
          simpa using hr2
        clear hr2 hlock hr
        revert hs2
        unfold start_write_session_ss
        simp only [hnone, Option.isNone_none, Bool.true_and, parse_path, hfile, Option.map_some']
        split
        · intro h; exact absurd (show ERR_SERVER_ERROR = SUCCESS from h) (by decide)
        · split
          · intro h; exact absurd (show ERR_SERVER_ERROR = SUCCESS from h) (by decide)
          · rename_i hwt
            intro _
            refine ⟨rfl, ?_⟩
            exact
              { main_file := by
                  show fs_write ss.files _ M0 _ = some M0
                  rw [fs_write_other _ _ _ _ (temp_ne_main _ _ _ _).symm]
                  exact hfile
                temp_file := by
                  show fs_write ss.files _ M0 _ = some M0
                  exact fs_write_same _ _ _
                session := ⟨_, find_session_stamp_new _ _ _ _ _ _ _ hnone, rfl, rfl⟩
                queue := hqueue
                main_writable := hw }
    · simp only [hr, Bool.false_eq_true, if_false] at hlock
      rw [hlock] at hr
      exact absurd hr (by decide)

theorem handle_write_stages (ss : StorageServer) (msg : Message) (n : Nat) (M T0 : List Char)
    (h : Staged ss msg.filename msg.sender msg.sentence_index n M T0)
    (hwrite : (handle_write ss msg).2 = SUCCESS) :
    (handle_write ss msg).1.storage_path = ss.storage_path ∧
    Staged (handle_write ss msg).1 msg.filename msg.sender msg.sentence_index n M
      (write_file_content (insert_word_in_sentence
        (open_temp_file ss.files (temp_path ss.storage_path msg.filename msg.sender msg.sentence_index))
        msg.sentence_index msg.word_index msg.data).2) := by
  obtain ⟨sess, hfind, htp, hcount⟩ := h.session
  unfold handle_write write_file_ss at hwrite ⊢
  simp only [hfind, htp] at hwrite ⊢
  split at hwrite
  · exact absurd (show ERR_INVALID_INDEX = SUCCESS from hwrite) (by decide)
  · rename_i h1
    simp only [h1, Bool.false_eq_true, if_false]
    split at hwrite
    · exact absurd (show ERR_INVALID_INDEX = SUCCESS from hwrite) (by decide)
    · rename_i h2
      simp only [h2, Bool.false_eq_true, if_false]
      split at hwrite
      · exact absurd (show ERR_SERVER_ERROR = SUCCESS from hwrite) (by decide)
      · rename_i h3
        simp only [h3, Bool.false_eq_true, if_false]
        refine ⟨by first | rfl | trivial, ?_⟩
        exact
          { main_file := by
              show fs_write ss.files _ _ _ = some M
              rw [fs_write_other _ _ _ _ (temp_ne_main _ _ _ _).symm]
              exact h.main_file
            temp_file := by
              show fs_write ss.files _ _ _ = some _
              exact fs_write_same _ _ _
            session := ⟨sess, hfind, htp, hcount⟩
            queue := h.queue
            main_writable := h.main_writable }

/-! ### The commit queue of one file -/

theorem get_commit_queue_some (q q1 : List FileCommitQueue) (f : String)
    (h : get_commit_queue q f = some q1) :
    q1.any (fun x => decide (x.filename = f)) = true ∧ queue_entries q1 f = queue_entries q f := by
  unfold get_commit_queue at h
  split at h
  · rename_i hany
    simp only [Option.some.injEq] at h
    subst h
    exact ⟨hany, rfl⟩
  · rename_i hany
    split at h
    · exact absurd h (by simp)
    · simp only [Option.some.injEq] at h
      subst h
      constructor
      · simp
      · clear * - hany
        induction q with
        | nil => simp [queue_entries]
        | cons a rest ih =>
          simp only [List.any_cons, Bool.or_eq_true, decide_eq_true_eq, not_or] at hany
          simp only [List.cons_append, queue_entries, hany.1, if_false]
          exact ih (by simpa using hany.2)

theorem get_commit_queue_of_any (q : List FileCommitQueue) (f : String)
    (h : q.any (fun x => decide (x.filename = f)) = true) : get_commit_queue q f = some q := by
  unfold get_commit_queue
  simp [h]

theorem set_queue_entries_any (q : List FileCommitQueue) (f : String) (es : List CommitQueueEntry)
    (h : q.any (fun x => decide (x.filename = f)) = true) :
    (set_queue_entries q f es).any (fun x => decide (x.filename = f)) = true ∧
    queue_entries (set_queue_entries q f es) f = es := by
  induction q with
  | nil => simp at h
  | cons a rest ih =>
    unfold set_queue_entries
    by_cases ha : a.filename = f
    · simp [ha, queue_entries]
    · simp only [ha, if_false, List.any_cons, decide_False, Bool.false_or, queue_entries]
      simp only [List.any_cons, ha, decide_False, Bool.false_or] at h
      exact ih h

theorem process_single_entry (files : Files) (w : String → Bool) (main : String)
    (entry : CommitQueueEntry) (M T : List Char)
    (hm : files main = some M) (ht : files entry.temp_filepath = some T)
    (hne : entry.temp_filepath ≠ main) (hw : w main = true)
    (hn : entry.original_sentence_count = (parse_file M).sentence_count) :
    (process_entries [entry] files w main 0).1 main =
      some (if adjusted_idx_ok (parse_file M).sentence_count (parse_file M).sentence_count
              entry.sentence_idx = true
        then write_file_content (build_merged (parse_file M) (parse_file T)
          (parse_file M).sentence_count entry.sentence_idx (parse_file M).sentence_count
          entry.sentence_idx)
        else M) := by
  have hmerge : merge_entry files main entry =
      if adjusted_idx_ok (parse_file M).sentence_count (parse_file M).sentence_count
              entry.sentence_idx = true
        then some (build_merged (parse_file M) (parse_file T)
          (parse_file M).sentence_count entry.sentence_idx (parse_file M).sentence_count
          entry.sentence_idx)
        else none := by
    unfold merge_entry
    simp only [parse_path, hm, ht, Option.map_some', Option.getD_some, hn, sub_self, add_zero]
  unfold process_entries
  rw [hmerge]
  by_cases hok : adjusted_idx_ok (parse_file M).sentence_count (parse_file M).sentence_count
      entry.sentence_idx = true
  · simp only [hok, if_true, hw, Bool.not_true, Bool.false_eq_true, if_false]
    unfold process_entries
    simp only
    rw [fs_unlink_other _ _ _ hne.symm, fs_write_same]
  · simp only [hok, Bool.false_eq_true, if_false]
    unfold process_entries
    show fs_unlink files entry.temp_filepath main = some M
    rw [fs_unlink_other _ _ _ hne.symm, hm]

theorem handle_unlock_sentence_commits (ss : StorageServer) (msg : Message) (M T : List Char)
    (h : Staged ss msg.filename msg.sender msg.sentence_index (parse_file M).sentence_count M T)
    (hst : (handle_unlock_sentence ss msg).2 = SUCCESS) :
    (handle_unlock_sentence ss msg).1.files (file_path ss.storage_path msg.filename) =
      some (if adjusted_idx_ok (parse_file M).sentence_count (parse_file M).sentence_count
              msg.sentence_index = true
        then write_file_content (build_merged (parse_file M) (parse_file T)
          (parse_file M).sentence_count msg.sentence_index (parse_file M).sentence_count
          msg.sentence_index)
        else M) := by
  obtain ⟨sess, hfind, htp, hcount⟩ := h.session
  unfold handle_unlock_sentence at hst ⊢
  simp only at hst ⊢
  unfold commit_write_session_ss at hst ⊢
  simp only [hfind] at hst ⊢
  unfold enqueue_commit at hst ⊢
  cases hq : get_commit_queue ss.commit_queues msg.filename with
  | none =>
    simp only [hq] at hst
    rw [if_neg (by decide)] at hst
    exact absurd (show ERR_SERVER_ERROR = SUCCESS from hst) (by decide)
  | some q1 =>
    simp only [hq]
    obtain ⟨hany, hent⟩ := get_commit_queue_some _ _ _ hq
    rw [hent, h.queue, List.nil_append]
    obtain ⟨hany2, hent2⟩ := set_queue_entries_any q1 msg.filename
      [{ filename := msg.filename, username := msg.sender, sentence_idx := msg.sentence_index,
         original_sentence_count := sess.original_sentence_count,
         temp_filepath := sess.temp_filepath, lock_time := sess.lock_time }] hany
    unfold process_commit_queue
    simp only [get_commit_queue_of_any _ _ hany2, hent2, List.length_singleton, Nat.lt_one_iff,
      gt_iff_lt, Nat.lt_irrefl, zero_lt_one, if_true]
    show (process_entries _ _ _ _ _).1 _ = _
    apply process_single_entry
    · unfold create_undo_backup
      rw [h.main_file]
      simp only
      split
      · rw [fs_write_other _ _ _ _ (undo_ne_main _).symm]
        exact h.main_file
      · exact h.main_file
    · show create_undo_backup _ _ _ sess.temp_filepath = some T
      unfold create_undo_backup
      rw [h.main_file, htp]
      simp only
      split
      · rw [fs_write_other _ _ _ _ (undo_ne_temp _ _ _ _).symm]
        exact h.temp_file
      · exact h.temp_file
    · show sess.temp_filepath ≠ _
      rw [htp]
      exact temp_ne_main _ _ _ _
    · exact h.main_writable
    · exact hcount


/-! ## The value returned by `insert_word_in_sentence` -/

/-- C11 (the code departs from the claim): inserting `" one. two"` as word 2 of
sentence 0 of the file `"A."` returns 2, not 1, and `sentence_count` grows from
1 to 3, while only one new sentence receives words: the third counted sentence
is an empty slot. The content `" x. y. z"`, with two internal delimiters,
returns 3 on the file `"A"` and leaves two empty counted slots. -/
theorem insert_one_two_returns_two :
    (parse_file "A.".toList).sentence_count = 1 ∧
    (insert_word_in_sentence (parse_file "A.".toList) 0 2 " one. two".toList).1 = 2 ∧
    counted (insert_word_in_sentence (parse_file "A.".toList) 0 2 " one. two".toList).2 =
      [["A".toList, " ".toList, "one".toList, ".".toList],
       [" ".toList, "two".toList, ".".toList], []] ∧
    (insert_word_in_sentence (parse_file "A".toList) 0 2 " x. y. z".toList).1 = 3 ∧
    counted (insert_word_in_sentence (parse_file "A".toList) 0 2 " x. y. z".toList).2 =
      [["A".toList, " ".toList, "x".toList, ".".toList, " ".toList, "y".toList, ".".toList],
       [" ".toList, "z".toList], [], []] := by
  decide


/-! ## The LRU cache: probe sequences -/

theorem probe_step_mod (h t cap : Nat) : ((h + 1) % cap + t) % cap = (h + (t + 1)) % cap := by
  rw [Nat.mod_add_mod]
  congr 1
  omega

theorem probe_mod_ne (o m cap : Nat) (ho : o < cap) (hm0 : 0 < m) (hm : m < cap) :
    (o + m) % cap ≠ o := by
  intro h
  by_cases hlt : o + m < cap
  · rw [Nat.mod_eq_of_lt hlt] at h
    omega
  · have h2 : (o + m) % cap = o + m - cap := by
      rw [Nat.mod_eq_sub_mod (by omega)]
      exact Nat.mod_eq_of_lt (by omega)
    rw [h2] at h
    omega

theorem probe_mod_surj (o j cap : Nat) (ho : o < cap) (hj : j < cap) :
    ∃ t, t < cap ∧ (o + t) % cap = j := by
  by_cases h : o ≤ j
  · refine ⟨j - o, by omega, ?_⟩
    have : o + (j - o) = j := by omega
    rw [this]
    exact Nat.mod_eq_of_lt hj
  · refine ⟨j + cap - o, by omega, ?_⟩
    have : o + (j + cap - o) = j + cap := by omega
    rw [this, Nat.add_mod_right]
    exact Nat.mod_eq_of_lt hj

theorem probe_found (table : List (Option CacheNode)) (cap : Nat) (k : String) (node : CacheNode) :
    ∀ (t h : Nat), h < cap →
      (∀ u, u < t → ∃ n, table.getD ((h + u) % cap) none = some n ∧ n.key ≠ k) →
      table.getD ((h + t) % cap) none = some node → node.key = k →
      ∀ fuel, t < fuel → probe table cap k fuel h = some (some ((h + t) % cap)) := by
  intro t
  induction t with
  | zero =>
    intro h hh _ hnode hkey fuel hf
    obtain ⟨f, rfl⟩ := Nat.exists_eq_succ_of_ne_zero (by omega : fuel ≠ 0)
    rw [Nat.add_zero, Nat.mod_eq_of_lt hh] at hnode ⊢
    unfold probe
    simp only [hnode, hkey, if_true]
  | succ t ih =>
    intro h hh hpath hnode hkey fuel hf
    obtain ⟨f, rfl⟩ := Nat.exists_eq_succ_of_ne_zero (by omega : fuel ≠ 0)
    obtain ⟨n0, hn0, hk0⟩ := hpath 0 (by omega)
    rw [Nat.add_zero, Nat.mod_eq_of_lt hh] at hn0
    unfold probe
    simp only [hn0, hk0, if_false]
    have hcap : 0 < cap := by omega
    have := ih ((h + 1) % cap) (Nat.mod_lt _ hcap)
      (by
        intro u hu
        rw [probe_step_mod]
        exact hpath (u + 1) (by omega))
      (by rw [probe_step_mod]; exact hnode) hkey f (by omega)
    rw [this, probe_step_mod]

theorem probe_miss (table : List (Option CacheNode)) (cap : Nat) (k : String) :
    ∀ (t h : Nat), h < cap →
      (∀ u, u < t → ∃ n, table.getD ((h + u) % cap) none = some n ∧ n.key ≠ k) →
      table.getD ((h + t) % cap) none = none →
      ∀ fuel, t < fuel → probe table cap k fuel h = some none := by
  intro t
  induction t with
  | zero =>
    intro h hh _ hnode fuel hf
    obtain ⟨f, rfl⟩ := Nat.exists_eq_succ_of_ne_zero (by omega : fuel ≠ 0)
    rw [Nat.add_zero, Nat.mod_eq_of_lt hh] at hnode
    unfold probe
    simp only [hnode]
  | succ t ih =>
    intro h hh hpath hnode fuel hf
    obtain ⟨f, rfl⟩ := Nat.exists_eq_succ_of_ne_zero (by omega : fuel ≠ 0)
    obtain ⟨n0, hn0, hk0⟩ := hpath 0 (by omega)
    rw [Nat.add_zero, Nat.mod_eq_of_lt hh] at hn0
    unfold probe
    simp only [hn0, hk0, if_false]
    have hcap : 0 < cap := by omega
    exact ih ((h + 1) % cap) (Nat.mod_lt _ hcap)
      (by
        intro u hu
        rw [probe_step_mod]
        exact hpath (u + 1) (by omega))
      (by rw [probe_step_mod]; exact hnode) f (by omega)

theorem find_empty_slot_found (table : List (Option CacheNode)) (cap : Nat) :
    ∀ (t h : Nat), h < cap →
      (∀ u, u < t → ∃ n, table.getD ((h + u) % cap) none = some n) →
      table.getD ((h + t) % cap) none = none →
      ∀ fuel, t < fuel → find_empty_slot table cap fuel h = some ((h + t) % cap) := by
  intro t
  induction t with
  | zero =>
    intro h hh _ hnode fuel hf
    obtain ⟨f, rfl⟩ := Nat.exists_eq_succ_of_ne_zero (by omega : fuel ≠ 0)
    rw [Nat.add_zero, Nat.mod_eq_of_lt hh] at hnode ⊢
    unfold find_empty_slot
    simp only [hnode]
  | succ t ih =>
    intro h hh hpath hnode fuel hf
    obtain ⟨f, rfl⟩ := Nat.exists_eq_succ_of_ne_zero (by omega : fuel ≠ 0)
    obtain ⟨n0, hn0⟩ := hpath 0 (by omega)
    rw [Nat.add_zero, Nat.mod_eq_of_lt hh] at hn0
    unfold find_empty_slot
    simp only [hn0]
    have hcap : 0 < cap := by omega
    have := ih ((h + 1) % cap) (Nat.mod_lt _ hcap)
      (by
        intro u hu
        rw [probe_step_mod]
        exact hpath (u + 1) (by omega))
      (by rw [probe_step_mod]; exact hnode) f (by omega)
    rw [this, probe_step_mod]

theorem find_empty_slot_full (table : List (Option CacheNode)) (cap : Nat)
    (hfull : ∀ i, i < cap → ∃ n, table.getD i none = some n) :
    ∀ (fuel h : Nat), h < cap → find_empty_slot table cap fuel h = none := by
  intro fuel
  induction fuel with
  | zero => intro h _; rfl
  | succ f ih =>
    intro h hh
    obtain ⟨n, hn⟩ := hfull h hh
    unfold find_empty_slot
    simp only [hn]
    exact ih _ (Nat.mod_lt _ (by omega))

theorem probe_once_absent (table : List (Option CacheNode)) (cap : Nat) (k : String) (o : Nat)
    (habs : ∀ i n, table.getD i none = some n → n.key ≠ k) :
    ∀ (fuel h slot : Nat), probe_once table cap k o fuel h ≠ some (some slot) := by
  intro fuel
  induction fuel with
  | zero => intro h slot; simp [probe_once]
  | succ f ih =>
    intro h slot
    unfold probe_once
    cases hn : table.getD h none with
    | none => simp
    | some n =>
      simp only [habs h n hn, if_false]
      split
      · simp
      · exact ih _ _

theorem probe_once_step (o s cap : Nat) : ((o + s) % cap + 1) % cap = (o + (s + 1)) % cap := by
  rw [Nat.mod_add_mod]
  congr 1

theorem probe_once_found (table : List (Option CacheNode)) (cap : Nat) (k : String)
    (node : CacheNode) (o : Nat) (ho : o < cap) :
    ∀ (t s : Nat), s + t < cap →
      (∀ u, u < t → ∃ n, table.getD ((o + (s + u)) % cap) none = some n ∧ n.key ≠ k) →
      table.getD ((o + (s + t)) % cap) none = some node → node.key = k →
      ∀ fuel, t < fuel →
        probe_once table cap k o fuel ((o + s) % cap) = some (some ((o + (s + t)) % cap)) := by
  intro t
  induction t with
  | zero =>
    intro s _ _ hnode hkey fuel hf
    obtain ⟨f, rfl⟩ := Nat.exists_eq_succ_of_ne_zero (by omega : fuel ≠ 0)
    rw [Nat.add_zero] at hnode ⊢
    unfold probe_once
    simp only [hnode, hkey, if_true]
  | succ t ih =>
    intro s hs hpath hnode hkey fuel hf
    obtain ⟨f, rfl⟩ := Nat.exists_eq_succ_of_ne_zero (by omega : fuel ≠ 0)
    obtain ⟨n0, hn0, hk0⟩ := hpath 0 (by omega)
    rw [Nat.add_zero] at hn0
    unfold probe_once
    simp only [hn0, hk0, if_false]
    rw [probe_once_step, if_neg (probe_mod_ne o (s + 1) cap ho (by omega) (by omega))]
    have := ih (s + 1) (by omega)
      (by
        intro u hu
        have := hpath (u + 1) (by omega)
        rwa [show s + (u + 1) = s + 1 + u by omega] at this)
      (by rwa [show s + (t + 1) = s + 1 + t by omega] at hnode) hkey f (by omega)
    rw [this]
    congr 3
    omega

theorem probe_once_miss (table : List (Option CacheNode)) (cap : Nat) (k : String)
    (o : Nat) (ho : o < cap) :
    ∀ (t s : Nat), s + t < cap →
      (∀ u, u < t → ∃ n, table.getD ((o + (s + u)) % cap) none = some n ∧ n.key ≠ k) →
      table.getD ((o + (s + t)) % cap) none = none →
      ∀ fuel, t < fuel → probe_once table cap k o fuel ((o + s) % cap) = some none := by
  intro t
  induction t with
  | zero =>
    intro s _ _ hnode fuel hf
    obtain ⟨f, rfl⟩ := Nat.exists_eq_succ_of_ne_zero (by omega : fuel ≠ 0)
    rw [Nat.add_zero] at hnode
    unfold probe_once
    simp only [hnode]
  | succ t ih =>
    intro s hs hpath hnode fuel hf
    obtain ⟨f, rfl⟩ := Nat.exists_eq_succ_of_ne_zero (by omega : fuel ≠ 0)
    obtain ⟨n0, hn0, hk0⟩ := hpath 0 (by omega)
    rw [Nat.add_zero] at hn0
    unfold probe_once
    simp only [hn0, hk0, if_false]
    rw [probe_once_step, if_neg (probe_mod_ne o (s + 1) cap ho (by omega) (by omega))]
    exact ih (s + 1) (by omega)
      (by
        intro u hu
        have := hpath (u + 1) (by omega)
        rwa [show s + (u + 1) = s + 1 + u by omega] at this)
      (by rwa [show s + (t + 1) = s + 1 + t by omega] at hnode) f (by omega)

theorem hash_string_lt (k : String) (cap : Nat) (h : 0 < cap) : hash_string k cap < cap :=
  Nat.mod_lt _ h

theorem countP_isSome_full (table : List (Option CacheNode))
    (h : table.countP (fun x => x.isSome) = table.length) :
    ∀ i, i < table.length → ∃ n, table.getD i none = some n := by
  induction table with
  | nil => intro i hi; simp at hi
  | cons a rest ih =>
    intro i hi
    have hle := List.countP_le_length (fun x : Option CacheNode => x.isSome) (l := rest)
    cases a with
    | none =>
      simp only [List.countP_cons, Option.isSome_none, Bool.false_eq_true, if_false,
        List.length_cons] at h
      omega
    | some n =>
      simp only [List.countP_cons, Option.isSome_some, if_true, List.length_cons] at h
      cases i with
      | zero => exact ⟨n, rfl⟩
      | succ j =>
        simp only [List.length_cons] at hi
        simpa using ih (by omega) j (by omega)

theorem countP_isSome_lt (table : List (Option CacheNode))
    (h : table.countP (fun x => x.isSome) < table.length) :
    ∃ i, i < table.length ∧ table.getD i none = none := by
  induction table with
  | nil => simp at h
  | cons a rest ih =>
    cases a with
    | none => exact ⟨0, by simp, rfl⟩
    | some n =>
      simp only [List.countP_cons, Option.isSome_some, if_true, List.length_cons] at h
      obtain ⟨i, hi, hn⟩ := ih (by omega)
      exact ⟨i + 1, by simp; omega, by simpa using hn⟩


/-! ## The LRU cache: a full cache, and removal -/

theorem full_cache_inv : CacheInv full_cache := by
  refine ⟨by decide, rfl, by decide, by decide, ?_, ?_⟩
  · intro slot
    cases slot with
    | zero => simp [full_cache, slot_holds]
    | succ n => simp [full_cache, slot_holds]
  · intro slot node h
    cases slot with
    | zero =>
      refine ⟨0, by decide, ?_, ?_⟩
      · show (hash_string node.key 1 + 0) % 1 = 0
        exact Nat.mod_one _
      · intro u hu; omega
    | succ n => simp [full_cache, slot_holds] at h

/-- C12 (the code departs from the claim): on a consistent cache with
`size == capacity`, `cache_put` of a key that is not present never returns:
the loop "find empty slot" finds every slot occupied, so the call runs out of
any amount of fuel, and no eviction takes place. -/
theorem cache_put_full_never_returns (c : LRUCache) (k : String) (v : FileMetadata)
    (hinv : CacheInv c) (hfull : c.size = (c.capacity : Int)) (habs : ¬ key_present c k) :
    ∀ fuel, cache_put fuel c k v = none := by
  intro fuel
  have hcount : c.hash_table.countP (fun x => x.isSome) = c.hash_table.length := by
    have := hinv.size_eq
    rw [hfull] at this
    rw [hinv.table_len]
    exact_mod_cast this.symm
  have hall : ∀ i, i < c.capacity → ∃ n, c.hash_table.getD i none = some n := by
    intro i hi
    exact countP_isSome_full _ hcount i (by rw [hinv.table_len]; exact hi)
  have hno : ∀ i n, c.hash_table.getD i none = some n → n.key ≠ k := by
    intro i n hn hk
    exact habs ⟨i, n, hn, hk⟩
  unfold cache_put
  simp only
  cases hp : probe_once c.hash_table c.capacity k (hash_string k c.capacity) fuel
      (hash_string k c.capacity) with
  | none => rfl
  | some r =>
    cases r with
    | some slot => exact absurd hp (probe_once_absent _ _ _ _ hno _ _ _)
    | none =>
      simp only
      rw [find_empty_slot_full _ _ hall fuel _ (hash_string_lt k _ hinv.cap_pos)]

theorem cache_put_full_never_returns_witness :
    CacheInv full_cache ∧ ¬ key_present full_cache "b" ∧
    ∀ fuel, cache_put fuel full_cache "b" (sample_meta "b" "u") = none :=
  have habs : ¬ key_present full_cache "b" := by
    rintro ⟨slot, node, h, hk⟩
    cases slot with
    | zero =>
      simp only [slot_holds, full_cache, List.getD_cons_zero, Option.some.injEq] at h
      rw [← h] at hk
      exact absurd hk (by decide)
    | succ n => simp [full_cache, slot_holds] at h
  ⟨full_cache_inv, habs,
    cache_put_full_never_returns full_cache "b" (sample_meta "b" "u") full_cache_inv rfl habs⟩

/-- C14 (the code departs from the claim): in a cache of capacity 2 the keys
`"a"` and `"c"` hash to slot 0, so `"c"` is stored in slot 1; `cache_remove` of
`"a"` empties slot 0, and `cache_get` of `"c"` then stops at the empty slot and
misses although the node of `"c"` is still in the table and in the list. -/
theorem cache_remove_hides_colliding_key :
    hash_string "a" 2 = hash_string "c" 2 ∧
    ((((cache_put 5 (init_cache 2) "a" (sample_meta "a" "u")).bind
        (fun c => cache_put 5 c "c" (sample_meta "c" "u"))).bind
        (fun c => cache_remove 5 c "a")).bind
        (fun c => cache_get 5 c "c")) =
      some ({ capacity := 2, size := 1,
              hash_table := [none, some { key := "c", value := sample_meta "c" "u" }],
              lru := [1] }, none) := by
  decide


/-! ## The LRU cache: `cache_put` followed by `cache_get` -/

theorem getD_set_same (table : List (Option CacheNode)) (i : Nat) (x : Option CacheNode)
    (h : i < table.length) : (table.set i x).getD i none = x := by
  simp [List.getD_eq_getElem?_getD, List.getElem?_set, h]

theorem getD_set_other (table : List (Option CacheNode)) (i j : Nat) (x : Option CacheNode)
    (h : i ≠ j) : (table.set i x).getD j none = table.getD j none := by
  simp [List.getD_eq_getElem?_getD, List.getElem?_set, h]

theorem getD_some_lt (table : List (Option CacheNode)) (i : Nat) (n : CacheNode)
    (h : table.getD i none = some n) : i < table.length := by
  by_contra hlt
  rw [List.getD_eq_getElem?_getD, List.getElem?_eq_none (by omega)] at h
  exact absurd h (by simp)

theorem create_cache_node_key (k : String) (v : FileMetadata) (hk : k.length < MAX_FILENAME) :
    (create_cache_node k v).key = k := by
  unfold create_cache_node
  have : k.data.length < MAX_FILENAME := hk
  have h2 : k.data.take (MAX_FILENAME - 1) = k.data := List.take_of_length_le (by omega)
  simp only [h2]

theorem move_to_head_head (lru : List Nat) (slot : Nat) :
    move_to_head (move_to_head lru slot) slot = move_to_head lru slot := by
  simp [move_to_head, add_to_head, remove_node]

theorem add_then_move_to_head (lru : List Nat) (slot : Nat) :
    move_to_head (add_to_head lru slot) slot = add_to_head lru slot := by
  simp [move_to_head, add_to_head, remove_node]

theorem cache_put_present (c : LRUCache) (k : String) (v : FileMetadata) (hinv : CacheInv c)
    (slot : Nat) (node : CacheNode) (hs : slot_holds c slot node) (hkey : node.key = k) :
    (∀ fuel, c.capacity ≤ fuel → cache_put fuel c k v =
      some { c with hash_table := c.hash_table.set slot (some { node with value := v }),
                    lru := move_to_head c.lru slot }) ∧
    (∀ fuel, c.capacity ≤ fuel → cache_get fuel c k =
      some ({ c with lru := move_to_head c.lru slot }, some node.value)) ∧
    (∀ fuel, c.capacity ≤ fuel → cache_get fuel
        { c with hash_table := c.hash_table.set slot (some { node with value := v }),
                 lru := move_to_head c.lru slot } k =
      some ({ c with hash_table := c.hash_table.set slot (some { node with value := v }),
                     lru := move_to_head c.lru slot }, some v)) := by
  subst hkey
  obtain ⟨t, ht, hslot, hpath⟩ := hinv.probe_path slot node hs
  have hh := hash_string_lt node.key c.capacity hinv.cap_pos
  have hlen : slot < c.hash_table.length := getD_some_lt _ _ _ hs
  unfold probe_slot at hslot
  have hpath1 : ∀ u, u < t → ∃ n, c.hash_table.getD
      ((hash_string node.key c.capacity + u) % c.capacity) none = some n ∧ n.key ≠ node.key :=
    hpath
  have hnode : c.hash_table.getD ((hash_string node.key c.capacity + t) % c.capacity) none
      = some node := by rw [hslot]; exact hs
  refine ⟨?_, ?_, ?_⟩
  · intro fuel hf
    have hp := probe_once_found c.hash_table c.capacity node.key node _ hh t 0 (by omega)
      (by simpa using hpath1) (by simpa using hnode) rfl fuel (by omega)
    simp only [Nat.zero_add, Nat.add_zero, Nat.mod_eq_of_lt hh, hslot] at hp
    unfold cache_put
    simp only [hp]
    have hs1 : c.hash_table.getD slot none = some node := hs
    simp only [hs1]
  · intro fuel hf
    have hp := probe_found c.hash_table c.capacity node.key node t _ hh hpath1 hnode rfl fuel
      (by omega)
    rw [hslot] at hp
    unfold cache_get
    simp only [hp]
    have hs1 : c.hash_table.getD slot none = some node := hs
    simp only [hs1]
  · intro fuel hf
    have hpath2 : ∀ u, u < t → ∃ n, (c.hash_table.set slot (some { node with value := v })).getD
        ((hash_string node.key c.capacity + u) % c.capacity) none = some n ∧ n.key ≠ node.key := by
      intro u hu
      obtain ⟨n, hn, hne⟩ := hpath1 u hu
      refine ⟨n, ?_, hne⟩
      rw [getD_set_other]
      · exact hn
      · intro heq
        rw [← heq] at hn
        have hs1 : c.hash_table.getD slot none = some node := hs
        rw [hs1] at hn
        simp only [Option.some.injEq] at hn
        exact hne (by rw [hn])
    have hnode2 : (c.hash_table.set slot (some { node with value := v })).getD
        ((hash_string node.key c.capacity + t) % c.capacity) none
        = some { node with value := v } := by
      rw [hslot]
      exact getD_set_same _ _ _ hlen
    have hp := probe_found _ c.capacity node.key _ t _ hh hpath2 hnode2 rfl fuel (by omega)
    rw [hslot] at hp
    unfold cache_get
    simp only [hp, getD_set_same _ _ _ hlen, move_to_head_head]

theorem first_empty_slot (c : LRUCache) (k : String) (hinv : CacheInv c)
    (hsize : c.size < (c.capacity : Int)) :
    ∃ t, t < c.capacity ∧ c.hash_table.getD (probe_slot c k t) none = none ∧
      ∀ u, u < t → ∃ n, c.hash_table.getD (probe_slot c k u) none = some n := by
  classical
  have hcount : c.hash_table.countP (fun x => x.isSome) < c.hash_table.length := by
    have := hinv.size_eq
    rw [this] at hsize
    rw [hinv.table_len]
    exact_mod_cast hsize
  obtain ⟨i, hi, hnone⟩ := countP_isSome_lt _ hcount
  rw [hinv.table_len] at hi
  obtain ⟨t, ht, hti⟩ := probe_mod_surj _ i c.capacity
    (hash_string_lt k c.capacity hinv.cap_pos) hi
  have hex : ∃ t, c.hash_table.getD (probe_slot c k t) none = none :=
    ⟨t, by unfold probe_slot; rw [hti]; exact hnone⟩
  refine ⟨Nat.find hex, ?_, Nat.find_spec hex, ?_⟩
  · have : Nat.find hex ≤ t := Nat.find_min' hex (by unfold probe_slot; rw [hti]; exact hnone)
    omega
  · intro u hu
    have := Nat.find_min hex hu
    exact Option.ne_none_iff_exists'.1 this

theorem cache_put_absent (c : LRUCache) (k : String) (v : FileMetadata) (hinv : CacheInv c)
    (hk : k.length < MAX_FILENAME) (habs : ¬ key_present c k)
    (hsize : c.size < (c.capacity : Int)) :
    ∃ slot, slot < c.capacity ∧ c.hash_table.getD slot none = none ∧
      (∀ fuel, c.capacity ≤ fuel → cache_put fuel c k v =
        some { c with hash_table := c.hash_table.set slot (some (create_cache_node k v)),
                      lru := add_to_head c.lru slot, size := c.size + 1 }) ∧
      (∀ fuel, c.capacity ≤ fuel → cache_get fuel
          { c with hash_table := c.hash_table.set slot (some (create_cache_node k v)),
                   lru := add_to_head c.lru slot, size := c.size + 1 } k =
        some ({ c with hash_table := c.hash_table.set slot (some (create_cache_node k v)),
                       lru := add_to_head c.lru slot, size := c.size + 1 }, some v)) ∧
      ∃ t, t < c.capacity ∧ probe_slot c k t = slot ∧
        ∀ u, u < t → ∃ n, c.hash_table.getD (probe_slot c k u) none = some n ∧ n.key ≠ k := by
  obtain ⟨t, ht, hnone, hpath0⟩ := first_empty_slot c k hinv hsize
  have hh := hash_string_lt k c.capacity hinv.cap_pos
  have hpath : ∀ u, u < t → ∃ n, c.hash_table.getD
      ((hash_string k c.capacity + u) % c.capacity) none = some n ∧ n.key ≠ k := by
    intro u hu
    obtain ⟨n, hn⟩ := hpath0 u hu
    exact ⟨n, hn, fun hkey => habs ⟨_, n, hn, hkey⟩⟩
  have hslot_lt : probe_slot c k t < c.capacity := Nat.mod_lt _ hinv.cap_pos
  have hlen : probe_slot c k t < c.hash_table.length := by rw [hinv.table_len]; exact hslot_lt
  refine ⟨probe_slot c k t, hslot_lt, hnone, ?_, ?_, t, ht, rfl, hpath⟩
  · intro fuel hf
    have hp := probe_once_miss c.hash_table c.capacity k _ hh t 0 (by omega)
      (by simpa using hpath) (by simpa [probe_slot] using hnone) fuel (by omega)
    simp only [Nat.add_zero, Nat.mod_eq_of_lt hh] at hp
    have hfe := find_empty_slot_found c.hash_table c.capacity t _ hh
      (fun u hu => (hpath u hu).imp (fun _ h => h.1)) hnone fuel (by omega)
    unfold cache_put
    simp only [hp, hfe]
    unfold evict
    have hno : ¬ (c.size + 1 > (c.capacity : Int)) := by omega
    simp only [hno, if_false]
    rfl
  · intro fuel hf
    have hpath2 : ∀ u, u < t → ∃ n,
        (c.hash_table.set (probe_slot c k t) (some (create_cache_node k v))).getD
        ((hash_string k c.capacity + u) % c.capacity) none = some n ∧ n.key ≠ k := by
      intro u hu
      obtain ⟨n, hn, hne⟩ := hpath u hu
      refine ⟨n, ?_, hne⟩
      rw [getD_set_other]
      · exact hn
      · intro heq
        rw [← heq, hnone] at hn
        exact absurd hn (by simp)
    have hnode2 : (c.hash_table.set (probe_slot c k t) (some (create_cache_node k v))).getD
        ((hash_string k c.capacity + t) % c.capacity) none
        = some (create_cache_node k v) := getD_set_same _ _ _ hlen
    have hp := probe_found _ c.capacity k _ t _ hh hpath2 hnode2
      (create_cache_node_key k v hk) fuel (by omega)
    unfold cache_get
    simp only [hp]
    have hg : (c.hash_table.set (probe_slot c k t) (some (create_cache_node k v))).getD
        (probe_slot c k t) none = some (create_cache_node k v) := getD_set_same _ _ _ hlen
    have hg2 : (c.hash_table.set (probe_slot c k t) (some (create_cache_node k v))).getD
        ((hash_string k c.capacity + t) % c.capacity) none
        = some (create_cache_node k v) := hg
    simp only [hg2]
    have hm : move_to_head (add_to_head c.lru (probe_slot c k t))
        ((hash_string k c.capacity + t) % c.capacity) = add_to_head c.lru (probe_slot c k t) :=
      add_then_move_to_head _ _
    rw [hm]
    rfl


/-! ## The LRU cache: the consistency of reachable states -/

theorem probe_mono (table : List (Option CacheNode)) (cap : Nat) (k : String) :
    ∀ (fuel fuel1 h : Nat) (r : Option Nat), probe table cap k fuel h = some r → fuel ≤ fuel1 →
      probe table cap k fuel1 h = some r := by
  intro fuel
  induction fuel with
  | zero => intro fuel1 h r hr; simp [probe] at hr
  | succ f ih =>
    intro fuel1 h r hr hle
    obtain ⟨f1, rfl⟩ := Nat.exists_eq_succ_of_ne_zero (by omega : fuel1 ≠ 0)
    unfold probe at hr ⊢
    cases hn : table.getD h none with
    | none =>
      simp only [hn] at hr ⊢
      exact hr
    | some n =>
      simp only [hn] at hr ⊢
      split
      · rename_i hk; simpa [hk] using hr
      · rename_i hk
        simp only [hk, if_false] at hr
        exact ih _ _ _ hr (by omega)

theorem probe_once_mono (table : List (Option CacheNode)) (cap : Nat) (k : String) (o : Nat) :
    ∀ (fuel fuel1 h : Nat) (r : Option Nat), probe_once table cap k o fuel h = some r →
      fuel ≤ fuel1 → probe_once table cap k o fuel1 h = some r := by
  intro fuel
  induction fuel with
  | zero => intro fuel1 h r hr; simp [probe_once] at hr
  | succ f ih =>
    intro fuel1 h r hr hle
    obtain ⟨f1, rfl⟩ := Nat.exists_eq_succ_of_ne_zero (by omega : fuel1 ≠ 0)
    unfold probe_once at hr ⊢
    cases hn : table.getD h none with
    | none =>
      simp only [hn] at hr ⊢
      exact hr
    | some n =>
      simp only [hn] at hr ⊢
      split
      · rename_i hk; simpa [hk] using hr
      · rename_i hk
        simp only [hk, if_false] at hr
        split
        · rename_i hc; simpa [hc] using hr
        · rename_i hc
          simp only [hc, if_false] at hr
          exact ih _ _ _ hr (by omega)

theorem find_empty_slot_mono (table : List (Option CacheNode)) (cap : Nat) :
    ∀ (fuel fuel1 h r : Nat), find_empty_slot table cap fuel h = some r → fuel ≤ fuel1 →
      find_empty_slot table cap fuel1 h = some r := by
  intro fuel
  induction fuel with
  | zero => intro fuel1 h r hr; simp [find_empty_slot] at hr
  | succ f ih =>
    intro fuel1 h r hr hle
    obtain ⟨f1, rfl⟩ := Nat.exists_eq_succ_of_ne_zero (by omega : fuel1 ≠ 0)
    unfold find_empty_slot at hr ⊢
    cases hn : table.getD h none with
    | none =>
      simp only [hn] at hr ⊢
      exact hr
    | some n =>
      simp only [hn] at hr ⊢
      exact ih _ _ _ hr (by omega)

theorem find_node_slot_mono (cap tail : Nat) :
    ∀ (fuel fuel1 h r : Nat), find_node_slot cap tail fuel h = some r → fuel ≤ fuel1 →
      find_node_slot cap tail fuel1 h = some r := by
  intro fuel
  induction fuel with
  | zero => intro fuel1 h r hr; simp [find_node_slot] at hr
  | succ f ih =>
    intro fuel1 h r hr hle
    obtain ⟨f1, rfl⟩ := Nat.exists_eq_succ_of_ne_zero (by omega : fuel1 ≠ 0)
    unfold find_node_slot at hr ⊢
    split
    · rename_i hk; simpa [hk] using hr
    · rename_i hk
      simp only [hk, if_false] at hr
      exact ih _ _ _ hr (by omega)

theorem evict_mono (c c1 : LRUCache) (fuel fuel1 : Nat) (h : evict fuel c = some c1)
    (hle : fuel ≤ fuel1) : evict fuel1 c = some c1 := by
  unfold evict at h ⊢
  split
  · rename_i hs
    simp only [hs, if_true] at h
    cases hl : c.lru.getLast? with
    | none => simp [hl] at h
    | some tail =>
      simp only [hl] at h ⊢
      cases hn : c.hash_table.getD tail none with
      | none =>
        simp only [hn] at h
        exact absurd h (by simp)
      | some node =>
        simp only [hn] at h ⊢
        cases hf : find_node_slot c.capacity tail fuel (hash_string node.key c.capacity) with
        | none => simp [hf] at h
        | some th =>
          simp only [hf] at h
          rw [find_node_slot_mono _ _ _ _ _ _ hf hle]
          exact h
  · rename_i hs
    simpa [hs] using h

theorem cache_put_mono (c c1 : LRUCache) (k : String) (v : FileMetadata) (fuel fuel1 : Nat)
    (h : cache_put fuel c k v = some c1) (hle : fuel ≤ fuel1) :
    cache_put fuel1 c k v = some c1 := by
  unfold cache_put at h ⊢
  simp only at h ⊢
  cases hp : probe_once c.hash_table c.capacity k (hash_string k c.capacity) fuel
      (hash_string k c.capacity) with
  | none => simp [hp] at h
  | some r =>
    rw [probe_once_mono _ _ _ _ _ _ _ _ hp hle]
    simp only [hp] at h
    cases r with
    | some slot => exact h
    | none =>
      simp only at h ⊢
      cases hf : find_empty_slot c.hash_table c.capacity fuel (hash_string k c.capacity) with
      | none => simp [hf] at h
      | some slot =>
        rw [find_empty_slot_mono _ _ _ _ _ _ hf hle]
        simp only [hf] at h
        exact evict_mono _ _ _ _ h hle

theorem cache_get_mono (c c1 : LRUCache) (k : String) (r : Option FileMetadata)
    (fuel fuel1 : Nat) (h : cache_get fuel c k = some (c1, r)) (hle : fuel ≤ fuel1) :
    cache_get fuel1 c k = some (c1, r) := by
  unfold cache_get at h ⊢
  cases hp : probe c.hash_table c.capacity k fuel (hash_string k c.capacity) with
  | none => simp [hp] at h
  | some x =>
    rw [probe_mono _ _ _ _ _ _ _ hp hle]
    simpa [hp] using h

theorem countP_set_some (table : List (Option CacheNode)) (n : CacheNode) :
    ∀ i, i < table.length →
      (table.set i (some n)).countP (fun x => x.isSome) =
        table.countP (fun x => x.isSome) + (if (table.getD i none).isSome then 0 else 1) := by
  induction table with
  | nil => intro i hi; simp at hi
  | cons a rest ih =>
    intro i hi
    cases i with
    | zero =>
      cases a with
      | none => simp [List.countP_cons]
      | some m => simp [List.countP_cons]
    | succ j =>
      have := ih j (by simpa using hi)
      simp only [List.set_cons_succ, List.countP_cons, List.getD_cons_succ, this]
      omega

theorem init_cache_inv (capacity : Nat) (h : 0 < capacity) : CacheInv (init_cache capacity) := by
  have hget : ∀ slot, (List.replicate capacity (none : Option CacheNode)).getD slot none = none := by
    intro slot
    rw [List.getD_eq_getElem?_getD, List.getElem?_replicate]
    split <;> rfl
  refine ⟨h, by simp [init_cache], ?_, by simp [init_cache], ?_, ?_⟩
  · show (0 : Int) = _
    have : (List.replicate capacity (none : Option CacheNode)).countP (fun x => x.isSome) = 0 := by
      rw [List.countP_eq_zero]
      intro a ha
      rw [List.mem_replicate] at ha
      simp [ha.2]
    simp [init_cache, this]
  · intro slot
    simp only [init_cache, slot_holds, hget]
    simp
  · intro slot node hs
    simp only [init_cache, slot_holds, hget] at hs
    exact absurd hs (by simp)

theorem cache_clear_inv (c : LRUCache) (h : CacheInv c) : CacheInv (cache_clear c) :=
  init_cache_inv c.capacity h.cap_pos

theorem move_to_head_inv (c : LRUCache) (h : CacheInv c) (slot : Nat) (node : CacheNode)
    (hs : slot_holds c slot node) : CacheInv { c with lru := move_to_head c.lru slot } := by
  refine ⟨h.cap_pos, h.table_len, h.size_eq, ?_, ?_, h.probe_path⟩
  · show (slot :: c.lru.erase slot).Nodup
    rw [List.nodup_cons]
    exact ⟨fun hm => (List.Nodup.mem_erase_iff h.lru_nodup).1 hm |>.1 rfl,
      List.Nodup.erase _ h.lru_nodup⟩
  · intro s
    show s ∈ slot :: c.lru.erase slot ↔ ∃ n, slot_holds c s n
    rw [List.mem_cons]
    by_cases hss : s = slot
    · subst hss
      simp only [true_or, true_iff]
      exact ⟨node, hs⟩
    · rw [List.mem_erase_of_ne hss]
      simp only [hss, false_or]
      exact h.lru_mem s

theorem set_value_inv (c : LRUCache) (h : CacheInv c) (slot : Nat) (node : CacheNode)
    (v : FileMetadata) (hs : slot_holds c slot node) :
    CacheInv { c with hash_table := c.hash_table.set slot (some { node with value := v }) } := by
  have hlen : slot < c.hash_table.length := getD_some_lt _ _ _ hs
  have hs1 : c.hash_table.getD slot none = some node := hs
  have hholds : ∀ s n,
      (c.hash_table.set slot (some { node with value := v })).getD s none = some n →
      ∃ n0, slot_holds c s n0 ∧ n0.key = n.key := by
    intro s n hn
    by_cases hss : slot = s
    · subst hss
      have hn1 : (c.hash_table.set slot (some { node with value := v })).getD slot none = some n := hn
      rw [getD_set_same _ _ _ hlen] at hn1
      simp only [Option.some.injEq] at hn1
      exact ⟨node, hs, by rw [← hn1]⟩
    · have hn1 : (c.hash_table.set slot (some { node with value := v })).getD s none = some n := hn
      rw [getD_set_other _ _ _ _ hss] at hn1
      exact ⟨n, hn1, rfl⟩
  have hback : ∀ s n0, slot_holds c s n0 → ∃ n,
      (c.hash_table.set slot (some { node with value := v })).getD s none = some n ∧
      n.key = n0.key := by
    intro s n0 hn0
    by_cases hss : slot = s
    · subst hss
      have h0 : c.hash_table.getD slot none = some n0 := hn0
      rw [hs1] at h0
      simp only [Option.some.injEq] at h0
      exact ⟨{ node with value := v }, getD_set_same _ _ _ hlen, by rw [← h0]⟩
    · exact ⟨n0, by
        show (c.hash_table.set slot (some { node with value := v })).getD s none = some n0
        rw [getD_set_other _ _ _ _ hss]; exact hn0, rfl⟩
  refine ⟨h.cap_pos, by simp [h.table_len], ?_, h.lru_nodup, ?_, ?_⟩
  · show c.size = _
    rw [h.size_eq]
    have := countP_set_some c.hash_table { node with value := v } slot hlen
    simp only [hs1, Option.isSome_some, if_true, Nat.add_zero] at this
    simp only [this]
  · intro s
    rw [h.lru_mem s]
    constructor
    · rintro ⟨n0, hn0⟩
      obtain ⟨n, hn, _⟩ := hback s n0 hn0
      exact ⟨n, hn⟩
    · rintro ⟨n, hn⟩
      obtain ⟨n0, hn0, _⟩ := hholds s n hn
      exact ⟨n0, hn0⟩
  · intro s n hn
    obtain ⟨n0, hn0, hk0⟩ := hholds s n hn
    obtain ⟨t, ht, hslot, hpath⟩ := h.probe_path s n0 hn0
    rw [hk0] at hslot hpath
    refine ⟨t, ht, hslot, ?_⟩
    intro u hu
    obtain ⟨m0, hm0, hmk⟩ := hpath u hu
    obtain ⟨m, hm, hmk2⟩ := hback _ m0 hm0
    exact ⟨m, hm, by rw [hmk2]; exact hmk⟩

theorem add_node_inv (c : LRUCache) (h : CacheInv c) (slot : Nat) (node : CacheNode)
    (hslot : slot < c.capacity) (hnone : c.hash_table.getD slot none = none)
    (hpath : ∃ t, t < c.capacity ∧ probe_slot c node.key t = slot ∧
      ∀ u, u < t → ∃ n, c.hash_table.getD (probe_slot c node.key u) none = some n ∧
        n.key ≠ node.key) :
    CacheInv { c with hash_table := c.hash_table.set slot (some node),
                      lru := add_to_head c.lru slot, size := c.size + 1 } := by
  have hlen : slot < c.hash_table.length := by rw [h.table_len]; exact hslot
  have hother : ∀ s n, c.hash_table.getD s none = some n →
      (c.hash_table.set slot (some node)).getD s none = some n := by
    intro s n hn
    rw [getD_set_other]
    · exact hn
    · intro heq
      rw [← heq, hnone] at hn
      exact absurd hn (by simp)
  refine ⟨h.cap_pos, by simp [h.table_len], ?_, ?_, ?_, ?_⟩
  · show c.size + 1 = _
    rw [h.size_eq]
    have := countP_set_some c.hash_table node slot hlen
    simp only [hnone, Option.isSome_none, Bool.false_eq_true, if_false] at this
    simp only [this]
    push_cast
    rfl
  · show (slot :: c.lru).Nodup
    rw [List.nodup_cons]
    refine ⟨?_, h.lru_nodup⟩
    intro hm
    obtain ⟨n, hn⟩ := (h.lru_mem slot).1 hm
    have hn1 : c.hash_table.getD slot none = some n := hn
    rw [hnone] at hn1
    exact absurd hn1 (by simp)
  · intro s
    show s ∈ slot :: c.lru ↔ ∃ n, (c.hash_table.set slot (some node)).getD s none = some n
    rw [List.mem_cons]
    by_cases hss : s = slot
    · subst hss
      simp only [true_or, true_iff]
      exact ⟨node, getD_set_same _ _ _ hlen⟩
    · simp only [hss, false_or]
      rw [h.lru_mem s, getD_set_other _ _ _ _ (Ne.symm hss)]
      rfl
  · intro s n hn
    have hn1 : (c.hash_table.set slot (some node)).getD s none = some n := hn
    by_cases hss : slot = s
    · subst hss
      rw [getD_set_same _ _ _ hlen] at hn1
      simp only [Option.some.injEq] at hn1
      subst hn1
      obtain ⟨t, ht, hts, hp⟩ := hpath
      refine ⟨t, ht, hts, ?_⟩
      intro u hu
      obtain ⟨m, hm, hmk⟩ := hp u hu
      exact ⟨m, hother _ _ hm, hmk⟩
    · rw [getD_set_other _ _ _ _ hss] at hn1
      obtain ⟨t, ht, hts, hp⟩ := h.probe_path s n hn1
      refine ⟨t, ht, hts, ?_⟩
      intro u hu
      obtain ⟨m, hm, hmk⟩ := hp u hu
      exact ⟨m, hother _ _ hm, hmk⟩

theorem size_le_capacity (c : LRUCache) (h : CacheInv c) : c.size ≤ (c.capacity : Int) := by
  rw [h.size_eq, ← h.table_len]
  exact_mod_cast List.countP_le_length (fun x : Option CacheNode => x.isSome)

theorem cache_put_some_not_full (c c1 : LRUCache) (k : String) (v : FileMetadata) (fuel : Nat)
    (hinv : CacheInv c) (habs : ¬ key_present c k) (hput : cache_put fuel c k v = some c1) :
    c.size < (c.capacity : Int) := by
  by_contra hnot
  have hfull : c.size = (c.capacity : Int) := by
    have := size_le_capacity c hinv
    omega
  have hcount : c.hash_table.countP (fun x => x.isSome) = c.hash_table.length := by
    have := hinv.size_eq
    rw [hfull] at this
    rw [hinv.table_len]
    exact_mod_cast this.symm
  have hall : ∀ i, i < c.capacity → ∃ n, c.hash_table.getD i none = some n := by
    intro i hi
    exact countP_isSome_full _ hcount i (by rw [hinv.table_len]; exact hi)
  unfold cache_put at hput
  simp only at hput
  cases hp : probe_once c.hash_table c.capacity k (hash_string k c.capacity) fuel
      (hash_string k c.capacity) with
  | none =>
    simp only [hp] at hput
    exact absurd hput (by simp)
  | some r =>
    cases r with
    | some slot =>
      exact absurd hp (probe_once_absent _ _ _ _
        (fun i n hn hk => habs ⟨i, n, hn, hk⟩) _ _ _)
    | none =>
      simp only [hp] at hput
      rw [find_empty_slot_full _ _ hall fuel _ (hash_string_lt k _ hinv.cap_pos)] at hput
      exact absurd hput (by simp)

theorem cache_put_inv (c c1 : LRUCache) (k : String) (v : FileMetadata) (fuel : Nat)
    (hinv : CacheInv c) (hk : k.length < MAX_FILENAME) (hput : cache_put fuel c k v = some c1) :
    CacheInv c1 := by
  classical
  have hmono := cache_put_mono c c1 k v fuel (max fuel c.capacity) hput (le_max_left _ _)
  by_cases hpres : key_present c k
  · obtain ⟨slot, node, hs, hkey⟩ := hpres
    have hcan := (cache_put_present c k v hinv slot node hs hkey).1 _ (le_max_right fuel c.capacity)
    rw [hcan] at hmono
    simp only [Option.some.injEq] at hmono
    rw [← hmono]
    have h1 := set_value_inv c hinv slot node v hs
    have hlen : slot < c.hash_table.length := getD_some_lt _ _ _ hs
    exact move_to_head_inv _ h1 slot { node with value := v } (getD_set_same _ _ _ hlen)
  · have hsize := cache_put_some_not_full c c1 k v fuel hinv hpres hput
    obtain ⟨slot, hslot, hnone, hcan, _, hpath⟩ := cache_put_absent c k v hinv hk hpres hsize
    rw [hcan _ (le_max_right fuel c.capacity)] at hmono
    simp only [Option.some.injEq] at hmono
    rw [← hmono]
    apply add_node_inv c hinv slot (create_cache_node k v) hslot hnone
    rw [create_cache_node_key k v hk]
    exact hpath

theorem cache_get_inv (c c1 : LRUCache) (k : String) (r : Option FileMetadata) (fuel : Nat)
    (hinv : CacheInv c) (hget : cache_get fuel c k = some (c1, r)) : CacheInv c1 := by
  unfold cache_get at hget
  cases hp : probe c.hash_table c.capacity k fuel (hash_string k c.capacity) with
  | none =>
    simp only [hp] at hget
    exact absurd hget (by simp)
  | some x =>
    simp only [hp] at hget
    cases x with
    | none =>
      simp only [Option.some.injEq, Prod.mk.injEq] at hget
      rw [← hget.1]
      exact hinv
    | some slot =>
      simp only at hget
      cases hn : c.hash_table.getD slot none with
      | none =>
        simp only [hn, Option.some.injEq, Prod.mk.injEq] at hget
        rw [← hget.1]
        exact hinv
      | some node =>
        simp only [hn, Option.some.injEq, Prod.mk.injEq] at hget
        rw [← hget.1]
        exact move_to_head_inv c hinv slot node hn

theorem cache_reachable_inv (c : LRUCache) (h : CacheReachable c) : CacheInv c := by
  induction h with
  | init capacity hc => exact init_cache_inv capacity hc
  | put c c1 fuel key value _ hk hput ih => exact cache_put_inv c c1 key value fuel ih hk hput
  | get c c1 fuel key r _ hget ih => exact cache_get_inv c c1 key r fuel ih hget
  | clear c _ ih => exact cache_clear_inv c ih


/-! ## The LRU cache: the contract of `cache_put` and `cache_get` -/

/-- The contract of `cache_put` and `cache_get` as long as nothing was removed:
in every cache state reached from `init_cache` by
`cache_put`, `cache_get` and `cache_clear`, for a key `k` shorter than
`MAX_FILENAME` with `size < capacity` or `k` present: `cache_put k v` returns a
state `c1` in which a slot holds `k` with value `v`, `cache_get k` on `c1`
returns `v` and leaves `c1` as it is, the list of `c1` is that slot followed by
the former list without it, the size is unchanged when `k` was present and one
larger otherwise; and a `cache_get k` that hits moves the slot of `k` to the
front of the list in the same way and returns the stored value. -/
theorem cache_put_then_get (c : LRUCache) (k : String) (v : FileMetadata)
    (hc : CacheReachable c) (hk : k.length < MAX_FILENAME)
    (h : c.size < (c.capacity : Int) ∨ key_present c k) :
    ∃ c1 slot,
      (∀ fuel, c.capacity ≤ fuel → cache_put fuel c k v = some c1) ∧
      (∀ fuel, c.capacity ≤ fuel → cache_get fuel c1 k = some (c1, some v)) ∧
      slot_holds c1 slot { key := k, value := v } ∧
      c1.lru = slot :: c.lru.erase slot ∧
      (key_present c k → c1.size = c.size) ∧
      (¬ key_present c k → c1.size = c.size + 1) ∧
      (key_present c k → ∃ m, slot_holds c slot { key := k, value := m } ∧
        ∀ fuel, c.capacity ≤ fuel →
          cache_get fuel c k = some ({ c with lru := slot :: c.lru.erase slot }, some m)) := by
  classical
  have hinv := cache_reachable_inv c hc
  by_cases hpres : key_present c k
  · obtain ⟨slot, node, hs, hkey⟩ := hpres
    obtain ⟨hput, hget0, hget1⟩ := cache_put_present c k v hinv slot node hs hkey
    have hlen : slot < c.hash_table.length := getD_some_lt _ _ _ hs
    refine ⟨_, slot, hput, hget1, ?_, rfl, fun _ => rfl, ?_, ?_⟩
    · show (c.hash_table.set slot (some { node with value := v })).getD slot none = _
      rw [getD_set_same _ _ _ hlen, hkey]
    · intro hn
      exact absurd ⟨slot, node, hs, hkey⟩ hn
    · intro _
      refine ⟨node.value, ?_, hget0⟩
      show c.hash_table.getD slot none = _
      have hs1 : c.hash_table.getD slot none = some node := hs
      rw [hs1, ← hkey]
  · have hsize : c.size < (c.capacity : Int) := h.resolve_right hpres
    obtain ⟨slot, hslot, hnone, hput, hget, _⟩ := cache_put_absent c k v hinv hk hpres hsize
    have hlen : slot < c.hash_table.length := by rw [hinv.table_len]; exact hslot
    refine ⟨_, slot, hput, hget, ?_, ?_, ?_, fun _ => rfl, ?_⟩
    · show (c.hash_table.set slot (some (create_cache_node k v))).getD slot none = _
      rw [getD_set_same _ _ _ hlen]
      have := create_cache_node_key k v hk
      unfold create_cache_node at this ⊢
      simp only at this
      simp only [this]
    · show slot :: c.lru = slot :: c.lru.erase slot
      rw [List.erase_of_not_mem]
      intro hm
      obtain ⟨n, hn⟩ := (hinv.lru_mem slot).1 hm
      have hn1 : c.hash_table.getD slot none = some n := hn
      rw [hnone] at hn1
      exact absurd hn1 (by simp)
    · intro hp
      exact absurd hp hpres
    · intro hp
      exact absurd hp hpres

theorem cache_put_then_get_witness :
    ∃ c1 slot,
      (∀ fuel, (init_cache 4).capacity ≤ fuel →
        cache_put fuel (init_cache 4) "a" (sample_meta "a" "u") = some c1) ∧
      (∀ fuel, (init_cache 4).capacity ≤ fuel →
        cache_get fuel c1 "a" = some (c1, some (sample_meta "a" "u"))) ∧
      slot_holds c1 slot { key := "a", value := sample_meta "a" "u" } ∧
      c1.lru = slot :: (init_cache 4).lru.erase slot ∧
      (key_present (init_cache 4) "a" → c1.size = (init_cache 4).size) ∧
      (¬ key_present (init_cache 4) "a" → c1.size = (init_cache 4).size + 1) ∧
      (key_present (init_cache 4) "a" → ∃ m, slot_holds (init_cache 4) slot { key := "a", value := m } ∧
        ∀ fuel, (init_cache 4).capacity ≤ fuel →
          cache_get fuel (init_cache 4) "a" =
            some ({ init_cache 4 with lru := slot :: (init_cache 4).lru.erase slot }, some m)) :=
  cache_put_then_get (init_cache 4) "a" (sample_meta "a" "u")
    (CacheReachable.init 4 (by decide)) (by decide) (Or.inl (by decide))


/-! ## The LRU cache: when `cache_put` returns -/

theorem countP_isSome_le (table : List (Option CacheNode)) :
    table.countP (fun x => x.isSome) ≤ table.length := List.countP_le_length _

theorem countP_lt_of_empty (table : List (Option CacheNode)) (i : Nat) (hi : i < table.length)
    (h : table.getD i none = none) : table.countP (fun x => x.isSome) < table.length := by
  by_contra hge
  have heq : table.countP (fun x => x.isSome) = table.length := by
    have := countP_isSome_le table
    omega
  obtain ⟨n, hn⟩ := countP_isSome_full table heq i hi
  rw [h] at hn
  exact absurd hn (by simp)

theorem countP_set_none (table : List (Option CacheNode)) :
    ∀ i, i < table.length →
      (table.set i none).countP (fun x => x.isSome) + (if (table.getD i none).isSome then 1 else 0) =
        table.countP (fun x => x.isSome) := by
  induction table with
  | nil => intro i hi; simp at hi
  | cons a rest ih =>
    intro i hi
    cases i with
    | zero =>
      cases a with
      | none => simp [List.countP_cons]
      | some m => simp [List.countP_cons]
    | succ j =>
      have := ih j (by simpa using hi)
      simp only [List.set_cons_succ, List.countP_cons, List.getD_cons_succ] at this ⊢
      omega

/-- In a cache whose table has a free slot, or that holds the key, `cache_put`
returns, and the state it returns has the shape of a cache again. -/
theorem cache_put_returns (c : LRUCache) (k : String) (v : FileMetadata) (hs : CacheShape c)
    (h : c.size < (c.capacity : Int) ∨ key_present c k) :
    ∃ c1, (∀ fuel, c.capacity ≤ fuel → cache_put fuel c k v = some c1) ∧
      CacheShape c1 ∧ c1.capacity = c.capacity := by
  classical
  have ho := hash_string_lt k c.capacity hs.cap_pos
  have hex : ∃ t, c.hash_table.getD ((hash_string k c.capacity + t) % c.capacity) none = none ∨
      ∃ n, c.hash_table.getD ((hash_string k c.capacity + t) % c.capacity) none = some n ∧
        n.key = k := by
    rcases h with h | ⟨slot, node, hslot, hkey⟩
    · have hcount : c.hash_table.countP (fun x => x.isSome) < c.hash_table.length := by
        have := hs.size_eq
        rw [this] at h
        rw [hs.table_len]
        exact_mod_cast h
      obtain ⟨i, hi, hnone⟩ := countP_isSome_lt _ hcount
      rw [hs.table_len] at hi
      obtain ⟨t, _, hti⟩ := probe_mod_surj _ i c.capacity ho hi
      exact ⟨t, Or.inl (by rw [hti]; exact hnone)⟩
    · have hlt : slot < c.capacity := by
        rw [← hs.table_len]; exact getD_some_lt _ _ _ hslot
      obtain ⟨t, _, hti⟩ := probe_mod_surj _ slot c.capacity ho hlt
      exact ⟨t, Or.inr ⟨node, by rw [hti]; exact hslot, hkey⟩⟩
  have hbound : Nat.find hex < c.capacity := by
    rcases h with h | ⟨slot, node, hslot, hkey⟩
    · have hcount : c.hash_table.countP (fun x => x.isSome) < c.hash_table.length := by
        have := hs.size_eq
        rw [this] at h
        rw [hs.table_len]
        exact_mod_cast h
      obtain ⟨i, hi, hnone⟩ := countP_isSome_lt _ hcount
      rw [hs.table_len] at hi
      obtain ⟨t, ht, hti⟩ := probe_mod_surj _ i c.capacity ho hi
      have : Nat.find hex ≤ t := Nat.find_min' hex (Or.inl (by rw [hti]; exact hnone))
      omega
    · have hlt : slot < c.capacity := by
        rw [← hs.table_len]; exact getD_some_lt _ _ _ hslot
      obtain ⟨t, ht, hti⟩ := probe_mod_surj _ slot c.capacity ho hlt
      have : Nat.find hex ≤ t :=
        Nat.find_min' hex (Or.inr ⟨node, by rw [hti]; exact hslot, hkey⟩)
      omega
  have hpath : ∀ u, u < Nat.find hex → ∃ n, c.hash_table.getD
      ((hash_string k c.capacity + u) % c.capacity) none = some n ∧ n.key ≠ k := by
    intro u hu
    have hmin := Nat.find_min hex hu
    simp only [not_or, not_exists, not_and] at hmin
    obtain ⟨n, hn⟩ := Option.ne_none_iff_exists'.1 hmin.1
    exact ⟨n, hn, hmin.2 n hn⟩
  obtain ⟨slot, hslot⟩ : ∃ slot, slot = (hash_string k c.capacity + Nat.find hex) % c.capacity :=
    ⟨_, rfl⟩
  have hslot_lt : slot < c.hash_table.length := by
    rw [hslot, hs.table_len]; exact Nat.mod_lt _ hs.cap_pos
  have hspec := Nat.find_spec hex
  rw [← hslot] at hspec
  rcases hspec with hnone | ⟨node, hnode, hkey⟩
  · -- the probe ends at a free slot: a new node is stored there
    have hcount := countP_lt_of_empty _ _ hslot_lt hnone
    have hsize : c.size < (c.capacity : Int) := by
      rw [hs.size_eq, ← hs.table_len]
      exact_mod_cast hcount
    refine ⟨{ c with hash_table := c.hash_table.set slot (some (create_cache_node k v)), lru := add_to_head c.lru slot, size := c.size + 1 }, ?_, ?_, rfl⟩
    · intro fuel hf
      have hnone2 := hnone
      rw [hslot] at hnone2
      have hp := probe_once_miss c.hash_table c.capacity k _ ho (Nat.find hex) 0 (by omega)
        (by simpa using hpath) (by simpa using hnone2) fuel (by omega)
      simp only [Nat.add_zero, Nat.mod_eq_of_lt ho] at hp
      have hfe := find_empty_slot_found c.hash_table c.capacity (Nat.find hex) _ ho
        (fun u hu => (hpath u hu).imp (fun _ h => h.1)) hnone2 fuel (by omega)
      rw [← hslot] at hfe
      unfold cache_put
      simp only [hp, hfe]
      unfold evict
      have hno : ¬ (c.size + 1 > (c.capacity : Int)) := by omega
      simp only [hno, if_false]
    · refine ⟨hs.cap_pos, ?_, ?_⟩
      · simp only [List.length_set]; exact hs.table_len
      · simp only
        rw [countP_set_some _ _ _ hslot_lt, hnone, hs.size_eq]
        simp
  · -- the probe finds the key: its value is replaced
    refine ⟨{ c with hash_table := c.hash_table.set slot (some { node with value := v }), lru := move_to_head c.lru slot }, ?_, ?_, rfl⟩
    · intro fuel hf
      have hnode2 := hnode
      rw [hslot] at hnode2
      have hp := probe_once_found c.hash_table c.capacity k node _ ho (Nat.find hex) 0 (by omega)
        (by simpa using hpath) (by simpa using hnode2) hkey fuel (by omega)
      simp only [Nat.zero_add, Nat.add_zero, Nat.mod_eq_of_lt ho] at hp
      rw [← hslot] at hp
      unfold cache_put
      simp only [hp, hnode]
    · refine ⟨hs.cap_pos, ?_, ?_⟩
      · simp only [List.length_set]; exact hs.table_len
      · simp only
        rw [countP_set_some _ _ _ hslot_lt, hnode, hs.size_eq]
        simp


/-! ## The shape of the cache in every state of the name server -/

theorem shape_kept_refl (c : LRUCache) : shape_kept c c := ⟨rfl, id⟩

theorem shape_kept_trans (c c1 c2 : LRUCache) (h1 : shape_kept c c1) (h2 : shape_kept c1 c2) :
    shape_kept c c2 := ⟨h2.1.trans h1.1, fun h => h2.2 (h1.2 h)⟩

theorem probe_slot_occupied (table : List (Option CacheNode)) (cap : Nat) (k : String) :
    ∀ (fuel h slot : Nat), probe table cap k fuel h = some (some slot) →
      ∃ node, table.getD slot none = some node := by
  intro fuel
  induction fuel with
  | zero => intro h slot hp; simp [probe] at hp
  | succ fuel ih =>
    intro h slot hp
    unfold probe at hp
    cases hn : table.getD h none with
    | none =>
      simp only [hn] at hp
      exact absurd hp (by simp)
    | some node =>
      simp only [hn] at hp
      split at hp
      · simp only [Option.some.injEq] at hp
        subst hp
        exact ⟨node, hn⟩
      · exact ih _ _ hp

theorem cache_put_none_of_full (c : LRUCache) (k : String) (v : FileMetadata) (hs : CacheShape c)
    (hfull : ¬ c.size < (c.capacity : Int)) (habs : ¬ key_present c k) (fuel : Nat) :
    cache_put fuel c k v = none := by
  have hcount : c.hash_table.countP (fun x => x.isSome) = c.hash_table.length := by
    have h1 := countP_isSome_le c.hash_table
    have h2 := hs.size_eq
    have h3 := hs.table_len
    rw [h2] at hfull
    have : ¬ (c.hash_table.countP (fun x => x.isSome) < c.capacity) := by
      intro hlt; exact hfull (by exact_mod_cast hlt)
    omega
  have hocc : ∀ i, i < c.capacity → ∃ n, c.hash_table.getD i none = some n := by
    intro i hi
    exact countP_isSome_full _ hcount i (by rw [hs.table_len]; exact hi)
  have hh := hash_string_lt k c.capacity hs.cap_pos
  unfold cache_put
  simp only
  cases hp : probe_once c.hash_table c.capacity k (hash_string k c.capacity) fuel
      (hash_string k c.capacity) with
  | none => rfl
  | some r =>
    cases r with
    | some slot =>
      exact absurd hp (probe_once_absent _ _ _ _
        (fun i n hn hkey => habs ⟨i, n, hn, hkey⟩) fuel _ slot)
    | none =>
      simp only
      rw [find_empty_slot_full _ _ hocc fuel _ hh]

theorem cache_put_kept (c c1 : LRUCache) (k : String) (v : FileMetadata) (fuel : Nat)
    (hput : cache_put fuel c k v = some c1) : shape_kept c c1 := by
  have hcap : c1.capacity = c.capacity := by
    unfold cache_put at hput
    simp only at hput
    split at hput
    · exact absurd hput (by simp)
    · split at hput
      · exact absurd hput (by simp)
      · cases hput; rfl
    · split at hput
      · exact absurd hput (by simp)
      · unfold evict at hput
        simp only at hput
        split at hput
        · split at hput
          · exact absurd hput (by simp)
          · split at hput
            · exact absurd hput (by simp)
            · split at hput
              · exact absurd hput (by simp)
              · cases hput; rfl
        · cases hput; rfl
  refine ⟨hcap, fun hs => ?_⟩
  by_cases h : c.size < (c.capacity : Int) ∨ key_present c k
  · obtain ⟨c2, hret, hshape, _⟩ := cache_put_returns c k v hs h
    have h1 := cache_put_mono c c1 k v fuel (max fuel c.capacity) hput (le_max_left _ _)
    rw [hret _ (le_max_right _ _)] at h1
    cases h1
    exact hshape
  · simp only [not_or] at h
    rw [cache_put_none_of_full c k v hs h.1 h.2 fuel] at hput
    exact absurd hput (by simp)

theorem cache_get_kept (c c1 : LRUCache) (k : String) (r : Option FileMetadata) (fuel : Nat)
    (hget : cache_get fuel c k = some (c1, r)) : shape_kept c c1 := by
  unfold cache_get at hget
  split at hget
  · exact absurd hget (by simp)
  · cases hget; exact shape_kept_refl c
  · split at hget
    · cases hget; exact shape_kept_refl c
    · cases hget
      exact ⟨rfl, fun hs => ⟨hs.cap_pos, hs.table_len, hs.size_eq⟩⟩

theorem cache_remove_kept (c c1 : LRUCache) (k : String) (fuel : Nat)
    (hrem : cache_remove fuel c k = some c1) : shape_kept c c1 := by
  unfold cache_remove at hrem
  split at hrem
  · exact absurd hrem (by simp)
  · cases hrem; exact shape_kept_refl c
  · rename_i slot hp
    cases hrem
    refine ⟨rfl, fun hs => ⟨hs.cap_pos, ?_, ?_⟩⟩
    · simp only [List.length_set]; exact hs.table_len
    · obtain ⟨node, hnode⟩ := probe_slot_occupied _ _ _ _ _ _ hp
      have hlt := getD_some_lt _ _ _ hnode
      have hc := countP_set_none c.hash_table slot hlt
      rw [hnode] at hc
      simp only [Option.isSome_some, if_true] at hc
      simp only
      rw [hs.size_eq, ← hc]
      push_cast
      omega


theorem get_next_ss_round_robin_cache (nm : NameServer) :
    (get_next_ss_round_robin nm).1.cache = nm.cache := by
  unfold get_next_ss_round_robin
  split <;> rfl

theorem handle_create_kept (fuel : Nat) (nm : NameServer) (msg : Common.Message)
    (ss_status now : Int) (r : NameServer × Int)
    (h : handle_create fuel nm msg ss_status now = some r) :
    shape_kept nm.cache r.1.cache := by
  unfold handle_create at h
  have hrr := get_next_ss_round_robin_cache nm
  split at h
  · cases h; exact shape_kept_refl _
  · simp only at h
    split at h
    · cases h; rw [hrr]; exact shape_kept_refl _
    · split at h
      · cases h; rw [hrr]; exact shape_kept_refl _
      · split at h
        · split at h
          · exact absurd h (by simp)
          · rename_i cache1 hput
            cases h
            rw [hrr] at hput
            exact cache_put_kept _ _ _ _ _ hput
        · cases h; rw [hrr]; exact shape_kept_refl _

theorem handle_delete_kept (fuel : Nat) (nm : NameServer) (msg : Common.Message)
    (lock_status ss_status : Int) (r : NameServer × Int)
    (h : handle_delete fuel nm msg lock_status ss_status = some r) :
    shape_kept nm.cache r.1.cache := by
  unfold handle_delete at h
  split at h
  · cases h; exact shape_kept_refl _
  · split at h
    · cases h; exact shape_kept_refl _
    · split at h
      · cases h; exact shape_kept_refl _
      · split at h
        · cases h; exact shape_kept_refl _
        · split at h
          · split at h
            · exact absurd h (by simp)
            · rename_i cache1 hrem
              cases h
              exact cache_remove_kept _ _ _ _ hrem
          · cases h; exact shape_kept_refl _

theorem handle_access_kept (fuel : Nat) (nm : NameServer) (msg : Common.Message)
    (r : NameServer × Int) (h : handle_access fuel nm msg = some r) :
    shape_kept nm.cache r.1.cache := by
  unfold handle_access at h
  split at h
  · cases h; exact shape_kept_refl _
  · split at h
    · cases h; exact shape_kept_refl _
    · split at h
      · split at h
        · cases h; exact shape_kept_refl _
        · split at h
          · cases h; exact shape_kept_refl _
          · simp only at h
            split at h
            · exact absurd h (by simp)
            · rename_i cache1 hput
              cases h
              exact cache_put_kept _ _ _ _ _ hput
      · split at h
        · simp only at h
          split at h
          · exact absurd h (by simp)
          · rename_i cache1 hput
            cases h
            exact cache_put_kept _ _ _ _ _ hput
        · cases h; exact shape_kept_refl _

theorem find_ss_for_file_kept (fuel : Nat) (nm : NameServer) (filename : String)
    (r : NameServer × Int) (h : find_ss_for_file fuel nm filename = some r) :
    shape_kept nm.cache r.1.cache := by
  unfold find_ss_for_file at h
  split at h
  · exact absurd h (by simp)
  · rename_i cache1 file_meta hget
    cases h
    exact cache_get_kept _ _ _ _ _ hget
  · rename_i cache1 hget
    have hg := cache_get_kept _ _ _ _ _ hget
    split at h
    · cases h; exact hg
    · split at h
      · exact absurd h (by simp)
      · rename_i cache2 hput
        cases h
        exact shape_kept_trans _ _ _ hg (cache_put_kept _ _ _ _ _ hput)

theorem handle_data_request_kept (fuel : Nat) (nm : NameServer) (msg : Common.Message)
    (is_write : Bool) (response : Int × List Char) (now : Int) (r : NameServer × Int × List Char)
    (h : handle_data_request fuel nm msg is_write response now = some r) :
    shape_kept nm.cache r.1.cache := by
  unfold handle_data_request at h
  simp only at h
  cases hca : check_access nm msg.filename msg.sender (if is_write then ACCESS_WRITE else ACCESS_READ)
  · simp only [hca, Bool.not_false, if_true] at h
    cases h; exact shape_kept_refl _
  · simp only [hca, Bool.not_true, Bool.false_eq_true, if_false] at h
    split at h
    · exact absurd h (by simp)
    · rename_i nm1 ss_id hf
      have hfr := find_ss_for_file_kept fuel nm msg.filename _ hf
      split at h
      · cases h; exact hfr
      · split at h
        · cases h; exact hfr
        · split at h
          · exact absurd h (by simp)
          · rename_i cache1 hput
            cases h
            exact shape_kept_trans _ _ _ hfr (cache_put_kept _ _ _ _ _ hput)

theorem handle_requestaccess_cache (nm : NameServer) (msg : Common.Message) (now : Int) :
    (handle_requestaccess nm msg now).1.cache = nm.cache := by
  unfold handle_requestaccess
  split
  · rfl
  · split
    · rfl
    · split
      · rfl
      · split <;> rfl

theorem handle_approverequest_kept (fuel : Nat) (nm : NameServer) (msg : Common.Message)
    (r : NameServer × Int) (hr : handle_approverequest fuel nm msg = some r) :
    shape_kept nm.cache r.1.cache := by
  unfold handle_approverequest at hr
  simp only at hr
  split at hr
  · cases hr; exact shape_kept_refl _
  · split at hr
    · cases hr; exact shape_kept_refl _
    · split at hr
      · cases hr; exact shape_kept_refl _
      · split at hr
        · cases hr; exact shape_kept_refl _
        · split at hr
          · exact absurd hr (by simp)
          · rename_i cache1 hput
            cases hr
            exact cache_put_kept _ _ _ _ _ hput

theorem handle_denyrequest_cache (nm : NameServer) (msg : Common.Message) :
    (handle_denyrequest nm msg).1.cache = nm.cache := by
  unfold handle_denyrequest
  simp only
  split
  · rfl
  · split
    · rfl
    · split
      · rfl
      · split <;> rfl

theorem client_connect_cache (nm : NameServer) (msg : Common.Message) (sock now : Int) :
    (client_connect nm msg sock now).1.cache = nm.cache := by
  unfold client_connect
  simp only
  split
  · rfl
  · split <;> rfl

theorem client_disconnect_cache (nm : NameServer) (sock : Int) (idx : Nat) (now : Int) :
    (client_disconnect nm sock idx now).cache = nm.cache := by
  unfold client_disconnect
  simp only
  split <;> rfl

theorem handle_ss_connection_cache (nm : NameServer) (msg : Common.Message) (now : Int) :
    (handle_ss_connection nm msg now).cache = nm.cache := by
  unfold handle_ss_connection
  simp only
  split <;> rfl

theorem nm_step_kept (fuel : Nat) (nm nm1 : NameServer) (ev : NMEvent)
    (hstep : nm_step fuel nm ev = some nm1) : shape_kept nm.cache nm1.cache := by
  cases ev with
  | connect msg sock now =>
    simp only [nm_step, Option.some.injEq] at hstep
    rw [← hstep, client_connect_cache]; exact shape_kept_refl _
  | disconnect sock idx now =>
    simp only [nm_step, Option.some.injEq] at hstep
    rw [← hstep, client_disconnect_cache]; exact shape_kept_refl _
  | create msg ss_status now =>
    simp only [nm_step, Option.map_eq_some'] at hstep
    obtain ⟨r, hr, rfl⟩ := hstep
    exact handle_create_kept _ _ _ _ _ _ hr
  | delete msg lock_status ss_status =>
    simp only [nm_step, Option.map_eq_some'] at hstep
    obtain ⟨r, hr, rfl⟩ := hstep
    exact handle_delete_kept _ _ _ _ _ _ hr
  | access msg =>
    simp only [nm_step, Option.map_eq_some'] at hstep
    obtain ⟨r, hr, rfl⟩ := hstep
    exact handle_access_kept _ _ _ _ hr
  | requestaccess msg now =>
    simp only [nm_step, Option.some.injEq] at hstep
    rw [← hstep, handle_requestaccess_cache]; exact shape_kept_refl _
  | approverequest msg =>
    simp only [nm_step, Option.map_eq_some'] at hstep
    obtain ⟨r, hr, rfl⟩ := hstep
    exact handle_approverequest_kept fuel nm msg r hr
  | denyrequest msg =>
    simp only [nm_step, Option.some.injEq] at hstep
    rw [← hstep, handle_denyrequest_cache]; exact shape_kept_refl _
  | ss_connection msg now =>
    simp only [nm_step, Option.some.injEq] at hstep
    rw [← hstep, handle_ss_connection_cache]; exact shape_kept_refl _
  | data_request msg is_write response now =>
    simp only [nm_step, Option.map_eq_some'] at hstep
    obtain ⟨r, hr, rfl⟩ := hstep
    exact handle_data_request_kept _ _ _ _ _ _ _ hr
  | heartbeat now =>
    simp only [nm_step, Option.some.injEq] at hstep
    rw [← hstep]; exact shape_kept_refl _

theorem init_cache_shape (capacity : Nat) (h : 0 < capacity) : CacheShape (init_cache capacity) :=
  let hi := init_cache_inv capacity h
  ⟨hi.cap_pos, hi.table_len, hi.size_eq⟩

/-- In every state that the name server reaches, the cache has the shape of a
cache: its table has `capacity` slots and `size` counts the occupied ones. -/
theorem reachable_cache_shape (nm : NameServer) (h : NMReachable nm)
    (hcap : 0 < nm.cache.capacity) : CacheShape nm.cache := by
  induction h with
  | init cache_size => exact init_cache_shape cache_size hcap
  | step nm nm1 fuel ev _ hstep ih =>
    have hk := nm_step_kept fuel nm nm1 ev hstep
    exact hk.2 (ih (by rw [← hk.1]; exact hcap))


/-! ## The file index as a finite map -/

theorem char_eq_of_toNat (a b : Char) (h : a.toNat = b.toNat) : a = b := by
  rw [← Char.ofNat_toNat a, ← Char.ofNat_toNat b, h]

theorem trie_search_create (k : List Char) : trie_search create_trie_node k = none := by
  cases k with
  | nil => rfl
  | cons c rest =>
    unfold create_trie_node trie_search
    by_cases hc : c = NUL
    · simp [hc]
    · simp [hc, TrieNode.is_null]

theorem set_child_same (children : Nat → TrieNode) (i : Nat) (x : TrieNode) :
    set_child children i x i = x := by
  simp [set_child]

theorem set_child_other (children : Nat → TrieNode) (i j : Nat) (x : TrieNode) (h : j ≠ i) :
    set_child children i x j = children j := by
  simp [set_child, h]

theorem trie_insert_from_node (children : Nat → TrieNode) (is_end : Bool)
    (meta : Option FileMetadata) (k : List Char) (v : FileMetadata) :
    (trie_insert_from (TrieNode.node children is_end meta) k v).1.is_null = false := by
  cases k with
  | nil => rfl
  | cons c rest =>
    unfold trie_insert_from
    by_cases hc : c = NUL
    · simp [hc, TrieNode.is_null]
    · by_cases hlt : c.toNat ≥ ALPHABET_SIZE
      · simp [hc, hlt, TrieNode.is_null]
      · simp [hc, hlt, TrieNode.is_null]

theorem child_or_create (x : TrieNode) :
    ∃ ch e m, (if x.is_null then create_trie_node else x) = TrieNode.node ch e m ∧
      ∀ k, trie_search (TrieNode.node ch e m) k = trie_search x k := by
  cases x with
  | null =>
    refine ⟨fun _ => TrieNode.null, false, none, rfl, ?_⟩
    intro k
    have := trie_search_create k
    unfold create_trie_node at this
    rw [this]
    cases k <;> rfl
  | node ch e m => exact ⟨ch, e, m, rfl, fun _ => rfl⟩

theorem trie_insert_from_same (v : FileMetadata) :
    ∀ (k : List Char) (children : Nat → TrieNode) (is_end : Bool) (meta : Option FileMetadata),
      ascii_key k →
      (trie_insert_from (TrieNode.node children is_end meta) k v).2 = 0 ∧
      trie_search (trie_insert_from (TrieNode.node children is_end meta) k v).1 k = some v := by
  intro k
  induction k with
  | nil => intro children is_end meta _; exact ⟨rfl, rfl⟩
  | cons c rest ih =>
    intro children is_end meta hk
    have hc : c ≠ NUL := (hk c (List.mem_cons_self _ _)).1
    have hlt : ¬ c.toNat ≥ ALPHABET_SIZE := by
      have := (hk c (List.mem_cons_self _ _)).2
      omega
    have hrest : ascii_key rest := fun x hx => hk x (List.mem_cons_of_mem _ hx)
    obtain ⟨ch, e, m, hchild, _⟩ := child_or_create (children c.toNat)
    obtain ⟨h1, h2⟩ := ih ch e m hrest
    have hnn := trie_insert_from_node ch e m rest v
    unfold trie_insert_from
    simp only [hc, hlt, if_false, hchild]
    refine ⟨h1, ?_⟩
    unfold trie_search
    simp only [hc, hlt, if_false, set_child_same, hnn, Bool.or_self, Bool.false_eq_true]
    exact h2

theorem trie_insert_from_other (v : FileMetadata) :
    ∀ (k : List Char) (children : Nat → TrieNode) (is_end : Bool) (meta : Option FileMetadata)
      (k1 : List Char), ascii_key k → (∀ c ∈ k1, c ≠ NUL) → k ≠ k1 →
      trie_search (trie_insert_from (TrieNode.node children is_end meta) k v).1 k1 =
        trie_search (TrieNode.node children is_end meta) k1 := by
  intro k
  induction k with
  | nil =>
    intro children is_end meta k1 _ hk1 hne
    cases k1 with
    | nil => exact absurd rfl hne
    | cons c1 rest1 =>
      have hc1 : c1 ≠ NUL := hk1 c1 (List.mem_cons_self _ _)
      unfold trie_insert_from trie_search
      simp only [hc1, if_false]
  | cons c rest ih =>
    intro children is_end meta k1 hk hk1 hne
    have hc : c ≠ NUL := (hk c (List.mem_cons_self _ _)).1
    have hlt : ¬ c.toNat ≥ ALPHABET_SIZE := by
      have := (hk c (List.mem_cons_self _ _)).2
      omega
    have hrest : ascii_key rest := fun x hx => hk x (List.mem_cons_of_mem _ hx)
    obtain ⟨ch, e, m, hchild, hsearch⟩ := child_or_create (children c.toNat)
    have hnn := trie_insert_from_node ch e m rest v
    unfold trie_insert_from
    simp only [hc, hlt, if_false, hchild]
    cases k1 with
    | nil => rfl
    | cons c1 rest1 =>
      have hc1 : c1 ≠ NUL := hk1 c1 (List.mem_cons_self _ _)
      have hrest1 : ∀ x ∈ rest1, x ≠ NUL := fun x hx => hk1 x (List.mem_cons_of_mem _ hx)
      unfold trie_search
      simp only [hc1, if_false]
      by_cases hlt1 : c1.toNat ≥ ALPHABET_SIZE
      · simp only [hlt1, decide_True, Bool.true_or, if_true]
      · simp only [hlt1, decide_False, Bool.false_or]
        by_cases heq : c1.toNat = c.toNat
        · have hcc : c1 = c := char_eq_of_toNat _ _ heq
          subst hcc
          have hne2 : rest ≠ rest1 := fun h => hne (by rw [h])
          rw [set_child_same, hnn]
          simp only [Bool.false_eq_true, if_false]
          rw [ih ch e m rest1 hrest hrest1 hne2, hsearch]
          cases hx : children c1.toNat with
          | null => simp [TrieNode.is_null, trie_search]
          | node a b d => simp [TrieNode.is_null]
        · rw [set_child_other _ _ _ _ heq]

theorem trie_update_same (v : FileMetadata) :
    ∀ (k : List Char) (root : TrieNode),
      ((trie_search root k).isSome = true →
        (trie_update root k v).2 = 0 ∧ trie_search (trie_update root k v).1 k = some v) ∧
      (trie_search root k = none →
        (trie_update root k v).2 = -1 ∧ trie_search (trie_update root k v).1 k = none) := by
  intro k
  induction k with
  | nil =>
    intro root
    cases root with
    | null => exact ⟨fun h => absurd h (by simp [trie_search]), fun _ => ⟨rfl, rfl⟩⟩
    | node children is_end meta =>
      unfold trie_search trie_update
      cases is_end <;> cases meta <;> simp [trie_search]
  | cons c rest ih =>
    intro root
    cases root with
    | null => exact ⟨fun h => absurd h (by simp [trie_search]), fun _ => ⟨rfl, rfl⟩⟩
    | node children is_end meta =>
      by_cases hc : c = NUL
      · unfold trie_search trie_update
        simp only [hc, if_true]
        cases is_end <;> cases meta <;> simp [trie_search]
      · by_cases hbad : (decide (c.toNat ≥ ALPHABET_SIZE) || (children c.toNat).is_null) = true
        · unfold trie_search trie_update
          simp only [hc, if_false, hbad, if_true]
          exact ⟨fun h => absurd h (by simp), fun _ => ⟨trivial, trivial⟩⟩
        · have hnn : (children c.toNat).is_null = false := by
            simp only [Bool.or_eq_true, decide_eq_true_eq, not_or, Bool.not_eq_true] at hbad
            exact hbad.2
          have hupd : (trie_update (children c.toNat) rest v).1.is_null = false := by
            cases hx : children c.toNat with
            | null => rw [hx] at hnn; exact absurd hnn (by simp [TrieNode.is_null])
            | node a b d =>
              cases rest with
              | nil => unfold trie_update; split <;> rfl
              | cons c2 r2 =>
                unfold trie_update
                split
                · split <;> rfl
                · split <;> rfl
          obtain ⟨ih1, ih2⟩ := ih (children c.toNat)
          have hlt : ¬ c.toNat ≥ ALPHABET_SIZE := by
            simp only [Bool.or_eq_true, decide_eq_true_eq, not_or] at hbad
            exact hbad.1
          have hs : trie_search (TrieNode.node children is_end meta) (c :: rest)
              = trie_search (children c.toNat) rest := by
            rw [trie_search]
            simp only [hc, if_false, hbad]
            simp
          have hu : trie_update (TrieNode.node children is_end meta) (c :: rest) v
              = (TrieNode.node (set_child children c.toNat
                  (trie_update (children c.toNat) rest v).1) is_end meta,
                 (trie_update (children c.toNat) rest v).2) := by
            rw [trie_update]
            simp only [hc, if_false, hbad]
            simp
          have hs2 : trie_search (TrieNode.node (set_child children c.toNat
                  (trie_update (children c.toNat) rest v).1) is_end meta) (c :: rest)
              = trie_search (trie_update (children c.toNat) rest v).1 rest := by
            rw [trie_search]
            simp only [hc, if_false, set_child_same, hupd]
            simp [hlt]
          rw [hs, hu]
          simp only [hs2]
          exact ⟨ih1, ih2⟩

theorem trie_update_not_null (v : FileMetadata) (k : List Char) (a : Nat → TrieNode) (b : Bool)
    (d : Option FileMetadata) : (trie_update (TrieNode.node a b d) k v).1.is_null = false := by
  cases k with
  | nil => unfold trie_update; split <;> rfl
  | cons c2 r2 =>
    unfold trie_update
    split
    · split <;> rfl
    · split <;> rfl

theorem trie_update_other (v : FileMetadata) :
    ∀ (k : List Char) (root : TrieNode) (k1 : List Char),
      (∀ c ∈ k, c ≠ NUL) → (∀ c ∈ k1, c ≠ NUL) → k ≠ k1 →
      trie_search (trie_update root k v).1 k1 = trie_search root k1 := by
  intro k
  induction k with
  | nil =>
    intro root k1 _ hk1 hne
    cases root with
    | null => rfl
    | node children is_end meta =>
      cases k1 with
      | nil => exact absurd rfl hne
      | cons c1 rest1 =>
        have hc1 : c1 ≠ NUL := hk1 c1 (List.mem_cons_self _ _)
        unfold trie_update
        split
        · unfold trie_search
          simp only [hc1, if_false]
        · rfl
  | cons c rest ih =>
    intro root k1 hk hk1 hne
    have hc : c ≠ NUL := hk c (List.mem_cons_self _ _)
    have hrest : ∀ x ∈ rest, x ≠ NUL := fun x hx => hk x (List.mem_cons_of_mem _ hx)
    cases root with
    | null => rfl
    | node children is_end meta =>
      by_cases hbad : (decide (c.toNat ≥ ALPHABET_SIZE) || (children c.toNat).is_null) = true
      · have hu : trie_update (TrieNode.node children is_end meta) (c :: rest) v
            = (TrieNode.node children is_end meta, -1) := by
          rw [trie_update]
          simp only [hc, if_false, hbad, if_true]
        rw [hu]
      · have hu : trie_update (TrieNode.node children is_end meta) (c :: rest) v
            = (TrieNode.node (set_child children c.toNat
                (trie_update (children c.toNat) rest v).1) is_end meta,
               (trie_update (children c.toNat) rest v).2) := by
          rw [trie_update]
          simp only [hc, if_false, hbad]
          simp
        rw [hu]
        have hnn : (children c.toNat).is_null = false := by
          simp only [Bool.or_eq_true, decide_eq_true_eq, not_or, Bool.not_eq_true] at hbad
          exact hbad.2
        cases k1 with
        | nil => rfl
        | cons c1 rest1 =>
          have hc1 : c1 ≠ NUL := hk1 c1 (List.mem_cons_self _ _)
          have hrest1 : ∀ x ∈ rest1, x ≠ NUL := fun x hx => hk1 x (List.mem_cons_of_mem _ hx)
          unfold trie_search
          simp only [hc1, if_false]
          by_cases hlt1 : c1.toNat ≥ ALPHABET_SIZE
          · simp only [hlt1, decide_True, Bool.true_or, if_true]
          · simp only [hlt1, decide_False, Bool.false_or]
            by_cases heq : c1.toNat = c.toNat
            · have hcc : c1 = c := char_eq_of_toNat _ _ heq
              subst hcc
              have hne2 : rest ≠ rest1 := fun h => hne (by rw [h])
              have hupd : (trie_update (children c1.toNat) rest v).1.is_null = false := by
                cases hx : children c1.toNat with
                | null => rw [hx] at hnn; exact absurd hnn (by simp [TrieNode.is_null])
                | node a b d => exact trie_update_not_null v rest a b d
              rw [set_child_same, hupd, hnn]
              simp only [Bool.false_eq_true, if_false]
              exact ih (children c1.toNat) rest1 hrest hrest1 hne2
            · rw [set_child_other _ _ _ _ heq]

theorem trie_search_null (k : List Char) : trie_search TrieNode.null k = none := by
  cases k <;> rfl

theorem trie_search_cons (children : Nat → TrieNode) (is_end : Bool) (meta : Option FileMetadata)
    (c : Char) (rest : List Char) (hc : c ≠ NUL) :
    trie_search (TrieNode.node children is_end meta) (c :: rest) =
      if c.toNat ≥ ALPHABET_SIZE then none else trie_search (children c.toNat) rest := by
  rw [trie_search]
  simp only [hc, if_false]
  by_cases hlt : c.toNat ≥ ALPHABET_SIZE
  · simp [hlt]
  · simp only [hlt, decide_False, Bool.false_or, if_false]
    cases hx : children c.toNat with
    | null => simp [TrieNode.is_null, trie_search_null]
    | node a b d => simp [TrieNode.is_null]

theorem has_child_false (children : Nat → TrieNode) (h : has_child children = false) :
    ∀ i, i < ALPHABET_SIZE → children i = TrieNode.null := by
  intro i hi
  unfold has_child at h
  rw [List.any_eq_false] at h
  have := h i (List.mem_range.2 hi)
  cases hx : children i with
  | null => rfl
  | node a b d => rw [hx] at this; simp [TrieNode.is_null] at this

theorem trie_search_childless (children : Nat → TrieNode) (meta : Option FileMetadata)
    (h : has_child children = false) (k : List Char) :
    trie_search (TrieNode.node children false meta) k = none := by
  cases k with
  | nil => rfl
  | cons c rest =>
    by_cases hc : c = NUL
    · rw [trie_search]; simp [hc]
    · rw [trie_search_cons _ _ _ _ _ hc]
      split
      · rfl
      · rename_i hlt
        rw [has_child_false children h c.toNat (by omega), trie_search_null]

theorem trie_delete_helper_spec :
    ∀ (k : List Char) (root : TrieNode), (∀ c ∈ k, c ≠ NUL) →
      trie_search (trie_delete_helper root k).1 k = none ∧
      (∀ k1, (∀ c ∈ k1, c ≠ NUL) → k ≠ k1 →
        trie_search (trie_delete_helper root k).1 k1 = trie_search root k1) ∧
      ((trie_delete_helper root k).2 = true →
        ∀ k1, trie_search (trie_delete_helper root k).1 k1 = none) := by
  intro k
  induction k with
  | nil =>
    intro root _
    cases root with
    | null => exact ⟨rfl, fun _ _ _ => rfl, fun h => absurd h (by simp [trie_delete_helper])⟩
    | node children is_end meta =>
      unfold trie_delete_helper trie_delete_end
      refine ⟨?_, ?_, ?_⟩
      · cases is_end <;> rfl
      · intro k1 hk1 hne
        cases k1 with
        | nil => exact absurd rfl hne
        | cons c1 rest1 =>
          have hc1 : c1 ≠ NUL := hk1 c1 (List.mem_cons_self _ _)
          cases is_end
          · simp only [if_false, Bool.false_eq_true]
          · simp only [if_true]
            rw [trie_search_cons _ _ _ _ _ hc1, trie_search_cons _ _ _ _ _ hc1]
      · intro h k1
        simp only [Bool.not_eq_true'] at h
        cases is_end
        · exact trie_search_childless children meta h k1
        · exact trie_search_childless children none h k1
  | cons c rest ih =>
    intro root hk
    have hc : c ≠ NUL := hk c (List.mem_cons_self _ _)
    have hrest : ∀ x ∈ rest, x ≠ NUL := fun x hx => hk x (List.mem_cons_of_mem _ hx)
    cases root with
    | null => exact ⟨rfl, fun _ _ _ => rfl, fun h => absurd h (by simp [trie_delete_helper])⟩
    | node children is_end meta =>
      obtain ⟨iha, ihb, ihc⟩ := ih (children c.toNat) hrest
      rw [trie_delete_helper]
      simp only [hc, if_false]
      by_cases hlt : c.toNat ≥ ALPHABET_SIZE
      · simp only [hlt, if_true]
        refine ⟨?_, fun _ _ _ => by first | rfl | trivial, fun h => absurd h (by simp)⟩
        rw [trie_search_cons _ _ _ _ _ hc]
        simp [hlt]
      · simp only [hlt, if_false]
        have hframe : ∀ (x : TrieNode) (k1 : List Char), (∀ y ∈ k1, y ≠ NUL) → c :: rest ≠ k1 →
            (∀ r1, rest ≠ r1 → (∀ y ∈ r1, y ≠ NUL) →
              trie_search x r1 = trie_search (children c.toNat) r1) →
            trie_search (TrieNode.node (set_child children c.toNat x) is_end meta) k1 =
              trie_search (TrieNode.node children is_end meta) k1 := by
          intro x k1 hk1 hne hx
          cases k1 with
          | nil => rfl
          | cons c1 rest1 =>
            have hc1 : c1 ≠ NUL := hk1 c1 (List.mem_cons_self _ _)
            have hrest1 : ∀ y ∈ rest1, y ≠ NUL := fun y hy => hk1 y (List.mem_cons_of_mem _ hy)
            rw [trie_search_cons _ _ _ _ _ hc1, trie_search_cons _ _ _ _ _ hc1]
            split
            · rfl
            · by_cases heq : c1.toNat = c.toNat
              · have hcc : c1 = c := char_eq_of_toNat _ _ heq
                subst hcc
                rw [set_child_same]
                exact hx rest1 (fun h => hne (by rw [h])) hrest1
              · rw [set_child_other _ _ _ _ heq]
        by_cases hr : (trie_delete_helper (children c.toNat) rest).2 = true
        · simp only [hr, if_true]
          have hdead := ihc hr
          have hsame : trie_search (TrieNode.node (set_child children c.toNat TrieNode.null)
              is_end meta) (c :: rest) = none := by
            rw [trie_search_cons _ _ _ _ _ hc]
            simp only [hlt, if_false, set_child_same, trie_search_null]
          have hother : ∀ k1, (∀ y ∈ k1, y ≠ NUL) → c :: rest ≠ k1 →
              trie_search (TrieNode.node (set_child children c.toNat TrieNode.null)
                is_end meta) k1 = trie_search (TrieNode.node children is_end meta) k1 := by
            intro k1 hk1 hne
            apply hframe TrieNode.null k1 hk1 hne
            intro r1 hne1 hr1
            rw [trie_search_null, ← ihb r1 hr1 hne1, hdead r1]
          cases is_end with
          | true =>
            simp only [Bool.not_true, Bool.false_eq_true, if_false]
            exact ⟨hsame, hother, fun h => absurd h (by simp)⟩
          | false =>
            simp only [Bool.not_false, if_true]
            refine ⟨hsame, hother, ?_⟩
            intro h k1
            simp only [Bool.not_eq_true'] at h
            exact trie_search_childless _ meta h k1
        · simp only [hr, if_false, Bool.false_eq_true]
          refine ⟨?_, ?_, fun h => absurd h (by simp)⟩
          · rw [trie_search_cons _ _ _ _ _ hc]
            simp only [hlt, if_false, set_child_same]
            exact iha
          · intro k1 hk1 hne
            apply hframe _ k1 hk1 hne
            intro r1 hne1 hr1
            exact ihb r1 hr1 hne1


/-- C15: the file index is a finite map on ASCII keys. For every trie with a
root node, every ASCII key `k` and every other key `k1` (a C string different
from `k`, so also a proper prefix or an extension of `k`): `trie_insert k v`
returns 0 and `trie_search k` then returns `v`; `trie_update k v` returns 0 and
makes `trie_search k` return `v` when `k` is stored, and returns -1 and leaves
`k` absent when it is not; after `trie_delete k`, `trie_search k` returns
nothing; and none of the three changes what `trie_search k1` returns. -/
theorem trie_is_finite_map (root : TrieNode) (k k1 : List Char) (v : FileMetadata)
    (hroot : root.is_null = false) (hk : ascii_key k) (hk1 : ∀ c ∈ k1, c ≠ NUL) (hne : k ≠ k1) :
    ((trie_insert root k v).2 = 0 ∧ trie_search (trie_insert root k v).1 k = some v) ∧
    ((trie_search root k).isSome = true →
      (trie_update root k v).2 = 0 ∧ trie_search (trie_update root k v).1 k = some v) ∧
    (trie_search root k = none →
      (trie_update root k v).2 = -1 ∧ trie_search (trie_update root k v).1 k = none) ∧
    trie_search (trie_delete root k) k = none ∧
    trie_search (trie_insert root k v).1 k1 = trie_search root k1 ∧
    trie_search (trie_update root k v).1 k1 = trie_search root k1 ∧
    trie_search (trie_delete root k) k1 = trie_search root k1 := by
  have hnul : ∀ c ∈ k, c ≠ NUL := fun c hc => (hk c hc).1
  cases root with
  | null => exact absurd hroot (by simp [TrieNode.is_null])
  | node children is_end meta =>
    obtain ⟨hd1, hd2, _⟩ := trie_delete_helper_spec k (TrieNode.node children is_end meta) hnul
    exact ⟨trie_insert_from_same v k children is_end meta hk,
      (trie_update_same v k _).1, (trie_update_same v k _).2, hd1,
      trie_insert_from_other v k children is_end meta k1 hk hk1 hne,
      trie_update_other v k _ k1 hnul hk1 hne,
      hd2 k1 hk1 hne⟩

theorem trie_is_finite_map_witness :
    ((trie_insert init_trie "ab".toList (sample_meta "ab" "u")).2 = 0 ∧
      trie_search (trie_insert init_trie "ab".toList (sample_meta "ab" "u")).1 "ab".toList
        = some (sample_meta "ab" "u")) ∧
    ((trie_search init_trie "ab".toList).isSome = true →
      (trie_update init_trie "ab".toList (sample_meta "ab" "u")).2 = 0 ∧
      trie_search (trie_update init_trie "ab".toList (sample_meta "ab" "u")).1 "ab".toList
        = some (sample_meta "ab" "u")) ∧
    (trie_search init_trie "ab".toList = none →
      (trie_update init_trie "ab".toList (sample_meta "ab" "u")).2 = -1 ∧
      trie_search (trie_update init_trie "ab".toList (sample_meta "ab" "u")).1 "ab".toList = none) ∧
    trie_search (trie_delete init_trie "ab".toList) "ab".toList = none ∧
    trie_search (trie_insert init_trie "ab".toList (sample_meta "ab" "u")).1 "a".toList
      = trie_search init_trie "a".toList ∧
    trie_search (trie_update init_trie "ab".toList (sample_meta "ab" "u")).1 "a".toList
      = trie_search init_trie "a".toList ∧
    trie_search (trie_delete init_trie "ab".toList) "a".toList = trie_search init_trie "a".toList :=
  trie_is_finite_map init_trie "ab".toList "a".toList (sample_meta "ab" "u") rfl
    (by unfold ascii_key; decide) (by decide) (by decide)


/-! ## The wire codec -/

set_option maxRecDepth 100000 in
/-- C16 (the code departs from the claim): a message whose `target_path` has
256 bytes fits the `MAX_PATH` buffer of 512 bytes and contains no `|`, but
`deserialize_message` copies field 5 with `strncpy(.., MAX_FILENAME - 1)`, so
only its first 255 bytes come back and the round trip does not return the
message. -/
theorem deserialize_truncates_target_path :
    Common.long_path_message.target_path.length = 256 ∧
    256 < Common.MAX_PATH ∧
    (Common.deserialize_message (Common.serialize_message Common.long_path_message)).target_path
      = ⟨List.replicate 255 'p'⟩ ∧
    Common.deserialize_message (Common.serialize_message Common.long_path_message)
      ≠ Common.long_path_message := by
  decide


/-! ## The name server: runs that depart from the specification -/

/-- C17 (the code departs from the claim): `a` and `b` connect, `a`
disconnects, `c` connects and gets `idx = 1`, the slot that `b` was given.
When `b` disconnects, the handler reads the user name from `client_list[idx]`,
which now holds `c`, so `deregister_active_session` is called for `c` with the
socket of `b` and changes nothing: no slot of the client list holds the socket
of `b` any more, the registry still shows an active session of `b`, and the
next registration of `b` is rejected with 405. -/
theorem reconnect_after_disconnect_rejected :
    reconnect_run.2 = some ERR_INVALID_OPERATION ∧
    find_client reconnect_run.1.client_list reconnect_run.1.client_count 5 = none ∧
    reconnect_run.1.registered_users.find? (fun u => decide (u.username = "b")) =
      some { username := "b", first_registered := 11, last_seen := 11, active_session := true,
             client_sock := 5 } := by
  decide

set_option maxRecDepth 100000 in
/-- C18 (the code departs from the claim): `bob` requests access to `f` of
`alice`, `alice` deletes `f`, `bob` creates `f` and approves the request that
is still pending. `handle_approverequest` has no check like the one of
`handle_access` against granting access to the owner, so the ACL of `f` then
holds its owner `bob`. -/
theorem approve_puts_owner_into_acl :
    owner_in_acl_run.map (fun s => (trie_search s.file_trie "f".data).map
        (fun m => (m.owner, m.acl))) =
      some (some ("bob", [{ username := "bob", access := ACCESS_READ }])) := by
  decide

set_option maxRecDepth 100000 in
/-- C20 (counterexample to the claim as stated): `bob` has a pending request
for read access to `f`; the owner then gives `bob` read-write access with
`MSG_ADDACCESS` and approves the pending request afterwards. The approval
overwrites the entry: `bob` held `ACCESS_READWRITE` before it and holds only
`ACCESS_READ` after it. -/
theorem approve_downgrades_access :
    downgrade_run.map (fun r =>
        ((trie_search r.1.file_trie "f".data).map (fun m => m.acl),
         (trie_search r.2.file_trie "f".data).map (fun m => m.acl))) =
      some (some [{ username := "bob", access := ACCESS_READWRITE }],
            some [{ username := "bob", access := ACCESS_READ }]) := by
  decide

set_option maxRecDepth 100000 in
/-- C21 (the code departs from the claim): the storage server that holds `f`
is marked inactive, and a read request of the owner for `f` is still answered
with status 200 and the endpoint `10.0.0.1:9001`: the loop of the data-request
branch compares only the id of the server and never reads `active`. -/
theorem data_request_ignores_inactive :
    inactive_read_run.map (fun r => (r.1.ss_list.map (fun ss => (ss.id, ss.active)), r.2)) =
      some ([(1, false)], SUCCESS, "10.0.0.1:9001".data) := by
  decide

set_option maxRecDepth 100000 in
/-- C23 (the code departs from the claim): `f` was created on storage server 1
and is cached; storage server 2 then registers with `f` in its file list.
`handle_ss_connection` writes the new id into the index with `trie_update` and
does not touch the cache, so the index says 2 and `find_ss_for_file`, which asks
the cache first, returns 1. -/
theorem registration_leaves_cache_stale :
    stale_cache_run.map (fun r =>
        ((trie_search r.1.file_trie "f".data).map (fun m => m.ss_id), r.2)) =
      some (some 2, 1) := by
  decide

/-- C24 (the code departs from the claim): one pass of `heartbeat_monitor`
leaves a server active exactly when it was active and its last heartbeat is
less than 60 seconds old, because the timeout is 60 whenever `idle < 60` and
`HEARTBEAT_TIMEOUT` only when `idle >= 60`; the time of the registration is not
read. A server whose last heartbeat is 30 seconds old stays active, however
long ago it registered. -/
theorem heartbeat_timeout_is_sixty (ss : StorageServerInfo) (now : Int) :
    (heartbeat_check ss now).active = (ss.active && decide (now - ss.last_heartbeat < 60)) ∧
    (heartbeat_check { id := 1, ip := "10.0.0.1", client_port := 9001, active := true,
                       last_heartbeat := 970, files := [] } 1000).active = true := by
  refine ⟨?_, by decide⟩
  unfold heartbeat_check HEARTBEAT_TIMEOUT
  cases hact : ss.active with
  | false => simp [hact]
  | true =>
    simp only [if_true, Bool.true_and]
    by_cases h : now - ss.last_heartbeat < 60
    · have h2 : ¬ (now - ss.last_heartbeat > 60) := by omega
      simp [h, h2, hact]
    · have h2 : now - ss.last_heartbeat > 15 := by omega
      simp [h, h2]


/-! ## The name server: pending requests -/

theorem get_next_ss_round_robin_requests (nm : NameServer) :
    (get_next_ss_round_robin nm).1.access_requests = nm.access_requests := by
  unfold get_next_ss_round_robin
  split <;> rfl

theorem handle_create_requests (fuel : Nat) (nm : NameServer) (msg : Common.Message)
    (ss_status now : Int) (r : NameServer × Int)
    (h : handle_create fuel nm msg ss_status now = some r) :
    r.1.access_requests = nm.access_requests := by
  unfold handle_create at h
  have hrr := get_next_ss_round_robin_requests nm
  split at h
  · cases h; rfl
  · simp only at h
    split at h
    · cases h; exact hrr
    · split at h
      · cases h; exact hrr
      · split at h
        · split at h
          · exact absurd h (by simp)
          · cases h; exact hrr
        · cases h; exact hrr

theorem handle_delete_requests (fuel : Nat) (nm : NameServer) (msg : Common.Message)
    (lock_status ss_status : Int) (r : NameServer × Int)
    (h : handle_delete fuel nm msg lock_status ss_status = some r) :
    r.1.access_requests = nm.access_requests := by
  unfold handle_delete at h
  split at h
  · cases h; rfl
  · split at h
    · cases h; rfl
    · split at h
      · cases h; rfl
      · split at h
        · cases h; rfl
        · split at h
          · split at h
            · exact absurd h (by simp)
            · cases h; rfl
          · cases h; rfl

theorem handle_access_requests (fuel : Nat) (nm : NameServer) (msg : Common.Message)
    (r : NameServer × Int) (h : handle_access fuel nm msg = some r) :
    r.1.access_requests = nm.access_requests := by
  unfold handle_access at h
  split at h
  · cases h; rfl
  · split at h
    · cases h; rfl
    · split at h
      · split at h
        · cases h; rfl
        · split at h
          · cases h; rfl
          · simp only at h
            split at h
            · exact absurd h (by simp)
            · cases h; rfl
      · split at h
        · simp only at h
          split at h
          · exact absurd h (by simp)
          · cases h; rfl
        · cases h; rfl

theorem find_ss_for_file_requests (fuel : Nat) (nm : NameServer) (filename : String)
    (r : NameServer × Int) (h : find_ss_for_file fuel nm filename = some r) :
    r.1.access_requests = nm.access_requests := by
  unfold find_ss_for_file at h
  split at h
  · exact absurd h (by simp)
  · cases h; rfl
  · split at h
    · cases h; rfl
    · split at h
      · exact absurd h (by simp)
      · cases h; rfl

theorem handle_data_request_requests (fuel : Nat) (nm : NameServer) (msg : Common.Message)
    (is_write : Bool) (response : Int × List Char) (now : Int) (r : NameServer × Int × List Char)
    (h : handle_data_request fuel nm msg is_write response now = some r) :
    r.1.access_requests = nm.access_requests := by
  unfold handle_data_request at h
  simp only at h
  cases hca : check_access nm msg.filename msg.sender (if is_write then ACCESS_WRITE else ACCESS_READ)
  · simp only [hca, Bool.not_false, if_true] at h
    cases h; rfl
  · simp only [hca, Bool.not_true, Bool.false_eq_true, if_false] at h
    split at h
    · exact absurd h (by simp)
    · rename_i nm1 ss_id hf
      have hfr := find_ss_for_file_requests fuel nm msg.filename _ hf
      split at h
      · cases h; exact hfr
      · split at h
        · cases h; exact hfr
        · split at h
          · exact absurd h (by simp)
          · cases h; exact hfr

theorem nodup_eraseIdx_keys (l : List AccessRequest) (i : Nat)
    (h : (l.map request_key).Nodup) : ((l.eraseIdx i).map request_key).Nodup :=
  List.Nodup.sublist (List.Sublist.map _ (List.eraseIdx_sublist l i)) h

theorem handle_requestaccess_keys (nm : NameServer) (msg : Common.Message) (now : Int)
    (h : (nm.access_requests.map request_key).Nodup) :
    ((handle_requestaccess nm msg now).1.access_requests.map request_key).Nodup := by
  unfold handle_requestaccess
  split
  · exact h
  · split
    · exact h
    · split
      · exact h
      · rename_i hany
        split
        · show ((nm.access_requests ++ [_]).map request_key).Nodup
          rw [List.map_append, List.map_singleton]
          apply List.Nodup.append h (List.nodup_singleton _)
          rw [List.disjoint_singleton]
          intro hmem
          obtain ⟨r, hr, hk⟩ := List.mem_map.1 hmem
          apply hany
          rw [List.any_eq_true]
          refine ⟨r, hr, ?_⟩
          simp only [request_key, Prod.mk.injEq] at hk
          simp [hk.1, hk.2.1, hk.2.2]
        · exact h

theorem handle_approverequest_keys (fuel : Nat) (nm : NameServer) (msg : Common.Message)
    (r : NameServer × Int) (hr : handle_approverequest fuel nm msg = some r)
    (h : (nm.access_requests.map request_key).Nodup) :
    (r.1.access_requests.map request_key).Nodup := by
  unfold handle_approverequest at hr
  simp only at hr
  split at hr
  · cases hr; exact h
  · split at hr
    · cases hr; exact h
    · split at hr
      · cases hr; exact h
      · split at hr
        · cases hr; exact h
        · split at hr
          · exact absurd hr (by simp)
          · cases hr
            exact nodup_eraseIdx_keys _ _ h

theorem handle_denyrequest_keys (nm : NameServer) (msg : Common.Message)
    (h : (nm.access_requests.map request_key).Nodup) :
    ((handle_denyrequest nm msg).1.access_requests.map request_key).Nodup := by
  unfold handle_denyrequest
  simp only
  split
  · exact h
  · split
    · exact h
    · split
      · exact h
      · split
        · exact h
        · exact nodup_eraseIdx_keys _ _ h

theorem client_connect_requests (nm : NameServer) (msg : Common.Message) (sock now : Int) :
    (client_connect nm msg sock now).1.access_requests = nm.access_requests := by
  unfold client_connect
  simp only
  split
  · rfl
  · split <;> rfl

theorem client_disconnect_requests (nm : NameServer) (sock : Int) (idx : Nat) (now : Int) :
    (client_disconnect nm sock idx now).access_requests = nm.access_requests := by
  unfold client_disconnect
  simp only
  split <;> rfl

theorem handle_ss_connection_requests (nm : NameServer) (msg : Common.Message) (now : Int) :
    (handle_ss_connection nm msg now).access_requests = nm.access_requests := by
  unfold handle_ss_connection
  simp only
  split <;> rfl

theorem nm_step_keys (fuel : Nat) (nm nm1 : NameServer) (ev : NMEvent)
    (hstep : nm_step fuel nm ev = some nm1)
    (h : (nm.access_requests.map request_key).Nodup) :
    (nm1.access_requests.map request_key).Nodup := by
  cases ev with
  | connect msg sock now =>
    simp only [nm_step, Option.some.injEq] at hstep
    rw [← hstep, client_connect_requests]; exact h
  | disconnect sock idx now =>
    simp only [nm_step, Option.some.injEq] at hstep
    rw [← hstep, client_disconnect_requests]; exact h
  | create msg ss_status now =>
    simp only [nm_step, Option.map_eq_some'] at hstep
    obtain ⟨r, hr, rfl⟩ := hstep
    rw [handle_create_requests _ _ _ _ _ _ hr]; exact h
  | delete msg lock_status ss_status =>
    simp only [nm_step, Option.map_eq_some'] at hstep
    obtain ⟨r, hr, rfl⟩ := hstep
    rw [handle_delete_requests _ _ _ _ _ _ hr]; exact h
  | access msg =>
    simp only [nm_step, Option.map_eq_some'] at hstep
    obtain ⟨r, hr, rfl⟩ := hstep
    rw [handle_access_requests _ _ _ _ hr]; exact h
  | requestaccess msg now =>
    simp only [nm_step, Option.some.injEq] at hstep
    rw [← hstep]; exact handle_requestaccess_keys nm msg now h
  | approverequest msg =>
    simp only [nm_step, Option.map_eq_some'] at hstep
    obtain ⟨r, hr, rfl⟩ := hstep
    exact handle_approverequest_keys fuel nm msg r hr h
  | denyrequest msg =>
    simp only [nm_step, Option.some.injEq] at hstep
    rw [← hstep]; exact handle_denyrequest_keys nm msg h
  | ss_connection msg now =>
    simp only [nm_step, Option.some.injEq] at hstep
    rw [← hstep, handle_ss_connection_requests]; exact h
  | data_request msg is_write response now =>
    simp only [nm_step, Option.map_eq_some'] at hstep
    obtain ⟨r, hr, rfl⟩ := hstep
    rw [handle_data_request_requests _ _ _ _ _ _ _ hr]; exact h
  | heartbeat now =>
    simp only [nm_step, Option.some.injEq] at hstep
    rw [← hstep]; exact h

/-- C19: in every state that the name server reaches, the pending
access-request list holds at most one entry for each triple (requester,
filename, requested access). -/
theorem pending_requests_distinct (nm : NameServer) (h : NMReachable nm) :
    (nm.access_requests.map request_key).Nodup := by
  induction h with
  | init cache_size => exact List.nodup_nil
  | step nm nm1 fuel ev _ hstep ih => exact nm_step_keys fuel nm nm1 ev hstep ih

theorem pending_requests_distinct_witness :
    (((handle_requestaccess (handle_requestaccess
        (handle_ss_connection (init_name_server 100) (ss_registration 1 "f") 0)
        { nm_request "bob" "f" with access := ACCESS_READ } 1).1
        { nm_request "bob" "f" with access := ACCESS_READ } 2).1).access_requests.map
      request_key).Nodup :=
  pending_requests_distinct _
    (NMReachable.step _ _ 0 (NMEvent.requestaccess { nm_request "bob" "f" with access := ACCESS_READ } 2)
      (NMReachable.step _ _ 0 (NMEvent.requestaccess { nm_request "bob" "f" with access := ACCESS_READ } 1)
        (NMReachable.step _ _ 0 (NMEvent.ss_connection (ss_registration 1 "f") 0)
          (NMReachable.init 100) rfl) rfl) rfl)


/-! ## The name server: access control -/

theorem acl_grants_iff (acl : List ACLEntry) (username : String) (required : AccessType) :
    acl_grants acl username required = true ↔
      ∃ e, acl_entry acl username = some e ∧
        ((required = ACCESS_READ ∧ (e.access = ACCESS_READ ∨ e.access = ACCESS_READWRITE)) ∨
         (required = ACCESS_WRITE ∧ e.access = ACCESS_READWRITE)) := by
  induction acl with
  | nil => simp [acl_grants, acl_entry]
  | cons a rest ih =>
    unfold acl_grants acl_entry
    by_cases hu : a.username = username
    · simp only [hu, if_true, List.find?_cons, decide_True, Option.some.injEq, exists_eq_left']
      by_cases h1 : required = ACCESS_READ ∧ (a.access = ACCESS_READ ∨ a.access = ACCESS_READWRITE)
      · have hb : (decide (required = ACCESS_READ) &&
            (decide (a.access = ACCESS_READ) || decide (a.access = ACCESS_READWRITE))) = true := by
          simp [h1.1, h1.2]
        simp only [hb, if_true, true_iff]
        exact Or.inl h1
      · have hb : ¬ (decide (required = ACCESS_READ) &&
            (decide (a.access = ACCESS_READ) || decide (a.access = ACCESS_READWRITE))) = true := by
          simpa using h1
        simp only [hb, Bool.false_eq_true, if_false]
        by_cases h2 : required = ACCESS_WRITE ∧ a.access = ACCESS_READWRITE
        · have hb2 : (decide (required = ACCESS_WRITE) && decide (a.access = ACCESS_READWRITE))
              = true := by simp [h2.1, h2.2]
          simp only [hb2, if_true, true_iff]
          exact Or.inr h2
        · have hb2 : ¬ (decide (required = ACCESS_WRITE) && decide (a.access = ACCESS_READWRITE))
              = true := by simpa using h2
          simp only [hb2, if_false, Bool.false_eq_true, false_iff]
          rintro (h | h)
          · exact h1 h
          · exact h2 h
    · simp only [hu, if_false, List.find?_cons, decide_False]
      exact ih

/-- C30: `check_access(file, user, required)` returns true exactly when the
file is in the index and the user is its owner, or the first ACL entry of the
user is READ or READWRITE and `required` is READ, or that entry is READWRITE
and `required` is WRITE. So an entry `ACCESS_WRITE` grants nothing, and a
non-owner is never granted `required = ACCESS_READWRITE`. -/
theorem check_access_iff (nm : NameServer) (filename username : String) (required : AccessType) :
    (check_access nm filename username required = true ↔
      ∃ file_meta, trie_search nm.file_trie filename.data = some file_meta ∧
        (file_meta.owner = username ∨
         ∃ e, acl_entry file_meta.acl username = some e ∧
           ((required = ACCESS_READ ∧ (e.access = ACCESS_READ ∨ e.access = ACCESS_READWRITE)) ∨
            (required = ACCESS_WRITE ∧ e.access = ACCESS_READWRITE)))) ∧
    (∀ file_meta e, trie_search nm.file_trie filename.data = some file_meta →
      file_meta.owner ≠ username → acl_entry file_meta.acl username = some e →
      e.access = ACCESS_WRITE → check_access nm filename username required = false) ∧
    (∀ file_meta, trie_search nm.file_trie filename.data = some file_meta →
      file_meta.owner ≠ username → required = ACCESS_READWRITE →
      check_access nm filename username required = false) := by
  have hmain : check_access nm filename username required = true ↔
      ∃ file_meta, trie_search nm.file_trie filename.data = some file_meta ∧
        (file_meta.owner = username ∨
         ∃ e, acl_entry file_meta.acl username = some e ∧
           ((required = ACCESS_READ ∧ (e.access = ACCESS_READ ∨ e.access = ACCESS_READWRITE)) ∨
            (required = ACCESS_WRITE ∧ e.access = ACCESS_READWRITE))) := by
    unfold check_access
    cases hs : trie_search nm.file_trie filename.data with
    | none => simp
    | some m =>
      simp only [Option.some.injEq, exists_eq_left']
      by_cases ho : m.owner = username
      · simp [ho]
      · simp only [ho, if_false, false_or]
        exact acl_grants_iff m.acl username required
  refine ⟨hmain, ?_, ?_⟩
  · intro m e hs ho he hw
    rw [Bool.eq_false_iff]
    intro hc
    obtain ⟨m1, hs1, h1⟩ := hmain.1 hc
    rw [hs] at hs1
    simp only [Option.some.injEq] at hs1
    subst hs1
    rcases h1 with h1 | ⟨e1, he1, h2⟩
    · exact ho h1
    · rw [he] at he1
      simp only [Option.some.injEq] at he1
      subst he1
      rw [hw] at h2
      rcases h2 with ⟨_, h3 | h3⟩ | ⟨_, h3⟩ <;> exact absurd h3 (by decide)
  · intro m hs ho hr
    rw [Bool.eq_false_iff]
    intro hc
    obtain ⟨m1, hs1, h1⟩ := hmain.1 hc
    rw [hs] at hs1
    simp only [Option.some.injEq] at hs1
    subst hs1
    rcases h1 with h1 | ⟨e1, _, h2⟩
    · exact ho h1
    · rw [hr] at h2
      rcases h2 with ⟨h3, _⟩ | ⟨h3, _⟩ <;> exact absurd h3 (by decide)


/-! ## The name server: approval of a request, and deletion -/

theorem acl_set_found (acl : List ACLEntry) (u : String) (a : AccessType) :
    (acl_set acl u a).2 = (acl_entry acl u).isSome := by
  induction acl with
  | nil => rfl
  | cons e rest ih =>
    unfold acl_set acl_entry
    by_cases hu : e.username = u
    · simp [hu]
    · simp only [hu, if_false, List.find?_cons, decide_False]
      exact ih

theorem acl_set_entry (acl : List ACLEntry) (u : String) (a : AccessType)
    (h : (acl_set acl u a).2 = true) :
    acl_entry (acl_set acl u a).1 u = some { username := u, access := a } := by
  induction acl with
  | nil => simp [acl_set] at h
  | cons e rest ih =>
    unfold acl_set at h ⊢
    by_cases hu : e.username = u
    · simp only [hu, if_true]
      unfold acl_entry
      simp [hu]
    · simp only [hu, if_false] at h ⊢
      unfold acl_entry
      simp only [List.find?_cons, hu, decide_False]
      exact ih h

theorem acl_entry_append_new (acl : List ACLEntry) (u : String) (a : AccessType)
    (h : acl_entry acl u = none) :
    acl_entry (acl ++ [{ username := u, access := a }]) u = some { username := u, access := a } := by
  unfold acl_entry at h ⊢
  rw [List.find?_append, h]
  simp

theorem grant_access_entry (m : FileMetadata) (u : String) (a : AccessType)
    (h : (acl_entry m.acl u).isSome = true ∨ m.acl.length < MAX_ACL_ENTRIES) :
    acl_entry (grant_access m u a).acl u = some { username := u, access := a } := by
  unfold grant_access
  simp only
  by_cases hf : (acl_set m.acl u a).2 = true
  · simp only [hf, if_true]
    exact acl_set_entry m.acl u a hf
  · simp only [hf, if_false, Bool.false_eq_true]
    rw [acl_set_found] at hf
    have hlen : m.acl.length < MAX_ACL_ENTRIES := h.resolve_left hf
    simp only [hlen, if_true]
    apply acl_entry_append_new
    cases hx : acl_entry m.acl u with
    | none => rfl
    | some e => rw [hx] at hf; exact absurd rfl hf

theorem grant_access_full (m : FileMetadata) (u : String) (a : AccessType)
    (h1 : acl_entry m.acl u = none) (h2 : ¬ m.acl.length < MAX_ACL_ENTRIES) :
    grant_access m u a = m := by
  unfold grant_access
  simp only
  have hf : (acl_set m.acl u a).2 = false := by rw [acl_set_found, h1]; rfl
  simp only [hf, Bool.false_eq_true, if_false, h2]

/-- With a full cache that does not hold the file, `handle_approverequest` of
the owner never returns: `cache_put` stays in its loop "find empty slot". -/
theorem approve_blocks_on_full_cache (nm : NameServer) (msg : Common.Message)
    (req : AccessRequest) (file_meta : FileMetadata)
    (hshape : CacheShape nm.cache)
    (hidx : 0 ≤ msg.sentence_index)
    (hreq : nm.access_requests.get? msg.sentence_index.toNat = some req)
    (hmeta : trie_search nm.file_trie req.filename.data = some file_meta)
    (howner : file_meta.owner = msg.sender)
    (hfull : ¬ nm.cache.size < (nm.cache.capacity : Int))
    (habs : ¬ key_present nm.cache req.filename) :
    ∀ fuel, handle_approverequest fuel nm msg = none := by
  intro fuel
  have hlt : msg.sentence_index.toNat < nm.access_requests.length := by
    by_contra hge
    rw [List.get?_eq_none.2 (by omega)] at hreq
    exact absurd hreq (by simp)
  have hcond : ¬ ((decide (msg.sentence_index < 0) ||
      decide (msg.sentence_index ≥ (nm.access_requests.length : Int))) = true) := by
    simp only [Bool.or_eq_true, decide_eq_true_eq, not_or, not_lt, ge_iff_le, not_le]
    constructor
    · exact hidx
    · omega
  unfold handle_approverequest
  simp only [hcond, if_false, Bool.false_eq_true, hreq, hmeta, howner, ne_eq, not_true_eq_false,
    cache_put_none_of_full nm.cache req.filename _ hshape hfull habs fuel]

/-- C20 (amended): in every state that the name server reaches with a cache of
`capacity > 0` slots that has a free slot or holds the file, when the owner of
the file approves the pending request `req`, the handler returns with response
200, the request is removed from the pending list, and the metadata of the file
in the index is the former one with the access granted by overwriting: if the
requester has an ACL entry or the ACL has fewer than `MAX_ACL_ENTRIES` entries,
the requester's entry afterwards carries exactly the requested access, whatever
it carried before; with no entry and a full ACL the metadata is unchanged. -/
theorem approve_sets_requested_access (nm : NameServer) (msg : Common.Message)
    (req : AccessRequest) (file_meta : FileMetadata)
    (hreach : NMReachable nm) (hcap : 0 < nm.cache.capacity)
    (hroom : nm.cache.size < (nm.cache.capacity : Int) ∨ key_present nm.cache req.filename)
    (hidx : 0 ≤ msg.sentence_index)
    (hreq : nm.access_requests.get? msg.sentence_index.toNat = some req)
    (hmeta : trie_search nm.file_trie req.filename.data = some file_meta)
    (howner : file_meta.owner = msg.sender) :
    ∃ nm1, (∀ fuel, nm.cache.capacity ≤ fuel →
        handle_approverequest fuel nm msg = some (nm1, SUCCESS)) ∧
      nm1.access_requests = nm.access_requests.eraseIdx msg.sentence_index.toNat ∧
      trie_search nm1.file_trie req.filename.data =
        some (grant_access file_meta req.username req.requested_access) ∧
      ((acl_entry file_meta.acl req.username).isSome = true ∨
          file_meta.acl.length < MAX_ACL_ENTRIES →
        acl_entry (grant_access file_meta req.username req.requested_access).acl req.username =
          some { username := req.username, access := req.requested_access }) ∧
      (acl_entry file_meta.acl req.username = none → ¬ file_meta.acl.length < MAX_ACL_ENTRIES →
        grant_access file_meta req.username req.requested_access = file_meta) := by
  have hshape := reachable_cache_shape nm hreach hcap
  obtain ⟨cache1, hput, _, _⟩ := cache_put_returns nm.cache req.filename
    (grant_access file_meta req.username req.requested_access) hshape hroom
  have hlt : msg.sentence_index.toNat < nm.access_requests.length := by
    by_contra hge
    rw [List.get?_eq_none.2 (by omega)] at hreq
    exact absurd hreq (by simp)
  have hcond : ¬ ((decide (msg.sentence_index < 0) ||
      decide (msg.sentence_index ≥ (nm.access_requests.length : Int))) = true) := by
    simp only [Bool.or_eq_true, decide_eq_true_eq, not_or, not_lt, ge_iff_le, not_le]
    constructor
    · exact hidx
    · omega
  refine ⟨{ nm with file_trie := (trie_update nm.file_trie req.filename.data (grant_access file_meta req.username req.requested_access)).1, cache := cache1, access_requests := nm.access_requests.eraseIdx msg.sentence_index.toNat }, ?_, rfl, ?_, grant_access_entry _ _ _, grant_access_full _ _ _⟩
  · intro fuel hf
    unfold handle_approverequest
    simp only [hcond, if_false, Bool.false_eq_true, hreq, hmeta, howner, ne_eq,
      not_true_eq_false, hput fuel hf]
  · exact (trie_update_same _ req.filename.data nm.file_trie).1 (by rw [hmeta]; rfl) |>.2

set_option maxRecDepth 100000 in
theorem approve_sets_requested_access_witness :
    ∃ nm1, (∀ fuel, pending_state.cache.capacity ≤ fuel →
        handle_approverequest fuel pending_state
          { nm_request "system" "" with sentence_index := 0 } = some (nm1, SUCCESS)) ∧
      nm1.access_requests = pending_state.access_requests.eraseIdx 0 ∧
      trie_search nm1.file_trie "f".data =
        some (grant_access (pending_meta) "bob" ACCESS_READ) ∧
      ((acl_entry pending_meta.acl "bob").isSome = true ∨
          pending_meta.acl.length < MAX_ACL_ENTRIES →
        acl_entry (grant_access pending_meta "bob" ACCESS_READ).acl "bob" =
          some { username := "bob", access := ACCESS_READ }) ∧
      (acl_entry pending_meta.acl "bob" = none →
        ¬ pending_meta.acl.length < MAX_ACL_ENTRIES →
        grant_access pending_meta "bob" ACCESS_READ = pending_meta) :=
  approve_sets_requested_access pending_state { nm_request "system" "" with sentence_index := 0 }
    { username := "bob", filename := "f", requested_access := ACCESS_READ, request_time := 1 }
    pending_meta
    (NMReachable.step _ _ 0
      (NMEvent.requestaccess { nm_request "bob" "f" with access := ACCESS_READ } 1)
      (NMReachable.step _ _ 0 (NMEvent.ss_connection (ss_registration 1 "f") 0)
        (NMReachable.init 100) rfl) rfl)
    (by decide) (Or.inl (by decide)) (by decide) (by decide) (by decide) rfl


/-! ## Guarded deletion, and the file scan of the storage server -/

theorem any_locked_iff (locks : List SentenceLock) :
    locks.any (fun l => l.locked) = true ↔
      ∃ (idx : Nat) (l : SentenceLock), locks.get? idx = some l ∧ l.locked = true := by
  rw [List.any_eq_true]
  constructor
  · rintro ⟨l, hl, hlocked⟩
    obtain ⟨n, hn⟩ := List.get?_of_mem hl
    exact ⟨n, l, hn, hlocked⟩
  · rintro ⟨idx, l, hl, hlocked⟩
    exact ⟨l, List.get?_mem hl, hlocked⟩

theorem check_file_locks_iff (locks : List FileLocks) (f : String) :
    check_file_locks locks f = true ↔ ∃ (idx : Nat) (u : String), holder locks f (idx : Int) = some u := by
  induction locks with
  | nil => simp [check_file_locks, holder, get_sentence_lock]
  | cons fl rest ih =>
    unfold check_file_locks
    by_cases hf : fl.filename = f
    · simp only [hf, if_true]
      rw [any_locked_iff]
      constructor
      · rintro ⟨idx, l, hl, hlocked⟩
        refine ⟨idx, l.locked_by, ?_⟩
        have hlt : idx < fl.locks.length := by
          by_contra hge
          rw [List.get?_eq_none.2 (by omega)] at hl
          exact absurd hl (by simp)
        unfold holder get_sentence_lock
        have hc : (decide ((idx : Int) ≥ 0) && decide ((idx : Int) < (fl.locks.length : Int))) = true := by
          simp only [Bool.and_eq_true, decide_eq_true_eq]
          omega
        simp only [hf, if_true, hc, Int.toNat_ofNat, hl, hlocked]
      · rintro ⟨idx, u, hu⟩
        unfold holder get_sentence_lock at hu
        simp only [hf, if_true] at hu
        split at hu
        · rename_i lock hget
          split at hget
          · simp only [Int.toNat_ofNat] at hget
            split at hu
            · rename_i hlocked
              exact ⟨idx, lock, hget, hlocked⟩
            · exact absurd hu (by simp)
          · exact absurd hget (by simp)
        · exact absurd hu (by simp)
    · simp only [hf, if_false]
      rw [ih]
      constructor
      · rintro ⟨idx, u, hu⟩
        refine ⟨idx, u, ?_⟩
        unfold holder get_sentence_lock
        simp only [hf, if_false]
        exact hu
      · rintro ⟨idx, u, hu⟩
        refine ⟨idx, u, ?_⟩
        unfold holder get_sentence_lock at hu
        simp only [hf, if_false] at hu
        exact hu

/-- C22: `handle_delete` answers a sender who is not the owner with 401 and a
`file locked` reply of the storage server with 424, and leaves the state as it
is in both cases; whenever it returns a changed state, the sender is the owner,
the lock reply was not `file locked`, and the state is the former one with the
file deleted from the index and removed from the cache. On the storage server
`check_file_locks` reports a lock exactly when some sentence of the file has a
holder. -/
theorem delete_is_guarded (fuel : Nat) (nm : NameServer) (msg : Common.Message)
    (lock_status ss_status : Int) (file_meta : FileMetadata) (locks : List FileLocks) (f : String)
    (hmeta : trie_search nm.file_trie msg.filename.data = some file_meta) :
    (file_meta.owner ≠ msg.sender →
      handle_delete fuel nm msg lock_status ss_status = some (nm, ERR_NOT_OWNER)) ∧
    (file_meta.owner = msg.sender → (find_ss_idx nm.ss_list file_meta.ss_id).isSome = true →
      lock_status = ERR_FILE_LOCKED →
      handle_delete fuel nm msg lock_status ss_status = some (nm, ERR_FILE_LOCKED)) ∧
    (∀ r, handle_delete fuel nm msg lock_status ss_status = some r → r.1 = nm ∨
      (file_meta.owner = msg.sender ∧ lock_status ≠ ERR_FILE_LOCKED ∧ r.2 = SUCCESS ∧
       r.1.file_trie = trie_delete nm.file_trie msg.filename.data ∧
       cache_remove fuel nm.cache msg.filename = some r.1.cache)) ∧
    (check_file_locks locks f = true ↔
      ∃ (idx : Nat) (u : String), holder locks f (idx : Int) = some u) := by
  refine ⟨?_, ?_, ?_, check_file_locks_iff locks f⟩
  · intro ho
    unfold handle_delete
    simp only [hmeta, ne_eq, ho, not_false_eq_true, if_true]
  · intro ho hss hl
    unfold handle_delete
    obtain ⟨i, hi⟩ := Option.isSome_iff_exists.1 hss
    simp only [hmeta, ne_eq, ho, not_true_eq_false, if_false, hi, hl, if_true]
  · intro r hr
    unfold handle_delete at hr
    simp only [hmeta] at hr
    split at hr
    · left; cases hr; rfl
    · rename_i ho
      split at hr
      · left; cases hr; rfl
      · split at hr
        · left; cases hr; rfl
        · rename_i hl
          split at hr
          · split at hr
            · exact absurd hr (by simp)
            · rename_i cache1 hc
              right
              cases hr
              exact ⟨by simpa using ho, hl, rfl, rfl, hc⟩
          · left; cases hr; rfl

theorem delete_is_guarded_witness :
    (("alice" : String) ≠ "bob" →
      handle_delete 10 approve_state (nm_request "bob" "f") SUCCESS SUCCESS
        = some (approve_state, ERR_NOT_OWNER)) ∧
    (("alice" : String) = "bob" →
      (find_ss_idx approve_state.ss_list (1 : Int)).isSome = true →
      SUCCESS = ERR_FILE_LOCKED →
      handle_delete 10 approve_state (nm_request "bob" "f") SUCCESS SUCCESS
        = some (approve_state, ERR_FILE_LOCKED)) ∧
    (∀ r, handle_delete 10 approve_state (nm_request "bob" "f") SUCCESS SUCCESS = some r →
      r.1 = approve_state ∨
      (("alice" : String) = "bob" ∧ SUCCESS ≠ ERR_FILE_LOCKED ∧ r.2 = SUCCESS ∧
       r.1.file_trie = trie_delete approve_state.file_trie "f".data ∧
       cache_remove 10 approve_state.cache "f" = some r.1.cache)) ∧
    (check_file_locks [] "f" = true ↔
      ∃ (idx : Nat) (u : String), holder [] "f" (idx : Int) = some u) :=
  delete_is_guarded 10 approve_state (nm_request "bob" "f") SUCCESS SUCCESS
    { sample_meta "f" "alice" with acl := [{ username := "bob", access := ACCESS_READWRITE }] }
    [] "f" (by decide)


/-! ## The file list that the storage server advertises -/

/-- C25 (the code departs from the claim): for a directory with the file `f`,
its temp file, a checkpoint of it, its undo backup and a regular file
`notes.undone`, the advertised list is `f,f.temp_u_0,f.checkpoint_v1`: the only
name test of the `readdir` loop is `strstr(entry->d_name, ".undo")`, so the temp
file and the checkpoint are advertised as files, and `notes.undone`, which is
none of the three kinds, is left out. -/
theorem scan_advertises_temp_files :
    scan_and_register_files sample_directory = "f,f.temp_u_0,f.checkpoint_v1".data := by
  decide

theorem scan_loop_spec (entries : List DirEntry) :
    ∀ (file_list : List Char) (file_count : Nat),
      (file_count = 0 → file_list = []) →
      (scan_loop entries file_list file_count).1 =
        (if file_count = 0 then [] else
          (if (entries.filter scan_keeps).length = 0 then file_list else file_list ++ [','])) ++
        [','].intercalate ((entries.filter scan_keeps).map (fun e => e.d_name.data)) ∧
      (scan_loop entries file_list file_count).2 = file_count + (entries.filter scan_keeps).length := by
  induction entries with
  | nil =>
    intro file_list file_count h0
    unfold scan_loop
    by_cases hc : file_count = 0
    · simp [hc, h0 hc, List.intercalate]
    · simp [hc, List.intercalate]
  | cons e rest ih =>
    intro file_list file_count h0
    unfold scan_loop
    by_cases hdot : (decide (e.d_name = ".") || decide (e.d_name = "..")) = true
    · have hk : scan_keeps e = false := by
        unfold scan_keeps; simp only [hdot, Bool.not_true, Bool.false_and]
      rw [if_pos hdot, List.filter_cons_of_neg (by simp [hk])]
      exact ih file_list file_count h0
    · rw [if_neg hdot]
      by_cases hundo : strstr e.d_name.data ".undo".data = true
      · have hk : scan_keeps e = false := by
          unfold scan_keeps; simp only [hundo, Bool.not_true, Bool.false_and, Bool.and_false]
        rw [if_pos hundo, List.filter_cons_of_neg (by simp [hk])]
        exact ih file_list file_count h0
      · rw [if_neg hundo]
        by_cases hreg : e.is_regular = true
        · have hk : scan_keeps e = true := by
            unfold scan_keeps
            simp only [Bool.not_eq_true] at hdot hundo
            simp only [hdot, hundo, hreg, Bool.not_false, Bool.and_self]
          rw [if_pos hreg, List.filter_cons_of_pos hk]
          simp only
          obtain ⟨ih1, ih2⟩ := ih ((if file_count > 0 then file_list ++ [','] else file_list)
            ++ e.d_name.data) (file_count + 1) (by omega)
          rw [ih1, ih2]
          refine ⟨?_, by simp only [List.length_cons]; omega⟩
          simp only [Nat.add_one_ne_zero, if_false, List.length_cons, List.map_cons]
          by_cases hc : file_count = 0
          · have hfl := h0 hc
            subst hfl
            simp only [hc, gt_iff_lt, lt_self_iff_false, if_false, if_true, List.nil_append]
            cases hrest : List.filter scan_keeps rest with
            | nil => simp [List.intercalate]
            | cons a t => simp [List.intercalate, List.intersperse]
          · have hpos : file_count > 0 := by omega
            simp only [hc, hpos, if_true, if_false]
            cases hrest : List.filter scan_keeps rest with
            | nil => simp [List.intercalate]
            | cons a t => simp [List.intercalate, List.intersperse]
        · have hk : scan_keeps e = false := by
            unfold scan_keeps
            simp only [Bool.not_eq_true] at hreg
            simp only [hreg, Bool.and_false]
          rw [if_neg hreg, List.filter_cons_of_neg (by simp [hk])]
          exact ih file_list file_count h0

/-- What the loop computes: the file list that `scan_and_register_files`
advertises is the comma-separated list, in directory order, of the names of exactly those
entries that are regular files, are not `.` or `..`, and do not contain the
substring `.undo`. Temp files and checkpoint files are therefore advertised. -/
theorem scan_advertises_all_but_undo (entries : List DirEntry) :
    scan_and_register_files entries =
      [','].intercalate ((entries.filter scan_keeps).map (fun e => e.d_name.data)) := by
  unfold scan_and_register_files
  have := (scan_loop_spec entries [] 0 (fun _ => rfl)).1
  simpa using this


/-! ## Insertion of content without a delimiter -/

theorem getSlot_setSlot_other (ss : List Sentence) (i j : Nat) (s : Sentence) (h : j ≠ i) :
    getSlot (setSlot ss i s) j = getSlot ss j := by
  unfold getSlot setSlot
  by_cases hi : i < ss.length
  · simp only [hi, if_true, List.getD_eq_getElem?_getD]
    rw [List.getElem?_set_ne (Ne.symm h)]
  · simp only [hi, if_false, List.getD_eq_getElem?_getD]
    by_cases hj : j < ss.length
    · rw [List.append_assoc, List.getElem?_append_left hj]
    · rw [List.getElem?_eq_none (by omega : ss.length ≤ j)]
      by_cases hji : j < i
      · rw [List.getElem?_append_left (by simp; omega),
          List.getElem?_append_right (by omega)]
        simp only [List.getElem?_replicate]
        split <;> rfl
      · rw [List.getElem?_eq_none (by simp; omega)]

theorem setSlot_setSlot (ss : List Sentence) (i : Nat) (s t : Sentence) :
    setSlot (setSlot ss i s) i t = setSlot ss i t := by
  unfold setSlot
  by_cases hi : i < ss.length
  · simp [hi]
  · have hlen : (ss ++ List.replicate (i - ss.length) ([] : Sentence) ++ [s]).length = i + 1 := by
      simp; omega
    have hlen2 : (ss ++ List.replicate (i - ss.length) ([] : Sentence)).length = i := by
      simp; omega
    simp only [hi, if_false, hlen, Nat.lt_succ_self, if_true]
    rw [List.set_append_right _ _ (by omega)]
    simp [hlen2]

theorem last_delimiter_idx_none (parts : List Token)
    (h : ∀ part ∈ parts, first_is_delimiter part = false) : last_delimiter_idx parts = -1 := by
  unfold last_delimiter_idx
  have : ∀ (l : List Nat) (acc : Int), (∀ i ∈ l, i < parts.length) →
      l.foldl (fun acc i => if first_is_delimiter (parts.getD i []) then (i : Int) else acc) acc
        = acc := by
    intro l
    induction l with
    | nil => intro acc _; rfl
    | cons a rest ih =>
      intro acc hl
      have ha : a < parts.length := hl a (List.mem_cons_self _ _)
      have hp : first_is_delimiter (parts.getD a []) = false := by
        apply h
        rw [List.getD_eq_getElem?_getD, List.getElem?_eq_getElem ha]
        exact List.getElem_mem ha
      simp only [List.foldl_cons, hp, Bool.false_eq_true, if_false]
      exact ih acc (fun i hi => hl i (List.mem_cons_of_mem _ hi))
  exact this _ _ (fun i hi => List.mem_range.1 hi)

theorem count_new_sentences_none (parts : List Token)
    (h : ∀ part ∈ parts, first_is_delimiter part = false) : count_new_sentences parts = 0 := by
  unfold count_new_sentences
  rw [last_delimiter_idx_none parts h]
  have hf : parts.filter first_is_delimiter = [] := by
    rw [List.filter_eq_nil_iff]
    intro a ha
    rw [h a ha]
    simp
  simp [hf]

theorem set_getD_self (ss : List Sentence) (s : Nat) (hs : s < ss.length) :
    ss.set s (ss.getD s []) = ss := by
  apply List.ext_getElem?
  intro n
  by_cases hn : s = n
  · subst hn
    rw [List.getElem?_set_self hs, List.getD_eq_getElem?_getD, List.getElem?_eq_getElem hs]
    rfl
  · rw [List.getElem?_set_ne hn]

theorem insert_parts_no_split :
    ∀ (parts : List Token) (i part_count : Nat) (ss : List Sentence) (s p : Nat),
      s < ss.length → p ≤ (getSlot ss s).length →
      insert_parts parts i (-1) part_count ss s p false =
        setSlot ss s ((getSlot ss s).take p ++ parts ++ (getSlot ss s).drop p) := by
  intro parts
  induction parts with
  | nil =>
    intro i pc ss s p hs hp
    unfold insert_parts
    simp only [List.append_nil, List.take_append_drop]
    unfold setSlot getSlot
    simp only [hs, if_true]
    exact (set_getD_self ss s hs).symm
  | cons a rest ih =>
    intro i pc ss s p hs hp
    unfold insert_parts
    have hns : ((i : Int) == -1 && decide ((-1 : Int) < (pc : Int) - 1)) = false := by
      have : ((i : Int) == -1) = false := by
        rw [beq_eq_false_iff_ne]
        omega
      simp [this]
    simp only [hns, Bool.not_false, if_true, Bool.false_eq_true, if_false]
    have hs2 : s < (setSlot ss s (insert_at (getSlot ss s) p a)).length := by
      unfold setSlot
      simp [hs]
    rw [ih (i + 1) pc _ s (p + 1) hs2
      (by rw [getSlot_setSlot_same]; unfold insert_at; simp; omega)]
    rw [getSlot_setSlot_same, setSlot_setSlot]
    congr 1
    unfold insert_at
    have h1 : ((getSlot ss s).take p ++ [a] ++ (getSlot ss s).drop p).take (p + 1)
        = (getSlot ss s).take p ++ [a] := by
      rw [List.take_append_of_le_length (by simp; omega)]
      rw [List.take_of_length_le (by simp)]
    have h2 : ((getSlot ss s).take p ++ [a] ++ (getSlot ss s).drop p).drop (p + 1)
        = (getSlot ss s).drop p := by
      rw [List.drop_append_of_le_length (by simp; omega)]
      rw [List.drop_of_length_le (by simp), List.nil_append]
    rw [h1, h2]
    simp

theorem real_word_count_cons (a : Token) (ts : Sentence) :
    real_word_count (a :: ts) = (if should_skip_for_indexing a then 0 else 1) + real_word_count ts := by
  unfold real_word_count
  by_cases h : should_skip_for_indexing a = true
  · simp [List.filter_cons, h]
  · simp [List.filter_cons, h]
    omega

theorem find_position_le : ∀ (ts : Sentence) (i seen : Nat) (target : Int),
    (find_position ts i seen target).1 ≤ i + ts.length := by
  intro ts
  induction ts with
  | nil => intro i seen target; simp [find_position]
  | cons a rest ih =>
    intro i seen target
    unfold find_position
    split
    · split
      · simp only [List.length_cons]; omega
      · have := ih (i + 1) (seen + 1) target
        simp only [List.length_cons]; omega
    · have := ih (i + 1) seen target
      simp only [List.length_cons]; omega

theorem actual_index_le (sent : Sentence) (word_idx : Int) :
    actual_index sent word_idx ≤ sent.length := by
  unfold actual_index
  split
  · omega
  · simp only
    split
    · exact le_refl _
    · have := find_position_le sent 0 0 (word_idx - 1)
      omega

theorem find_position_found : ∀ (ts : Sentence) (i seen : Nat) (target : Int),
    (seen : Int) < target → target ≤ (seen : Int) + (real_word_count ts : Int) →
    ∃ k, k < ts.length ∧ (find_position ts i seen target).1 = i + k + 1 ∧
      (find_position ts i seen target).2 = target.toNat ∧
      should_skip_for_indexing (ts.getD k []) = false ∧
      (seen : Int) + (real_word_count (ts.take (k + 1)) : Int) = target := by
  intro ts
  induction ts with
  | nil =>
    intro i seen target h1 h2
    simp only [real_word_count, List.filter_nil, List.length_nil] at h2
    omega
  | cons a rest ih =>
    intro i seen target h1 h2
    rw [real_word_count_cons] at h2
    unfold find_position
    by_cases hskip : should_skip_for_indexing a = true
    · simp only [hskip, Bool.not_true, Bool.false_eq_true, if_false, if_true] at h2 ⊢
      obtain ⟨k, hk, e1, e2, e3, e4⟩ := ih (i + 1) seen target h1 (by simpa using h2)
      refine ⟨k + 1, by simp; omega, by rw [e1]; omega, e2, by simpa using e3, ?_⟩
      rw [List.take_succ_cons, real_word_count_cons]
      simp only [hskip, if_true]
      omega
    · simp only [hskip, Bool.not_false, if_true, Bool.false_eq_true, if_false] at h2 ⊢
      by_cases heq : ((seen + 1 : Nat) : Int) = target
      · have hb : (((seen + 1 : Nat) : Int) == target) = true := by simpa using heq
        simp only [hb, if_true]
        refine ⟨0, by simp, rfl, by omega, by simpa using hskip, ?_⟩
        simp only [Nat.zero_add, List.take_succ_cons, List.take_zero, real_word_count_cons, hskip,
          Bool.false_eq_true, if_false]
        simp only [real_word_count, List.filter_nil, List.length_nil]
        omega
      · have hb : (((seen + 1 : Nat) : Int) == target) = false := by simpa using heq
        simp only [hb, Bool.false_eq_true, if_false]
        obtain ⟨k, hk, e1, e2, e3, e4⟩ := ih (i + 1) (seen + 1) target (by omega) (by omega)
        refine ⟨k + 1, by simp; omega, by rw [e1]; omega, e2, by simpa using e3, ?_⟩
        rw [List.take_succ_cons, real_word_count_cons]
        simp only [hskip, Bool.false_eq_true, if_false]
        omega


theorem append_slot_below (fc : FileContent) (s : Nat) (h : s < fc.sentence_count) :
    append_slot fc s = fc := by
  unfold append_slot
  have : (s == fc.sentence_count) = false := by
    rw [beq_eq_false_iff_ne]; omega
  simp [this]

theorem insert_no_delimiter_result (fc : FileContent) (sent_idx word_idx : Int)
    (content : List Char)
    (hs0 : 0 ≤ sent_idx) (hs : sent_idx < (fc.sentence_count : Int))
    (hlen : fc.sentence_count ≤ fc.sentences.length)
    (hw1 : 1 ≤ word_idx)
    (hw2 : word_idx ≤ (real_word_count (getSlot fc.sentences sent_idx.toNat) : Int) + 1)
    (hne : split_by_delimiters content ≠ [])
    (hnd : ∀ part ∈ split_by_delimiters content, first_is_delimiter part = false) :
    insert_word_in_sentence fc sent_idx word_idx content =
      (0, { sentences := fc.sentences.set sent_idx.toNat
              ((getSlot fc.sentences sent_idx.toNat).take
                  (actual_index (getSlot fc.sentences sent_idx.toNat) word_idx) ++
                split_by_delimiters content ++
                (getSlot fc.sentences sent_idx.toNat).drop
                  (actual_index (getSlot fc.sentences sent_idx.toNat) word_idx)),
            sentence_count := fc.sentence_count }) := by
  obtain ⟨s, rfl⟩ := Int.eq_ofNat_of_zero_le hs0
  simp only [Int.toNat_ofNat] at hw2 ⊢
  have hs' : s < fc.sentence_count := by exact_mod_cast hs
  have hsl : s < fc.sentences.length := by omega
  unfold insert_word_in_sentence
  have hc1 : ¬ ((decide ((s : Int) < 0) || decide ((s : Int) > (fc.sentence_count : Int))) = true) := by
    simp only [Bool.or_eq_true, decide_eq_true_eq, not_or, not_lt]
    omega
  simp only [hc1, if_false, Int.toNat_ofNat, append_slot_below fc s hs']
  have hc2 : ¬ ((decide (word_idx < 1) ||
      decide (word_idx > (real_word_count (getSlot fc.sentences s) : Int) + 1)) = true) := by
    simp only [Bool.or_eq_true, decide_eq_true_eq, not_or, not_lt]
    omega
  have hc3 : ((split_by_delimiters content).length == 0) = false := by
    rw [beq_eq_false_iff_ne]
    intro h0
    exact hne (List.length_eq_zero.1 h0)
  simp only [hc2, if_false, hc3, Bool.false_eq_true, count_new_sentences_none _ hnd,
    gt_iff_lt, lt_self_iff_false, last_delimiter_idx_none _ hnd]
  rw [insert_parts_no_split _ _ _ _ _ _ hsl (actual_index_le _ _)]
  unfold setSlot
  simp [hsl]

theorem word_char_facts (c : Char) (h : is_word_char c = true) :
    is_blank c = false ∧ c ≠ '\n' ∧ is_delimiter c = false := by
  simp only [is_word_char, Bool.and_eq_true, Bool.not_eq_true', beq_eq_false_iff_ne] at h
  exact ⟨h.1.1, h.1.2, h.2⟩

theorem plain_token_facts (t : Token) (h : is_plain_token t = true) :
    (∀ c ∈ t, is_delimiter c = false) ∧ ('\n' ∈ t → t = ['\n']) ∧
    ((∃ c ∈ t, is_blank c = true) → ∀ c ∈ t, is_blank c = true) := by
  simp only [is_plain_token, Bool.or_eq_true] at h
  rcases h with (h | h) | h
  · simp only [is_newline_token, beq_iff_eq] at h
    subst h
    refine ⟨by decide, fun _ => rfl, ?_⟩
    rintro ⟨c, hc, hb⟩
    simp only [List.mem_singleton] at hc
    subst hc
    exact absurd hb (by decide)
  · have hall : ∀ c ∈ t, is_blank c = true := by
      cases t with
      | nil => intro c hc; simp at hc
      | cons a r =>
        simp only [is_space_token] at h
        exact List.all_eq_true.1 h
    refine ⟨fun c hc => not_delimiter_of_blank c (hall c hc), ?_, fun _ => hall⟩
    intro hn
    exact absurd (hall _ hn) (by decide)
  · have hall : ∀ c ∈ t, is_word_char c = true := List.all_eq_true.1 h
    refine ⟨fun c hc => (word_char_facts c (hall c hc)).2.2, ?_, ?_⟩
    · intro hn
      exact absurd rfl (word_char_facts _ (hall _ hn)).2.1
    · rintro ⟨c, hc, hb⟩
      rw [(word_char_facts c (hall c hc)).1] at hb
      exact absurd hb (by simp)

theorem delimiter_char_facts (d : Char) (h : is_delimiter d = true) :
    d ≠ '\n' ∧ is_blank d = false := by
  simp only [is_delimiter, Bool.or_eq_true, beq_iff_eq] at h
  rcases h with (rfl | rfl) | rfl <;> exact ⟨by decide, by decide⟩

theorem sentence_shape_facts (s body : Sentence) (tail : List Token)
    (hs : s = body ++ tail) (hbody : ∀ t ∈ body, is_plain_token t = true)
    (htail : tail = [] ∨ ∃ d, tail = [[d]] ∧ is_delimiter d = true) :
    (∀ t ∈ s, (∃ c ∈ t, is_delimiter c = true) → is_delimiter_token t = true) ∧
    (∀ i, i + 1 < s.length → ∀ c ∈ s.getD i [], is_delimiter c = false) ∧
    (∀ t ∈ s, '\n' ∈ t → t = ['\n']) ∧
    (∀ t ∈ s, (∃ c ∈ t, is_blank c = true) → ∀ c ∈ t, is_blank c = true) := by
  subst hs
  have hmem : ∀ t ∈ body ++ tail, is_plain_token t = true ∨
      ∃ d, t = [d] ∧ is_delimiter d = true := by
    intro t ht
    rcases List.mem_append.1 ht with h | h
    · exact Or.inl (hbody t h)
    · rcases htail with h0 | ⟨d, hd, hdel⟩
      · rw [h0] at h; simp at h
      · rw [hd] at h
        simp only [List.mem_singleton] at h
        exact Or.inr ⟨d, h, hdel⟩
  refine ⟨?_, ?_, ?_, ?_⟩
  · intro t ht ⟨c, hc, hdel⟩
    rcases hmem t ht with h | ⟨d, rfl, hd⟩
    · rw [(plain_token_facts t h).1 c hc] at hdel
      exact absurd hdel (by simp)
    · exact hd
  · intro i hi c hc
    have hib : i < body.length := by
      rcases htail with h0 | ⟨d, hd, _⟩
      · rw [h0] at hi; simp at hi; omega
      · rw [hd] at hi; simp at hi; omega
    rw [List.getD_eq_getElem?_getD, List.getElem?_append_left hib,
      List.getElem?_eq_getElem hib] at hc
    exact (plain_token_facts _ (hbody _ (List.getElem_mem hib))).1 c hc
  · intro t ht hn
    rcases hmem t ht with h | ⟨d, rfl, hd⟩
    · exact (plain_token_facts t h).2.1 hn
    · simp only [List.mem_singleton] at hn
      exact absurd hn.symm (delimiter_char_facts d hd).1
  · intro t ht hb
    rcases hmem t ht with h | ⟨d, rfl, hd⟩
    · exact (plain_token_facts t h).2.2 hb
    · obtain ⟨c, hc, hbc⟩ := hb
      simp only [List.mem_singleton] at hc
      subst hc
      rw [(delimiter_char_facts c hd).2] at hbc
      exact absurd hbc (by simp)

/-- C28: the sentences that `parse_file` counts are well-formed for every
input: a token that contains a delimiter character is exactly one delimiter
character, and no token before the last token of a sentence contains one;
every sentence except possibly the last ends with a delimiter token; a token
that contains a newline is exactly `"\n"`; a token that contains a blank
consists of blanks only (so a word token holds no blank, newline or delimiter
character); and no counted sentence is empty. -/
theorem parse_file_well_formed (bytes : List Char) :
    (∀ s ∈ counted (parse_file bytes),
      s ≠ [] ∧
      (∀ t ∈ s, (∃ c ∈ t, is_delimiter c = true) → is_delimiter_token t = true) ∧
      (∀ i, i + 1 < s.length → ∀ c ∈ s.getD i [], is_delimiter c = false) ∧
      (∀ t ∈ s, '\n' ∈ t → t = ['\n']) ∧
      (∀ t ∈ s, (∃ c ∈ t, is_blank c = true) → ∀ c ∈ t, is_blank c = true)) ∧
    (∀ i, i + 1 < (counted (parse_file bytes)).length →
      ∃ body d, (counted (parse_file bytes)).getD i [] = body ++ [[d]] ∧
        is_delimiter d = true) := by
  have hinv : ParseInv (parse_loop bytes parse_init) := parse_loop_inv bytes _ parse_init_inv
  have hc := (counted_parse_finish _ hinv).2.2
  have hplain := final_cur_plain _ hinv
  unfold parse_file
  rw [hc]
  constructor
  · intro s hs
    rcases List.mem_append.1 hs with h | h
    · obtain ⟨body, d, hsd, hd, hb⟩ := hinv.done_shape s h
      refine ⟨by rw [hsd]; simp, ?_⟩
      exact sentence_shape_facts s body [[d]] hsd hb (Or.inr ⟨d, rfl, hd⟩)
    · split at h
      · simp at h
      · rename_i hne
        simp only [List.mem_singleton] at h
        subst h
        refine ⟨hne, ?_⟩
        exact sentence_shape_facts _ _ [] (List.append_nil _).symm hplain (Or.inl rfl)
  · intro i hi
    have hid : i < (parse_loop bytes parse_init).done.length := by
      split at hi
      · simp at hi; omega
      · simp at hi; omega
    rw [List.getD_eq_getElem?_getD, List.getElem?_append_left hid, List.getElem?_eq_getElem hid]
    obtain ⟨body, d, hsd, hd, _⟩ := hinv.done_shape _ (List.getElem_mem hid)
    exact ⟨body, d, hsd, hd⟩


/-! ## The merge of one commit-queue entry -/

theorem slots_range_eq (ss : List Sentence) (lo hi : Nat) (h : hi ≤ ss.length) :
    slots_range ss lo hi = (ss.take hi).drop lo := by
  unfold slots_range
  apply List.ext_getElem
  · simp; omega
  · intro i h1 h2
    simp only [List.length_map, List.length_range'] at h1
    simp only [List.getElem_map, List.getElem_range', Nat.one_mul, List.getElem_drop,
      List.getElem_take]
    unfold getSlot
    rw [List.getD_eq_getElem?_getD, List.getElem?_eq_getElem (by omega)]
    rfl

theorem cast_nat_list (l : List Nat) :
    (do let a ← l; pure (Int.ofNat a) : List Int) = l.map Int.ofNat := by
  simp only [List.bind_eq_flatMap, List.pure_def]
  induction l with
  | nil => rfl
  | cons a rest ih => simp only [List.flatMap_cons, List.map_cons, ih, List.singleton_append]

theorem modified_range_eq (ss : List Sentence) (s k m : Nat) (hk : k ≤ ss.length)
    (hm : s + m ≤ k) :
    (((List.range m).map Int.ofNat).takeWhile (fun i => decide ((s : Int) + i < (k : Int)))).map
        (fun i => getSlot ss ((s : Int) + i).toNat) =
      ((ss.take k).drop s).take m := by
  have htw : ((List.range m).map Int.ofNat).takeWhile (fun i => decide ((s : Int) + i < (k : Int)))
      = (List.range m).map Int.ofNat := by
    rw [List.takeWhile_eq_self_iff]
    intro i hi
    obtain ⟨j, hj, rfl⟩ := List.mem_map.1 hi
    have := List.mem_range.1 hj
    simp only [decide_eq_true_eq, Int.ofNat_eq_coe]
    omega
  rw [htw]
  apply List.ext_getElem
  · simp only [List.length_map, List.length_range, List.length_take, List.length_drop]
    omega
  · intro i h1 h2
    simp only [List.length_map, List.length_range] at h1
    simp only [List.getElem_map, List.getElem_range, List.getElem_take, List.getElem_drop]
    unfold getSlot
    have : ((s : Int) + Int.ofNat i).toNat = s + i := by
      simp only [Int.ofNat_eq_coe]; omega
    rw [this, List.getD_eq_getElem?_getD, List.getElem?_eq_getElem (by omega)]
    rfl

theorem parse_file_count_le (bytes : List Char) :
    (parse_file bytes).sentence_count ≤ (parse_file bytes).sentences.length := by
  have hinv : ParseInv (parse_loop bytes parse_init) := parse_loop_inv bytes _ parse_init_inv
  obtain ⟨hs, hn, _⟩ := counted_parse_finish _ hinv
  unfold parse_file
  rw [hs, hn]
  simp only [List.length_append, List.length_singleton]
  split <;> omega

theorem build_merged_counted (main_fc temp_fc : FileContent) (s n0 : Nat)
    (hmain : main_fc.sentence_count ≤ main_fc.sentences.length)
    (htemp : temp_fc.sentence_count ≤ temp_fc.sentences.length)
    (hn : 1 ≤ main_fc.sentence_count)
    (ha0 : 0 ≤ (s : Int) + ((main_fc.sentence_count : Int) - (n0 : Int)))
    (han : (s : Int) + ((main_fc.sentence_count : Int) - (n0 : Int)) < (main_fc.sentence_count : Int))
    (hk : n0 ≤ temp_fc.sentence_count + 1) :
    (build_merged main_fc temp_fc main_fc.sentence_count (s : Int) n0
        ((s : Int) + ((main_fc.sentence_count : Int) - (n0 : Int)))).sentences =
      (counted main_fc).take (s + main_fc.sentence_count - n0) ++
      ((counted temp_fc).drop s).take (temp_fc.sentence_count + 1 - n0) ++
      (counted main_fc).drop (s + main_fc.sentence_count - n0 + 1) ∧
    (build_merged main_fc temp_fc main_fc.sentence_count (s : Int) n0
        ((s : Int) + ((main_fc.sentence_count : Int) - (n0 : Int)))).sentence_count =
      main_fc.sentence_count + temp_fc.sentence_count - n0 ∧
    write_file_content (build_merged main_fc temp_fc main_fc.sentence_count (s : Int) n0
        ((s : Int) + ((main_fc.sentence_count : Int) - (n0 : Int)))) =
      write_sentences ((counted main_fc).take (s + main_fc.sentence_count - n0) ++
        ((counted temp_fc).drop s).take (temp_fc.sentence_count + 1 - n0) ++
        (counted main_fc).drop (s + main_fc.sentence_count - n0 + 1)) := by
  have hat : ((s : Int) + ((main_fc.sentence_count : Int) - (n0 : Int))).toNat
      = s + main_fc.sentence_count - n0 := by omega
  have hmc : ((1 : Int) + ((temp_fc.sentence_count : Int) - (n0 : Int))).toNat
      = temp_fc.sentence_count + 1 - n0 := by omega
  have hsent : (build_merged main_fc temp_fc main_fc.sentence_count (s : Int) n0
        ((s : Int) + ((main_fc.sentence_count : Int) - (n0 : Int)))).sentences =
      (counted main_fc).take (s + main_fc.sentence_count - n0) ++
      ((counted temp_fc).drop s).take (temp_fc.sentence_count + 1 - n0) ++
      (counted main_fc).drop (s + main_fc.sentence_count - n0 + 1) := by
    unfold build_merged
    have hne : (main_fc.sentence_count == 0) = false := by
      rw [beq_eq_false_iff_ne]; omega
    simp only [hne, Bool.false_eq_true, if_false, hat, hmc]
    have hcast := cast_nat_list (List.range (temp_fc.sentence_count + 1 - n0))
    simp only [Int.ofNat_eq_coe] at hcast
    rw [hcast]
    have hmod := modified_range_eq temp_fc.sentences s temp_fc.sentence_count
      (temp_fc.sentence_count + 1 - n0) htemp (by omega)
    simp only [Int.ofNat_eq_coe] at hmod
    rw [hmod]
    rw [slots_range_eq _ _ _ (by omega : min (s + main_fc.sentence_count - n0)
        main_fc.sentence_count ≤ main_fc.sentences.length),
      slots_range_eq _ _ _ hmain]
    unfold counted
    simp only [List.drop_zero]
    congr 2
    rw [List.take_take]
  have hcount : (build_merged main_fc temp_fc main_fc.sentence_count (s : Int) n0
        ((s : Int) + ((main_fc.sentence_count : Int) - (n0 : Int)))).sentence_count =
      (build_merged main_fc temp_fc main_fc.sentence_count (s : Int) n0
        ((s : Int) + ((main_fc.sentence_count : Int) - (n0 : Int)))).sentences.length := by
    unfold build_merged
    have hne : (main_fc.sentence_count == 0) = false := by
      rw [beq_eq_false_iff_ne]; omega
    simp only [hne, Bool.false_eq_true, if_false]
  refine ⟨hsent, ?_, ?_⟩
  · rw [hcount, hsent]
    unfold counted
    simp only [List.length_append, List.length_take, List.length_drop]
    omega
  · unfold write_file_content
    rw [hcount, List.take_length, hsent]


/-- An entry whose temp file lost at most one sentence is merged inside the
arrays of the merge. -/
theorem merge_in_bounds_of_count (main_fc temp_fc : FileContent) (s n0 : Nat)
    (hmain : main_fc.sentence_count ≤ main_fc.sentences.length)
    (htemp : temp_fc.sentence_count ≤ temp_fc.sentences.length)
    (hn : 1 ≤ main_fc.sentence_count)
    (ha0 : 0 ≤ (s : Int) + ((main_fc.sentence_count : Int) - (n0 : Int)))
    (han : (s : Int) + ((main_fc.sentence_count : Int) - (n0 : Int)) < (main_fc.sentence_count : Int))
    (hk : n0 ≤ temp_fc.sentence_count + 1) :
    merge_in_bounds main_fc temp_fc main_fc.sentence_count (s : Int) n0
      ((s : Int) + ((main_fc.sentence_count : Int) - (n0 : Int))) = true := by
  obtain ⟨_, h2, _⟩ := build_merged_counted main_fc temp_fc s n0 hmain htemp hn ha0 han hk
  have hz : (main_fc.sentence_count == 0) = false := by
    rw [beq_eq_false_iff_ne]; omega
  have hlen : (build_merged main_fc temp_fc main_fc.sentence_count (s : Int) n0
      ((s : Int) + ((main_fc.sentence_count : Int) - (n0 : Int)))).sentences.length =
      (build_merged main_fc temp_fc main_fc.sentence_count (s : Int) n0
      ((s : Int) + ((main_fc.sentence_count : Int) - (n0 : Int)))).sentence_count := by
    unfold build_merged
    simp only [hz, Bool.false_eq_true, if_false]
  unfold merge_in_bounds new_total
  rw [hlen, h2]
  simp only [Bool.and_eq_true, decide_eq_true_eq, Bool.or_eq_true, beq_iff_eq]
  refine ⟨by omega, Or.inr ?_⟩
  rw [le_max_iff]
  left
  omega

theorem runs_below_word_char (bound k : Nat) (c : Char) (rest : List Char)
    (h : runs_below is_word_char bound k (c :: rest) = true) (hc : is_word_char c = true) :
    k + 1 < bound ∧ runs_below is_word_char bound (k + 1) rest = true := by
  unfold runs_below at h
  simpa [hc] using h

theorem runs_below_other (bound k : Nat) (c : Char) (rest : List Char)
    (h : runs_below is_word_char bound k (c :: rest) = true) (hc : is_word_char c = false) :
    runs_below is_word_char bound 0 rest = true := by
  unfold runs_below at h
  simpa [hc] using h

theorem split_flush_nil (parts : List Token) : split_flush parts [] = parts := by
  simp [split_flush]

theorem split_flush_cons (parts : List Token) (b : List Char) (h : b ≠ []) :
    split_flush parts b = parts ++ [b] := by
  unfold split_flush
  have : b.length > 0 := List.length_pos.2 h
  simp [this]

theorem parse_flush_nil (cur : Sentence) : parse_flush cur [] = cur := by
  simp [parse_flush]

theorem parse_flush_cons (cur : Sentence) (w : List Char) (h : w ≠ []) (hn : ∀ c ∈ w, c ≠ NUL) :
    parse_flush cur w = cur ++ [w] := by
  unfold parse_flush
  have : w.length > 0 := List.length_pos.2 h
  simp [this, strdup_of_no_nul w hn]

/-- The tokens that both loops have saved once the pending word is flushed. -/
theorem split_sim_flushed (sst : SplitState) (pst : ParseState) (rest : List Char)
    (h : SplitSim sst pst rest) :
    split_flush sst.parts sst.buffer = pst.done.flatten ++ parse_flush pst.cur pst.word := by
  rcases h.pending with ⟨hb, _, hp⟩ | ⟨hw, hl, hp⟩
  · rw [hb, hp]
    by_cases hw : pst.word = []
    · rw [hw, split_flush_nil, parse_flush_nil]
    · rw [split_flush_cons _ _ hw, parse_flush_cons _ _ hw h.word_no_nul, List.append_assoc]
  · have hne : sst.buffer ≠ [] := by
      intro h0
      rw [h0] at hl
      simp [MAX_WORD] at hl
    rw [hw, parse_flush_nil, split_flush_cons _ _ hne, hp]

theorem split_char_sim (sst : SplitState) (pst : ParseState) (c : Char) (rest : List Char)
    (h : SplitSim sst pst (c :: rest)) (hs : pst.space_buf = none) :
    SplitSim (split_char sst c) (parse_char pst c) rest := by
  have hflush := split_sim_flushed sst pst _ h
  have hrest : ∀ x ∈ rest, x ≠ NUL := fun x hx => h.rest_no_nul x (List.mem_cons_of_mem _ hx)
  have hcn : c ≠ NUL := h.rest_no_nul c (List.mem_cons_self _ _)
  unfold split_char parse_char
  by_cases hb : is_blank c = true
  · have hwc : is_word_char c = false := not_word_char_of_blank c hb
    simp only [hb, if_true]
    exact
      { space := rfl
        rest_no_nul := hrest
        word_no_nul := by simp
        run := runs_below_other _ _ _ _ h.run hwc
        in_blanks := fun _ => ⟨rfl, rfl⟩
        pending := Or.inl ⟨rfl, by simp [MAX_WORD], by
          show split_flush sst.parts sst.buffer = _
          exact hflush⟩ }
  · simp only [hb, if_false, Bool.false_eq_true]
    by_cases hn : (c == '\n') = true
    · have hwc : is_word_char c = false := by
        simp [is_word_char, hn]
      simp only [hn, if_true]
      exact
        { space := by simp only [hs, h.space]
          rest_no_nul := hrest
          word_no_nul := by simp
          run := runs_below_other _ _ _ _ h.run hwc
          in_blanks := fun hne => absurd hs hne
          pending := Or.inl ⟨rfl, by simp [MAX_WORD], by
            show split_flush sst.parts sst.buffer ++ [['\n']] = _
            rw [hflush, List.append_assoc]⟩ }
    · simp only [hn, if_false, Bool.false_eq_true]
      by_cases hd : is_delimiter c = true
      · have hwc : is_word_char c = false := by
          simp [is_word_char, hd]
        simp only [hd, if_true]
        exact
          { space := rfl
            rest_no_nul := hrest
            word_no_nul := by simp
            run := runs_below_other _ _ _ _ h.run hwc
            in_blanks := fun hne => absurd rfl hne
            pending := Or.inl ⟨rfl, by simp [MAX_WORD], by
              show split_flush sst.parts sst.buffer ++ [[c]] = _
              rw [hflush]
              simp⟩ }
      · have hwc : is_word_char c = true := by
          simp only [Bool.not_eq_true] at hb hn hd
          exact word_char_of_not c hb hn hd
        simp only [hd, if_false, Bool.false_eq_true]
        obtain ⟨hlt, hrun⟩ := runs_below_word_char _ _ _ _ h.run hwc
        rcases h.pending with ⟨hbuf, hlen, hp⟩ | ⟨hw, hl, hp⟩
        · have hwn : ∀ x ∈ pst.word ++ [c], x ≠ NUL := by
            intro x hx
            rcases List.mem_append.1 hx with hx | hx
            · exact h.word_no_nul x hx
            · simp only [List.mem_singleton] at hx
              rw [hx]; exact hcn
          by_cases hfull : (pst.word ++ [c]).length ≥ MAX_WORD - 1
          · simp only [hfull, if_true]
            have hl127 : (pst.word ++ [c]).length = MAX_WORD - 1 := by
              simp only [List.length_append, List.length_singleton] at hfull ⊢
              omega
            exact
              { space := by simp only [h.space]
                rest_no_nul := hrest
                word_no_nul := by simp
                run := by
                  show runs_below is_word_char MAX_WORD (sst.buffer ++ [c]).length rest = true
                  simpa using hrun
                in_blanks := fun hne => absurd hs hne
                pending := Or.inr ⟨rfl, by
                  show (sst.buffer ++ [c]).length = MAX_WORD - 1
                  rw [hbuf]; exact hl127, by
                  show sst.parts ++ [sst.buffer ++ [c]] = pst.done.flatten ++ (pst.cur ++ [strdup (pst.word ++ [c])])
                  rw [strdup_of_no_nul _ hwn, hbuf, hp, List.append_assoc]⟩ }
          · simp only [hfull, if_false]
            exact
              { space := by simp only [h.space]
                rest_no_nul := hrest
                word_no_nul := hwn
                run := by
                  show runs_below is_word_char MAX_WORD (sst.buffer ++ [c]).length rest = true
                  simpa using hrun
                in_blanks := fun hne => absurd hs hne
                pending := Or.inl ⟨by
                  show sst.buffer ++ [c] = pst.word ++ [c]
                  rw [hbuf], by
                  show (pst.word ++ [c]).length < MAX_WORD - 1
                  omega, hp⟩ }
        · exfalso
          rw [hl] at hlt
          simp [MAX_WORD] at hlt

theorem split_step_sim (sst : SplitState) (pst : ParseState) (c : Char) (rest : List Char)
    (h : SplitSim sst pst (c :: rest)) :
    SplitSim (split_step sst c) (parse_step pst c) rest := by
  unfold split_step parse_step
  cases hs : pst.space_buf with
  | none =>
    have hs2 : sst.space_buf = none := by rw [h.space, hs]
    simp only [hs2]
    exact split_char_sim sst pst c rest h hs
  | some sb =>
    have hs2 : sst.space_buf = some sb := by rw [h.space, hs]
    obtain ⟨hw, hb⟩ := h.in_blanks (by rw [hs]; simp)
    simp only [hs2]
    by_cases hbl : is_blank c = true
    · simp only [hbl, if_true]
      exact
        { space := rfl
          rest_no_nul := fun x hx => h.rest_no_nul x (List.mem_cons_of_mem _ hx)
          word_no_nul := h.word_no_nul
          run := by
            have hr := runs_below_other _ _ _ _ h.run (not_word_char_of_blank c hbl)
            simp only [hb, List.length_nil]
            exact hr
          in_blanks := fun _ => ⟨hw, hb⟩
          pending := h.pending }
    · simp only [hbl, if_false, Bool.false_eq_true]
      apply split_char_sim _ _ c rest _ rfl
      exact
        { space := rfl
          rest_no_nul := h.rest_no_nul
          word_no_nul := h.word_no_nul
          run := h.run
          in_blanks := fun hne => absurd rfl hne
          pending := by
            rcases h.pending with ⟨hbuf, hlen, hp⟩ | ⟨_, hl, _⟩
            · exact Or.inl ⟨hbuf, hlen, by
                show sst.parts ++ [sb] = pst.done.flatten ++ (pst.cur ++ [sb])
                rw [hp, List.append_assoc]⟩
            · rw [hb] at hl
              simp [MAX_WORD] at hl }

theorem split_loop_sim : ∀ (rest : List Char) (sst : SplitState) (pst : ParseState),
    SplitSim sst pst rest → SplitSim (split_loop rest sst) (parse_loop rest pst) [] := by
  intro rest
  induction rest with
  | nil => intro sst pst h; exact h
  | cons c rest ih =>
    intro sst pst h
    have hcn : c ≠ NUL := h.rest_no_nul c (List.mem_cons_self _ _)
    unfold split_loop parse_loop
    have : (c == NUL) = false := by rw [beq_eq_false_iff_ne]; exact hcn
    simp only [this, Bool.false_eq_true, if_false]
    exact ih _ _ (split_step_sim sst pst c rest h)

/-- The parts of a content are the tokens that the parser reads off it. -/
theorem split_by_delimiters_eq (content : List Char) (hnul : ∀ c ∈ content, c ≠ NUL)
    (hfit : fits_buffer content = true) :
    split_by_delimiters content = (counted (parse_file content)).flatten := by
  have hinit : SplitSim { parts := [], buffer := [], space_buf := none } parse_init content :=
    { space := rfl
      rest_no_nul := hnul
      word_no_nul := by simp [parse_init]
      run := hfit
      in_blanks := fun hne => absurd rfl hne
      pending := Or.inl ⟨rfl, by simp [parse_init, MAX_WORD], rfl⟩ }
  have hsim := split_loop_sim content _ _ hinit
  have hinv : ParseInv (parse_loop content parse_init) := parse_loop_inv content _ parse_init_inv
  have hc := (counted_parse_finish _ hinv).2.2
  unfold parse_file
  rw [hc]
  have hflat : ((parse_loop content parse_init).done ++
      (if final_cur (parse_loop content parse_init) = [] then []
        else [final_cur (parse_loop content parse_init)])).flatten =
      (parse_loop content parse_init).done.flatten ++ final_cur (parse_loop content parse_init) := by
    split
    · rename_i he
      simp [he]
    · simp
  rw [hflat]
  unfold split_by_delimiters final_cur
  simp only
  cases hs : (parse_loop content parse_init).space_buf with
  | some sb =>
    have hs2 : (split_loop content { parts := [], buffer := [], space_buf := none }).space_buf
        = some sb := by rw [hsim.space, hs]
    obtain ⟨hw, hb⟩ := hsim.in_blanks (by rw [hs]; simp)
    simp only [hs2, hw, hb, split_flush_nil, parse_flush_nil]
    rcases hsim.pending with ⟨_, _, hp⟩ | ⟨_, hl, _⟩
    · rw [hp, List.append_assoc]
    · rw [hb] at hl
      simp [MAX_WORD] at hl
  | none =>
    have hs2 : (split_loop content { parts := [], buffer := [], space_buf := none }).space_buf
        = none := by rw [hsim.space, hs]
    simp only [hs2]
    exact split_sim_flushed _ _ _ hsim

theorem parse_loop_append (x y : List Char) (st : ParseState) :
    parse_loop (x ++ y) st = parse_loop y (parse_loop x st) := by
  induction x generalizing st with
  | nil => rfl
  | cons c x ih => exact ih (parse_step st c)

theorem delimiter_not_blank (c : Char) (h : is_delimiter c = true) : is_blank c = false := by
  cases hb : is_blank c with
  | false => rfl
  | true => rw [not_delimiter_of_blank c hb] at h; exact absurd h (by decide)

theorem delimiter_not_newline (c : Char) (h : is_delimiter c = true) : (c == '\n') = false := by
  cases hn : (c == '\n') with
  | false => rfl
  | true =>
    have : c = '\n' := by simpa using hn
    subst this
    exact absurd h (by decide)

/-- A byte that is no delimiter leaves the finished sentences alone. -/
theorem parse_step_done_same (st : ParseState) (c : Char) (h : is_delimiter c = false) :
    (parse_step st c).done = st.done := by
  unfold parse_step
  cases hs : st.space_buf with
  | none =>
    simp only
    unfold parse_char
    simp only [h, Bool.false_eq_true, if_false]
    split
    · rfl
    · split
      · rfl
      · split <;> rfl
  | some sb =>
    simp only
    split
    · rfl
    · unfold parse_char
      simp only [h, Bool.false_eq_true, if_false]
      split
      · rfl
      · split
        · rfl
        · split <;> rfl

/-- A delimiter closes the current sentence and leaves nothing pending. -/
theorem parse_step_done_closed (st : ParseState) (c : Char) (h : is_delimiter c = true) :
    (∃ X, (parse_step st c).done = st.done ++ [X]) ∧ after_delimiter (parse_step st c) := by
  have hb := delimiter_not_blank c h
  have hn := delimiter_not_newline c h
  unfold parse_step after_delimiter
  cases hs : st.space_buf with
  | none =>
    simp only
    unfold parse_char
    simp only [hb, hn, h, Bool.false_eq_true, if_false, if_true]
    refine ⟨⟨_, rfl⟩, ?_, ?_, ?_⟩
    all_goals first | rfl | trivial
  | some sb =>
    simp only [hb, Bool.false_eq_true, if_false]
    unfold parse_char
    simp only [hb, hn, h, Bool.false_eq_true, if_false, if_true]
    refine ⟨⟨_, rfl⟩, ?_, ?_, ?_⟩
    all_goals first | rfl | trivial

theorem parse_loop_done_prefix (x : List Char) (st : ParseState) :
    ∃ E, (parse_loop x st).done = st.done ++ E := by
  induction x generalizing st with
  | nil => exact ⟨[], by simp [parse_loop]⟩
  | cons c x ih =>
    obtain ⟨E, hE⟩ := ih (parse_step st c)
    show ∃ E, (parse_loop x (parse_step st c)).done = st.done ++ E
    cases hd : is_delimiter c with
    | false =>
      rw [parse_step_done_same st c hd] at hE
      exact ⟨E, hE⟩
    | true =>
      obtain ⟨⟨X, hX⟩, _⟩ := parse_step_done_closed st c hd
      rw [hX] at hE
      exact ⟨[X] ++ E, by rw [hE, List.append_assoc]⟩

/-- A text without a delimiter finishes no sentence. -/
theorem parse_loop_done_same (x : List Char) (st : ParseState)
    (h : ∀ c ∈ x, is_delimiter c = false) : (parse_loop x st).done = st.done := by
  induction x generalizing st with
  | nil => rfl
  | cons c x ih =>
    show (parse_loop x (parse_step st c)).done = st.done
    rw [ih (parse_step st c) (fun a ha => h a (List.mem_cons_of_mem _ ha)),
      parse_step_done_same st c (h c (List.mem_cons_self _ _))]

/-- Two states with the same pending sentence scan a byte alike: the same
pending sentence afterwards, and the same sentences are finished. -/
theorem parse_step_agree (st1 st2 : ParseState) (c : Char) (hc : st1.cur = st2.cur)
    (hw : st1.word = st2.word) (hs : st1.space_buf = st2.space_buf) :
    (parse_step st1 c).cur = (parse_step st2 c).cur ∧
    (parse_step st1 c).word = (parse_step st2 c).word ∧
    (parse_step st1 c).space_buf = (parse_step st2 c).space_buf ∧
    ∃ E, (parse_step st1 c).done = st1.done ++ E ∧ (parse_step st2 c).done = st2.done ++ E := by
  obtain ⟨d1, cur1, w1, sb1, n1⟩ := st1
  obtain ⟨d2, cur2, w2, sb2, n2⟩ := st2
  simp only at hc hw hs
  subst hc hw hs
  unfold parse_step
  cases sb1 with
  | none =>
    simp only
    unfold parse_char
    simp only
    split
    · exact ⟨rfl, rfl, rfl, [], by simp, by simp⟩
    · split
      · exact ⟨rfl, rfl, rfl, [], by simp, by simp⟩
      · split
        · exact ⟨rfl, rfl, rfl, _, rfl, rfl⟩
        · split
          · exact ⟨rfl, rfl, rfl, [], by simp, by simp⟩
          · exact ⟨rfl, rfl, rfl, [], by simp, by simp⟩
  | some sb =>
    simp only
    split
    · exact ⟨rfl, rfl, rfl, [], by simp, by simp⟩
    · unfold parse_char
      simp only
      split
      · exact ⟨rfl, rfl, rfl, [], by simp, by simp⟩
      · split
        · exact ⟨rfl, rfl, rfl, [], by simp, by simp⟩
        · split
          · exact ⟨rfl, rfl, rfl, _, rfl, rfl⟩
          · split
            · exact ⟨rfl, rfl, rfl, [], by simp, by simp⟩
            · exact ⟨rfl, rfl, rfl, [], by simp, by simp⟩

theorem parse_loop_agree (x : List Char) (st1 st2 : ParseState) (hc : st1.cur = st2.cur)
    (hw : st1.word = st2.word) (hs : st1.space_buf = st2.space_buf) :
    (parse_loop x st1).cur = (parse_loop x st2).cur ∧
    (parse_loop x st1).word = (parse_loop x st2).word ∧
    (parse_loop x st1).space_buf = (parse_loop x st2).space_buf ∧
    ∃ E, (parse_loop x st1).done = st1.done ++ E ∧ (parse_loop x st2).done = st2.done ++ E := by
  induction x generalizing st1 st2 with
  | nil => exact ⟨hc, hw, hs, [], by simp [parse_loop], by simp [parse_loop]⟩
  | cons c x ih =>
    obtain ⟨h1, h2, h3, E, h4, h5⟩ := parse_step_agree st1 st2 c hc hw hs
    obtain ⟨k1, k2, k3, F, k4, k5⟩ := ih (parse_step st1 c) (parse_step st2 c) h1 h2 h3
    refine ⟨k1, k2, k3, E ++ F, ?_, ?_⟩
    · show (parse_loop x (parse_step st1 c)).done = st1.done ++ (E ++ F)
      rw [k4, h4, List.append_assoc]
    · show (parse_loop x (parse_step st2 c)).done = st2.done ++ (E ++ F)
      rw [k5, h5, List.append_assoc]

/-- Every finished sentence was finished at some point of the text, and right
there nothing was pending. -/
theorem parse_loop_split (x : List Char) (st : ParseState) (i : Nat)
    (h1 : st.done.length < i) (h2 : i ≤ (parse_loop x st).done.length) :
    ∃ x1 x2, x = x1 ++ x2 ∧ (parse_loop x1 st).done = (parse_loop x st).done.take i ∧
      after_delimiter (parse_loop x1 st) := by
  induction x generalizing st with
  | nil =>
    simp only [parse_loop] at h2
    omega
  | cons c x ih =>
    have hl : parse_loop (c :: x) st = parse_loop x (parse_step st c) := rfl
    rw [hl] at h2
    by_cases hlt : (parse_step st c).done.length < i
    · obtain ⟨x1, x2, hx, hd, ha⟩ := ih (parse_step st c) hlt h2
      refine ⟨c :: x1, x2, by rw [hx]; rfl, ?_, ?_⟩
      · rw [hl]; exact hd
      · exact ha
    · cases hd : is_delimiter c with
      | false =>
        rw [parse_step_done_same st c hd] at hlt
        omega
      | true =>
        obtain ⟨⟨X, hX⟩, ha⟩ := parse_step_done_closed st c hd
        have hi : i = (parse_step st c).done.length := by
          rw [hX] at hlt ⊢
          simp only [List.length_append, List.length_singleton] at hlt ⊢
          omega
        obtain ⟨E, hE⟩ := parse_loop_done_prefix x (parse_step st c)
        refine ⟨[c], x, rfl, ?_, ha⟩
        rw [hl, hE, hi]
        simp [parse_loop]

theorem parse_init_split (x : List Char) (i : Nat)
    (h : i ≤ (parse_loop x parse_init).done.length) :
    ∃ x1 x2, x = x1 ++ x2 ∧
      (parse_loop x1 parse_init).done = (parse_loop x parse_init).done.take i ∧
      after_delimiter (parse_loop x1 parse_init) := by
  cases i with
  | zero =>
    exact ⟨[], x, rfl, by simp [parse_loop, parse_init], rfl, rfl, rfl⟩
  | succ j =>
    exact parse_loop_split x parse_init (j + 1) (by simp [parse_init]) h

/-- The facts of the round trip hold at every point of the scan. -/
theorem parse_loop_flat_mid (x x1 x2 : List Char) (st : ParseState)
    (hf : FlatInv x st (x1 ++ x2)) (hp : ParseInv st) :
    FlatInv x (parse_loop x1 st) x2 ∧ ParseInv (parse_loop x1 st) := by
  induction x1 generalizing st with
  | nil => exact ⟨hf, hp⟩
  | cons c x1 ih =>
    exact ih (parse_step st c) (parse_step_flat x st c (x1 ++ x2) hf hp) (parse_step_inv st c hp)

theorem flat_init (x : List Char) (hnul : ∀ c ∈ x, c ≠ NUL)
    (hword : runs_below is_word_char (MAX_WORD - 1) 0 x = true)
    (hblank : runs_below is_blank (MAX_WORD - 1) 0 x = true) : FlatInv x parse_init x :=
  { flat := by simp [pending_text, parse_init]
    word_no_nul := by simp [parse_init]
    rest_no_nul := hnul
    word_run := hword
    blank_run := hblank }

/-- The text read up to a point where nothing is pending is the text of the
sentences finished so far. -/
theorem text_of_prefix (x x1 x2 : List Char) (hnul : ∀ c ∈ x, c ≠ NUL)
    (hword : runs_below is_word_char (MAX_WORD - 1) 0 x = true)
    (hblank : runs_below is_blank (MAX_WORD - 1) 0 x = true)
    (hx : x = x1 ++ x2) (ha : after_delimiter (parse_loop x1 parse_init)) :
    x1 = (parse_loop x1 parse_init).done.flatten.flatten := by
  have hf0 := flat_init x hnul hword hblank
  have hf : FlatInv x parse_init (x1 ++ x2) := by rw [← hx]; exact hf0
  obtain ⟨hf1, _⟩ := parse_loop_flat_mid x x1 x2 parse_init hf parse_init_inv
  have h := hf1.flat
  obtain ⟨hc, hw, hs⟩ := ha
  simp only [pending_text, hc, hw, hs, List.flatten_nil, Option.getD_none, List.append_nil] at h
  rw [hx] at h
  exact (List.append_cancel_right h).symm


/-! ## The text of `write_file_content` around one sentence -/

theorem write_sentences_cons (s : Sentence) (after : List Sentence) :
    write_sentences (s :: after) = write_words s ++ tail_after s after := by
  cases after with
  | nil => simp [write_sentences, tail_after]
  | cons b r => simp [write_sentences, tail_after]

theorem write_sentences_split (before : List Sentence) (s : Sentence) (after : List Sentence) :
    write_sentences (before ++ s :: after) =
      write_sentences before ++ sep_before before s ++ write_words s ++ tail_after s after := by
  induction before with
  | nil => simp [write_sentences, sep_before, write_sentences_cons]
  | cons a r ih =>
    cases r with
    | nil =>
      simp only [List.cons_append, List.nil_append, write_sentences, sep_before,
        List.getLast?_singleton]
      rw [write_sentences_cons]
      simp
    | cons a2 r2 =>
      have h1 : write_sentences (a :: a2 :: r2 ++ s :: after) =
          write_words a ++ sentence_separator a a2 ++ write_sentences (a2 :: r2 ++ s :: after) := by
        simp [write_sentences]
      have h2 : write_sentences (a :: a2 :: r2) =
          write_words a ++ sentence_separator a a2 ++ write_sentences (a2 :: r2) := by
        simp [write_sentences]
      have h3 : sep_before (a :: a2 :: r2) s = sep_before (a2 :: r2) s := by
        simp [sep_before, List.getLast?_cons_cons]
      rw [h1, ih, h2, h3]
      simp [List.append_assoc]

theorem write_words_closed (l : Sentence) (d : Char) (h : is_delimiter d = true) :
    write_words (l ++ [[d]]) = write_words l ++ [d] := by
  induction l with
  | nil => simp [write_words]
  | cons t r ih =>
    cases r with
    | nil =>
      simp [write_words, word_separator_delimiter_right t d h]
    | cons t2 r2 =>
      have h1 : write_words (t :: t2 :: r2 ++ [[d]]) =
          t ++ word_separator t t2 ++ write_words (t2 :: r2 ++ [[d]]) := by
        simp [write_words]
      have h2 : write_words (t :: t2 :: r2) =
          t ++ word_separator t t2 ++ write_words (t2 :: r2) := by
        simp [write_words]
      rw [h1, ih, h2]
      simp [List.append_assoc]

theorem word_separator_chars (a b : Token) : ∀ ch ∈ word_separator a b, ch = ' ' := by
  intro ch h
  unfold word_separator at h
  split at h
  · simp at h
  · split at h
    · simp at h
    · simpa using h

theorem sentence_separator_chars (s t : Sentence) : ∀ ch ∈ sentence_separator s t, ch = ' ' := by
  intro ch h
  unfold sentence_separator at h
  split at h
  · simp at h
  · split at h
    · split at h
      · simpa using h
      · split at h
        · simpa using h
        · simp at h
    · simp at h

theorem sep_before_chars (before : List Sentence) (s : Sentence) :
    ∀ ch ∈ sep_before before s, ch = ' ' := by
  intro ch h
  unfold sep_before at h
  split at h
  · simp at h
  · exact sentence_separator_chars _ _ ch h

theorem write_words_chars (l : Sentence) :
    ∀ ch ∈ write_words l, ch = ' ' ∨ ∃ t ∈ l, ch ∈ t := by
  induction l with
  | nil => intro ch h; simp [write_words] at h
  | cons t r ih =>
    cases r with
    | nil =>
      intro ch h
      simp only [write_words] at h
      exact Or.inr ⟨t, List.mem_cons_self _ _, h⟩
    | cons t2 r2 =>
      intro ch h
      have h1 : write_words (t :: t2 :: r2) =
          t ++ word_separator t t2 ++ write_words (t2 :: r2) := by
        simp [write_words]
      rw [h1] at h
      rcases List.mem_append.1 h with h2 | h2
      · rcases List.mem_append.1 h2 with h3 | h3
        · exact Or.inr ⟨t, List.mem_cons_self _ _, h3⟩
        · exact Or.inl (word_separator_chars t t2 ch h3)
      · rcases ih ch h2 with h3 | ⟨u, hu, hcu⟩
        · exact Or.inl h3
        · exact Or.inr ⟨u, List.mem_cons_of_mem _ hu, hcu⟩

theorem plain_token_chars (t : Token) (h : is_plain_token t = true) :
    ∀ ch ∈ t, is_delimiter ch = false := by
  intro ch hch
  unfold is_plain_token at h
  simp only [Bool.or_eq_true] at h
  rcases h with (h | h) | h
  · have : t = ['\n'] := by simpa [is_newline_token] using h
    subst this
    simp only [List.mem_singleton] at hch
    subst hch
    decide
  · cases t with
    | nil => simp at hch
    | cons a r =>
      simp only [is_space_token] at h
      exact not_delimiter_of_blank ch (List.all_eq_true.1 h ch hch)
  · exact not_delimiter_of_word_char ch (List.all_eq_true.1 h ch hch)

theorem write_words_no_delimiter (l : Sentence) (h : ∀ t ∈ l, is_plain_token t = true) :
    ∀ ch ∈ write_words l, is_delimiter ch = false := by
  intro ch hch
  rcases write_words_chars l ch hch with h1 | ⟨t, ht, hct⟩
  · subst h1; decide
  · exact plain_token_chars t (h t ht) ch hct

theorem sentence_separator_last (l1 l2 : Sentence) (t : Token) (b : Sentence) :
    sentence_separator (l1 ++ [t]) b = sentence_separator (l2 ++ [t]) b := by
  unfold sentence_separator
  simp

theorem tail_after_last (l1 l2 : Sentence) (t : Token) (after : List Sentence) :
    tail_after (l1 ++ [t]) after = tail_after (l2 ++ [t]) after := by
  unfold tail_after
  cases after with
  | nil => rfl
  | cons b r => simp only; rw [sentence_separator_last l1 l2 t b]

/-- For a text that `write_file_content` reproduces, nothing is printed
between the words and between the sentences of its parsed form. -/
theorem counted_tight (x : List Char) (hnul : ∀ c ∈ x, c ≠ NUL)
    (hword : runs_below is_word_char (MAX_WORD - 1) 0 x = true)
    (hblank : runs_below is_blank (MAX_WORD - 1) 0 x = true)
    (hdelim : delimiters_spaced x = true) :
    (∀ s ∈ counted (parse_file x), WordsTight s) ∧
    List.Chain' (fun s t => sentence_separator s t = []) (counted (parse_file x)) ∧
    write_sentences (counted (parse_file x)) = x := by
  have hf0 := flat_init x hnul hword hblank
  have ht0 : TightInv parse_init x :=
    { spaced := hdelim
      after_delim := by
        intro h
        exact absurd rfl h
      done_tight := by simp [parse_init]
      cur_tight := List.chain'_nil
      done_chain := List.chain'_nil
      cur_head := by
        intro h
        exact absurd rfl h
      cur_last := by
        intro _ t ht
        simp [parse_init] at ht }
  obtain ⟨hf, ht, hp⟩ := parse_loop_round_trip_inv x x parse_init hf0 ht0 parse_init_inv
  obtain ⟨hfc_tight, _, hfc_head⟩ := final_cur_facts x _ hf ht hp
  have hw : write_file_content (parse_file x) = x := write_parse_finish x _ hf ht hp
  have hcounted : counted (parse_file x) = _ := (counted_parse_finish _ hp).2.2
  refine ⟨?_, ?_, hw⟩
  · rw [hcounted]
    intro s hs
    rcases List.mem_append.1 hs with h1 | h1
    · exact ht.done_tight s h1
    · split at h1
      · simp at h1
      · simp at h1; rw [h1]; exact hfc_tight
  · rw [hcounted]
    split
    · rw [List.append_nil]; exact ht.done_chain
    · rename_i he
      rw [List.chain'_append]
      refine ⟨ht.done_chain, List.chain'_singleton _, ?_⟩
      intro a ha b hb
      simp only [List.head?_cons, Option.mem_def, Option.some.injEq] at hb
      subst hb
      have hmem : a ∈ (parse_loop x parse_init).done := List.mem_of_getLast?_eq_some ha
      obtain ⟨body, d, hbd, _, _⟩ := hp.done_shape a hmem
      rw [hbd]
      cases hq : (final_cur (parse_loop x parse_init)).head? with
      | none => exact absurd (List.head?_eq_none_iff.1 hq) he
      | some t =>
        exact sentence_separator_closed body d _ t hq (hfc_head (List.ne_nil_of_mem hmem) t hq)

/-- The round trip of a text that fits the buffers of `parse_file`. -/
theorem write_parse_same (x : List Char) (hnul : ∀ c ∈ x, c ≠ NUL)
    (hword : runs_below is_word_char (MAX_WORD - 1) 0 x = true)
    (hblank : runs_below is_blank (MAX_WORD - 1) 0 x = true)
    (hdelim : delimiters_spaced x = true) :
    write_sentences (counted (parse_file x)) = x :=
  (counted_tight x hnul hword hblank hdelim).2.2


/-! ## The parse of a text in which one sentence was rewritten -/

theorem final_cur_congr (st1 st2 : ParseState) (hc : st1.cur = st2.cur)
    (hw : st1.word = st2.word) (hs : st1.space_buf = st2.space_buf) :
    final_cur st1 = final_cur st2 := by
  unfold final_cur
  rw [hc, hw, hs]

theorem sep_before_of_chain (before : List Sentence) (s : Sentence) (after : List Sentence)
    (h : List.Chain' (fun s t => sentence_separator s t = []) (before ++ s :: after)) :
    sep_before before s = [] := by
  unfold sep_before
  cases hl : before.getLast? with
  | none => rfl
  | some a =>
    simp only
    exact (List.chain'_append.1 h).2.2 a hl s (by simp)

/-- Rewriting the body of a closed sentence of a file changes the parse of the
file in that sentence only: the sentences before and after it are parsed as
before. -/
theorem parse_rewritten_closed (M0 : List Char) (hnul : ∀ c ∈ M0, c ≠ NUL)
    (hword : runs_below is_word_char (MAX_WORD - 1) 0 M0 = true)
    (hblank : runs_below is_blank (MAX_WORD - 1) 0 M0 = true)
    (hdelim : delimiters_spaced M0 = true)
    (A E : List Sentence) (body body2 : Sentence) (d : Char)
    (hdone : (parse_loop M0 parse_init).done = A ++ (body ++ [[d]]) :: E)
    (hd : is_delimiter d = true) (hbody2 : ∀ t ∈ body2, is_plain_token t = true) :
    ∃ B X, counted (parse_file M0) = A ++ (body ++ [[d]]) :: B ∧
      counted (parse_file (write_sentences (A ++ (body2 ++ [[d]]) :: B))) = A ++ X :: B := by
  have hp : ParseInv (parse_loop M0 parse_init) := parse_loop_inv M0 _ parse_init_inv
  have hcM : counted (parse_file M0) = _ := (counted_parse_finish _ hp).2.2
  obtain ⟨htight, hchain, hwM⟩ := counted_tight M0 hnul hword hblank hdelim
  rw [hcM, hdone] at htight hchain hwM
  have hcM2 : counted (parse_file M0) = A ++ (body ++ [[d]]) ::
      (E ++ (if final_cur (parse_loop M0 parse_init) = [] then []
        else [final_cur (parse_loop M0 parse_init)])) := by
    rw [hcM, hdone]; simp
  refine ⟨E ++ (if final_cur (parse_loop M0 parse_init) = [] then []
        else [final_cur (parse_loop M0 parse_init)]), ?_⟩
  generalize hB : (E ++ (if final_cur (parse_loop M0 parse_init) = [] then []
        else [final_cur (parse_loop M0 parse_init)])) = B at hcM2 ⊢
  have hassoc : (A ++ (body ++ [[d]]) :: E ++
      (if final_cur (parse_loop M0 parse_init) = [] then []
        else [final_cur (parse_loop M0 parse_init)])) = A ++ (body ++ [[d]]) :: B := by
    rw [← hB]; simp
  rw [hassoc] at htight hchain hwM
  -- the two points of the text where nothing is pending
  obtain ⟨y1, y2, hy, hyd, hya⟩ := parse_init_split M0 A.length (by rw [hdone]; simp)
  obtain ⟨x1, x2, hx, hxd, hxa⟩ := parse_init_split M0 (A.length + 1) (by rw [hdone]; simp)
  rw [hdone] at hyd hxd
  have hyd2 : (parse_loop y1 parse_init).done = A := by rw [hyd]; simp
  have hxd2 : (parse_loop x1 parse_init).done = A ++ [body ++ [[d]]] := by
    rw [hxd, List.take_append_eq_append_take]; simp
  have hy1 := text_of_prefix M0 y1 y2 hnul hword hblank hy hya
  have hx1 := text_of_prefix M0 x1 x2 hnul hword hblank hx hxa
  rw [hyd2] at hy1
  rw [hxd2] at hx1
  -- the text of the file around the sentence
  have hwA : write_sentences A = A.flatten.flatten :=
    write_sentences_of_tight A (fun s hs => htight s (List.mem_append_left _ hs))
      (List.Chain'.left_of_append hchain)
  have hsep : sep_before A (body ++ [[d]]) = [] := sep_before_of_chain A _ B hchain
  have hwS : write_words (body ++ [[d]]) = (body ++ [[d]]).flatten :=
    write_words_of_tight _ (htight _ (by simp))
  have hM : M0 = A.flatten.flatten ++ (body ++ [[d]]).flatten ++ tail_after (body ++ [[d]]) B := by
    rw [← hwM, write_sentences_split, hwA, hsep, hwS]; simp
  have hx2 : x2 = tail_after (body ++ [[d]]) B := by
    have h1 : x1 ++ x2 = x1 ++ tail_after (body ++ [[d]]) B := by
      rw [← hx, hx1]
      rw [hM]
      simp
    exact List.append_cancel_left h1
  -- the text of the rewritten file
  have hT : write_sentences (A ++ (body2 ++ [[d]]) :: B) =
      y1 ++ ((sep_before A (body2 ++ [[d]]) ++ write_words body2) ++ [d]) ++ x2 := by
    rw [write_sentences_split, hwA, write_words_closed body2 d hd,
      tail_after_last body2 body [d] B, ← hx2, ← hy1]
    simp
  -- its parse
  have hc : ∀ ch ∈ sep_before A (body2 ++ [[d]]) ++ write_words body2,
      is_delimiter ch = false := by
    intro ch hch
    rcases List.mem_append.1 hch with h1 | h1
    · rw [sep_before_chars _ _ ch h1]; decide
    · exact write_words_no_delimiter body2 hbody2 ch h1
  have hs2 := parse_loop_done_same _ (parse_loop y1 parse_init) hc
  obtain ⟨⟨X, hX⟩, hclean⟩ := parse_step_done_closed
    (parse_loop (sep_before A (body2 ++ [[d]]) ++ write_words body2) (parse_loop y1 parse_init))
    d hd
  rw [hs2, hyd2] at hX
  have hstep : parse_loop ((sep_before A (body2 ++ [[d]]) ++ write_words body2) ++ [d])
      (parse_loop y1 parse_init) =
      parse_step (parse_loop (sep_before A (body2 ++ [[d]]) ++ write_words body2)
        (parse_loop y1 parse_init)) d := by
    rw [parse_loop_append]; rfl
  have hpT : parse_loop (write_sentences (A ++ (body2 ++ [[d]]) :: B)) parse_init =
      parse_loop x2 (parse_step (parse_loop (sep_before A (body2 ++ [[d]]) ++ write_words body2)
        (parse_loop y1 parse_init)) d) := by
    rw [hT, parse_loop_append, parse_loop_append, hstep]
  have hpM : parse_loop M0 parse_init = parse_loop x2 (parse_loop x1 parse_init) := by
    conv_lhs => rw [hx]
    rw [parse_loop_append]
  obtain ⟨hc1, hc2, hc3⟩ := hclean
  obtain ⟨hm1, hm2, hm3⟩ := hxa
  obtain ⟨k1, k2, k3, E2, k4, k5⟩ := parse_loop_agree x2 _ (parse_loop x1 parse_init)
    (hc1.trans hm1.symm) (hc2.trans hm2.symm) (hc3.trans hm3.symm)
  rw [← hpT] at k1 k2 k3 k4
  rw [← hpM] at k1 k2 k3 k5
  rw [hX] at k4
  rw [hxd2, hdone] at k5
  have hE : E = E2 := by
    have : A ++ ([body ++ [[d]]] ++ E) = A ++ ([body ++ [[d]]] ++ E2) := by
      simpa using k5
    exact List.append_cancel_left (List.append_cancel_left this)
  have hfc := final_cur_congr _ _ k1 k2 k3
  have hpTinv : ParseInv (parse_loop (write_sentences (A ++ (body2 ++ [[d]]) :: B)) parse_init) :=
    parse_loop_inv _ _ parse_init_inv
  have hcT := (counted_parse_finish _ hpTinv).2.2
  refine ⟨X, hcM2, ?_⟩
  show counted (parse_finish (parse_loop (write_sentences (A ++ (body2 ++ [[d]]) :: B))
    parse_init)) = A ++ X :: B
  rw [hcT, k4, hfc, ← hE, ← hB]
  simp

/-- Rewriting the last sentence of a file that no delimiter closes changes the
parse of the file in that sentence only. -/
theorem parse_rewritten_open (M0 : List Char) (hnul : ∀ c ∈ M0, c ≠ NUL)
    (hword : runs_below is_word_char (MAX_WORD - 1) 0 M0 = true)
    (hblank : runs_below is_blank (MAX_WORD - 1) 0 M0 = true)
    (hdelim : delimiters_spaced M0 = true)
    (S2 : Sentence) (hS2 : ∀ t ∈ S2, is_plain_token t = true) :
    ∃ F, F.length ≤ 1 ∧
      counted (parse_file (write_sentences ((parse_loop M0 parse_init).done ++ [S2]))) =
        (parse_loop M0 parse_init).done ++ F := by
  have hp : ParseInv (parse_loop M0 parse_init) := parse_loop_inv M0 _ parse_init_inv
  have hcM : counted (parse_file M0) = _ := (counted_parse_finish _ hp).2.2
  obtain ⟨htight, hchain, _⟩ := counted_tight M0 hnul hword hblank hdelim
  rw [hcM] at htight hchain
  obtain ⟨y1, y2, hy, hyd, hya⟩ := parse_init_split M0 (parse_loop M0 parse_init).done.length
    (le_refl _)
  rw [List.take_length] at hyd
  have hy1 := text_of_prefix M0 y1 y2 hnul hword hblank hy hya
  rw [hyd] at hy1
  have hwA : write_sentences (parse_loop M0 parse_init).done =
      (parse_loop M0 parse_init).done.flatten.flatten :=
    write_sentences_of_tight _ (fun s hs => htight s (List.mem_append_left _ hs))
      (List.Chain'.left_of_append hchain)
  have hT : write_sentences ((parse_loop M0 parse_init).done ++ [S2]) =
      y1 ++ (sep_before (parse_loop M0 parse_init).done S2 ++ write_words S2) := by
    rw [write_sentences_split, hwA, ← hy1]
    simp [tail_after]
  have hc : ∀ ch ∈ sep_before (parse_loop M0 parse_init).done S2 ++ write_words S2,
      is_delimiter ch = false := by
    intro ch hch
    rcases List.mem_append.1 hch with h1 | h1
    · rw [sep_before_chars _ _ ch h1]; decide
    · exact write_words_no_delimiter S2 hS2 ch h1
  have hs2 := parse_loop_done_same _ (parse_loop y1 parse_init) hc
  rw [hyd] at hs2
  have hpTinv : ParseInv (parse_loop
      (write_sentences ((parse_loop M0 parse_init).done ++ [S2])) parse_init) :=
    parse_loop_inv _ _ parse_init_inv
  have hcT := (counted_parse_finish _ hpTinv).2.2
  have hdT : (parse_loop (write_sentences ((parse_loop M0 parse_init).done ++ [S2]))
      parse_init).done = (parse_loop M0 parse_init).done := by
    rw [hT, parse_loop_append]; exact hs2
  refine ⟨(if final_cur (parse_loop (write_sentences ((parse_loop M0 parse_init).done ++ [S2]))
      parse_init) = [] then [] else [final_cur (parse_loop
        (write_sentences ((parse_loop M0 parse_init).done ++ [S2])) parse_init)]), ?_, ?_⟩
  · split
    · simp
    · simp
  · show counted (parse_finish (parse_loop
      (write_sentences ((parse_loop M0 parse_init).done ++ [S2])) parse_init)) = _
    rw [hcT, hdT]


/-! ## The staged text of a write and its commit -/

theorem real_word_count_append (l1 l2 : Sentence) :
    real_word_count (l1 ++ l2) = real_word_count l1 + real_word_count l2 := by
  simp [real_word_count]

theorem real_word_count_body_le (s : Sentence) :
    real_word_count (sentence_body s) ≤ real_word_count s := by
  unfold real_word_count sentence_body
  rw [List.filter_filter]
  apply List.Sublist.length_le
  apply List.monotone_filter_right
  intro t h
  simp only [Bool.and_eq_true] at h
  exact h.1

theorem sentence_body_plain (s : Sentence) (h : ∀ t ∈ s, is_plain_token t = true) :
    sentence_body s = s := by
  unfold sentence_body
  rw [List.filter_eq_self]
  intro t ht
  rw [plain_first_not_delimiter t (h t ht)]
  rfl

theorem sentence_body_closed (body : Sentence) (d : Char)
    (h : ∀ t ∈ body, is_plain_token t = true) (hd : is_delimiter d = true) :
    sentence_body (body ++ [[d]]) = body := by
  have h1 := sentence_body_plain body h
  unfold sentence_body at h1 ⊢
  rw [List.filter_append, h1]
  simp [first_is_delimiter, hd]

theorem skip_delimiter_token (d : Char) (hd : is_delimiter d = true) :
    should_skip_for_indexing [d] = false := by
  have hb := delimiter_not_blank d hd
  have hn := delimiter_not_newline d hd
  simp only [should_skip_for_indexing, is_space_token, is_newline_token, List.all_cons,
    List.all_nil, Bool.and_true, hb, Bool.false_or]
  cases h : ([d] == ['\n']) with
  | false => rfl
  | true =>
    have : d = '\n' := by simpa using h
    subst this
    exact absurd hn (by decide)

/-- A position that is not past the words before the closing delimiter lies in
the body of the sentence. -/
theorem actual_index_body (body : Sentence) (d : Char) (w : Int)
    (hd : is_delimiter d = true) (hw1 : 1 ≤ w) (hw2 : w ≤ (real_word_count body : Int) + 1) :
    actual_index (body ++ [[d]]) w ≤ body.length := by
  have hrw : real_word_count (body ++ [[d]]) = real_word_count body + 1 := by
    rw [real_word_count_append]
    simp [real_word_count, skip_delimiter_token d hd]
  unfold actual_index
  by_cases h1 : w = 1
  · subst h1; simp
  · have hbeq : (w == 1) = false := by rw [beq_eq_false_iff_ne]; exact h1
    simp only [hbeq, Bool.false_eq_true, if_false]
    obtain ⟨k, hk, hr1, _, _, hcnt⟩ := find_position_found (body ++ [[d]]) 0 0 (w - 1)
      (by simp; omega) (by rw [hrw]; push_cast; omega)
    have hne : (w == ((real_word_count (body ++ [[d]]) : Nat) : Int) + 1) = false := by
      rw [beq_eq_false_iff_ne, hrw]; push_cast; omega
    simp only [hne, Bool.and_false, Bool.false_eq_true, if_false, hr1]
    by_contra hcon
    have hkb : k = body.length := by
      simp only [List.length_append, List.length_singleton] at hk
      omega
    rw [hkb] at hcnt
    have : (body ++ [[d]]).take (body.length + 1) = body ++ [[d]] := by
      apply List.take_of_length_le; simp
    rw [this, hrw] at hcnt
    push_cast at hcnt
    omega

theorem insert_in_body (body parts : Sentence) (t : Token) (a : Nat) (h : a ≤ body.length) :
    (body ++ [t]).take a ++ parts ++ (body ++ [t]).drop a =
      (body.take a ++ parts ++ body.drop a) ++ [t] := by
  rw [List.take_append_of_le_length h, List.drop_append_of_le_length h]
  simp

/-- The parts of a content that start with no delimiter are plain tokens. -/
theorem parts_plain (content : List Char) (hnul : ∀ c ∈ content, c ≠ NUL)
    (hfit : fits_buffer content = true)
    (hnd : ∀ part ∈ split_by_delimiters content, first_is_delimiter part = false) :
    ∀ part ∈ split_by_delimiters content, is_plain_token part = true := by
  intro part hpart
  have hnd1 := hnd part hpart
  rw [split_by_delimiters_eq content hnul hfit] at hpart
  have hp : ParseInv (parse_loop content parse_init) := parse_loop_inv content _ parse_init_inv
  have hc : counted (parse_file content) = _ := (counted_parse_finish _ hp).2.2
  rw [hc] at hpart
  obtain ⟨s, hs, hts⟩ := List.mem_flatten.1 hpart
  rcases List.mem_append.1 hs with h1 | h1
  · obtain ⟨body, d, hbd, hd, hbody⟩ := hp.done_shape s h1
    rw [hbd] at hts
    rcases List.mem_append.1 hts with h2 | h2
    · exact hbody part h2
    · simp only [List.mem_singleton] at h2
      rw [h2] at hnd1
      simp only [first_is_delimiter, hd] at hnd1
      exact absurd hnd1 (by decide)
  · split at h1
    · simp at h1
    · simp only [List.mem_singleton] at h1
      rw [h1] at hts
      exact final_cur_plain _ hp part hts


theorem counted_length (bytes : List Char) :
    (counted (parse_file bytes)).length = (parse_file bytes).sentence_count := by
  unfold counted
  rw [List.length_take]
  exact Nat.min_eq_left (parse_file_count_le bytes)

theorem counted_getD (bytes : List Char) (s : Nat) (h : s < (parse_file bytes).sentence_count) :
    (counted (parse_file bytes)).getD s [] = getSlot (parse_file bytes).sentences s := by
  unfold counted getSlot
  simp only [List.getD_eq_getElem?_getD]
  rw [List.getElem?_take_of_lt h]

/-- The text that a write of a content without delimiter stages: the parsed
file with the parts spliced into the target sentence. -/
theorem staged_text_eq (M0 content : List Char) (s : Nat) (w : Int)
    (hs : s < (parse_file M0).sentence_count) (hw1 : 1 ≤ w)
    (hw2 : w ≤ (real_word_count (getSlot (parse_file M0).sentences s) : Int) + 1)
    (hnd : ∀ part ∈ split_by_delimiters content, first_is_delimiter part = false) :
    staged_text M0 (s : Int) w content =
      write_sentences ((counted (parse_file M0)).set s
        ((getSlot (parse_file M0).sentences s).take
            (actual_index (getSlot (parse_file M0).sentences s) w) ++
          split_by_delimiters content ++
          (getSlot (parse_file M0).sentences s).drop
            (actual_index (getSlot (parse_file M0).sentences s) w))) := by
  have hlen := parse_file_count_le M0
  by_cases hne : split_by_delimiters content = []
  · have hself : (counted (parse_file M0)).set s
        ((getSlot (parse_file M0).sentences s).take
            (actual_index (getSlot (parse_file M0).sentences s) w) ++
          split_by_delimiters content ++
          (getSlot (parse_file M0).sentences s).drop
            (actual_index (getSlot (parse_file M0).sentences s) w)) = counted (parse_file M0) := by
      rw [hne, List.append_nil, List.take_append_drop, ← counted_getD M0 s hs]
      exact set_getD_self _ s (by rw [counted_length]; exact hs)
    rw [hself]
    unfold staged_text insert_word_in_sentence
    have h1 : (decide ((s : Int) < 0) || decide ((s : Int) > ((parse_file M0).sentence_count : Int)))
        = false := by
      simp only [Bool.or_eq_false_iff, decide_eq_false_iff_not]
      omega
    simp only [h1, Bool.false_eq_true, if_false, Int.toNat_ofNat,
      append_slot_below (parse_file M0) s hs]
    have h2 : (decide (w < 1) || decide (w >
        (real_word_count (getSlot (parse_file M0).sentences s) : Int) + 1)) = false := by
      simp only [Bool.or_eq_false_iff, decide_eq_false_iff_not]
      omega
    simp only [h2, Bool.false_eq_true, if_false, hne, List.length_nil, beq_self_eq_true, if_true]
    rfl
  · unfold staged_text
    have hr := insert_no_delimiter_result (parse_file M0) (s : Int) w content (by omega)
      (by omega) hlen hw1 (by simpa using hw2) hne hnd
    simp only [Int.toNat_ofNat] at hr
    rw [hr]
    unfold write_file_content counted
    simp only
    rw [List.set_take]

/-- The sentences that the merge puts together when the temp file differs from
the main file in sentence `s` only. -/
theorem merged_sentences (LM LT before after : List Sentence) (S X : Sentence)
    (hM : LM = before ++ S :: after) (hT : LT = before ++ X :: after) :
    LM.take before.length ++ (LT.drop before.length).take (LT.length + 1 - LM.length) ++
      LM.drop (before.length + 1) = LT := by
  subst hM hT
  have h1 : (before ++ X :: after).length + 1 - (before ++ S :: after).length = 1 := by
    simp
  rw [h1]
  simp

theorem merged_sentences_last (before F : List Sentence) (S : Sentence) :
    (before ++ [S]).take before.length ++
      ((before ++ F).drop before.length).take ((before ++ F).length + 1 - (before ++ [S]).length) ++
      (before ++ [S]).drop (before.length + 1) = before ++ F := by
  have h1 : (before ++ F).length + 1 - (before ++ [S]).length = F.length := by
    simp
  rw [h1]
  have h2 : (before ++ [S]).drop (before.length + 1) = [] := by
    apply List.drop_of_length_le; simp
  rw [h2]
  simp


theorem split_at_index (l : List Sentence) (s : Nat) (h : s < l.length) :
    l = l.take s ++ l.getD s [] :: l.drop (s + 1) := by
  have h1 : l.getD s [] = l[s] := by
    simp only [List.getD_eq_getElem?_getD, List.getElem?_eq_getElem h, Option.getD_some]
  rw [h1, ← List.drop_eq_getElem_cons h, List.take_append_drop]

/-- The merge of a single write: when the staged text and the main file fit
the buffers of the parser, merging the parsed staged text into the parsed main
file and writing the result gives the staged text. -/
theorem merge_gives_staged (M0 content : List Char) (s : Nat) (w : Int)
    (hnul : ∀ c ∈ M0, c ≠ NUL)
    (hword : runs_below is_word_char (MAX_WORD - 1) 0 M0 = true)
    (hblank : runs_below is_blank (MAX_WORD - 1) 0 M0 = true)
    (hdelim : delimiters_spaced M0 = true)
    (hs : s < (parse_file M0).sentence_count) (hw1 : 1 ≤ w)
    (hw2 : w ≤ (real_word_count (sentence_body (getSlot (parse_file M0).sentences s)) : Int) + 1)
    (hcn : ∀ c ∈ content, c ≠ NUL) (hfit : fits_buffer content = true)
    (hnd : ∀ part ∈ split_by_delimiters content, first_is_delimiter part = false)
    (hTnul : ∀ c ∈ staged_text M0 (s : Int) w content, c ≠ NUL)
    (hTword : runs_below is_word_char (MAX_WORD - 1) 0 (staged_text M0 (s : Int) w content) = true)
    (hTblank : runs_below is_blank (MAX_WORD - 1) 0 (staged_text M0 (s : Int) w content) = true)
    (hTdelim : delimiters_spaced (staged_text M0 (s : Int) w content) = true) :
    write_file_content (build_merged (parse_file M0)
        (parse_file (staged_text M0 (s : Int) w content))
        (parse_file M0).sentence_count (s : Int) (parse_file M0).sentence_count (s : Int)) =
      staged_text M0 (s : Int) w content := by
  have hw2b : w ≤ (real_word_count (getSlot (parse_file M0).sentences s) : Int) + 1 := by
    have := real_word_count_body_le (getSlot (parse_file M0).sentences s)
    omega
  have hT := staged_text_eq M0 content s w hs hw1 hw2b hnd
  have hround := write_parse_same _ hTnul hTword hTblank hTdelim
  have hp : ParseInv (parse_loop M0 parse_init) := parse_loop_inv M0 _ parse_init_inv
  have hcM : counted (parse_file M0) = _ := (counted_parse_finish _ hp).2.2
  have hpp := parts_plain content hcn hfit hnd
  have hLlen := counted_length M0
  have hSget := counted_getD M0 s hs
  -- the merge in terms of the counted sentences
  have hk : (parse_file M0).sentence_count ≤
      (parse_file (staged_text M0 (s : Int) w content)).sentence_count + 1 →
      write_file_content (build_merged (parse_file M0)
        (parse_file (staged_text M0 (s : Int) w content))
        (parse_file M0).sentence_count (s : Int) (parse_file M0).sentence_count (s : Int)) =
      write_sentences ((counted (parse_file M0)).take s ++
        ((counted (parse_file (staged_text M0 (s : Int) w content))).drop s).take
          ((counted (parse_file (staged_text M0 (s : Int) w content))).length + 1 -
            (counted (parse_file M0)).length) ++
        (counted (parse_file M0)).drop (s + 1)) := by
    intro hk
    have e : (s : Int) + (((parse_file M0).sentence_count : Int) -
        ((parse_file M0).sentence_count : Int)) = (s : Int) := by omega
    have hb := (build_merged_counted (parse_file M0)
      (parse_file (staged_text M0 (s : Int) w content)) s (parse_file M0).sentence_count
      (parse_file_count_le M0) (parse_file_count_le _) (by omega) (by omega) (by omega) hk).2.2
    rw [e] at hb
    rw [hb, counted_length, counted_length]
    have e2 : s + (parse_file M0).sentence_count - (parse_file M0).sentence_count = s := by omega
    rw [e2]
  by_cases hsd : s < (parse_loop M0 parse_init).done.length
  · -- the target sentence is closed by a delimiter
    have hSdone : getSlot (parse_file M0).sentences s = (parse_loop M0 parse_init).done.getD s [] := by
      rw [← hSget, hcM, List.getD_append _ _ _ _ hsd]
    have hmem : getSlot (parse_file M0).sentences s ∈ (parse_loop M0 parse_init).done := by
      rw [hSdone]
      simp only [List.getD_eq_getElem?_getD, List.getElem?_eq_getElem hsd, Option.getD_some]
      exact List.getElem_mem _
    obtain ⟨body, d, hbd, hd, hbody⟩ := hp.done_shape _ hmem
    have hdone := split_at_index _ s hsd
    rw [← hSdone, hbd] at hdone
    have hw2c : w ≤ (real_word_count body : Int) + 1 := by
      rw [hbd, sentence_body_closed body d hbody hd] at hw2
      exact hw2
    have ha := actual_index_body body d w hd hw1 hw2c
    have hbody2 : ∀ t ∈ body.take (actual_index (body ++ [[d]]) w) ++
        split_by_delimiters content ++ body.drop (actual_index (body ++ [[d]]) w),
        is_plain_token t = true := by
      intro t ht
      rcases List.mem_append.1 ht with h1 | h1
      · rcases List.mem_append.1 h1 with h2 | h2
        · exact hbody t (List.mem_of_mem_take h2)
        · exact hpp t h2
      · exact hbody t (List.mem_of_mem_drop h1)
    obtain ⟨B, X, hLM, hLT⟩ := parse_rewritten_closed M0 hnul hword hblank hdelim _ _ body _ d
      hdone hd hbody2
    have hAlen : ((parse_loop M0 parse_init).done.take s).length = s := by
      rw [List.length_take]; omega
    have hTeq : staged_text M0 (s : Int) w content =
        write_sentences ((parse_loop M0 parse_init).done.take s ++
          (body.take (actual_index (body ++ [[d]]) w) ++ split_by_delimiters content ++
            body.drop (actual_index (body ++ [[d]]) w) ++ [[d]]) :: B) := by
      rw [hT, hbd, insert_in_body body _ [d] _ ha, hLM,
        List.set_append_right _ _ (by rw [hAlen])]
      simp [hAlen]
    rw [← hTeq] at hLT
    have hmerge := merged_sentences _ _ _ B _ X hLM hLT
    rw [hAlen] at hmerge
    rw [hk (by rw [← counted_length, ← counted_length, hLT, hLM]; simp), hmerge, hround]
  · -- the target sentence is the last one and no delimiter closes it
    have hFne : final_cur (parse_loop M0 parse_init) ≠ [] := by
      intro he
      rw [he] at hcM
      simp only [if_true, List.append_nil] at hcM
      rw [hcM] at hLlen
      omega
    simp only [hFne, if_false] at hcM
    have hsl : s = (parse_loop M0 parse_init).done.length := by
      rw [hcM] at hLlen
      simp only [List.length_append, List.length_singleton] at hLlen
      omega
    have hS : getSlot (parse_file M0).sentences s = final_cur (parse_loop M0 parse_init) := by
      rw [← hSget, hcM, hsl]
      simp
    have hplain := final_cur_plain _ hp
    have hS2 : ∀ t ∈ (final_cur (parse_loop M0 parse_init)).take
        (actual_index (final_cur (parse_loop M0 parse_init)) w) ++
        split_by_delimiters content ++ (final_cur (parse_loop M0 parse_init)).drop
        (actual_index (final_cur (parse_loop M0 parse_init)) w),
        is_plain_token t = true := by
      intro t ht
      rcases List.mem_append.1 ht with h1 | h1
      · rcases List.mem_append.1 h1 with h2 | h2
        · exact hplain t (List.mem_of_mem_take h2)
        · exact hpp t h2
      · exact hplain t (List.mem_of_mem_drop h1)
    obtain ⟨F, _, hLT⟩ := parse_rewritten_open M0 hnul hword hblank hdelim _ hS2
    have hTeq : staged_text M0 (s : Int) w content =
        write_sentences ((parse_loop M0 parse_init).done ++
          [(final_cur (parse_loop M0 parse_init)).take
            (actual_index (final_cur (parse_loop M0 parse_init)) w) ++
          split_by_delimiters content ++ (final_cur (parse_loop M0 parse_init)).drop
            (actual_index (final_cur (parse_loop M0 parse_init)) w)]) := by
      rw [hT, hS, hcM, List.set_append_right _ _ (by rw [← hsl]), ← hsl]
      simp
    rw [← hTeq] at hLT
    have hmerge := merged_sentences_last (parse_loop M0 parse_init).done F
      (final_cur (parse_loop M0 parse_init))
    rw [← hsl, ← hcM, ← hLT] at hmerge
    rw [hk (by rw [← counted_length, ← counted_length, hLT, hcM]; simp), hmerge, hround]


theorem open_temp_file_pos (files : Files) (temp : String) (M0 : List Char)
    (h : files temp = some M0) (hn : (parse_file M0).sentence_count ≠ 0) :
    open_temp_file files temp = parse_file M0 := by
  unfold open_temp_file parse_path
  rw [h]
  have : ((parse_file M0).sentence_count == 0) = false := by
    rw [beq_eq_false_iff_ne]; exact hn
  simp only [Option.map_some', this, Bool.false_eq_true, if_false]

theorem parse_file_empty (M0 : List Char) (hn : (parse_file M0).sentence_count = 0) :
    parse_file M0 = { sentences := [[]], sentence_count := 0 } := by
  have hp : ParseInv (parse_loop M0 parse_init) := parse_loop_inv M0 _ parse_init_inv
  obtain ⟨h1, h2, _⟩ := counted_parse_finish _ hp
  have hn2 : (parse_finish (parse_loop M0 parse_init)).sentence_count = 0 := hn
  rw [hn2] at h2
  have hd : (parse_loop M0 parse_init).done = [] := by
    apply List.eq_nil_of_length_eq_zero; omega
  have hf : final_cur (parse_loop M0 parse_init) = [] := by
    by_contra hne
    simp only [hne, if_false] at h2
    omega
  rw [hd, hf] at h1
  show parse_finish (parse_loop M0 parse_init) = _
  cases hq : parse_finish (parse_loop M0 parse_init) with
  | mk ss c =>
    rw [hq] at h1 hn2
    simp only at h1 hn2
    rw [h1, hn2]
    rfl

/-- The first write to a file without a sentence stages the same text whether
the insertion starts from the parsed file or from the one empty sentence that
`write_file_ss` puts in its place. -/
theorem open_temp_file_zero (files : Files) (temp : String) (M0 : List Char) (w : Int)
    (content : List Char) (h : files temp = some M0) (hn : (parse_file M0).sentence_count = 0) :
    write_file_content (insert_word_in_sentence (open_temp_file files temp) 0 w content).2 =
      staged_text M0 0 w content := by
  have he := parse_file_empty M0 hn
  unfold staged_text open_temp_file parse_path
  rw [h]
  simp only [Option.map_some', he]
  rfl

/-- The merge into a main file without a sentence takes the whole temp file. -/
theorem build_merged_empty (main_fc temp_fc : FileContent)
    (h : temp_fc.sentence_count ≤ temp_fc.sentences.length) :
    write_file_content (build_merged main_fc temp_fc 0 0 0 0) =
      write_sentences (counted temp_fc) := by
  unfold build_merged write_file_content counted
  simp only [beq_self_eq_true, if_true]
  rw [slots_range_eq _ 0 _ h]
  simp only [List.drop_zero, List.take_take, Nat.min_self]


/-- Where insert-then-commit is a pure functional update: when the texts fit
the parser and the position lies inside the sentence. Let the main file hold `M0` with `n` sentences, no write
session for the key and no commit pending on the file, and let a writer lock
sentence `s`, write content `c` at word `w` and commit, all three requests
being accepted. If `s < n` (or the file has no sentence and `s = 0`), `w` is at
most one more than the number of words of the sentence before its closing
delimiter, `c` has no NUL byte, fits the split buffer and splits into parts
none of which starts with a delimiter, and both `M0` and the text
`write_file_content(insert_word_in_sentence(parse_file(M0), s, w, c))` have no
NUL byte, only words and runs of blanks shorter than 127 bytes, and a blank, a
newline or the end after every delimiter, then the main file after the commit
is byte-identical to that text. -/
theorem insert_then_commit (ss : StorageServer) (msg : Message) (now : Int) (M0 : List Char)
    (s : Nat)
    (hfile : ss.files (file_path ss.storage_path msg.filename) = some M0)
    (hnone : find_session ss.write_sessions msg.filename msg.sender msg.sentence_index = none)
    (hqueue : queue_entries ss.commit_queues msg.filename = [])
    (hwr : ss.writable (file_path ss.storage_path msg.filename) = true)
    (hlock : (handle_lock_sentence ss msg now).2 = SUCCESS)
    (hwrite : (handle_write (handle_lock_sentence ss msg now).1 msg).2 = SUCCESS)
    (hcommit : (handle_unlock_sentence
      (handle_write (handle_lock_sentence ss msg now).1 msg).1 msg).2 = SUCCESS)
    (hidx : msg.sentence_index = (s : Int))
    (hs : s < (parse_file M0).sentence_count ∨ ((parse_file M0).sentence_count = 0 ∧ s = 0))
    (hw1 : 1 ≤ msg.word_index)
    (hw2 : msg.word_index ≤
      (real_word_count (sentence_body (getSlot (parse_file M0).sentences s)) : Int) + 1)
    (hcn : ∀ c ∈ msg.data, c ≠ NUL) (hfit : fits_buffer msg.data = true)
    (hnd : ∀ part ∈ split_by_delimiters msg.data, first_is_delimiter part = false)
    (hnul : ∀ c ∈ M0, c ≠ NUL)
    (hword : runs_below is_word_char (MAX_WORD - 1) 0 M0 = true)
    (hblank : runs_below is_blank (MAX_WORD - 1) 0 M0 = true)
    (hdelim : delimiters_spaced M0 = true)
    (hTnul : ∀ c ∈ staged_text M0 (s : Int) msg.word_index msg.data, c ≠ NUL)
    (hTword : runs_below is_word_char (MAX_WORD - 1) 0
      (staged_text M0 (s : Int) msg.word_index msg.data) = true)
    (hTblank : runs_below is_blank (MAX_WORD - 1) 0
      (staged_text M0 (s : Int) msg.word_index msg.data) = true)
    (hTdelim : delimiters_spaced (staged_text M0 (s : Int) msg.word_index msg.data) = true) :
    (handle_unlock_sentence (handle_write (handle_lock_sentence ss msg now).1 msg).1 msg).1.files
        (file_path ss.storage_path msg.filename) =
      some (write_file_content
        (insert_word_in_sentence (parse_file M0) msg.sentence_index msg.word_index msg.data).2) := by
  obtain ⟨_, hsp1, hst1⟩ := handle_lock_sentence_stages ss msg now M0 hfile hnone hqueue hwr hlock
  obtain ⟨hsp2, hst2⟩ := handle_write_stages _ msg _ M0 M0 hst1 hwrite
  have htemp := hst1.temp_file
  have hstaged : write_file_content (insert_word_in_sentence
      (open_temp_file (handle_lock_sentence ss msg now).1.files
        (temp_path (handle_lock_sentence ss msg now).1.storage_path msg.filename msg.sender
          msg.sentence_index)) msg.sentence_index msg.word_index msg.data).2 =
      staged_text M0 (s : Int) msg.word_index msg.data := by
    rcases hs with hs | ⟨hn, hs⟩
    · rw [open_temp_file_pos _ _ M0 htemp (by omega), hidx]
      rfl
    · subst hs
      rw [hidx] at htemp ⊢
      simp only [Nat.cast_zero] at htemp ⊢
      exact open_temp_file_zero _ _ M0 _ _ htemp hn
  rw [hstaged] at hst2
  have h3 := handle_unlock_sentence_commits _ msg M0 _ hst2 hcommit
  rw [hsp2, hsp1] at h3
  rw [h3, hidx]
  show _ = some (staged_text M0 (s : Int) msg.word_index msg.data)
  congr 1
  rcases hs with hs | ⟨hn, hs⟩
  · have hok : adjusted_idx_ok (parse_file M0).sentence_count (parse_file M0).sentence_count
        (s : Int) = true := by
      unfold adjusted_idx_ok
      have h1 : ((parse_file M0).sentence_count == 0) = false := by
        rw [beq_eq_false_iff_ne]; omega
      have h2 : (decide ((s : Int) < 0) ||
          decide ((s : Int) ≥ ((parse_file M0).sentence_count : Int))) = false := by
        simp only [Bool.or_eq_false_iff, decide_eq_false_iff_not]
        omega
      simp only [h1, h2, Bool.false_and, Bool.false_eq_true, if_false]
    rw [if_pos hok]
    exact merge_gives_staged M0 msg.data s msg.word_index hnul hword hblank hdelim hs hw1 hw2
      hcn hfit hnd hTnul hTword hTblank hTdelim
  · subst hs
    rw [hn]
    have hok : adjusted_idx_ok 0 0 ((0 : Nat) : Int) = true := by decide
    rw [if_pos hok]
    have hb := build_merged_empty (parse_file M0)
      (parse_file (staged_text M0 ((0 : Nat) : Int) msg.word_index msg.data))
      (parse_file_count_le _)
    simp only [Nat.cast_zero] at hb ⊢
    rw [hb]
    exact write_parse_same _ hTnul hTword hTblank hTdelim

set_option maxRecDepth 100000 in
theorem insert_then_commit_witness :
    (handle_unlock_sentence (handle_write (handle_lock_sentence
        (single_file_server "A. B.".data) (request "u" 1 2 " Z") 7).1
        (request "u" 1 2 " Z")).1 (request "u" 1 2 " Z")).1.files
      (file_path (single_file_server "A. B.".data).storage_path (request "u" 1 2 " Z").filename) =
      some (write_file_content (insert_word_in_sentence (parse_file "A. B.".data)
        (request "u" 1 2 " Z").sentence_index (request "u" 1 2 " Z").word_index
        (request "u" 1 2 " Z").data).2) ∧
    write_file_content (insert_word_in_sentence (parse_file "A. B.".data)
        (request "u" 1 2 " Z").sentence_index (request "u" 1 2 " Z").word_index
        (request "u" 1 2 " Z").data).2 = "A. B Z.".data :=
  ⟨insert_then_commit (single_file_server "A. B.".data) (request "u" 1 2 " Z") 7 "A. B.".data 1
    (by decide) (by decide) (by decide) (by decide) (by decide) (by decide) (by decide)
    (by decide) (by decide) (by decide) (by decide) (by decide) (by decide) (by decide)
    (by decide) (by decide) (by decide) (by decide) (by decide) (by decide) (by decide)
    (by decide), by decide⟩


/-! ## Runs in which the code departs from the specification -/

set_option maxRecDepth 100000 in
/-- C6 (the code departs from the claim): a user whose name has
`MAX_USERNAME - 1 = 63` bytes locks sentence 0 of `f` on a slot whose byte
`locked_by[63]` is not NUL. `strncpy(lock->locked_by, username, 63)` writes no
terminator, so the name stored in the slot is not the name of the holder: the
holder's second `lock_sentence_ss` is answered 423 instead of 200, and the
holder's `unlock_sentence_ss` is answered 403 and leaves the slot locked. -/
theorem lock_holder_is_refused :
    long_user.length = MAX_USERNAME - 1 ∧
    (lock_sentence_ss [] "f" 0 long_user 1 'x').2 = SUCCESS ∧
    holder (lock_sentence_ss [] "f" 0 long_user 1 'x').1 "f" 0 ≠ some long_user ∧
    lock_sentence_ss (lock_sentence_ss [] "f" 0 long_user 1 'x').1 "f" 0 long_user 2 'x' =
      ((lock_sentence_ss [] "f" 0 long_user 1 'x').1, ERR_SENTENCE_LOCKED) ∧
    unlock_sentence_ss (lock_sentence_ss [] "f" 0 long_user 1 'x').1 "f" 0 long_user =
      ((lock_sentence_ss [] "f" 0 long_user 1 'x').1, ERR_ACCESS_DENIED) ∧
    (holder (unlock_sentence_ss (lock_sentence_ss [] "f" 0 long_user 1 'x').1 "f" 0
      long_user).1 "f" 0).isSome = true := by
  decide

set_option maxRecDepth 100000 in
/-- C7 (the code departs from the claim): on a server whose lock slots carry a
byte other than NUL at `locked_by[63]`, a sender with a name of 63 bytes locks
sentence 0 of the file `"A."`. The request is answered 200 and the write
session of the sender exists, but the name in the lock slot is not terminated
and the lock is not held by the sender. The UNLOCK_SENTENCE request of the
sender then commits and removes the session, the unlock is refused with 403,
and the slot stays locked without any session. -/
theorem session_without_lock_holder :
    (handle_client_request (junk_server "A.".data) MessageType.MSG_LOCK_SENTENCE
        (request long_user 0 1 "x") 7).2 = SUCCESS ∧
    has_session (handle_client_request (junk_server "A.".data) MessageType.MSG_LOCK_SENTENCE
        (request long_user 0 1 "x") 7).1.write_sessions "f" long_user 0 = true ∧
    holder (handle_client_request (junk_server "A.".data) MessageType.MSG_LOCK_SENTENCE
        (request long_user 0 1 "x") 7).1.file_locks "f" 0 ≠ some long_user ∧
    (handle_client_request (handle_client_request (junk_server "A.".data)
        MessageType.MSG_LOCK_SENTENCE (request long_user 0 1 "x") 7).1
        MessageType.MSG_UNLOCK_SENTENCE (request long_user 0 1 "x") 7).2 = ERR_ACCESS_DENIED ∧
    (handle_client_request (handle_client_request (junk_server "A.".data)
        MessageType.MSG_LOCK_SENTENCE (request long_user 0 1 "x") 7).1
        MessageType.MSG_UNLOCK_SENTENCE (request long_user 0 1 "x") 7).1.write_sessions = [] ∧
    (holder (handle_client_request (handle_client_request (junk_server "A.".data)
        MessageType.MSG_LOCK_SENTENCE (request long_user 0 1 "x") 7).1
        MessageType.MSG_UNLOCK_SENTENCE (request long_user 0 1 "x") 7).1.file_locks "f"
        0).isSome = true := by
  decide

set_option maxRecDepth 100000 in
/-- C13 (the code departs from the claim): in the cache of 100 slots reached by
`cache_put("a")`, `cache_put("la")`, `cache_remove("a")` the key `"la"` is
present and `size = 1 < capacity`. `cache_put("la", v)` does not find the node:
its probe starts at slot 70, which the removal emptied, and stops there. It
stores a second node for `"la"` in slot 70 and raises `size` to 2, instead of
replacing the value of the node in slot 71 and keeping the size. -/
theorem cache_put_behind_hole_duplicates :
    hash_string "a" 100 = 70 ∧ hash_string "la" 100 = 70 ∧
    hole_cache.map (fun c => (c.capacity, c.size, c.lru, c.hash_table.getD 70 none,
        c.hash_table.getD 71 none)) =
      some (100, 1, [71], none,
        some ({ key := "la", value := sample_meta "la" "u" } : CacheNode)) ∧
    (hole_cache.bind (fun c => cache_put 200 c "la" (sample_meta "la" "w"))).map
        (fun c => (c.capacity, c.size, c.lru, c.hash_table.getD 70 none,
          c.hash_table.getD 71 none)) =
      some (100, 2, [70, 71],
        some ({ key := "la", value := sample_meta "la" "w" } : CacheNode),
        some ({ key := "la", value := sample_meta "la" "u" } : CacheNode)) :=
  ⟨by decide, by decide, by decide, by decide⟩

set_option maxRecDepth 100000 in
/-- C1 (the code departs from the claim): a single writer locks sentence 0 of
the file `"A. B."`, writes `" one"` at word 3, the position after the closing
delimiter that `insert_word_in_sentence` accepts, and commits; all three
requests are answered 200. The insertion applied in isolation gives
`"A. one B."`. The commit parses the temp file again, finds the written tokens
in sentence 1, copies sentence 0 only, and the main file is still `"A. B."`:
the accepted write is lost. -/
theorem commit_discards_accepted_write :
    (lock_write_commit "A. B.".data 0 3 " one").2 = [SUCCESS, SUCCESS, SUCCESS] ∧
    write_file_content (insert_word_in_sentence (parse_file "A. B.".data) 0 3 " one".data).2 =
      "A. one B.".data ∧
    (lock_write_commit "A. B.".data 0 3 " one").1.files "./ss_storage_1/f" = some "A. B.".data ∧
    counted (parse_file "A. one B.".data) =
      [["A".data, ".".data], [" ".data, "one".data, " ".data, "B".data, ".".data]] := by
  decide

end DocsPP
